import Mathlib

/-!
Algorithm Visualizer: sorting and grid search routines.

A shallow embedding of the algorithm routines of `src/main.cpp`
(`AlgorithmVisualizer::bubbleSort`, `insertionSort`, `selectionSort`,
`quickSort`, `merge`, `mergeSort`, `bfs`, `dfs`, `dijkstra`) together with
theorems about them.

Conventions of the embedding.

* `std::vector<int> data` is a `List Int`; element values are only compared and
  copied, never computed with, so they are plain integers.
* Index arithmetic is machine arithmetic: `size_t` values are naturals reduced
  modulo `2^64` (`usub`, `uadd`, `usize`), a `size_t` stored in an `int` goes
  through `toInt32`, and an `int` used as a vector index goes through `idx`.
* `operator[]` outside `[0, size)` is undefined behaviour in C++; here it is the
  outcome `Run.oob`.
* The routines are embedded for an uninterrupted run: `isRunning` is true,
  `isPaused` is false and `handleEvents` finds no pending event, so the guards
  `isRunning && !isPaused` are true and the pause blocks are skipped.  Drawing
  and delays have no effect on the data and are left out.
* A `for` loop with unit stride whose bound the body does not change runs
  `hi - lo` times (`forLoop`, `forLoopZ`).  `while` loops and recursion take a
  step budget; exhausting it is the outcome `Run.fuel`, distinct from a result.
* The tables `grid`, `visited`, `parent` and `distance` of side `gridSize` are
  functions on positions; an access that the source does not guard by a bounds
  test goes through `tget`/`tset`, which fail with `Run.oob` outside the grid.
* The path reconstruction returns, next to the grid, the list of cells it went
  through (`PathResult.route`); the list is not program state, it names the route
  whose interior the loop marks.
* `std::priority_queue` with `std::greater` is a list of entries from which a
  least entry is taken.  The source compares `sf::Vector2i` values to break ties
  between entries of equal distance; that order is the parameter `posLt`, and the
  theorems hold for every choice of it.  The sum `distance + weight` is an `int`
  and goes through `toInt32`.
* The event loop is embedded in a second form of the sorting routines
  (`bubbleSortLive` and the like) that runs on the whole state `Visualizer`: every
  call of `handleEvents` takes the next list of pending events from `Sim.polls`
  and is followed by the loop that waits while `isPaused`.  The random source is an
  unbounded list of raw draws, `uniformInt` maps a draw into the range of
  `std::uniform_int_distribution`.  The logs `Sim.swaps` and `Sim.seen` record
  `data` after each `std::swap` and at each call of `handleEvents`; they are not
  program state.  `NoRegen` says of the events to come that none is a Reset or a
  SelectAlgorithm, `Settles` that they do not leave the routine paused for ever.
* `pausedLog` gives, for a schedule of TogglePause commands and the log of an
  uninterrupted run, the log of the run that makes the same steps under that
  schedule; `Twin` relates the two runs step by step, `SameSteps` is what it
  leaves at the end.
* `bfs` is embedded under events as well (`bfsLoopLive`, `bfsLive`): the grid, its
  size and the end points are the data members, which `handleEvents` may replace,
  `visited`, `parent` and the queue are the local variables.  `searchEntry` is the
  state in which `runVisualization` calls a search: the constructor, then the key
  of the search and the Space key.
* `arraySize` is written by the constructor only (100), and `data` is filled by
  `generateRandomData` only, so `data` always holds 100 elements
  (`constructed_data_length`).  The sorting theorems are stated for all arrays
  within the stated bounds on the length.
* For the stability of `mergeSort` the routines `merge` and `mergeSort` are
  embedded once more on elements that carry a tag (`mergeT`, `mergeSortT`): the
  comparison reads the value, the tag travels with it.  `mergeSortRunT_erase`
  relates the tagged run to the untagged one.
-/

namespace AlgorithmVisualizer

/-! ## Outcomes -/

/-- Outcome of running an embedded routine: a value, an out-of-range vector
access, or an exhausted step budget. -/
inductive Run (α : Type) where
  | ok (a : α)
  | oob
  | fuel
  deriving DecidableEq

/-- Sequencing of outcomes: a failure of the first part is the failure of the whole. -/
def Run.bind {α β : Type} : Run α → (α → Run β) → Run β
  | .ok a, f => f a
  | .oob, _ => .oob
  | .fuel, _ => .fuel

instance : Monad Run where
  pure := Run.ok
  bind := Run.bind

/-! ## Machine integers -/

/-- Subtraction of `size_t` values (operands below `2^64`). -/
def usub (a b : Nat) : Nat := (a + 18446744073709551616 - b) % 18446744073709551616

/-- Addition of `size_t` values. -/
def uadd (a b : Nat) : Nat := (a + b) % 18446744073709551616

/-- The value of `data.size()`, a `size_t`. -/
def usize (d : List Int) : Nat := d.length % 18446744073709551616

/-- Conversion of an integer value to `int` (32 bits, two's complement). -/
def toInt32 (z : Int) : Int := (z + 2147483648) % 4294967296 - 2147483648

/-- Conversion of an `int` to the `size_t` index that `operator[]` receives. -/
def idx (j : Int) : Nat := (j % 18446744073709551616).toNat

/-! ## Vector access -/

/-- Read of `d[i]`. -/
def rd (d : List Int) (i : Nat) : Run Int :=
  match d[i]? with
  | some v => .ok v
  | none => .oob

/-- Write `d[i] = v`. -/
def wr (d : List Int) (i : Nat) (v : Int) : Run (List Int) :=
  if i < d.length then .ok (d.set i v) else .oob

/-- The call `std::swap(d[i], d[j])`. -/
def swapAt (d : List Int) (i j : Nat) : Run (List Int) := do
  let a ← rd d i
  let b ← rd d j
  let d1 ← wr d i b
  wr d1 j a

/-! ## Counted loops -/

/-- The loop `for (size_t i = lo; i < hi; i++) body`, run `k = hi - lo` times from `i`. -/
def forLoop {σ : Type} (body : Nat → σ → Run σ) : Nat → Nat → σ → Run σ
  | 0, _, s => .ok s
  | k + 1, i, s => body i s >>= fun s1 => forLoop body k (i + 1) s1

/-- The loop `for (int i = lo; i < hi; i++) body`, run `k = hi - lo` times from `i`. -/
def forLoopZ {σ : Type} (body : Int → σ → Run σ) : Nat → Int → σ → Run σ
  | 0, _, s => .ok s
  | k + 1, i, s => body i s >>= fun s1 => forLoopZ body k (i + 1) s1

/-! ## Sorting routines -/

/-- One outer pass of `bubbleSort` (main.cpp 198-214): adjacent compare-and-swap for
`j` below `data.size() - i - 1`, computed in `size_t`. -/
def bubblePass (i : Nat) (d : List Int) : Run (List Int) :=
  forLoop (fun j d => do
      let a ← rd d j
      let b ← rd d (uadd j 1)
      if a > b then swapAt d j (uadd j 1) else pure d)
    (usub (usub (usize d) i) 1) 0 d

/-- `bubbleSort` (main.cpp 196-216): passes for `i` below `data.size() - 1`, computed
in `size_t`. -/
def bubbleSort (data : List Int) : Run (List Int) :=
  forLoop bubblePass (usub (usize data) 1) 0 data

/-- The inner `while (j >= 0 && data[j] > key)` loop of `insertionSort`, with the
final value of `j`. -/
def insertShift (key : Int) : Nat → Int → List Int → Run (Int × List Int)
  | 0, _, _ => .fuel
  | f + 1, j, d =>
    if j ≥ 0 then do
      let a ← rd d (idx j)
      if a > key then do
        let d1 ← wr d (idx (j + 1)) a
        insertShift key f (j - 1) d1
      else pure (j, d)
    else pure (j, d)

/-- One outer iteration of `insertionSort` (main.cpp 220-242); `int j = i - 1` converts
a `size_t` to `int`. -/
def insertionBody (i : Nat) (d : List Int) : Run (List Int) := do
  let key ← rd d i
  let j := toInt32 (usub i 1)
  let (j1, d1) ← insertShift key (i + 1) j d
  wr d1 (idx (j1 + 1)) key

/-- `insertionSort` (main.cpp 218-244). -/
def insertionSort (data : List Int) : Run (List Int) :=
  forLoop insertionBody (usize data - 1) 1 data

/-- The inner loop of `selectionSort` (main.cpp 248-264): the index of the first
minimum of `d[i..]`. -/
def selectMin (d : List Int) (i : Nat) : Run Nat :=
  forLoop (fun j m => do
      let a ← rd d j
      let b ← rd d m
      pure (if a < b then j else m))
    (usize d - uadd i 1) (uadd i 1) i

/-- One outer iteration of `selectionSort` (main.cpp 248-270). -/
def selectionBody (i : Nat) (d : List Int) : Run (List Int) := do
  let m ← selectMin d i
  if m ≠ i then swapAt d i m else pure d

/-- `selectionSort` (main.cpp 246-272): the outer bound `data.size() - 1` is computed
in `size_t`, the inner loop runs `j` from `i + 1` to `data.size()`. -/
def selectionSort (data : List Int) : Run (List Int) :=
  forLoop selectionBody (usub (usize data) 1) 0 data

/-- One iteration of the partition loop of `quickSort` (main.cpp 281-286) on the state
`(i, data)`. -/
def partitionStep (pivot : Int) (j : Int) (s : Int × List Int) : Run (Int × List Int) := do
  let a ← rd s.2 (idx j)
  if a < pivot then do
    let d2 ← swapAt s.2 (idx (s.1 + 1)) (idx j)
    pure (s.1 + 1, d2)
  else pure s

/-- `quickSort(low, high)` (main.cpp 274-309): Lomuto partition around `data[high]`,
then the left and the right part.  The budget bounds the recursion depth. -/
def quickSort : Nat → Int → Int → List Int → Run (List Int)
  | fuel, low, high, d =>
    if low < high then
      match fuel with
      | 0 => .fuel
      | f + 1 => do
        let pivot ← rd d (idx high)
        let (i, d1) ← forLoopZ (partitionStep pivot) (high - low).toNat low (low - 1, d)
        let d3 ← swapAt d1 (idx (i + 1)) (idx high)
        let partition := i + 1
        let d4 ← quickSort f low (partition - 1) d3
        quickSort f (partition + 1) high d4
    else .ok d

/-- The call `quickSort(0, data.size() - 1)` of `runVisualization` (main.cpp 798-800);
the `size_t` argument is converted to the `int` parameter. -/
def quickSortRun (data : List Int) : Run (List Int) :=
  quickSort data.length 0 (toInt32 (usub (usize data) 1)) data

/-- First `while` loop of `merge` (main.cpp 328-350): take the smaller head, the left
one on ties. -/
def mergeBoth (leftArray rightArray : List Int) (n1 n2 : Int) :
    Nat → Int × Int × Int × List Int → Run (Int × Int × Int × List Int)
  | fuel, (i, j, k, d) =>
    if i < n1 ∧ j < n2 then
      match fuel with
      | 0 => .fuel
      | f + 1 => do
        let a ← rd leftArray (idx i)
        let b ← rd rightArray (idx j)
        if a ≤ b then do
          let d1 ← wr d (idx k) a
          mergeBoth leftArray rightArray n1 n2 f (i + 1, j, k + 1, d1)
        else do
          let d1 ← wr d (idx k) b
          mergeBoth leftArray rightArray n1 n2 f (i, j + 1, k + 1, d1)
    else .ok (i, j, k, d)

/-- Second and third `while` loop of `merge` (main.cpp 352-384): copy what is left of
one run. -/
def mergeRest (src : List Int) (n : Int) :
    Nat → Int × Int × List Int → Run (Int × Int × List Int)
  | fuel, (i, k, d) =>
    if i < n then
      match fuel with
      | 0 => .fuel
      | f + 1 => do
        let a ← rd src (idx i)
        let d1 ← wr d (idx k) a
        mergeRest src n f (i + 1, k + 1, d1)
    else .ok (i, k, d)

/-- One iteration of the copy loops of `merge` (main.cpp 318-324): `arr[i] = data[base + i]`. -/
def copyStep (data : List Int) (base : Int) (i : Int) (arr : List Int) : Run (List Int) := do
  let v ← rd data (idx (base + i))
  wr arr (idx i) v

/-- The three `while` loops of `merge` (main.cpp 326-384), started with
`i = 0, j = 0, k = left`. -/
def mergeLoops (leftArray rightArray : List Int) (n1 n2 left : Int) (data : List Int) :
    Run (List Int) := do
  let (i, j, k, d1) ← mergeBoth leftArray rightArray n1 n2 (n1 + n2).toNat (0, 0, left, data)
  let (_, k1, d2) ← mergeRest leftArray n1 n1.toNat (i, k, d1)
  let (_, _, d3) ← mergeRest rightArray n2 n2.toNat (j, k1, d2)
  pure d3

/-- `merge(left, mid, right)` (main.cpp 311-385): copy the two runs, then merge them
back into `data[left .. right]`. -/
def merge (left mid right : Int) (data : List Int) : Run (List Int) := do
  let n1 := mid - left + 1
  let n2 := right - mid
  let leftArray ← forLoopZ (copyStep data left) n1.toNat 0 (List.replicate (idx n1) 0)
  let rightArray ← forLoopZ (copyStep data (mid + 1)) n2.toNat 0 (List.replicate (idx n2) 0)
  mergeLoops leftArray rightArray n1 n2 left data

/-- `mergeSort(left, right)` (main.cpp 387-396).  The budget bounds the recursion depth. -/
def mergeSort : Nat → Int → Int → List Int → Run (List Int)
  | fuel, left, right, d =>
    if left < right then
      match fuel with
      | 0 => .fuel
      | f + 1 => do
        let mid := left + (right - left).tdiv 2
        let d1 ← mergeSort f left mid d
        let d2 ← mergeSort f (mid + 1) right d1
        merge left mid right d2
    else .ok d

/-- The call `mergeSort(0, data.size() - 1)` of `runVisualization` (main.cpp 801-803). -/
def mergeSortRun (data : List Int) : Run (List Int) :=
  mergeSort data.length 0 (toInt32 (usub (usize data) 1)) data

/-! ## Grid model -/

/-- A grid position, `sf::Vector2i`. -/
abbrev Pos := Int × Int

/-- The pathfinding part of the visualizer state: `gridSize`, `grid[x][y]`, `startPoint`
and `endPoint`.  The grid is `gridSize × gridSize`; it is represented by its cell values. -/
structure World where
  gridSize : Int
  grid : Pos → Int
  startPoint : Pos
  endPoint : Pos

/-- The test `0 <= x < gridSize && 0 <= y < gridSize`. -/
def inBounds (n : Int) (p : Pos) : Bool :=
  decide (0 ≤ p.1) && decide (p.1 < n) && decide (0 ≤ p.2) && decide (p.2 < n)

/-- The table `t` with the entry at `p` replaced by `v`. -/
def upd {α : Type} (t : Pos → α) (p : Pos) (v : α) : Pos → α :=
  fun q => if q = p then v else t q

/-- Unguarded read `t[p.x][p.y]` of a `gridSize × gridSize` table. -/
def tget {α : Type} (n : Int) (t : Pos → α) (p : Pos) : Run α :=
  if inBounds n p then .ok (t p) else .oob

/-- Unguarded write `t[p.x][p.y] = v` of a `gridSize × gridSize` table. -/
def tset {α : Type} (n : Int) (t : Pos → α) (p : Pos) (v : α) : Run (Pos → α) :=
  if inBounds n p then .ok (upd t p v) else .oob

/-- Directions of `bfs` and `dfs`: up, right, down, left. -/
def directions4 : List Pos := [(0, -1), (1, 0), (0, 1), (-1, 0)]

/-- Directions of `dijkstra`: the four above and the diagonals. -/
def directions8 : List Pos :=
  [(0, -1), (1, 0), (0, 1), (-1, 0), (1, -1), (1, 1), (-1, 1), (-1, -1)]

/-- State of the `bfs` and `dfs` loops: the grid, the `visited` and `parent` tables and the
queue (front first) or stack (top first). -/
structure Search where
  grid : Pos → Int
  visited : Pos → Bool
  parent : Pos → Pos
  frontier : List Pos

/-- What a search leaves behind: `foundPath`, the grid, the `parent` table and the cells
the reconstruction loop went through, from `startPoint` to `endPoint` (empty when no
path was found). -/
structure PathResult where
  found : Bool
  grid : Pos → Int
  parent : Pos → Pos
  route : List Pos

/-- The mark `grid[current] = 2` of a dequeued cell other than Start and End. -/
def markVisited (n : Int) (startPoint endPoint current : Pos) (grid : Pos → Int) :
    Run (Pos → Int) :=
  if current ≠ startPoint ∧ current ≠ endPoint then tset n grid current 2 else .ok grid

/-- The path reconstruction loop shared by the three searches (main.cpp 457-469):
`while (current != startPoint) { prev = parent[current]; if (prev != startPoint)
grid[prev] = 3; current = prev; }`.  The second component collects the values of
`current`, latest first. -/
def walkBack (n : Int) (startPoint : Pos) (parent : Pos → Pos) :
    Nat → Pos → (Pos → Int) × List Pos → Run ((Pos → Int) × List Pos)
  | fuel, current, (grid, route) =>
    if current = startPoint then .ok (grid, route)
    else
      match fuel with
      | 0 => .fuel
      | f + 1 => do
        let prev ← tget n parent current
        let g1 ← if prev ≠ startPoint then tset n grid prev 3 else .ok grid
        walkBack n startPoint parent f prev (g1, prev :: route)

/-- The `if (foundPath)` block after a search loop. -/
def reconstruct (w : World) (fuel : Nat) (found : Bool) (grid : Pos → Int)
    (parent : Pos → Pos) : Run PathResult :=
  if found then do
    let (g, route) ← walkBack w.gridSize w.startPoint parent fuel w.endPoint
      (grid, [w.endPoint])
    pure { found := true, grid := g, parent := parent, route := route }
  else pure { found := false, grid := grid, parent := parent, route := [] }

/-- One neighbour test of `bfs` (main.cpp 430-439). -/
def bfsVisit (n : Int) (current : Pos) (s : Search) (dir : Pos) : Search :=
  let next : Pos := (current.1 + dir.1, current.2 + dir.2)
  if inBounds n next && !s.visited next && s.grid next != 1 then
    { s with frontier := s.frontier ++ [next], visited := upd s.visited next true,
             parent := upd s.parent next current }
  else s

/-- The `while (!q.empty())` loop of `bfs` (main.cpp 415-454). -/
def bfsLoop (n : Int) (startPoint endPoint : Pos) : Nat → Search → Run (Bool × Search)
  | fuel, s =>
    match s.frontier with
    | [] => .ok (false, s)
    | current :: rest =>
      match fuel with
      | 0 => .fuel
      | f + 1 =>
        if current = endPoint then .ok (true, { s with frontier := rest })
        else do
          let g1 ← markVisited n startPoint endPoint current s.grid
          bfsLoop n startPoint endPoint f
            (directions4.foldl (bfsVisit n current) { s with frontier := rest, grid := g1 })

/-- `bfs` (main.cpp 399-470). -/
def bfs (fuel : Nat) (w : World) : Run PathResult := do
  let visited ← tset w.gridSize (fun _ => false) w.startPoint true
  let (found, s) ← bfsLoop w.gridSize w.startPoint w.endPoint fuel
    { grid := w.grid, visited := visited, parent := fun _ => (-1, -1),
      frontier := [w.startPoint] }
  reconstruct w fuel found s.grid s.parent

/-- One neighbour test of `dfs` (main.cpp 508-516). -/
def dfsVisit (n : Int) (current : Pos) (s : Search) (dir : Pos) : Search :=
  let next : Pos := (current.1 + dir.1, current.2 + dir.2)
  if inBounds n next && !s.visited next && s.grid next != 1 then
    { s with frontier := next :: s.frontier, parent := upd s.parent next current }
  else s

/-- The `while (!s.empty())` loop of `dfs` (main.cpp 487-531). -/
def dfsLoop (n : Int) (startPoint endPoint : Pos) : Nat → Search → Run (Bool × Search)
  | fuel, s =>
    match s.frontier with
    | [] => .ok (false, s)
    | current :: rest =>
      match fuel with
      | 0 => .fuel
      | f + 1 =>
        if current = endPoint then .ok (true, { s with frontier := rest })
        else do
          let seen ← tget n s.visited current
          if seen then dfsLoop n startPoint endPoint f { s with frontier := rest }
          else do
            let visited ← tset n s.visited current true
            let g1 ← markVisited n startPoint endPoint current s.grid
            dfsLoop n startPoint endPoint f
              (directions4.foldl (dfsVisit n current)
                { s with frontier := rest, visited := visited, grid := g1 })

/-- `dfs` (main.cpp 472-547). -/
def dfs (fuel : Nat) (w : World) : Run PathResult := do
  let (found, s) ← dfsLoop w.gridSize w.startPoint w.endPoint fuel
    { grid := w.grid, visited := fun _ => false, parent := fun _ => (-1, -1),
      frontier := [w.startPoint] }
  reconstruct w fuel found s.grid s.parent

/-- State of the `dijkstra` loop: the grid, the `distance` and `parent` tables and the
contents of the priority queue. -/
structure DState where
  grid : Pos → Int
  distance : Pos → Int
  parent : Pos → Pos
  pq : List (Int × Pos)

/-- The order `operator<` of `std::pair<int, sf::Vector2i>`: by distance, then by
position, where `posLt` is the order on positions. -/
def pqLess (posLt : Pos → Pos → Bool) (a b : Int × Pos) : Bool :=
  decide (a.1 < b.1) || (decide (a.1 = b.1) && posLt a.2 b.2)

/-- The element `pq.top()` of the min-queue: a least entry. -/
def pqTop (posLt : Pos → Pos → Bool) : List (Int × Pos) → Option (Int × Pos)
  | [] => none
  | e :: es => some (es.foldl (fun best x => if pqLess posLt x best then x else best) e)

/-- Edge weight computed by `dijkstra` (main.cpp 597). -/
def edgeWeight (dir : Pos) : Int := if |dir.1| + |dir.2| = 1 then 1 else 14

/-- One neighbour relaxation of `dijkstra` (main.cpp 592-606); `newDist` is an `int`. -/
def dijkstraRelax (n : Int) (current : Pos) (s : DState) (dir : Pos) : DState :=
  let next : Pos := (current.1 + dir.1, current.2 + dir.2)
  if inBounds n next && s.grid next != 1 then
    let newDist := toInt32 (s.distance current + edgeWeight dir)
    if newDist < s.distance next then
      { s with distance := upd s.distance next newDist, parent := upd s.parent next current,
               pq := (newDist, next) :: s.pq }
    else s
  else s

/-- The `while (!pq.empty())` loop of `dijkstra` (main.cpp 572-621). -/
def dijkstraLoop (posLt : Pos → Pos → Bool) (n : Int) (startPoint endPoint : Pos) :
    Nat → DState → Run (Bool × DState)
  | fuel, s =>
    match pqTop posLt s.pq with
    | none => .ok (false, s)
    | some (dist, current) =>
      match fuel with
      | 0 => .fuel
      | f + 1 =>
        if current = endPoint then .ok (true, { s with pq := s.pq.erase (dist, current) })
        else do
          let best ← tget n s.distance current
          if dist > best then
            dijkstraLoop posLt n startPoint endPoint f { s with pq := s.pq.erase (dist, current) }
          else do
            let g1 ← markVisited n startPoint endPoint current s.grid
            dijkstraLoop posLt n startPoint endPoint f
              (directions8.foldl (dijkstraRelax n current)
                { s with pq := s.pq.erase (dist, current), grid := g1 })

/-- `dijkstra` (main.cpp 549-637); `INT_MAX` is `2147483647`. -/
def dijkstra (posLt : Pos → Pos → Bool) (fuel : Nat) (w : World) : Run PathResult := do
  let distance ← tset w.gridSize (fun _ => (2147483647 : Int)) w.startPoint 0
  let (found, s) ← dijkstraLoop posLt w.gridSize w.startPoint w.endPoint fuel
    { grid := w.grid, distance := distance, parent := fun _ => (-1, -1),
      pq := [(0, w.startPoint)] }
  reconstruct w fuel found s.grid s.parent

/-- Lexicographic order on positions, one choice for the order of `sf::Vector2i`. -/
def posLex (a b : Pos) : Bool := decide (a.1 < b.1) || (decide (a.1 = b.1) && decide (a.2 < b.2))

/-- The obstacle-free 3x3 grid with Start `(0,0)` and End `(2,2)`. -/
def open3 : World := { gridSize := 3, grid := fun _ => 0, startPoint := (0, 0), endPoint := (2, 2) }

/-- The route of a finished search. -/
def routeOf : Run PathResult → Option (List Pos)
  | .ok r => some r.route
  | _ => none

/-! ## Loop invariants -/

/-- Invariant of the partition loop at loop index `j`. -/
def PartInv (d : List Int) (lo hiE : Nat) (pivot : Int) (j : Int) (s : Int × List Int) : Prop :=
  ∃ I : Nat, s.1 = (I : Int) - 1 ∧ lo ≤ I ∧ (I : Int) ≤ j ∧ s.2.length = d.length ∧
    s.2.Perm d ∧
    (∀ k, k < lo ∨ hiE - 1 ≤ k → s.2.getD k 0 = d.getD k 0) ∧
    (∀ k, lo ≤ k → k < I → s.2.getD k 0 < pivot) ∧
    (∀ k : Nat, I ≤ k → (k : Int) < j → pivot ≤ s.2.getD k 0) ∧
    (∀ P : Int → Prop, (∀ k, lo ≤ k → k < hiE → P (d.getD k 0)) →
      ∀ k, lo ≤ k → k < hiE → P (s.2.getD k 0))

/-- The slice `d[lo .. lo + len)`. -/
def seg (d : List Int) (lo len : Nat) : List Int := (d.drop lo).take len

/-- Invariant of the three loops of `merge`: `i` elements of the left run and `j` of the
right run have been written to `d[lo .. lo + i + j)`. -/
def MergeInv (data L R : List Int) (lo i j : Nat) (d : List Int) : Prop :=
  i ≤ L.length ∧ j ≤ R.length ∧ d.length = data.length ∧
  (∀ x, x < lo ∨ lo + L.length + R.length ≤ x → d.getD x 0 = data.getD x 0) ∧
  (seg d lo (i + j)).Perm (L.take i ++ R.take j) ∧
  (∀ a b, lo ≤ a → a < b → b < lo + i + j → d.getD a 0 ≤ d.getD b 0) ∧
  (∀ a, lo ≤ a → a < lo + i + j →
    (∀ x, i ≤ x → x < L.length → d.getD a 0 ≤ L.getD x 0) ∧
    (∀ y, j ≤ y → y < R.length → d.getD a 0 ≤ R.getD y 0))

/-- Orthogonal adjacency: `q` is `p` moved by one of `directions4`. -/
def adj4 (p q : Pos) : Prop := ∃ d ∈ directions4, q = (p.1 + d.1, p.2 + d.2)

/-- Eight-neighbour adjacency: `q` is `p` moved by one of `directions8`. -/
def adj8 (p q : Pos) : Prop := ∃ d ∈ directions8, q = (p.1 + d.1, p.2 + d.2)

/-- A parent table leads every reached cell other than Start to a reached, adjacent cell
of smaller rank that is not End. -/
def ParentsOK (adj : Pos → Pos → Prop) (n : Int) (startPoint endPoint : Pos)
    (parent : Pos → Pos) (R : Pos → Prop) (rank : Pos → Nat) : Prop :=
  (∀ p, R p → inBounds n p = true) ∧
  ∀ p, R p → p ≠ startPoint →
    R (parent p) ∧ adj (parent p) p ∧ rank (parent p) < rank p ∧ parent p ≠ endPoint

/-- The cells of the `n × n` grid. -/
def cells (n : Int) : Finset Pos := Finset.Icc 0 (n - 1) ×ˢ Finset.Icc 0 (n - 1)

/-- Number of grid cells whose `visited` flag is still false. -/
def unvisitedCount (n : Int) (vis : Pos → Bool) : Nat :=
  ((cells n).filter (fun p => vis p = false)).card

/-- A cell a search may enter: inside the grid and not an Obstacle of the initial grid. -/
def passable (w : World) (p : Pos) : Prop := inBounds w.gridSize p = true ∧ w.grid p ≠ 1

/-- Part of the `bfs` invariant that does not mention the queue; `L` is the level of a
visited cell (the number of parent steps to Start). -/
def BfsCore (w : World) (L : Pos → Nat) (s : Search) : Prop :=
  (∀ p, s.grid p ≠ w.grid p →
    passable w p ∧ p ≠ w.startPoint ∧ p ≠ w.endPoint ∧ s.grid p = 2) ∧
  s.visited w.startPoint = true ∧ L w.startPoint = 0 ∧
  (∀ p, s.visited p = true → passable w p) ∧
  (∀ p, s.visited p = true → p ≠ w.startPoint →
    s.visited (s.parent p) = true ∧ adj4 (s.parent p) p ∧ L p = L (s.parent p) + 1 ∧
      s.parent p ≠ w.endPoint) ∧
  (∀ p q, s.visited p = true → s.visited q = true → adj4 p q → L q ≤ L p + 1) ∧
  (∀ p, s.visited p = true → L p + unvisitedCount w.gridSize s.visited + 1 ≤
    (cells w.gridSize).card)

/-- The `bfs` invariant while cell `c` is being expanded and the directions `pend` are
still to be tried. -/
def BfsMid (w : World) (L : Pos → Nat) (s : Search) (c : Pos) (pend : List Pos) : Prop :=
  BfsCore w L s ∧
  (∀ p ∈ s.frontier, s.visited p = true) ∧
  (s.visited w.endPoint = true → w.endPoint ∈ s.frontier) ∧
  s.visited c = true ∧ c ≠ w.endPoint ∧
  s.frontier.Pairwise (fun a b => L a ≤ L b) ∧
  (∀ p ∈ s.frontier, L c ≤ L p ∧ L p ≤ L c + 1) ∧
  (∀ p, s.visited p = true → p ∉ s.frontier → ∀ q, adj4 p q → passable w q →
    (p = c ∧ ∃ d ∈ pend, q = (c.1 + d.1, c.2 + d.2)) ∨ s.visited q = true)

/-- The `bfs` invariant between two iterations of the `while` loop. -/
def BfsOuter (w : World) (L : Pos → Nat) (s : Search) : Prop :=
  BfsCore w L s ∧
  (∀ p ∈ s.frontier, s.visited p = true) ∧
  (s.visited w.endPoint = true → w.endPoint ∈ s.frontier) ∧
  s.frontier.Pairwise (fun a b => L a ≤ L b) ∧
  (∀ a ∈ s.frontier, ∀ b ∈ s.frontier, L b ≤ L a + 1) ∧
  (∀ p, s.visited p = true → p ∉ s.frontier → ∀ q, adj4 p q → passable w q →
    s.visited q = true)

/-- Termination measure of the `bfs` loop. -/
def bfsMeasure (n : Int) (s : Search) : Nat := unvisitedCount n s.visited + s.frontier.length

/-- A route of orthogonal moves from Start to End over cells that are inside the grid and
not Obstacles. -/
def OrthPath (w : World) (l : List Pos) : Prop :=
  l.head? = some w.startPoint ∧ l.getLast? = some w.endPoint ∧ List.Chain' adj4 l ∧
    ∀ p ∈ l, passable w p

/-- What a search loop must establish for the reconstruction: the grid differs from the
initial one only by Visited marks on passable cells other than Start and End, and, when
a path was found, End is reached through a well-founded parent table. -/
def SearchPost (adj : Pos → Pos → Prop) (w : World) (bound : Nat) (found : Bool)
    (grid : Pos → Int) (parent : Pos → Pos) : Prop :=
  (∀ p, grid p ≠ w.grid p →
    passable w p ∧ p ≠ w.startPoint ∧ p ≠ w.endPoint ∧ grid p = 2) ∧
  (found = true → ∃ (R : Pos → Prop) (rank : Pos → Nat),
    ParentsOK adj w.gridSize w.startPoint w.endPoint parent R rank ∧ R w.endPoint ∧
      (∀ p, R p → passable w p) ∧ rank w.endPoint < bound)

/-- The result of a search is well formed with respect to the move relation `adj`:
the grid changed only on passable cells other than Start and End, to Visited or Path;
a found route leads from Start to End along `adj` over passable cells without repeating
a cell, and the Path marks are exactly on its interior. -/
def GoodResult (adj : Pos → Pos → Prop) (w : World) (r : PathResult) : Prop :=
  (∀ p, r.grid p ≠ w.grid p →
    passable w p ∧ p ≠ w.startPoint ∧ p ≠ w.endPoint ∧ (r.grid p = 2 ∨ r.grid p = 3)) ∧
  (r.found = true →
    r.route.head? = some w.startPoint ∧ r.route.getLast? = some w.endPoint ∧
    List.Chain' adj r.route ∧ r.route.Nodup ∧ (∀ p ∈ r.route, passable w p) ∧
    (∀ p, p ∈ r.route → p ≠ w.startPoint → p ≠ w.endPoint → r.grid p = 3) ∧
    (∀ p, r.grid p = 3 → (p ∈ r.route ∧ p ≠ w.startPoint ∧ p ≠ w.endPoint) ∨ w.grid p = 3)) ∧
  (r.found = false → r.route = [] ∧ ∀ p, r.grid p = 3 → w.grid p = 3)

/-- Invariant of the `dfs` loop; `rank` orders the visited cells by the time of their
visit. -/
def DfsInv (w : World) (rank : Pos → Nat) (s : Search) : Prop :=
  (∀ p, s.grid p ≠ w.grid p →
    passable w p ∧ p ≠ w.startPoint ∧ p ≠ w.endPoint ∧ s.grid p = 2) ∧
  (∀ p, s.visited p = true → passable w p ∧ p ≠ w.endPoint) ∧
  (∀ p ∈ s.frontier, passable w p ∧
    (p = w.startPoint ∨ (s.visited (s.parent p) = true ∧ adj4 (s.parent p) p))) ∧
  (∀ p, s.visited p = true → p ≠ w.startPoint →
    s.visited (s.parent p) = true ∧ adj4 (s.parent p) p ∧ rank (s.parent p) < rank p) ∧
  (∀ p, s.visited p = true →
    rank p + unvisitedCount w.gridSize s.visited + 1 ≤ (cells w.gridSize).card)

/-- Termination measure of the `dfs` loop. -/
def dfsMeasure (n : Int) (s : Search) : Nat :=
  4 * unvisitedCount n s.visited + s.frontier.length

/-- Number of grid cells whose `distance` entry is still `INT_MAX`. -/
def unreachedCount (n : Int) (dist : Pos → Int) : Nat :=
  unvisitedCount n (fun p => decide (dist p ≠ 2147483647))

/-- Weight `dijkstra` gives the move from `u` to `v`. -/
def stepWeight (u v : Pos) : Int := edgeWeight (v.1 - u.1, v.2 - u.2)

/-- Part of the `dijkstra` invariant that holds at every point of the loop.  `done` holds
of the cells that were expanded with their current distance. -/
def DjCore (w : World) (done : Pos → Prop) (s : DState) : Prop :=
  (∀ p, s.grid p ≠ w.grid p →
    passable w p ∧ p ≠ w.startPoint ∧ p ≠ w.endPoint ∧ s.grid p = 2) ∧
  s.distance w.startPoint = 0 ∧
  (∀ p, 0 ≤ s.distance p ∧ s.distance p ≤ 2147483647) ∧
  (∀ p, s.distance p ≠ 2147483647 → passable w p) ∧
  (∀ p, s.distance p ≠ 2147483647 → p ≠ w.startPoint →
    s.distance (s.parent p) ≠ 2147483647 ∧ adj8 (s.parent p) p ∧
      s.distance (s.parent p) + stepWeight (s.parent p) p ≤ s.distance p ∧
      s.parent p ≠ w.endPoint) ∧
  (∀ e ∈ s.pq, s.distance e.2 ≤ e.1 ∧ s.distance e.2 ≠ 2147483647) ∧
  (∀ u, done u → s.distance u ≠ 2147483647 ∧ u ≠ w.endPoint ∧
    ∀ v, adj8 u v → passable w v → s.distance v ≤ s.distance u + stepWeight u v) ∧
  (∀ p, s.distance p ≠ 2147483647 →
    s.distance p + 14 * (unreachedCount w.gridSize s.distance : Int) + 14 ≤
      14 * ((cells w.gridSize).card : Int))

/-- The `dijkstra` invariant while cell `c` is being expanded and the directions `pend`
are still to be tried. -/
def DjMid (w : World) (done : Pos → Prop) (s : DState) (c : Pos) (pend : List Pos) : Prop :=
  DjCore w done s ∧
  (∀ p, s.distance p ≠ 2147483647 → ¬ done p → p ≠ c → (s.distance p, p) ∈ s.pq) ∧
  s.distance c ≠ 2147483647 ∧ c ≠ w.endPoint ∧
  (∀ v, adj8 c v → passable w v →
    (∃ d ∈ pend, v = (c.1 + d.1, c.2 + d.2)) ∨ s.distance v ≤ s.distance c + stepWeight c v)

/-- The `dijkstra` invariant between two iterations of the `while` loop. -/
def DjOuter (w : World) (done : Pos → Prop) (s : DState) : Prop :=
  DjCore w done s ∧
  (∀ p, s.distance p ≠ 2147483647 → ¬ done p → (s.distance p, p) ∈ s.pq)

/-- Termination measure of the `dijkstra` loop. -/
def djMeasure (n : Int) (s : DState) : Nat :=
  (∑ p in cells n, (s.distance p).toNat) + s.pq.length

/-- A route of eight-neighbour moves from Start to End over cells that are inside the
grid and not Obstacles. -/
def Path8 (w : World) (l : List Pos) : Prop :=
  l.head? = some w.startPoint ∧ l.getLast? = some w.endPoint ∧ List.Chain' adj8 l ∧
    ∀ p ∈ l, passable w p

/-- Total weight of a route when the move by direction `d` weighs `wt d`. -/
def routeCost (wt : Pos → Int) : List Pos → Int
  | a :: b :: t => wt (b.1 - a.1, b.2 - a.2) + routeCost wt (b :: t)
  | _ => 0

/-- The weight table of the specification: 10 for an orthogonal move, 14 for a diagonal
move. -/
def specWeight (dir : Pos) : Int := if |dir.1| + |dir.2| = 1 then 10 else 14

/-- A grid as `initializeGrid` leaves it and `runVisualization` hands it to a search: Start
is a cell of the grid, every cell of the grid is Empty (0) or Obstacle (1), and neither
Start nor End is an Obstacle. -/
def WellFormed (w : World) : Prop :=
  inBounds w.gridSize w.startPoint = true ∧
  (∀ p, inBounds w.gridSize p = true → w.grid p = 0 ∨ w.grid p = 1) ∧
  w.grid w.startPoint ≠ 1 ∧ w.grid w.endPoint ≠ 1

/-- The route of a successful search leads from Start to End without repeating a cell,
consecutive cells are adjacent under `adj`, every cell lies on the grid and is not an
Obstacle, every cell of the route other than Start and End is marked Path (3), and a
cell that is Path after the run and was not before is such a cell of the route. -/
def RouteMarked (adj : Pos → Pos → Prop) (w : World) (r : PathResult) : Prop :=
  r.route.head? = some w.startPoint ∧ r.route.getLast? = some w.endPoint ∧
  r.route.Nodup ∧ List.Chain' adj r.route ∧
  (∀ p ∈ r.route, inBounds w.gridSize p = true ∧ w.grid p ≠ 1) ∧
  (∀ p ∈ r.route, p ≠ w.startPoint → p ≠ w.endPoint → r.grid p = 3) ∧
  (∀ p, r.grid p = 3 → w.grid p ≠ 3 →
    p ∈ r.route ∧ p ≠ w.startPoint ∧ p ≠ w.endPoint)

/-- Frame of a search: Obstacles stay, no cell becomes an Obstacle, Start and End keep
their stored values, and a cell whose value changes was Empty and is now Visited (2) or
Path (3). -/
def FrameKept (w : World) (r : PathResult) : Prop :=
  (∀ p, w.grid p = 1 → r.grid p = 1) ∧ (∀ p, r.grid p = 1 → w.grid p = 1) ∧
  r.grid w.startPoint = w.grid w.startPoint ∧ r.grid w.endPoint = w.grid w.endPoint ∧
  (∀ p, r.grid p ≠ w.grid p → w.grid p = 0 ∧ (r.grid p = 2 ∨ r.grid p = 3))

/-- Every visited cell that has left the frontier carries the Visited mark, unless it is
Start or End. -/
def VisitedMarked (a b : Pos) (s : Search) : Prop :=
  ∀ p, s.visited p = true → p ∈ s.frontier ∨ p = a ∨ p = b ∨ s.grid p = 2

/-- What `dfs` has explored while cell `c` is being expanded and the directions `pend`
are still to be tried: Start is visited or waits on the stack, Obstacle-free cells stay
free of the Obstacle value, a visited cell other than Start and End is marked Visited,
and every passable neighbour of a visited cell is visited or on the stack. -/
def DfsClosedMid (w : World) (s : Search) (c : Pos) (pend : List Pos) : Prop :=
  (w.startPoint ∈ s.frontier ∨ s.visited w.startPoint = true) ∧
  (∀ q, w.grid q ≠ 1 → s.grid q ≠ 1) ∧
  (∀ p, s.visited p = true → p = w.startPoint ∨ p = w.endPoint ∨ s.grid p = 2) ∧
  (∀ p, s.visited p = true → ∀ q, adj4 p q → passable w q →
    s.visited q = true ∨ q ∈ s.frontier ∨ (p = c ∧ ∃ d ∈ pend, q = (c.1 + d.1, c.2 + d.2)))

/-- What `dfs` has explored between two iterations of its loop. -/
def DfsClosed (w : World) (s : Search) : Prop :=
  (w.startPoint ∈ s.frontier ∨ s.visited w.startPoint = true) ∧
  (∀ q, w.grid q ≠ 1 → s.grid q ≠ 1) ∧
  (∀ p, s.visited p = true → p = w.startPoint ∨ p = w.endPoint ∨ s.grid p = 2) ∧
  (∀ p, s.visited p = true → ∀ q, adj4 p q → passable w q →
    s.visited q = true ∨ q ∈ s.frontier)

/-- Every cell with a recorded distance has an entry with that distance in the queue, or
is Start or End, or carries the Visited mark. -/
def ReachedMarked (a b : Pos) (s : DState) : Prop :=
  ∀ p, s.distance p ≠ 2147483647 →
    (s.distance p, p) ∈ s.pq ∨ p = a ∨ p = b ∨ s.grid p = 2

/-- The 3x3 grid whose Start `(0,0)` is enclosed by the Obstacles `(1,0)`, `(0,1)` and
`(1,1)`; End is `(2,2)`. -/
def enclosed3 : World :=
  { gridSize := 3,
    grid := fun p => if p = (1, 0) ∨ p = (0, 1) ∨ p = (1, 1) then 1 else 0,
    startPoint := (0, 0), endPoint := (2, 2) }

/-- The 3x3 grid with the wall of Obstacles `x = 1` between Start `(0,0)` and End
`(2,2)`. -/
def walled3 : World :=
  { gridSize := 3, grid := fun p => if p.1 = 1 then 1 else 0,
    startPoint := (0, 0), endPoint := (2, 2) }

/-- The cell values `g[x][y]` of a grid of side `n`, row `x` by row. -/
def gridRows (n : Nat) (g : Pos → Int) : List (List Int) :=
  (List.range n).map fun x => (List.range n).map fun y => g ((x : Int), (y : Int))

/-- The `foundPath` flag and the cell values that a finished search leaves behind. -/
def marksOf (n : Nat) : Run PathResult → Option (Bool × List (List Int))
  | .ok r => some (r.found, gridRows n r.grid)
  | _ => none

/-! ## Events, commands and the routines under events -/

/-- `enum class AlgorithmType` (main.cpp 13-22). -/
inductive AlgorithmType where
  | BUBBLE_SORT
  | INSERTION_SORT
  | SELECTION_SORT
  | QUICK_SORT
  | MERGE_SORT
  | BFS
  | DFS
  | DIJKSTRA
  deriving DecidableEq

/-- The key codes that `handleEvents` tells apart; `Other` is any other key. -/
inductive Key where
  | Escape
  | R
  | Space
  | Add
  | Equal
  | Subtract
  | Dash
  | Num1
  | Num2
  | Num3
  | Num4
  | Num5
  | Num6
  | Num7
  | Num8
  | Other
  deriving DecidableEq

/-- An `sf::Event` as far as `handleEvents` looks at it: the close request of the window,
a key press, or anything else. -/
inductive Event where
  | Closed
  | KeyPressed (code : Key)
  | Other
  deriving DecidableEq

/-- The data members of `AlgorithmVisualizer` that the routines read or write
(main.cpp 26-39); `windowOpen` is `window.isOpen()`. -/
structure Visualizer where
  windowOpen : Bool
  data : List Int
  currentAlgorithm : AlgorithmType
  isRunning : Bool
  isPaused : Bool
  speed : Int
  arraySize : Int
  maxValue : Int
  grid : Pos → Int
  startPoint : Pos
  endPoint : Pos
  gridSize : Int

/-- The value that `std::uniform_int_distribution<>(a, b)` makes of the raw draw `raw`:
a value from `a` to `b`, every one of them for some draw. -/
def uniformInt (a b : Int) (raw : Nat) : Int := a + (raw : Int) % (b - a + 1)

/-- `generateRandomData` (main.cpp 68-77): `arraySize` fresh values from 10 to
`maxValue`.  `draws` are the raw values its generator will produce; the second component
is what is left of them. -/
def generateRandomData (v : Visualizer) (draws : Nat → Nat) : Visualizer × (Nat → Nat) :=
  ({ v with data := (List.range v.arraySize.toNat).map fun i =>
      uniformInt 10 v.maxValue (draws i) },
    fun i => draws (i + v.arraySize.toNat))

/-- `initializeGrid` (main.cpp 79-103): a fresh `gridSize × gridSize` grid in which the
cell `(i, j)` is an Obstacle when its draw from 0 to 100 is below 20, then Start and End
are placed in two corners and their cells are emptied. -/
def initializeGrid (v : Visualizer) (draws : Nat → Nat) : Run (Visualizer × (Nat → Nat)) := do
  let n := v.gridSize
  let g0 : Pos → Int := fun p =>
    if inBounds n p ∧ uniformInt 0 100 (draws (p.1.toNat * n.toNat + p.2.toNat)) < 20
    then 1 else 0
  let startPoint : Pos := (0, 0)
  let endPoint : Pos := (n - 1, n - 1)
  let g1 ← tset n g0 startPoint 0
  let g2 ← tset n g1 endPoint 0
  pure ({ v with grid := g2, startPoint := startPoint, endPoint := endPoint },
    fun i => draws (i + n.toNat * n.toNat))

/-- The `switch` of `handleEvents` for one event (main.cpp 661-742). -/
def handleEvent (ev : Event) (v : Visualizer) (draws : Nat → Nat) :
    Run (Visualizer × (Nat → Nat)) :=
  match ev with
  | .Closed => .ok ({ v with windowOpen := false, isRunning := false }, draws)
  | .KeyPressed .Escape => .ok ({ v with windowOpen := false, isRunning := false }, draws)
  | .KeyPressed .R => do
    let (v1, d1) := generateRandomData v draws
    let (v2, d2) ← initializeGrid v1 d1
    pure ({ v2 with isPaused := true }, d2)
  | .KeyPressed .Space => .ok ({ v with isPaused := !v.isPaused }, draws)
  | .KeyPressed .Add => .ok ({ v with speed := max 10 (toInt32 (v.speed - 10)) }, draws)
  | .KeyPressed .Equal => .ok ({ v with speed := max 10 (toInt32 (v.speed - 10)) }, draws)
  | .KeyPressed .Subtract => .ok ({ v with speed := min 200 (toInt32 (v.speed + 10)) }, draws)
  | .KeyPressed .Dash => .ok ({ v with speed := min 200 (toInt32 (v.speed + 10)) }, draws)
  | .KeyPressed .Num1 =>
    let (v1, d1) := generateRandomData { v with currentAlgorithm := .BUBBLE_SORT } draws
    .ok ({ v1 with isPaused := true }, d1)
  | .KeyPressed .Num2 =>
    let (v1, d1) := generateRandomData { v with currentAlgorithm := .INSERTION_SORT } draws
    .ok ({ v1 with isPaused := true }, d1)
  | .KeyPressed .Num3 =>
    let (v1, d1) := generateRandomData { v with currentAlgorithm := .SELECTION_SORT } draws
    .ok ({ v1 with isPaused := true }, d1)
  | .KeyPressed .Num4 =>
    let (v1, d1) := generateRandomData { v with currentAlgorithm := .QUICK_SORT } draws
    .ok ({ v1 with isPaused := true }, d1)
  | .KeyPressed .Num5 =>
    let (v1, d1) := generateRandomData { v with currentAlgorithm := .MERGE_SORT } draws
    .ok ({ v1 with isPaused := true }, d1)
  | .KeyPressed .Num6 => do
    let (v1, d1) ← initializeGrid { v with currentAlgorithm := .BFS } draws
    pure ({ v1 with isPaused := true }, d1)
  | .KeyPressed .Num7 => do
    let (v1, d1) ← initializeGrid { v with currentAlgorithm := .DFS } draws
    pure ({ v1 with isPaused := true }, d1)
  | .KeyPressed .Num8 => do
    let (v1, d1) ← initializeGrid { v with currentAlgorithm := .DIJKSTRA } draws
    pure ({ v1 with isPaused := true }, d1)
  | .KeyPressed .Other => .ok (v, draws)
  | .Other => .ok (v, draws)

/-- One call of `handleEvents` (main.cpp 659-744) that finds the events `pending`:
`window.pollEvent` hands them out one by one and nothing any more once the window is
closed. -/
def handleEvents : List Event → Visualizer → (Nat → Nat) → Run (Visualizer × (Nat → Nat))
  | [], v, draws => .ok (v, draws)
  | ev :: rest, v, draws =>
    if v.windowOpen then do
      let (v1, d1) ← handleEvent ev v draws
      handleEvents rest v1 d1
    else .ok (v, draws)

/-- The constructor (main.cpp 640-654). -/
def construct (draws : Nat → Nat) : Run (Visualizer × (Nat → Nat)) :=
  let v0 : Visualizer :=
    { windowOpen := true, data := [], currentAlgorithm := .BUBBLE_SORT, isRunning := false,
      isPaused := false, speed := 50, arraySize := 100, maxValue := 500,
      grid := fun _ => 0, startPoint := (0, 0), endPoint := (0, 0), gridSize := 20 }
  let (v1, d1) := generateRandomData v0 draws
  initializeGrid v1 d1

/-- A sequence of calls of `handleEvents`, the `k`-th of which finds the events of the
`k`-th list. -/
def handleAll : List (List Event) → Visualizer → (Nat → Nat) → Run (Visualizer × (Nat → Nat))
  | [], v, draws => .ok (v, draws)
  | pending :: rest, v, draws => do
    let (v1, d1) ← handleEvents pending v draws
    handleAll rest v1 d1

/-- The key of the command SelectAlgorithm(`k`). -/
def selectKey : Nat → Key
  | 1 => .Num1
  | 2 => .Num2
  | 3 => .Num3
  | 4 => .Num4
  | 5 => .Num5
  | 6 => .Num6
  | 7 => .Num7
  | 8 => .Num8
  | _ => .Other

/-- The `k`-th algorithm: 1 to 5 are the sorting routines, 6 to 8 the searches. -/
def kthAlgorithm : Nat → AlgorithmType
  | 1 => .BUBBLE_SORT
  | 2 => .INSERTION_SORT
  | 3 => .SELECTION_SORT
  | 4 => .QUICK_SORT
  | 5 => .MERGE_SORT
  | 6 => .BFS
  | 7 => .DFS
  | _ => .DIJKSTRA

/-- A state in which `runVisualization` runs a sorting routine on `data`: the window is
open, `isRunning` is true and `isPaused` is false; the grid is the obstacle-free 3x3
grid. -/
def sortingState (data : List Int) : Visualizer :=
  { windowOpen := true, data := data, currentAlgorithm := .BUBBLE_SORT, isRunning := true,
    isPaused := false, speed := 50, arraySize := data.length, maxValue := 500,
    grid := fun _ => 0, startPoint := (0, 0), endPoint := (2, 2), gridSize := 3 }

/-- A run of a routine under events: the visualizer state, the raw values that its
random generators will draw, and the events that the coming calls of `handleEvents` will
find (one list per call; once the lists are used up no event arrives any more).  Two
logs are kept that are not program state: `swaps` holds `data` after each executed
`std::swap`, `seen` holds `data` at each call of `handleEvents`, latest first. -/
structure Sim where
  v : Visualizer
  draws : Nat → Nat
  polls : List (List Event)
  swaps : List (List Int)
  seen : List (List Int)

/-- The loop guard `isRunning && !isPaused`. -/
def going (s : Sim) : Bool := s.v.isRunning && !s.v.isPaused

/-- The assignment of a new value to `data`. -/
def Sim.setData (s : Sim) (d : List Int) : Sim := { s with v := { s.v with data := d } }

/-- The call `std::swap(data[i], data[j])` in a run under events. -/
def swapLive (s : Sim) (i j : Nat) : Run Sim := do
  let d ← swapAt s.v.data i j
  pure { s with v := { s.v with data := d }, swaps := d :: s.swaps }

/-- One call of `handleEvents()` from inside a routine. -/
def pollEvents (s : Sim) : Run Sim :=
  match s.polls with
  | [] => .ok { s with seen := s.v.data :: s.seen }
  | pending :: rest => do
    let (v1, d1) ← handleEvents pending s.v s.draws
    pure { s with v := v1, draws := d1, polls := rest, seen := s.v.data :: s.seen }

/-- The loop `while (isPaused && isRunning) { handleEvents(); sleep }` that follows each
call of `handleEvents` in the routines.  When it is entered with no event to come it
never ends, which is the outcome `Run.fuel`. -/
def waitWhilePaused : List (List Event) → Sim → Run Sim
  | [], s => if s.v.isPaused && s.v.isRunning then .fuel else .ok { s with polls := [] }
  | pending :: rest, s =>
    if s.v.isPaused && s.v.isRunning then do
      let (v1, d1) ← handleEvents pending s.v s.draws
      waitWhilePaused rest { s with v := v1, draws := d1, seen := s.v.data :: s.seen }
    else .ok { s with polls := pending :: rest }

/-- The block `handleEvents(); if (isPaused) { while (isPaused && isRunning) ... }` at the
end of the loop bodies. -/
def poll (s : Sim) : Run Sim := do
  let s1 ← pollEvents s
  waitWhilePaused s1.polls s1

/-- The loop `for (size_t i = lo; cond; i++) body` whose condition is evaluated anew
before each iteration. -/
def forLoopLive {σ : Type} (cond : Nat → σ → Bool) (body : Nat → σ → Run σ) :
    Nat → Nat → σ → Run σ
  | fuel, i, s =>
    if cond i s then
      match fuel with
      | 0 => .fuel
      | f + 1 => body i s >>= fun s1 => forLoopLive cond body f (i + 1) s1
    else .ok s

/-- The loop `for (int i = lo; cond; i++) body` whose condition is evaluated anew before
each iteration. -/
def forLoopLiveZ {σ : Type} (cond : Int → σ → Bool) (body : Int → σ → Run σ) :
    Nat → Int → σ → Run σ
  | fuel, i, s =>
    if cond i s then
      match fuel with
      | 0 => .fuel
      | f + 1 => body i s >>= fun s1 => forLoopLiveZ cond body f (i + 1) s1
    else .ok s

/-- Body of the inner loop of `bubbleSort` (main.cpp 199-213). -/
def bubbleStepLive (j : Nat) (s : Sim) : Run Sim := do
  let a ← rd s.v.data j
  let b ← rd s.v.data (uadd j 1)
  let s1 ← if a > b then swapLive s j (uadd j 1) else pure s
  poll s1

/-- The inner loop of `bubbleSort` (main.cpp 198-214) under events. -/
def bubblePassLive (fuel : Nat) (i : Nat) (s : Sim) : Run Sim :=
  forLoopLive (fun j t => decide (j < usub (usub (usize t.v.data) i) 1) && going t)
    bubbleStepLive fuel 0 s

/-- `bubbleSort` (main.cpp 196-216) under events. -/
def bubbleSortLive (fuel : Nat) (s : Sim) : Run Sim :=
  forLoopLive (fun i t => decide (i < usub (usize t.v.data) 1) && going t)
    (bubblePassLive fuel) fuel 0 s

/-- The inner `while` loop of `insertionSort` (main.cpp 223-237) under events. -/
def insertShiftLive (key : Int) : Nat → Int → Sim → Run (Int × Sim)
  | 0, _, _ => .fuel
  | f + 1, j, s =>
    if j ≥ 0 then do
      let a ← rd s.v.data (idx j)
      if a > key ∧ going s = true then do
        let d1 ← wr s.v.data (idx (j + 1)) a
        let s1 ← poll (s.setData d1)
        insertShiftLive key f (j - 1) s1
      else pure (j, s)
    else pure (j, s)

/-- One outer iteration of `insertionSort` (main.cpp 220-242) under events. -/
def insertionBodyLive (fuel : Nat) (i : Nat) (s : Sim) : Run Sim := do
  let key ← rd s.v.data i
  let j := toInt32 (usub i 1)
  let (j1, s1) ← insertShiftLive key fuel j s
  let d2 ← wr s1.v.data (idx (j1 + 1)) key
  pure (s1.setData d2)

/-- `insertionSort` (main.cpp 218-244) under events. -/
def insertionSortLive (fuel : Nat) (s : Sim) : Run Sim :=
  forLoopLive (fun i t => decide (i < usize t.v.data) && going t)
    (insertionBodyLive fuel) fuel 1 s

/-- Body of the inner loop of `selectionSort` (main.cpp 251-263) on the state
`(min_idx, run)`. -/
def selectStepLive (j : Nat) (ms : Nat × Sim) : Run (Nat × Sim) := do
  let a ← rd ms.2.v.data j
  let b ← rd ms.2.v.data ms.1
  let s1 ← poll ms.2
  pure (if a < b then j else ms.1, s1)

/-- One outer iteration of `selectionSort` (main.cpp 248-270) under events. -/
def selectionBodyLive (fuel : Nat) (i : Nat) (s : Sim) : Run Sim := do
  let (m, s1) ← forLoopLive (fun j (t : Nat × Sim) => decide (j < usize t.2.v.data) && going t.2)
    selectStepLive fuel (uadd i 1) (i, s)
  if m ≠ i then swapLive s1 i m else pure s1

/-- `selectionSort` (main.cpp 246-272) under events. -/
def selectionSortLive (fuel : Nat) (s : Sim) : Run Sim :=
  forLoopLive (fun i t => decide (i < usub (usize t.v.data) 1) && going t)
    (selectionBodyLive fuel) fuel 0 s

/-- Body of the partition loop of `quickSort` (main.cpp 281-297) on the state
`(i, run)`. -/
def partitionStepLive (pivot : Int) (j : Int) (t : Int × Sim) : Run (Int × Sim) := do
  let a ← rd t.2.v.data (idx j)
  let t1 ← if a < pivot then do
      let s2 ← swapLive t.2 (idx (t.1 + 1)) (idx j)
      pure (t.1 + 1, s2)
    else pure t
  let s3 ← poll t1.2
  pure (t1.1, s3)

/-- `quickSort(low, high)` (main.cpp 274-309) under events; `fuel0` is the budget of
each partition loop. -/
def quickSortLive (fuel0 : Nat) : Nat → Int → Int → Sim → Run Sim
  | fuel, low, high, s =>
    if low < high ∧ going s = true then
      match fuel with
      | 0 => .fuel
      | f + 1 => do
        let pivot ← rd s.v.data (idx high)
        let (i, s1) ← forLoopLiveZ
          (fun j (t : Int × Sim) => decide (j ≤ high - 1) && going t.2)
          (partitionStepLive pivot) fuel0 low (low - 1, s)
        let s3 ← swapLive s1 (idx (i + 1)) (idx high)
        let partition := i + 1
        let s4 ← quickSortLive fuel0 f low (partition - 1) s3
        quickSortLive fuel0 f (partition + 1) high s4
    else .ok s

/-- The call `quickSort(0, data.size() - 1)` of `runVisualization` under events. -/
def quickSortRunLive (fuel : Nat) (s : Sim) : Run Sim :=
  quickSortLive fuel fuel 0 (toInt32 (usub (usize s.v.data) 1)) s

/-- First `while` loop of `merge` (main.cpp 328-350) under events. -/
def mergeBothLive (leftArray rightArray : List Int) (n1 n2 : Int) :
    Nat → Int × Int × Int × Sim → Run (Int × Int × Int × Sim)
  | fuel, (i, j, k, s) =>
    if i < n1 ∧ j < n2 ∧ going s = true then
      match fuel with
      | 0 => .fuel
      | f + 1 => do
        let a ← rd leftArray (idx i)
        let b ← rd rightArray (idx j)
        if a ≤ b then do
          let d1 ← wr s.v.data (idx k) a
          let s1 ← poll (s.setData d1)
          mergeBothLive leftArray rightArray n1 n2 f (i + 1, j, k + 1, s1)
        else do
          let d1 ← wr s.v.data (idx k) b
          let s1 ← poll (s.setData d1)
          mergeBothLive leftArray rightArray n1 n2 f (i, j + 1, k + 1, s1)
    else .ok (i, j, k, s)

/-- Second and third `while` loop of `merge` (main.cpp 352-384) under events. -/
def mergeRestLive (src : List Int) (n : Int) :
    Nat → Int × Int × Sim → Run (Int × Int × Sim)
  | fuel, (i, k, s) =>
    if i < n ∧ going s = true then
      match fuel with
      | 0 => .fuel
      | f + 1 => do
        let a ← rd src (idx i)
        let d1 ← wr s.v.data (idx k) a
        let s1 ← poll (s.setData d1)
        mergeRestLive src n f (i + 1, k + 1, s1)
    else .ok (i, k, s)

/-- `merge(left, mid, right)` (main.cpp 311-385) under events. -/
def mergeLive (fuel : Nat) (left mid right : Int) (s : Sim) : Run Sim := do
  let n1 := mid - left + 1
  let n2 := right - mid
  let leftArray ← forLoopZ (copyStep s.v.data left) n1.toNat 0 (List.replicate (idx n1) 0)
  let rightArray ← forLoopZ (copyStep s.v.data (mid + 1)) n2.toNat 0
    (List.replicate (idx n2) 0)
  let (i, j, k, s1) ← mergeBothLive leftArray rightArray n1 n2 fuel (0, 0, left, s)
  let (_, k1, s2) ← mergeRestLive leftArray n1 fuel (i, k, s1)
  let (_, _, s3) ← mergeRestLive rightArray n2 fuel (j, k1, s2)
  pure s3

/-- `mergeSort(left, right)` (main.cpp 387-396) under events; `fuel0` is the budget of
each loop of `merge`. -/
def mergeSortLive (fuel0 : Nat) : Nat → Int → Int → Sim → Run Sim
  | fuel, left, right, s =>
    if left < right ∧ going s = true then
      match fuel with
      | 0 => .fuel
      | f + 1 => do
        let mid := left + (right - left).tdiv 2
        let s1 ← mergeSortLive fuel0 f left mid s
        let s2 ← mergeSortLive fuel0 f (mid + 1) right s1
        mergeLive fuel0 left mid right s2
    else .ok s

/-- The call `mergeSort(0, data.size() - 1)` of `runVisualization` under events. -/
def mergeSortRunLive (fuel : Nat) (s : Sim) : Run Sim :=
  mergeSortLive fuel fuel 0 (toInt32 (usub (usize s.v.data) 1)) s

/-- The start of a sorting routine on `data` that will find the events `polls` and draw
the raw random values `draws`. -/
def startSort (data : List Int) (polls : List (List Event)) (draws : Nat → Nat) : Sim :=
  { v := sortingState data, draws := draws, polls := polls, swaps := [], seen := [] }

/-- The final `data` and the log of swaps of a finished run. -/
def outcome : Run Sim → Option (List Int × List (List Int))
  | .ok s => some (s.v.data, s.swaps)
  | _ => none

/-- The number of events in the lists `polls`. -/
def toggles (polls : List (List Event)) : Nat := (polls.map List.length).sum

/-- All events to come are presses of the Space key (TogglePause). -/
def PauseOnly (polls : List (List Event)) : Prop :=
  ∀ p ∈ polls, ∀ e ∈ p, e = Event.KeyPressed Key.Space

/-- A run that is under way with only TogglePause commands to come, an even number of
them, so that every pause is followed by a resume. -/
def Calm (s : Sim) : Prop :=
  s.v.windowOpen = true ∧ s.v.isRunning = true ∧ s.v.isPaused = false ∧
    PauseOnly s.polls ∧ toggles s.polls % 2 = 0

/-- The run `s` started in the state `v0`, its `data` is now `d`, it is calm, and its log
of swaps together with `d` satisfies `Q`. -/
def Tracks (Q : List (List Int) → List Int → Prop) (v0 : Visualizer) (s : Sim)
    (d : List Int) : Prop :=
  s.v = { v0 with data := d } ∧ Calm s ∧ Q s.swaps d

/-- No condition on the log of swaps. -/
def AnyLog : List (List Int) → List Int → Prop := fun _ _ => True

/-- The start of a routine in the state `v` that will find the events `polls` and draw
the raw random values `draws`; both logs are empty. -/
def startRun (v : Visualizer) (polls : List (List Event)) (draws : Nat → Nat) : Sim :=
  { v := v, draws := draws, polls := polls, swaps := [], seen := [] }

/-- The log of swaps is empty and `data` is `S`. -/
def NoSwap (S : List Int) : List (List Int) → List Int → Prop :=
  fun sw d => sw = [] ∧ d = S

/-- Every entry of the log of swaps is `S`, and `data` is `S`. -/
def SwapsKeep (S : List Int) : List (List Int) → List Int → Prop :=
  fun sw d => (∀ t ∈ sw, t = S) ∧ d = S

/-! ## Merge sort on tagged elements -/

/-- An array element together with a tag; the routines below compare the values (first
components) only and carry the tags along. -/
abbrev Tagged := Int × Nat

/-- Read of `d[i]` in an array of tagged elements. -/
def rdT (d : List Tagged) (i : Nat) : Run Tagged :=
  match d[i]? with
  | some v => .ok v
  | none => .oob

/-- Write `d[i] = v` in an array of tagged elements. -/
def wrT (d : List Tagged) (i : Nat) (v : Tagged) : Run (List Tagged) :=
  if i < d.length then .ok (d.set i v) else .oob

/-- First `while` loop of `merge` (main.cpp 328-350) on tagged elements: the test
`leftArray[i] <= rightArray[j]` looks at the values only. -/
def mergeBothT (leftArray rightArray : List Tagged) (n1 n2 : Int) :
    Nat → Int × Int × Int × List Tagged → Run (Int × Int × Int × List Tagged)
  | fuel, (i, j, k, d) =>
    if i < n1 ∧ j < n2 then
      match fuel with
      | 0 => .fuel
      | f + 1 => do
        let a ← rdT leftArray (idx i)
        let b ← rdT rightArray (idx j)
        if a.1 ≤ b.1 then do
          let d1 ← wrT d (idx k) a
          mergeBothT leftArray rightArray n1 n2 f (i + 1, j, k + 1, d1)
        else do
          let d1 ← wrT d (idx k) b
          mergeBothT leftArray rightArray n1 n2 f (i, j + 1, k + 1, d1)
    else .ok (i, j, k, d)

/-- Second and third `while` loop of `merge` (main.cpp 352-384) on tagged elements. -/
def mergeRestT (src : List Tagged) (n : Int) :
    Nat → Int × Int × List Tagged → Run (Int × Int × List Tagged)
  | fuel, (i, k, d) =>
    if i < n then
      match fuel with
      | 0 => .fuel
      | f + 1 => do
        let a ← rdT src (idx i)
        let d1 ← wrT d (idx k) a
        mergeRestT src n f (i + 1, k + 1, d1)
    else .ok (i, k, d)

/-- One iteration of the copy loops of `merge` (main.cpp 318-324) on tagged elements. -/
def copyStepT (data : List Tagged) (base : Int) (i : Int) (arr : List Tagged) :
    Run (List Tagged) := do
  let v ← rdT data (idx (base + i))
  wrT arr (idx i) v

/-- The three `while` loops of `merge` (main.cpp 326-384) on tagged elements. -/
def mergeLoopsT (leftArray rightArray : List Tagged) (n1 n2 left : Int) (data : List Tagged) :
    Run (List Tagged) := do
  let (i, j, k, d1) ← mergeBothT leftArray rightArray n1 n2 (n1 + n2).toNat (0, 0, left, data)
  let (_, k1, d2) ← mergeRestT leftArray n1 n1.toNat (i, k, d1)
  let (_, _, d3) ← mergeRestT rightArray n2 n2.toNat (j, k1, d2)
  pure d3

/-- `merge(left, mid, right)` (main.cpp 311-385) on tagged elements. -/
def mergeT (left mid right : Int) (data : List Tagged) : Run (List Tagged) := do
  let n1 := mid - left + 1
  let n2 := right - mid
  let leftArray ← forLoopZ (copyStepT data left) n1.toNat 0 (List.replicate (idx n1) (0, 0))
  let rightArray ←
    forLoopZ (copyStepT data (mid + 1)) n2.toNat 0 (List.replicate (idx n2) (0, 0))
  mergeLoopsT leftArray rightArray n1 n2 left data

/-- `mergeSort(left, right)` (main.cpp 387-396) on tagged elements. -/
def mergeSortT : Nat → Int → Int → List Tagged → Run (List Tagged)
  | fuel, left, right, d =>
    if left < right then
      match fuel with
      | 0 => .fuel
      | f + 1 => do
        let mid := left + (right - left).tdiv 2
        let d1 ← mergeSortT f left mid d
        let d2 ← mergeSortT f (mid + 1) right d1
        mergeT left mid right d2
    else .ok d

/-- The call `mergeSort(0, data.size() - 1)` of `runVisualization` on tagged elements. -/
def mergeSortRunT (data : List Tagged) : Run (List Tagged) :=
  mergeSortT data.length 0 (toInt32 (usub (data.length % 18446744073709551616) 1)) data

/-- The array `S` with every element tagged by its position. -/
def tagged (S : List Int) : List Tagged := S.zip (List.range S.length)

/-- The order of a stable sort: by value, and by tag among equal values. -/
def lexLt (a b : Tagged) : Prop := a.1 < b.1 ∨ (a.1 = b.1 ∧ a.2 < b.2)

/-- The segment `d[lo .. lo + len)` of an array of tagged elements. -/
def segT (d : List Tagged) (lo len : Nat) : List Tagged := (d.drop lo).take len

/-- Invariant of the three loops of `merge` on tagged elements. -/
def MergeInvT (data L R : List Tagged) (lo i j : Nat) (d : List Tagged) : Prop :=
  i ≤ L.length ∧ j ≤ R.length ∧ d.length = data.length ∧
  (∀ x, x < lo ∨ lo + L.length + R.length ≤ x → d.getD x (0, 0) = data.getD x (0, 0)) ∧
  (segT d lo (i + j)).Perm (L.take i ++ R.take j) ∧
  (∀ a b, lo ≤ a → a < b → b < lo + i + j → lexLt (d.getD a (0, 0)) (d.getD b (0, 0))) ∧
  (∀ a, lo ≤ a → a < lo + i + j →
    (∀ x, i ≤ x → x < L.length → lexLt (d.getD a (0, 0)) (L.getD x (0, 0))) ∧
    (∀ y, j ≤ y → y < R.length → lexLt (d.getD a (0, 0)) (R.getD y (0, 0))))

/-- The pathfinding part of the visualizer state. -/
def gridWorld (v : Visualizer) : World :=
  { gridSize := v.gridSize, grid := v.grid, startPoint := v.startPoint,
    endPoint := v.endPoint }

/-- The obstacle test `distrib(gen) < 20` of `initializeGrid` (main.cpp 91) on the value
`x` of the draw. -/
def obstacleTest (x : Int) : Bool := decide (x < 20)

/-- The values that `std::uniform_int_distribution<>(0, 100)` yields, each with the same
probability. -/
def drawValues : List Int := (List.range 101).map (uniformInt 0 100)

/-- An event that replaces neither the array nor the grid: any event but the Reset key
and the keys of SelectAlgorithm. -/
def keepsModels : Event → Bool
  | .KeyPressed .R => false
  | .KeyPressed .Num1 => false
  | .KeyPressed .Num2 => false
  | .KeyPressed .Num3 => false
  | .KeyPressed .Num4 => false
  | .KeyPressed .Num5 => false
  | .KeyPressed .Num6 => false
  | .KeyPressed .Num7 => false
  | .KeyPressed .Num8 => false
  | _ => true

/-- No event to come is a Reset or a SelectAlgorithm. -/
def NoRegen (polls : List (List Event)) : Prop :=
  ∀ p ∈ polls, ∀ e ∈ p, keepsModels e = true

/-- The events to come do not leave the routine waiting for ever: once all of them are
handled, `isPaused && isRunning` is false. -/
def Settles (v : Visualizer) (polls : List (List Event)) (draws : Nat → Nat) : Prop :=
  ∃ v1 d1, handleAll polls v draws = .ok (v1, d1) ∧ (v1.isPaused && v1.isRunning) = false

/-- In the run `s`, `data` and every logged value of it is a permutation of `d0`. -/
def KeepsData (d0 : List Int) (s : Sim) : Prop :=
  s.v.data.Perm d0 ∧ (∀ t ∈ s.seen, t.Perm d0) ∧ ∀ t ∈ s.swaps, t.Perm d0

/-- The invariant of a routine that changes `data` through `std::swap` only, under events
that regenerate nothing. -/
def Keeps (d0 : List Int) (s : Sim) : Prop := KeepsData d0 s ∧ NoRegen s.polls

/-- The events that the run `s` will find do not leave it waiting for ever. -/
def Ready (s : Sim) : Prop := Settles s.v s.polls s.draws

/-- The final `data` and the log of `data` at the calls of `handleEvents` (latest first)
of a finished run. -/
def pollLog : Run Sim → Option (List Int × List (List Int))
  | .ok s => some (s.v.data, s.seen)
  | _ => none

/-- In a run without events, `data` and every value of it logged at a call of
`handleEvents` is the initial array `d0` or the outcome of an executed `std::swap`. -/
def SwapsOnly (d0 : List Int) (s : Sim) : Prop :=
  s.polls = [] ∧ (s.v.data = d0 ∨ s.v.data ∈ s.swaps) ∧
    ∀ t ∈ s.seen, t = d0 ∨ t ∈ s.swaps

/-- The `while (!q.empty() && isRunning && !isPaused)` loop of `bfs` (main.cpp 415-454)
under events.  The grid, its size and the end points are data members: the body works on
the grid of `t`, which is written to the member before the call of `handleEvents` and read
back from it afterwards, so that `t.grid` is the member `grid` throughout; `visited`,
`parent` and the queue are the local variables of `bfs`. -/
def bfsLoopLive : Nat → Search → Sim → Run (Bool × Search × Sim)
  | fuel, t, s =>
    match t.frontier with
    | [] => .ok (false, t, s)
    | current :: rest =>
      if going s then
        match fuel with
        | 0 => .fuel
        | f + 1 =>
          if current = s.v.endPoint then .ok (true, { t with frontier := rest }, s)
          else do
            let g1 ← markVisited s.v.gridSize s.v.startPoint s.v.endPoint current t.grid
            let t1 := directions4.foldl (bfsVisit s.v.gridSize current)
              { t with frontier := rest, grid := g1 }
            let s1 ← poll { s with v := { s.v with grid := t1.grid } }
            bfsLoopLive f { t1 with grid := s1.v.grid } s1
      else .ok (false, t, s)

/-- `bfs` (main.cpp 399-470) under events: the loop, then the reconstruction with the data
members as they are after the loop.  The result is `foundPath` and the final state. -/
def bfsLive (fuel : Nat) (s : Sim) : Run (Bool × Sim) := do
  let visited ← tset s.v.gridSize (fun _ => false) s.v.startPoint true
  let (found, t, s1) ← bfsLoopLive fuel
    { grid := s.v.grid, visited := visited, parent := fun _ => (-1, -1),
      frontier := [s.v.startPoint] } s
  let r ← reconstruct (gridWorld s1.v) fuel found t.grid t.parent
  pure (found, { s1 with v := { s1.v with grid := r.grid } })

/-- The calls of `handleEvents` that the loop `while (isPaused && isRunning)` makes when it
is entered paused with the lists of TogglePause commands `polls` to come: their number,
and the lists that are left.  The loop ends with the first list that holds an odd number
of commands. -/
def waitCalls : List (List Event) → Nat × List (List Event)
  | [] => (0, [])
  | p :: rest =>
    if p.length % 2 = 1 then (1, rest) else ((waitCalls rest).1 + 1, (waitCalls rest).2)

/-- The calls of `handleEvents` that one block `handleEvents(); if (isPaused) { while
(isPaused && isRunning) ... }` makes in a run that is not paused, with the lists of
TogglePause commands `polls` to come: their number, and the lists that are left.  When
the first call finds an odd number of commands the wait loop follows. -/
def pollCalls : List (List Event) → Nat × List (List Event)
  | [] => (1, [])
  | p :: rest =>
    if p.length % 2 = 1 then ((waitCalls rest).1 + 1, (waitCalls rest).2) else (1, rest)

/-- The log of `data` at the calls of `handleEvents` (oldest first) that the run under the
lists of TogglePause commands `polls` keeps when it makes the steps of the uninterrupted
run with the log `log` and no other: the entry of each step, once for every call of
`handleEvents` made at that step. -/
def pausedLog : List (List Event) → List (List Int) → List (List Int)
  | _, [] => []
  | polls, d :: ds =>
    List.replicate (pollCalls polls).1 d ++ pausedLog (pollCalls polls).2 ds

/-- The run `s1` under the lists of TogglePause commands `polls` has made the steps of the
uninterrupted run `s0`, each once and in the same order: the two end in the same state,
have executed the same swaps, and the log of `s1` is the log of `s0` with each entry
repeated for the calls of `handleEvents` made while the run was paused at that step. -/
def SameSteps (polls : List (List Event)) (s0 s1 : Sim) : Prop :=
  s1.v = s0.v ∧ s1.swaps = s0.swaps ∧ s1.seen.reverse = pausedLog polls s0.seen.reverse

/-- The run `s` under events that began with the lists `P0` to come, and the uninterrupted
run `q`, are at the same point: same state, same swaps, `s` is not paused, and the logs
agree up to the calls of `handleEvents` made while paused. -/
def Twin (P0 : List (List Event)) (s q : Sim) : Prop :=
  s.v = q.v ∧ s.draws = q.draws ∧ s.swaps = q.swaps ∧ q.polls = [] ∧
  s.v.windowOpen = true ∧ s.v.isRunning = true ∧ s.v.isPaused = false ∧
  PauseOnly s.polls ∧
  ∀ fut, pausedLog P0 (q.seen.reverse ++ fut) = s.seen.reverse ++ pausedLog s.polls fut

/-- Under the lists of TogglePause commands `polls`, the routine `run` resumes in step:
whenever its run from the state `v` returns, the uninterrupted run from `v` with the same
fuel returns as well, and the run under `polls` has made the steps of the uninterrupted
run, each once and in the same order. -/
def ResumesInStep (run : Nat → Sim → Run Sim) (v : Visualizer) (polls : List (List Event))
    (draws : Nat → Nat) : Prop :=
  ∀ fuel s1, run fuel (startRun v polls draws) = .ok s1 →
    ∃ s0, run fuel (startRun v [] draws) = .ok s0 ∧ SameSteps polls s0 s1

/-- With enough fuel the run of `run` under the lists `polls` and its uninterrupted run
both return, with the array `out` that the routine `sort` of the embedding without events
makes of `v.data`, and the run under `polls` has made the steps of the uninterrupted
run. -/
def SameResult (sort : List Int → Run (List Int)) (run : Nat → Sim → Run Sim)
    (v : Visualizer) (polls : List (List Event)) (draws : Nat → Nat) : Prop :=
  ∃ F, ∀ fuel, F ≤ fuel → ∃ out s0 s1, sort v.data = .ok out ∧
    run fuel (startRun v [] draws) = .ok s0 ∧ run fuel (startRun v polls draws) = .ok s1 ∧
    s0.v = { v with data := out } ∧ SameSteps polls s0 s1

/-! ## Theorems: outcomes and vector access -/

@[simp] theorem Run.ok_bind {α β : Type} (a : α) (f : α → Run β) :
    (Run.ok a >>= f) = f a := rfl

@[simp] theorem Run.pure_eq {α : Type} (a : α) : (pure a : Run α) = Run.ok a := rfl

theorem rd_ok {d : List Int} {i : Nat} (h : i < d.length) : rd d i = .ok (d.getD i 0) := by
  simp [rd, List.getD, List.getElem?_eq_getElem h]

theorem wr_ok {d : List Int} {i : Nat} (v : Int) (h : i < d.length) :
    wr d i v = .ok (d.set i v) := by
  simp [wr, h]

theorem getD_set (d : List Int) (i k : Nat) (v : Int) (h : i < d.length) :
    (d.set i v).getD k 0 = if i = k then v else d.getD k 0 := by
  simp only [List.getD_eq_getElem?_getD, List.getElem?_set]
  by_cases hik : i = k
  · subst hik; simp [h]
  · simp [hik]

theorem swapAt_ok {d : List Int} {i j : Nat} (hi : i < d.length) (hj : j < d.length) :
    swapAt d i j = .ok ((d.set i (d.getD j 0)).set j (d.getD i 0)) := by
  simp [swapAt, rd_ok hi, rd_ok hj, wr_ok _ hi, wr_ok, hj]

theorem forLoop_inv {σ : Type} (body : Nat → σ → Run σ) (Inv : Nat → σ → Prop) :
    ∀ (k i : Nat) (s : σ), Inv i s →
      (∀ j t, i ≤ j → j < i + k → Inv j t → ∃ t1, body j t = .ok t1 ∧ Inv (j + 1) t1) →
      ∃ s1, forLoop body k i s = .ok s1 ∧ Inv (i + k) s1 := by
  intro k
  induction k with
  | zero => intro i s h _; exact ⟨s, rfl, h⟩
  | succ k ih =>
    intro i s h hstep
    obtain ⟨t1, hb, ht1⟩ := hstep i s (le_refl _) (by omega) h
    obtain ⟨s1, hs1, hinv⟩ := ih (i + 1) t1 ht1 (fun j t hj1 hj2 hj =>
      hstep j t (by omega) (by omega) hj)
    refine ⟨s1, ?_, ?_⟩
    · simp [forLoop, hb, hs1]
    · have : i + (k + 1) = i + 1 + k := by omega
      rw [this]; exact hinv

theorem swap_perm (d : List Int) (i j : Nat) (hi : i < d.length) (hj : j < d.length) :
    ((d.set i (d.getD j 0)).set j (d.getD i 0)).Perm d := by
  rw [List.getD_eq_getElem _ _ hi, List.getD_eq_getElem _ _ hj, List.perm_iff_count]
  intro a
  have hj1 : j < (d.set i d[j]).length := by simpa using hj
  rw [List.count_set _ _ _ _ hj1, List.count_set _ _ _ _ hi, List.getElem_set]
  by_cases hij : i = j
  · subst hij
    simp only [if_true]
    by_cases ha : d[i] = a
    · subst ha; simp
    · simp [ha]
  · simp only [if_neg hij]
    by_cases ha : d[i] = a <;> by_cases hb : d[j] = a
    · subst ha; simp [hb]
    · subst ha; simp [hb]
    · subst hb; simp [ha]
    · simp [ha, hb]

theorem sorted_of_getD (d : List Int)
    (h : ∀ a b, a < b → b < d.length → d.getD a 0 ≤ d.getD b 0) : d.Sorted (· ≤ ·) := by
  unfold List.Sorted
  rw [List.pairwise_iff_getElem]
  intro i j hi hj hij
  have := h i j hij hj
  rwa [List.getD_eq_getElem _ _ hi, List.getD_eq_getElem _ _ hj] at this

theorem selectMin_spec (d : List Int) (i : Nat) (hi : i + 1 ≤ d.length) :
    ∃ m, forLoop (fun j m => do
          let a ← rd d j
          let b ← rd d m
          pure (if a < b then j else m)) (d.length - (i + 1)) (i + 1) i = .ok m ∧
      i ≤ m ∧ m < d.length ∧ ∀ k, i ≤ k → k < d.length → d.getD m 0 ≤ d.getD k 0 := by
  obtain ⟨m, hm, h1, h2, h3⟩ := forLoop_inv (fun j m => do
          let a ← rd d j
          let b ← rd d m
          pure (if a < b then j else m))
    (fun j m => i ≤ m ∧ m < j ∧ ∀ k, i ≤ k → k < j → d.getD m 0 ≤ d.getD k 0)
    (d.length - (i + 1)) (i + 1) i
    ⟨le_refl _, by omega, fun k hk1 hk2 => by
      have : k = i := by omega
      subst this; exact le_refl _⟩
    (fun j m hj1 hj2 ⟨hm1, hm2, hm3⟩ => by
      have hj : j < d.length := by omega
      have hm : m < d.length := by omega
      refine ⟨if d.getD j 0 < d.getD m 0 then j else m, by simp [rd_ok hj, rd_ok hm], ?_⟩
      by_cases hlt : d.getD j 0 < d.getD m 0
      · simp only [if_pos hlt]
        refine ⟨by omega, by omega, fun k hk1 hk2 => ?_⟩
        by_cases hkj : k = j
        · subst hkj; exact le_refl _
        · have := hm3 k hk1 (by omega); omega
      · simp only [if_neg hlt]
        refine ⟨hm1, by omega, fun k hk1 hk2 => ?_⟩
        by_cases hkj : k = j
        · subst hkj; omega
        · exact hm3 k hk1 (by omega))
  refine ⟨m, hm, h1, by omega, fun k hk1 hk2 => h3 k hk1 (by omega)⟩

theorem selectionBody_spec (S d : List Int) (i : Nat) (h : S.length < 18446744073709551616)
    (hi2 : i < S.length - 1) (hp : d.Perm S)
    (hs : ∀ a b, a < b → a < i → b < S.length → d.getD a 0 ≤ d.getD b 0) :
    ∃ t1, selectionBody i d = .ok t1 ∧ t1.Perm S ∧
      ∀ a b, a < b → a < i + 1 → b < S.length → t1.getD a 0 ≤ t1.getD b 0 := by
  have hlen : d.length = S.length := hp.length_eq
  have e1 : usize d = d.length := by unfold usize; omega
  have e2 : uadd i 1 = i + 1 := by unfold uadd; omega
  obtain ⟨m, hm, hm1, hm2, hm3⟩ := selectMin_spec d i (by omega)
  unfold selectionBody selectMin
  simp only [e1, e2, hm, Run.ok_bind]
  by_cases hmi : m = i
  · subst hmi
    refine ⟨d, by simp, hp, fun a b hab ha hb => ?_⟩
    by_cases ham : a = m
    · subst ham; exact hm3 b (by omega) (by omega)
    · exact hs a b hab (by omega) hb
  · have hil : i < d.length := by omega
    refine ⟨_, by simp only [if_pos hmi]; exact swapAt_ok hil hm2, ?_, ?_⟩
    · exact (swap_perm d i m hil hm2).trans hp
    · intro a b hab ha hb
      have hl1 : m < (d.set i (d.getD m 0)).length := by simpa using hm2
      rw [getD_set _ _ _ _ hl1, getD_set _ _ _ _ hil, getD_set _ _ _ _ hl1,
        getD_set _ _ _ _ hil]
      by_cases hai : a = i
      · subst hai
        rw [if_neg hmi, if_pos rfl]
        by_cases hbm : m = b
        · rw [if_pos hbm]; exact hm3 a (le_refl _) hil
        · rw [if_neg hbm, if_neg (by omega)]; exact hm3 b (by omega) (by omega)
      · have hai2 : a < i := by omega
        rw [if_neg (by omega : ¬ m = a), if_neg (by omega : ¬ i = a)]
        by_cases hbm : m = b
        · rw [if_pos hbm]; exact hs a i hai2 hai2 (by omega)
        · rw [if_neg hbm]
          by_cases hbi : i = b
          · rw [if_pos hbi]; exact hs a m (by omega) hai2 (by omega)
          · rw [if_neg hbi]; exact hs a b hab hai2 hb

theorem selectionSort_sorts (S : List Int) (h : S.length < 18446744073709551616) :
    ∃ out, selectionSort S = .ok out ∧ out.Sorted (· ≤ ·) ∧ out.Perm S := by
  have hdef : selectionSort S = forLoop selectionBody (usub (usize S) 1) 0 S := rfl
  rw [hdef]
  by_cases hn : S.length = 0
  · have hS : S = [] := List.length_eq_zero.mp hn
    subst hS
    obtain ⟨out, ho, hinv⟩ := forLoop_inv selectionBody
      (fun _ d => d = []) (usub (usize []) 1) 0 [] rfl
      (fun j t _ _ ht => by
        subst ht
        refine ⟨[], ?_, rfl⟩
        simp [selectionBody, selectMin, usize, forLoop])
    subst hinv
    exact ⟨[], ho, List.sorted_nil, List.Perm.refl _⟩
  · have hus : usub (usize S) 1 = S.length - 1 := by
      unfold usub usize; omega
    rw [hus]
    obtain ⟨out, ho, hperm, hsort⟩ := forLoop_inv selectionBody
      (fun i d => d.Perm S ∧ ∀ a b, a < b → a < i → b < S.length → d.getD a 0 ≤ d.getD b 0)
      (S.length - 1) 0 S ⟨List.Perm.refl _, fun a b _ ha _ => by omega⟩
      (fun i d _ hi2 ⟨hp, hs⟩ => selectionBody_spec S d i h (by omega) hp hs)
    refine ⟨out, ho, sorted_of_getD out (fun a b hab hb => ?_), hperm⟩
    have hlen : out.length = S.length := hperm.length_eq
    exact hsort a b hab (by omega) (by omega)

theorem idx_natCast (k : Nat) (h : k < 18446744073709551616) : idx (k : Int) = k := by
  unfold idx; omega

theorem insertShift_spec (n i : Nat) (key : Int) (hi : i < n) (hn : n ≤ 2147483647) :
    ∀ (J f : Nat) (d : List Int), J ≤ i → J < f → d.length = n →
      (∀ a b, a < b → b ≤ i → a ≠ J → b ≠ J → d.getD a 0 ≤ d.getD b 0) →
      (∀ k, J < k → k ≤ i → key < d.getD k 0) →
      ∃ (K : Nat) (e : List Int), insertShift key f ((J : Int) - 1) d = .ok ((K : Int) - 1, e) ∧
        K ≤ i ∧ e.length = n ∧ (e.set K key).Perm (d.set J key) ∧
        (∀ a b, a < b → b ≤ i → a ≠ K → b ≠ K → e.getD a 0 ≤ e.getD b 0) ∧
        (∀ k, K < k → k ≤ i → key < e.getD k 0) ∧
        (∀ a, a < K → e.getD a 0 ≤ key) ∧
        (∀ k, i < k → e.getD k 0 = d.getD k 0) := by
  intro J
  induction J with
  | zero =>
    intro f d _ hf hlen hC hD
    obtain ⟨f, rfl⟩ : ∃ g, f = g + 1 := ⟨f - 1, by omega⟩
    refine ⟨0, d, ?_, by omega, hlen, List.Perm.refl _, hC, hD, fun a ha => by omega,
      fun _ _ => rfl⟩
    simp [insertShift]
  | succ J ih =>
    intro f d hJ hf hlen hC hD
    obtain ⟨f, rfl⟩ : ∃ g, f = g + 1 := ⟨f - 1, by omega⟩
    have hcast : ((J + 1 : Nat) : Int) - 1 = (J : Int) := by omega
    have hJn : J < d.length := by omega
    rw [hcast]
    unfold insertShift
    have hge : (J : Int) ≥ 0 := by omega
    rw [if_pos hge, idx_natCast J (by omega), rd_ok hJn]
    simp only [Run.ok_bind]
    by_cases hgt : d.getD J 0 > key
    · rw [if_pos hgt]
      have hidx : idx ((J : Int) + 1) = J + 1 := by
        have := idx_natCast (J + 1) (by omega)
        rwa [Nat.cast_add, Nat.cast_one] at this
      have hJ1 : J + 1 < d.length := by omega
      rw [hidx, wr_ok _ hJ1]
      simp only [Run.ok_bind]
      obtain ⟨K, e, he, hK, hel, hperm, hC2, hD2, hE2, hF2⟩ :=
        ih f (d.set (J + 1) (d.getD J 0)) (by omega) (by omega) (by simpa using hlen)
          (fun a b hab hb haJ hbJ => by
            rw [getD_set _ _ _ _ hJ1, getD_set _ _ _ _ hJ1]
            by_cases ha : J + 1 = a
            · rw [if_pos ha, if_neg (by omega)]
              exact hC J b (by omega) hb (by omega) (by omega)
            · rw [if_neg ha]
              by_cases hb2 : J + 1 = b
              · rw [if_pos hb2]; exact hC a J (by omega) (by omega) (by omega) (by omega)
              · rw [if_neg hb2]; exact hC a b hab hb (by omega) (by omega))
          (fun k hk1 hk2 => by
            rw [getD_set _ _ _ _ hJ1]
            by_cases hk : J + 1 = k
            · rw [if_pos hk]; exact hgt
            · rw [if_neg hk]; exact hD k (by omega) hk2)
      refine ⟨K, e, he, hK, hel, hperm.trans ?_, hC2, hD2, hE2, fun k hk => ?_⟩
      · -- the list with the hole moved down by one is the previous one with two cells swapped
        have hsw := swap_perm (d.set (J + 1) key) J (J + 1) (by simpa using hJn)
          (by simpa using hJ1)
        rw [getD_set _ _ _ _ hJ1, getD_set _ _ _ _ hJ1, if_pos rfl, if_neg (by omega)] at hsw
        have heq : ((d.set (J + 1) key).set J key).set (J + 1) (d.getD J 0) =
            (d.set (J + 1) (d.getD J 0)).set J key := by
          rw [List.set_comm _ _ _ (by omega : J + 1 ≠ J), List.set_set,
            List.set_comm _ _ _ (by omega : J ≠ J + 1)]
        rw [heq] at hsw
        exact hsw
      · rw [hF2 k hk, getD_set _ _ _ _ hJ1, if_neg (by omega)]
    · rw [if_neg hgt]
      refine ⟨J + 1, d, ?_, hJ, hlen, List.Perm.refl _, hC, hD, fun a ha => ?_, fun _ _ => rfl⟩
      · simp
      · by_cases haJ : a = J
        · subst haJ; omega
        · have := hC a J (by omega) (by omega) (by omega) (by omega); omega

theorem set_getD_self (d : List Int) (i : Nat) : d.set i (d.getD i 0) = d := by
  induction d generalizing i with
  | nil => simp
  | cons x xs ih =>
    cases i with
    | zero => simp
    | succ i => simpa using ih i

theorem insertionBody_spec (S d : List Int) (i : Nat) (hn : S.length ≤ 2147483647)
    (hi1 : 1 ≤ i) (hi2 : i < S.length) (hp : d.Perm S)
    (hs : ∀ a b, a < b → b < i → d.getD a 0 ≤ d.getD b 0) :
    ∃ t1, insertionBody i d = .ok t1 ∧ t1.Perm S ∧
      ∀ a b, a < b → b < i + 1 → t1.getD a 0 ≤ t1.getD b 0 := by
  have hlen : d.length = S.length := hp.length_eq
  have hil : i < d.length := by omega
  have hj : toInt32 ((usub i 1 : Nat) : Int) = (i : Int) - 1 := by
    unfold toInt32 usub; omega
  obtain ⟨K, e, he, hK, hel, hperm, hC, hD, hE, _⟩ :=
    insertShift_spec S.length i (d.getD i 0) hi2 hn i (i + 1) d (le_refl _) (by omega) hlen
      (fun a b hab hb ha hb2 => hs a b hab (by omega))
      (fun k hk1 hk2 => by omega)
  have hKl : K < e.length := by omega
  have hidx : idx ((K : Int) - 1 + 1) = K := by
    have := idx_natCast K (by omega)
    rwa [show ((K : Int) - 1 + 1) = (K : Int) by omega]
  refine ⟨e.set K (d.getD i 0), ?_, ?_, ?_⟩
  · unfold insertionBody
    rw [rd_ok hil]
    simp only [Run.ok_bind, hj, he, hidx, wr_ok _ hKl]
  · refine hperm.trans ?_
    rw [set_getD_self]; exact hp
  · intro a b hab hb
    rw [getD_set _ _ _ _ hKl, getD_set _ _ _ _ hKl]
    by_cases ha : K = a
    · rw [if_pos ha, if_neg (by omega)]
      exact le_of_lt (hD b (by omega) (by omega))
    · rw [if_neg ha]
      by_cases hb2 : K = b
      · rw [if_pos hb2]; exact hE a (by omega)
      · rw [if_neg hb2]; exact hC a b hab (by omega) (by omega) (by omega)

theorem insertionSort_sorts (S : List Int) (h : S.length ≤ 2147483647) :
    ∃ out, insertionSort S = .ok out ∧ out.Sorted (· ≤ ·) ∧ out.Perm S := by
  unfold insertionSort
  have hus : usize S = S.length := by unfold usize; omega
  rw [hus]
  obtain ⟨out, ho, hperm, hsort⟩ := forLoop_inv insertionBody
    (fun i d => d.Perm S ∧ ∀ a b, a < b → b < i → d.getD a 0 ≤ d.getD b 0)
    (S.length - 1) 1 S ⟨List.Perm.refl _, fun a b _ hb => by omega⟩
    (fun i d hi1 hi2 ⟨hp, hs⟩ => insertionBody_spec S d i h hi1 (by omega) hp hs)
  refine ⟨out, ho, sorted_of_getD out (fun a b hab hb => ?_), hperm⟩
  have hlen : out.length = S.length := hperm.length_eq
  exact hsort a b hab (by omega)

theorem forLoopZ_inv {σ : Type} (body : Int → σ → Run σ) (Inv : Int → σ → Prop) :
    ∀ (k : Nat) (i : Int) (s : σ), Inv i s →
      (∀ j t, i ≤ j → j < i + k → Inv j t → ∃ t1, body j t = .ok t1 ∧ Inv (j + 1) t1) →
      ∃ s1, forLoopZ body k i s = .ok s1 ∧ Inv (i + k) s1 := by
  intro k
  induction k with
  | zero => intro i s h _; exact ⟨s, rfl, by simpa using h⟩
  | succ k ih =>
    intro i s h hstep
    obtain ⟨t1, hb, ht1⟩ := hstep i s (le_refl _) (by omega) h
    obtain ⟨s1, hs1, hinv⟩ := ih (i + 1) t1 ht1 (fun j t hj1 hj2 hj =>
      hstep j t (by omega) (by omega) hj)
    refine ⟨s1, ?_, ?_⟩
    · simp [forLoopZ, hb, hs1]
    · have : i + ((k + 1 : Nat) : Int) = i + 1 + (k : Int) := by omega
      rw [this]; exact hinv

theorem partitionStep_spec (d : List Int) (lo hiE : Nat) (pivot : Int)
    (hn : d.length ≤ 2147483647) (hhi : hiE ≤ d.length)
    (j : Int) (s : Int × List Int) (hj1 : (lo : Int) ≤ j) (hj2 : j < (hiE : Int) - 1)
    (hinv : PartInv d lo hiE pivot j s) :
    ∃ t1, partitionStep pivot j s = .ok t1 ∧ PartInv d lo hiE pivot (j + 1) t1 := by
  obtain ⟨I, hI, hloI, hIj, hlen, hperm, hout, hlt, hge, hP⟩ := hinv
  obtain ⟨J, rfl⟩ := Int.eq_ofNat_of_zero_le (by omega : 0 ≤ j)
  obtain ⟨i, e⟩ := s
  simp only at hI hlen hperm hout hlt hge hP
  subst hI
  have hJl : J < e.length := by omega
  have hIl : I < e.length := by omega
  have hidxJ : idx (J : Int) = J := idx_natCast J (by omega)
  have hidxI : idx ((I : Int) - 1 + 1) = I := by
    rw [show ((I : Int) - 1 + 1) = (I : Int) by omega]; exact idx_natCast I (by omega)
  unfold partitionStep
  simp only [hidxJ, rd_ok hJl, Run.ok_bind, hidxI]
  by_cases hlt2 : e.getD J 0 < pivot
  · rw [if_pos hlt2, swapAt_ok hIl hJl]
    simp only [Run.ok_bind, Run.pure_eq]
    refine ⟨_, rfl, I + 1, by simp, by omega, by push_cast; omega, by simpa using hlen,
      (swap_perm e I J hIl hJl).trans hperm, ?_, ?_, ?_, ?_⟩
    all_goals simp only
    · intro k hk
      have hl1 : J < (e.set I (e.getD J 0)).length := by simpa using hJl
      rw [getD_set _ _ _ _ hl1, getD_set _ _ _ _ hIl, if_neg (by omega), if_neg (by omega)]
      exact hout k hk
    · intro k hk1 hk2
      have hl1 : J < (e.set I (e.getD J 0)).length := by simpa using hJl
      rw [getD_set _ _ _ _ hl1, getD_set _ _ _ _ hIl]
      by_cases hkJ : J = k
      · rw [if_pos hkJ]
        by_cases hIJ : I = J
        · rw [hIJ]; exact hlt2
        · exact hlt I hloI (by omega)
      · rw [if_neg hkJ]
        by_cases hkI : I = k
        · rw [if_pos hkI]; exact hlt2
        · rw [if_neg hkI]; exact hlt k hk1 (by omega)
    · intro k hk1 hk2
      have hl1 : J < (e.set I (e.getD J 0)).length := by simpa using hJl
      rw [getD_set _ _ _ _ hl1, getD_set _ _ _ _ hIl]
      by_cases hkJ : J = k
      · rw [if_pos hkJ]; exact hge I (le_refl _) (by omega)
      · rw [if_neg hkJ, if_neg (by omega)]; exact hge k (by omega) (by omega)
    · intro P hPd k hk1 hk2
      have hl1 : J < (e.set I (e.getD J 0)).length := by simpa using hJl
      rw [getD_set _ _ _ _ hl1, getD_set _ _ _ _ hIl]
      by_cases hkJ : J = k
      · rw [if_pos hkJ]; exact hP P hPd I hloI (by omega)
      · rw [if_neg hkJ]
        by_cases hkI : I = k
        · rw [if_pos hkI]; exact hP P hPd J (by omega) (by omega)
        · rw [if_neg hkI]; exact hP P hPd k hk1 hk2
  · rw [if_neg hlt2]
    refine ⟨_, rfl, I, rfl, hloI, by omega, hlen, hperm, hout, hlt, ?_, hP⟩
    intro k hk1 hk2
    by_cases hkJ : k = J
    · subst hkJ; simp only; omega
    · exact hge k hk1 (by omega)

theorem quickSort_spec (n : Nat) (hn : n ≤ 2147483647) :
    ∀ (f lo hiE : Nat) (d : List Int), lo ≤ hiE → hiE ≤ n → d.length = n → hiE - lo ≤ f + 1 →
      ∃ out, quickSort f (lo : Int) ((hiE : Int) - 1) d = .ok out ∧ out.length = n ∧
        out.Perm d ∧
        (∀ k, k < lo ∨ hiE ≤ k → out.getD k 0 = d.getD k 0) ∧
        (∀ a b, lo ≤ a → a < b → b < hiE → out.getD a 0 ≤ out.getD b 0) ∧
        (∀ P : Int → Prop, (∀ k, lo ≤ k → k < hiE → P (d.getD k 0)) →
          ∀ k, lo ≤ k → k < hiE → P (out.getD k 0)) := by
  intro f
  induction f with
  | zero =>
    intro lo hiE d h1 h2 hlen hf
    refine ⟨d, ?_, hlen, List.Perm.refl _, fun _ _ => rfl, fun a b ha hab hb => by omega,
      fun P hP => hP⟩
    unfold quickSort
    rw [if_neg (by omega)]
  | succ f ih =>
    intro lo hiE d h1 h2 hlen hf
    by_cases hlt : (lo : Int) < (hiE : Int) - 1
    · subst hlen
      have hH : hiE - 1 < d.length := by omega
      have hidxH : idx ((hiE : Int) - 1) = hiE - 1 := by
        have := idx_natCast (hiE - 1) (by omega)
        rwa [show ((hiE - 1 : Nat) : Int) = (hiE : Int) - 1 by omega] at this
      have hcount : ((hiE : Int) - 1 - (lo : Int)).toNat = hiE - 1 - lo := by omega
      obtain ⟨s1, hs1, I, hI, hloI, hIj, hlen1, hperm1, hout1, hlt1, hge1, hP1⟩ :=
        forLoopZ_inv (partitionStep (d.getD (hiE - 1) 0))
          (PartInv d lo hiE (d.getD (hiE - 1) 0)) (hiE - 1 - lo) (lo : Int) ((lo : Int) - 1, d)
          ⟨lo, rfl, le_refl _, le_refl _, rfl, List.Perm.refl _, fun _ _ => rfl,
            fun k hk1 hk2 => by omega, fun k hk1 hk2 => by omega, fun P hP => hP⟩
          (fun j t hj1 hj2 hinv =>
            partitionStep_spec d lo hiE _ hn h2 j t hj1 (by omega) hinv)
      obtain ⟨i, e⟩ := s1
      simp only at hI hlen1 hperm1 hout1 hlt1 hge1 hP1
      subst hI
      have hIl : I < e.length := by omega
      have hHl : hiE - 1 < e.length := by omega
      have hidxI : idx ((I : Int) - 1 + 1) = I := by
        rw [show ((I : Int) - 1 + 1) = (I : Int) by omega]; exact idx_natCast I (by omega)
      -- the list after the pivot is put in place
      have hl1 : hiE - 1 < (e.set I (e.getD (hiE - 1) 0)).length := by simpa using hHl
      have hd3 : ∀ k, ((e.set I (e.getD (hiE - 1) 0)).set (hiE - 1) (e.getD I 0)).getD k 0 =
          if hiE - 1 = k then e.getD I 0 else if I = k then e.getD (hiE - 1) 0
          else e.getD k 0 := by
        intro k
        rw [getD_set _ _ _ _ hl1, getD_set _ _ _ _ hIl]
      have hpivE : e.getD (hiE - 1) 0 = d.getD (hiE - 1) 0 := hout1 _ (Or.inr (le_refl _))
      obtain ⟨o4, ho4, hlen4, hperm4, hout4, hsort4, hP4⟩ :=
        ih lo I ((e.set I (e.getD (hiE - 1) 0)).set (hiE - 1) (e.getD I 0)) hloI (by omega)
          (by simpa using hlen1) (by omega)
      obtain ⟨o5, ho5, hlen5, hperm5, hout5, hsort5, hP5⟩ :=
        ih (I + 1) hiE o4 (by omega) h2 hlen4 (by omega)
      have hI5 : ∀ k, k ≤ I → o5.getD k 0 = o4.getD k 0 := fun k hk => hout5 k (Or.inl (by omega))
      have hlow : ∀ k, lo ≤ k → k < I → o5.getD k 0 < d.getD (hiE - 1) 0 := by
        intro k hk1 hk2
        rw [hI5 k (by omega)]
        refine hP4 (fun x => x < d.getD (hiE - 1) 0) (fun k hk1 hk2 => ?_) k hk1 hk2
        rw [hd3, if_neg (by omega), if_neg (by omega)]
        exact hlt1 k hk1 hk2
      have hmid : o5.getD I 0 = d.getD (hiE - 1) 0 := by
        rw [hI5 I (le_refl _), hout4 I (Or.inr (le_refl _)), hd3]
        by_cases hIH : hiE - 1 = I
        · rw [if_pos hIH, ← hIH]; exact hpivE
        · rw [if_neg hIH, if_pos rfl]; exact hpivE
      have hhigh : ∀ k, I + 1 ≤ k → k < hiE → d.getD (hiE - 1) 0 ≤ o5.getD k 0 := by
        intro k hk1 hk2
        refine hP5 (fun x => d.getD (hiE - 1) 0 ≤ x) (fun k hk1 hk2 => ?_) k hk1 hk2
        rw [hout4 k (Or.inr (by omega)), hd3]
        by_cases hkH : hiE - 1 = k
        · rw [if_pos hkH]; exact hge1 I (le_refl _) (by omega)
        · rw [if_neg hkH, if_neg (by omega)]; exact hge1 k (by omega) (by omega)
      refine ⟨o5, ?_, hlen5, ?_, ?_, ?_, ?_⟩
      · unfold quickSort
        rw [if_pos hlt]
        simp only [hidxH, rd_ok hH, Run.ok_bind, hcount, hs1, hidxI, swapAt_ok hIl hHl]
        rw [show ((I : Int) - 1 + 1 - 1) = (I : Int) - 1 by omega, ho4]
        simp only [Run.ok_bind]
        rw [show ((I : Int) - 1 + 1 + 1) = ((I + 1 : Nat) : Int) by omega, ho5]
      · exact hperm5.trans (hperm4.trans ((swap_perm e I (hiE - 1) hIl hHl).trans hperm1))
      · intro k hk
        rw [hout5 k (by omega), hout4 k (by omega), hd3, if_neg (by omega), if_neg (by omega)]
        exact hout1 k (by omega)
      · intro a b ha hab hb
        by_cases hbI : b < I
        · rw [hI5 a (by omega), hI5 b (by omega)]; exact hsort4 a b ha hab hbI
        · by_cases hbI2 : b = I
          · subst hbI2; rw [hmid]; exact le_of_lt (hlow a ha hab)
          · by_cases haI : a < I
            · exact le_trans (le_of_lt (hlow a ha haI)) (hhigh b (by omega) hb)
            · by_cases haI2 : a = I
              · subst haI2; rw [hmid]; exact hhigh b (by omega) hb
              · exact hsort5 a b (by omega) hab hb
      · intro P hP k hk1 hk2
        have h3 : ∀ k, lo ≤ k → k < hiE →
            P (((e.set I (e.getD (hiE - 1) 0)).set (hiE - 1) (e.getD I 0)).getD k 0) := by
          intro k hk1 hk2
          rw [hd3]
          by_cases hkH : hiE - 1 = k
          · rw [if_pos hkH]; exact hP1 P hP I hloI (by omega)
          · rw [if_neg hkH]
            by_cases hkI : I = k
            · rw [if_pos hkI]; exact hP1 P hP (hiE - 1) (by omega) (by omega)
            · rw [if_neg hkI]; exact hP1 P hP k hk1 hk2
        have h4 : ∀ k, lo ≤ k → k < hiE → P (o4.getD k 0) := by
          intro k hk1 hk2
          by_cases hkI : k < I
          · exact hP4 P (fun k hk1 hk2 => h3 k hk1 (by omega)) k hk1 hkI
          · rw [hout4 k (Or.inr (by omega))]; exact h3 k hk1 hk2
        by_cases hkI : I + 1 ≤ k
        · exact hP5 P (fun k hk1 hk2 => h4 k (by omega) hk2) k hkI hk2
        · rw [hout5 k (Or.inl (by omega))]; exact h4 k hk1 hk2
    · refine ⟨d, ?_, hlen, List.Perm.refl _, fun _ _ => rfl, fun a b ha hab hb => by omega,
        fun P hP => hP⟩
      unfold quickSort
      rw [if_neg hlt]

theorem quickSortRun_sorts (S : List Int) (h : S.length ≤ 2147483647) :
    ∃ out, quickSortRun S = .ok out ∧ out.Sorted (· ≤ ·) ∧ out.Perm S := by
  have hhigh : toInt32 ((usub (usize S) 1 : Nat) : Int) = (S.length : Int) - 1 := by
    unfold toInt32 usub usize; omega
  obtain ⟨out, ho, hlen, hperm, _, hsort, _⟩ :=
    quickSort_spec S.length h S.length 0 S.length S (by omega) (le_refl _) rfl (by omega)
  refine ⟨out, ?_, sorted_of_getD out (fun a b hab hb => hsort a b (by omega) hab (by omega)),
    hperm⟩
  unfold quickSortRun
  rw [hhigh]
  exact ho

theorem seg_getElem? (d : List Int) (lo len x : Nat) :
    (seg d lo len)[x]? = if x < len then d[lo + x]? else none := by
  simp [seg, List.getElem?_take, List.getElem?_drop]

theorem getD_eq_iff (d e : List Int) (x : Nat) (h : d.length = e.length) :
    d.getD x 0 = e.getD x 0 ↔ d[x]? = e[x]? := by
  by_cases hx : x < d.length
  · have hx2 : x < e.length := by omega
    simp [List.getD_eq_getElem?_getD, List.getElem?_eq_getElem hx, List.getElem?_eq_getElem hx2]
  · have h1 : d[x]? = none := List.getElem?_eq_none (by omega)
    have h2 : e[x]? = none := List.getElem?_eq_none (by omega)
    simp [List.getD_eq_getElem?_getD, h1, h2]

theorem take_snoc (l : List Int) (i : Nat) (h : i < l.length) :
    l.take (i + 1) = l.take i ++ [l.getD i 0] := by
  rw [List.take_succ, List.getElem?_eq_getElem h, List.getD_eq_getElem _ _ h]
  rfl

theorem seg_length (d : List Int) (lo len : Nat) (h : lo + len ≤ d.length) :
    (seg d lo len).length = len := by
  simp [seg]; omega

theorem seg_set_snoc (d : List Int) (lo c : Nat) (v : Int) (h : lo + c < d.length) :
    seg (d.set (lo + c) v) lo (c + 1) = seg d lo c ++ [v] := by
  have hl : (seg d lo c).length = c := seg_length d lo c (by omega)
  apply List.ext_getElem?
  intro x
  rw [seg_getElem?, List.getElem?_set]
  by_cases hx : x < c
  · rw [if_pos (by omega), if_neg (by omega), List.getElem?_append_left (by omega),
      seg_getElem?, if_pos hx]
  · by_cases hx2 : x = c
    · subst hx2
      rw [if_pos (by omega), if_pos rfl, if_pos h, List.getElem?_append_right (by omega), hl]
      simp
    · rw [if_neg (by omega), List.getElem?_append_right (by omega), hl]
      have : x - c = (x - c - 1) + 1 := by omega
      rw [this]; simp

theorem seg_add (d : List Int) (lo a b : Nat) :
    seg d lo (a + b) = seg d lo a ++ seg d (lo + a) b := by
  simp [seg, List.take_add, List.drop_drop]

theorem perm_of_segment (d out : List Int) (lo len : Nat) (hlen : out.length = d.length)
    (hout : ∀ x, x < lo ∨ lo + len ≤ x → out.getD x 0 = d.getD x 0)
    (hseg : (seg out lo len).Perm (seg d lo len)) : out.Perm d := by
  have h1 : out.take lo = d.take lo := by
    apply List.ext_getElem?
    intro x
    simp only [List.getElem?_take]
    by_cases hx : x < lo
    · rw [if_pos hx, if_pos hx]; exact (getD_eq_iff out d x hlen).mp (hout x (Or.inl hx))
    · rw [if_neg hx, if_neg hx]
  have h2 : (out.drop lo).drop len = (d.drop lo).drop len := by
    apply List.ext_getElem?
    intro x
    simp only [List.getElem?_drop]
    exact (getD_eq_iff out d _ hlen).mp (hout _ (Or.inr (by omega)))
  have e1 : out = out.take lo ++ (seg out lo len ++ (out.drop lo).drop len) := by
    unfold seg; rw [List.take_append_drop, List.take_append_drop]
  have e2 : d = d.take lo ++ (seg d lo len ++ (d.drop lo).drop len) := by
    unfold seg; rw [List.take_append_drop, List.take_append_drop]
  rw [e1, e2, h1, h2]
  exact List.Perm.append_left _ (List.Perm.append_right _ hseg)

theorem MergeInv.stepL {data L R : List Int} {lo i j : Nat} {d : List Int}
    (hctx : lo + L.length + R.length ≤ data.length)
    (hL : ∀ a b, a < b → b < L.length → L.getD a 0 ≤ L.getD b 0)
    (h : MergeInv data L R lo i j d) (hi : i < L.length)
    (hle : ∀ y, j ≤ y → y < R.length → L.getD i 0 ≤ R.getD y 0) :
    MergeInv data L R lo (i + 1) j (d.set (lo + i + j) (L.getD i 0)) := by
  obtain ⟨h1, h2, hlen, hout, hperm, hsort, hbnd⟩ := h
  have hk : lo + i + j < d.length := by omega
  refine ⟨by omega, h2, by simpa using hlen, ?_, ?_, ?_, ?_⟩
  · intro x hx
    rw [getD_set _ _ _ _ hk, if_neg (by omega)]; exact hout x hx
  · have e1 : seg (d.set (lo + i + j) (L.getD i 0)) lo (i + 1 + j) =
        seg d lo (i + j) ++ [L.getD i 0] := by
      have := seg_set_snoc d lo (i + j) (L.getD i 0) (by omega)
      rw [show lo + (i + j) = lo + i + j by omega, show i + j + 1 = i + 1 + j by omega] at this
      exact this
    rw [e1, take_snoc L i hi]
    have p1 : (seg d lo (i + j) ++ [L.getD i 0]).Perm
        ((L.take i ++ R.take j) ++ [L.getD i 0]) := List.Perm.append_right _ hperm
    refine p1.trans ?_
    rw [List.append_assoc, List.append_assoc]
    exact List.Perm.append_left _ List.perm_append_comm
  · intro a b ha hab hb
    rw [getD_set _ _ _ _ hk, getD_set _ _ _ _ hk, if_neg (by omega)]
    by_cases hbk : lo + i + j = b
    · rw [if_pos hbk]; exact (hbnd a ha (by omega)).1 i (le_refl _) hi
    · rw [if_neg hbk]; exact hsort a b ha hab (by omega)
  · intro a ha1 ha2
    rw [getD_set _ _ _ _ hk]
    by_cases hak : lo + i + j = a
    · rw [if_pos hak]
      exact ⟨fun x hx1 hx2 => hL i x (by omega) hx2, hle⟩
    · rw [if_neg hak]
      have := hbnd a ha1 (by omega)
      exact ⟨fun x hx1 hx2 => this.1 x (by omega) hx2, this.2⟩

theorem MergeInv.stepR {data L R : List Int} {lo i j : Nat} {d : List Int}
    (hctx : lo + L.length + R.length ≤ data.length)
    (hR : ∀ a b, a < b → b < R.length → R.getD a 0 ≤ R.getD b 0)
    (h : MergeInv data L R lo i j d) (hj : j < R.length)
    (hle : ∀ x, i ≤ x → x < L.length → R.getD j 0 ≤ L.getD x 0) :
    MergeInv data L R lo i (j + 1) (d.set (lo + i + j) (R.getD j 0)) := by
  obtain ⟨h1, h2, hlen, hout, hperm, hsort, hbnd⟩ := h
  have hk : lo + i + j < d.length := by omega
  refine ⟨h1, by omega, by simpa using hlen, ?_, ?_, ?_, ?_⟩
  · intro x hx
    rw [getD_set _ _ _ _ hk, if_neg (by omega)]; exact hout x hx
  · have e1 : seg (d.set (lo + i + j) (R.getD j 0)) lo (i + (j + 1)) =
        seg d lo (i + j) ++ [R.getD j 0] := by
      have := seg_set_snoc d lo (i + j) (R.getD j 0) (by omega)
      rw [show lo + (i + j) = lo + i + j by omega] at this
      exact this
    rw [e1, take_snoc R j hj, ← List.append_assoc]
    exact List.Perm.append_right _ hperm
  · intro a b ha hab hb
    rw [getD_set _ _ _ _ hk, getD_set _ _ _ _ hk, if_neg (by omega)]
    by_cases hbk : lo + i + j = b
    · rw [if_pos hbk]; exact (hbnd a ha (by omega)).2 j (le_refl _) hj
    · rw [if_neg hbk]; exact hsort a b ha hab (by omega)
  · intro a ha1 ha2
    rw [getD_set _ _ _ _ hk]
    by_cases hak : lo + i + j = a
    · rw [if_pos hak]
      exact ⟨hle, fun y hy1 hy2 => hR j y (by omega) hy2⟩
    · rw [if_neg hak]
      have := hbnd a ha1 (by omega)
      exact ⟨this.1, fun y hy1 hy2 => this.2 y (by omega) hy2⟩

theorem mergeBoth_spec (data L R : List Int) (lo : Nat)
    (hn : data.length ≤ 2147483647) (hctx : lo + L.length + R.length ≤ data.length)
    (hL : ∀ a b, a < b → b < L.length → L.getD a 0 ≤ L.getD b 0)
    (hR : ∀ a b, a < b → b < R.length → R.getD a 0 ≤ R.getD b 0) :
    ∀ (fuel i j : Nat) (d : List Int), MergeInv data L R lo i j d →
      (L.length - i) + (R.length - j) ≤ fuel →
      ∃ (i1 j1 : Nat) (d1 : List Int),
        mergeBoth L R (L.length : Int) (R.length : Int) fuel
          ((i : Int), (j : Int), ((lo + i + j : Nat) : Int), d) =
          .ok ((i1 : Int), (j1 : Int), ((lo + i1 + j1 : Nat) : Int), d1) ∧
        MergeInv data L R lo i1 j1 d1 ∧ (i1 = L.length ∨ j1 = R.length) := by
  intro fuel
  induction fuel with
  | zero =>
    intro i j d h hf
    have h1 := h.1
    have h2 := h.2.1
    refine ⟨i, j, d, ?_, h, by omega⟩
    unfold mergeBoth
    rw [if_neg (by omega)]
  | succ f ih =>
    intro i j d h hf
    have h1 := h.1
    have h2 := h.2.1
    have hlen := h.2.2.1
    by_cases hc : (i : Int) < (L.length : Int) ∧ (j : Int) < (R.length : Int)
    · have hi : i < L.length := by omega
      have hj : j < R.length := by omega
      have hk : lo + i + j < d.length := by omega
      unfold mergeBoth
      rw [if_pos hc]
      simp only [idx_natCast i (by omega), idx_natCast j (by omega),
        idx_natCast (lo + i + j) (by omega), rd_ok hi, rd_ok hj, Run.ok_bind]
      by_cases hle : L.getD i 0 ≤ R.getD j 0
      · rw [if_pos hle]
        simp only [wr_ok _ hk, Run.ok_bind]
        have hinv := MergeInv.stepL hctx hL h hi
          (fun y hy1 hy2 => by
            by_cases hyj : y = j
            · subst hyj; exact hle
            · exact le_trans hle (hR j y (by omega) hy2))
        obtain ⟨i1, j1, d1, hm, hinv1, hdone⟩ := ih (i + 1) j _ hinv (by omega)
        refine ⟨i1, j1, d1, ?_, hinv1, hdone⟩
        rw [show (i : Int) + 1 = ((i + 1 : Nat) : Int) by omega,
          show ((lo + i + j : Nat) : Int) + 1 = ((lo + (i + 1) + j : Nat) : Int) by omega]
        exact hm
      · rw [if_neg hle]
        simp only [wr_ok _ hk, Run.ok_bind]
        have hinv := MergeInv.stepR hctx hR h hj
          (fun x hx1 hx2 => by
            by_cases hxi : x = i
            · subst hxi; omega
            · have := hL i x (by omega) hx2; omega)
        obtain ⟨i1, j1, d1, hm, hinv1, hdone⟩ := ih i (j + 1) _ hinv (by omega)
        refine ⟨i1, j1, d1, ?_, hinv1, hdone⟩
        rw [show (j : Int) + 1 = ((j + 1 : Nat) : Int) by omega,
          show ((lo + i + j : Nat) : Int) + 1 = ((lo + i + (j + 1) : Nat) : Int) by omega]
        exact hm
    · refine ⟨i, j, d, ?_, h, by omega⟩
      unfold mergeBoth
      rw [if_neg hc]

theorem mergeRest_done (src : List Int) (n : Int) (fuel : Nat) (i k : Int) (d : List Int)
    (h : ¬ i < n) : mergeRest src n fuel (i, k, d) = .ok (i, k, d) := by
  unfold mergeRest
  rw [if_neg h]

theorem mergeRest_left_spec (data L R : List Int) (lo : Nat)
    (hn : data.length ≤ 2147483647) (hctx : lo + L.length + R.length ≤ data.length)
    (hL : ∀ a b, a < b → b < L.length → L.getD a 0 ≤ L.getD b 0) :
    ∀ (fuel i : Nat) (d : List Int), MergeInv data L R lo i R.length d →
      L.length - i ≤ fuel →
      ∃ d1 : List Int,
        mergeRest L (L.length : Int) fuel ((i : Int), ((lo + i + R.length : Nat) : Int), d) =
          .ok ((L.length : Int), ((lo + L.length + R.length : Nat) : Int), d1) ∧
        MergeInv data L R lo L.length R.length d1 := by
  intro fuel
  induction fuel with
  | zero =>
    intro i d h hf
    have h1 := h.1
    have hi : i = L.length := by omega
    subst hi
    exact ⟨d, mergeRest_done _ _ _ _ _ _ (by omega), h⟩
  | succ f ih =>
    intro i d h hf
    have h1 := h.1
    have hlen := h.2.2.1
    by_cases hc : (i : Int) < (L.length : Int)
    · have hi : i < L.length := by omega
      have hk : lo + i + R.length < d.length := by omega
      unfold mergeRest
      rw [if_pos hc]
      simp only [idx_natCast i (by omega), idx_natCast (lo + i + R.length) (by omega),
        rd_ok hi, wr_ok _ hk, Run.ok_bind]
      have hinv := MergeInv.stepL hctx hL h hi (fun y hy1 hy2 => by omega)
      obtain ⟨d1, hm, hinv1⟩ := ih (i + 1) _ hinv (by omega)
      refine ⟨d1, ?_, hinv1⟩
      rw [show (i : Int) + 1 = ((i + 1 : Nat) : Int) by omega,
        show ((lo + i + R.length : Nat) : Int) + 1 = ((lo + (i + 1) + R.length : Nat) : Int)
          by omega]
      exact hm
    · have hi : i = L.length := by omega
      subst hi
      exact ⟨d, mergeRest_done _ _ _ _ _ _ hc, h⟩

theorem mergeRest_right_spec (data L R : List Int) (lo : Nat)
    (hn : data.length ≤ 2147483647) (hctx : lo + L.length + R.length ≤ data.length)
    (hR : ∀ a b, a < b → b < R.length → R.getD a 0 ≤ R.getD b 0) :
    ∀ (fuel j : Nat) (d : List Int), MergeInv data L R lo L.length j d →
      R.length - j ≤ fuel →
      ∃ d1 : List Int,
        mergeRest R (R.length : Int) fuel ((j : Int), ((lo + L.length + j : Nat) : Int), d) =
          .ok ((R.length : Int), ((lo + L.length + R.length : Nat) : Int), d1) ∧
        MergeInv data L R lo L.length R.length d1 := by
  intro fuel
  induction fuel with
  | zero =>
    intro j d h hf
    have h2 := h.2.1
    have hj : j = R.length := by omega
    subst hj
    exact ⟨d, mergeRest_done _ _ _ _ _ _ (by omega), h⟩
  | succ f ih =>
    intro j d h hf
    have h2 := h.2.1
    have hlen := h.2.2.1
    by_cases hc : (j : Int) < (R.length : Int)
    · have hj : j < R.length := by omega
      have hk : lo + L.length + j < d.length := by omega
      unfold mergeRest
      rw [if_pos hc]
      simp only [idx_natCast j (by omega), idx_natCast (lo + L.length + j) (by omega),
        rd_ok hj, wr_ok _ hk, Run.ok_bind]
      have hinv := MergeInv.stepR hctx hR h hj (fun x hx1 hx2 => by omega)
      obtain ⟨d1, hm, hinv1⟩ := ih (j + 1) _ hinv (by omega)
      refine ⟨d1, ?_, hinv1⟩
      rw [show (j : Int) + 1 = ((j + 1 : Nat) : Int) by omega,
        show ((lo + L.length + j : Nat) : Int) + 1 = ((lo + L.length + (j + 1) : Nat) : Int)
          by omega]
      exact hm
    · have hj : j = R.length := by omega
      subst hj
      exact ⟨d, mergeRest_done _ _ _ _ _ _ hc, h⟩

theorem seg_getD (d : List Int) (lo len x : Nat) (hx : x < len) :
    (seg d lo len).getD x 0 = d.getD (lo + x) 0 := by
  rw [List.getD_eq_getElem?_getD, List.getD_eq_getElem?_getD, seg_getElem?, if_pos hx]

theorem copy_spec (data : List Int) (base len : Nat) (hn : data.length ≤ 2147483647)
    (h : base + len ≤ data.length) :
    forLoopZ (copyStep data (base : Int)) len 0 (List.replicate len 0) =
      .ok (seg data base len) := by
  obtain ⟨arr, harr, hlen, hval⟩ := forLoopZ_inv (copyStep data (base : Int))
    (fun i arr => arr.length = len ∧ ∀ x : Nat, (x : Int) < i → arr[x]? = data[base + x]?)
    len 0 (List.replicate len 0) ⟨by simp, fun x hx => by omega⟩
    (fun j arr hj1 hj2 ⟨hl, hv⟩ => by
      obtain ⟨J, rfl⟩ := Int.eq_ofNat_of_zero_le hj1
      have hJ : J < len := by omega
      have hb : base + J < data.length := by omega
      refine ⟨arr.set J (data.getD (base + J) 0), ?_, by simpa using hl, fun x hx => ?_⟩
      · unfold copyStep
        rw [show (base : Int) + (J : Int) = ((base + J : Nat) : Int) by omega,
          idx_natCast _ (by omega), idx_natCast _ (by omega), rd_ok hb]
        simp only [Run.ok_bind]
        exact wr_ok _ (by omega)
      · rw [List.getElem?_set]
        by_cases hxJ : J = x
        · subst hxJ
          rw [if_pos rfl, if_pos (by omega), List.getD_eq_getElem?_getD,
            List.getElem?_eq_getElem hb]
          rfl
        · rw [if_neg hxJ]; exact hv x (by omega))
  rw [harr]
  congr 1
  apply List.ext_getElem?
  intro x
  rw [seg_getElem?]
  by_cases hx : x < len
  · rw [if_pos hx]; exact hval x (by omega)
  · rw [if_neg hx]; exact List.getElem?_eq_none (by omega)

theorem mergeLoops_spec (data L R : List Int) (lo : Nat)
    (hn : data.length ≤ 2147483647) (hctx : lo + L.length + R.length ≤ data.length)
    (hL : ∀ a b, a < b → b < L.length → L.getD a 0 ≤ L.getD b 0)
    (hR : ∀ a b, a < b → b < R.length → R.getD a 0 ≤ R.getD b 0) :
    ∃ d3, mergeLoops L R (L.length : Int) (R.length : Int) (lo : Int) data = .ok d3 ∧
      MergeInv data L R lo L.length R.length d3 := by
  have hinit : MergeInv data L R lo 0 0 data :=
    ⟨by omega, by omega, rfl, fun _ _ => rfl, by simp [seg],
      fun a b ha hab hb => by omega, fun a ha1 ha2 => by omega⟩
  obtain ⟨i1, j1, d1, hb, hinv1, hdone⟩ :=
    mergeBoth_spec data L R lo hn hctx hL hR (L.length + R.length) 0 0 data hinit (by omega)
  simp only [Nat.cast_zero, Nat.add_zero] at hb
  unfold mergeLoops
  rw [show ((L.length : Int) + (R.length : Int)).toNat = L.length + R.length by omega, hb]
  simp only [Run.ok_bind, Int.toNat_ofNat]
  rcases hdone with hd | hd
  · subst hd
    rw [mergeRest_done _ _ _ _ _ _ (by omega)]
    simp only [Run.ok_bind]
    obtain ⟨d3, hm, hinv3⟩ :=
      mergeRest_right_spec data L R lo hn hctx hR R.length j1 d1 hinv1 (by omega)
    rw [hm]
    exact ⟨d3, rfl, hinv3⟩
  · subst hd
    obtain ⟨d2, hm, hinv2⟩ :=
      mergeRest_left_spec data L R lo hn hctx hL L.length i1 d1 hinv1 (by omega)
    rw [hm]
    simp only [Run.ok_bind]
    rw [mergeRest_done _ _ _ _ _ _ (by omega)]
    exact ⟨d2, rfl, hinv2⟩

theorem merge_spec (data : List Int) (lo m hiE : Nat) (hn : data.length ≤ 2147483647)
    (h1 : lo ≤ m) (h2 : m + 1 < hiE) (h3 : hiE ≤ data.length)
    (hs1 : ∀ a b, lo ≤ a → a < b → b < m + 1 → data.getD a 0 ≤ data.getD b 0)
    (hs2 : ∀ a b, m + 1 ≤ a → a < b → b < hiE → data.getD a 0 ≤ data.getD b 0) :
    ∃ out, merge (lo : Int) (m : Int) ((hiE : Int) - 1) data = .ok out ∧
      out.length = data.length ∧ out.Perm data ∧
      (∀ k, k < lo ∨ hiE ≤ k → out.getD k 0 = data.getD k 0) ∧
      (∀ a b, lo ≤ a → a < b → b < hiE → out.getD a 0 ≤ out.getD b 0) := by
  have hn1 : (m : Int) - (lo : Int) + 1 = ((m + 1 - lo : Nat) : Int) := by omega
  have hn2 : (hiE : Int) - 1 - (m : Int) = ((hiE - (m + 1) : Nat) : Int) := by omega
  have hLlen : (seg data lo (m + 1 - lo)).length = m + 1 - lo := seg_length _ _ _ (by omega)
  have hRlen : (seg data (m + 1) (hiE - (m + 1))).length = hiE - (m + 1) :=
    seg_length _ _ _ (by omega)
  have hL : ∀ a b, a < b → b < (seg data lo (m + 1 - lo)).length →
      (seg data lo (m + 1 - lo)).getD a 0 ≤ (seg data lo (m + 1 - lo)).getD b 0 := by
    intro a b hab hb
    rw [seg_getD _ _ _ _ (by omega), seg_getD _ _ _ _ (by omega)]
    exact hs1 _ _ (by omega) (by omega) (by omega)
  have hR : ∀ a b, a < b → b < (seg data (m + 1) (hiE - (m + 1))).length →
      (seg data (m + 1) (hiE - (m + 1))).getD a 0 ≤
        (seg data (m + 1) (hiE - (m + 1))).getD b 0 := by
    intro a b hab hb
    rw [seg_getD _ _ _ _ (by omega), seg_getD _ _ _ _ (by omega)]
    exact hs2 _ _ (by omega) (by omega) (by omega)
  have hsplit : seg data lo ((m + 1 - lo) + (hiE - (m + 1))) =
      seg data lo (m + 1 - lo) ++ seg data (m + 1) (hiE - (m + 1)) := by
    rw [seg_add, show lo + (m + 1 - lo) = m + 1 by omega]
  have hrun : merge (lo : Int) (m : Int) ((hiE : Int) - 1) data =
      mergeLoops (seg data lo (m + 1 - lo)) (seg data (m + 1) (hiE - (m + 1)))
        ((m + 1 - lo : Nat) : Int) ((hiE - (m + 1) : Nat) : Int) (lo : Int) data := by
    unfold merge
    simp only [hn1, hn2, Int.toNat_ofNat, idx_natCast _
      (show m + 1 - lo < 18446744073709551616 by omega), idx_natCast _
      (show hiE - (m + 1) < 18446744073709551616 by omega)]
    rw [copy_spec data lo _ hn (by omega)]
    rw [show (m : Int) + 1 = ((m + 1 : Nat) : Int) by omega,
      copy_spec data (m + 1) _ hn (by omega)]
    rfl
  rw [hrun]
  generalize seg data lo (m + 1 - lo) = L at *
  generalize seg data (m + 1) (hiE - (m + 1)) = R at *
  obtain ⟨d3, hm, _, _, hlen3, hout3, hperm3, hsort3, _⟩ :=
    mergeLoops_spec data L R lo hn (by omega) hL hR
  rw [hLlen, hRlen] at hm hout3 hperm3 hsort3
  refine ⟨d3, hm, hlen3, ?_, ?_, ?_⟩
  · refine perm_of_segment data d3 lo ((m + 1 - lo) + (hiE - (m + 1))) hlen3
      (fun x hx => hout3 x (by omega)) ?_
    refine hperm3.trans ?_
    rw [List.take_of_length_le (by omega), List.take_of_length_le (by omega), hsplit]
  · intro k hk; exact hout3 k (by omega)
  · intro a b ha hab hb; exact hsort3 a b ha hab (by omega)

theorem mergeSort_spec (n : Nat) (hn : n ≤ 2147483647) :
    ∀ (f lo hiE : Nat) (d : List Int), lo ≤ hiE → hiE ≤ n → d.length = n → hiE - lo ≤ f + 1 →
      ∃ out, mergeSort f (lo : Int) ((hiE : Int) - 1) d = .ok out ∧ out.length = n ∧
        out.Perm d ∧
        (∀ k, k < lo ∨ hiE ≤ k → out.getD k 0 = d.getD k 0) ∧
        (∀ a b, lo ≤ a → a < b → b < hiE → out.getD a 0 ≤ out.getD b 0) := by
  intro f
  induction f with
  | zero =>
    intro lo hiE d h1 h2 hlen hf
    refine ⟨d, ?_, hlen, List.Perm.refl _, fun _ _ => rfl, fun a b ha hab hb => by omega⟩
    unfold mergeSort
    rw [if_neg (by omega)]
  | succ f ih =>
    intro lo hiE d h1 h2 hlen hf
    by_cases hlt : (lo : Int) < (hiE : Int) - 1
    · have hmid : (lo : Int) + ((hiE : Int) - 1 - (lo : Int)).tdiv 2 =
          ((lo + (hiE - 1 - lo) / 2 : Nat) : Int) := by
        rw [Int.tdiv_eq_ediv (by omega) (by omega)]; omega
      obtain ⟨m, hm⟩ : ∃ m, m = lo + (hiE - 1 - lo) / 2 := ⟨_, rfl⟩
      rw [← hm] at hmid
      have hm1 : lo ≤ m := by omega
      have hm2 : m + 1 < hiE := by omega
      obtain ⟨o1, ho1, hlen1, hperm1, hout1, hsort1⟩ :=
        ih lo (m + 1) d (by omega) (by omega) hlen (by omega)
      obtain ⟨o2, ho2, hlen2, hperm2, hout2, hsort2⟩ :=
        ih (m + 1) hiE o1 (by omega) h2 hlen1 (by omega)
      obtain ⟨o3, ho3, hlen3, hperm3, hout3, hsort3⟩ :=
        merge_spec o2 lo m hiE (by omega) hm1 hm2 (by omega)
          (fun a b ha hab hb => by
            rw [hout2 a (Or.inl (by omega)), hout2 b (Or.inl (by omega))]
            exact hsort1 a b ha hab hb)
          hsort2
      refine ⟨o3, ?_, by omega, hperm3.trans (hperm2.trans hperm1), ?_, hsort3⟩
      · unfold mergeSort
        rw [if_pos hlt]
        simp only [hmid]
        rw [show (m : Int) = ((m + 1 : Nat) : Int) - 1 by omega, ho1]
        simp only [Run.ok_bind]
        rw [show ((m + 1 : Nat) : Int) - 1 + 1 = ((m + 1 : Nat) : Int) by omega, ho2]
        simp only [Run.ok_bind]
        rw [show ((m + 1 : Nat) : Int) - 1 = (m : Int) by omega]
        exact ho3
      · intro k hk
        rw [hout3 k hk, hout2 k (by omega), hout1 k (by omega)]
    · refine ⟨d, ?_, hlen, List.Perm.refl _, fun _ _ => rfl, fun a b ha hab hb => by omega⟩
      unfold mergeSort
      rw [if_neg hlt]

theorem mergeSortRun_sorts (S : List Int) (h : S.length ≤ 2147483647) :
    ∃ out, mergeSortRun S = .ok out ∧ out.Sorted (· ≤ ·) ∧ out.Perm S := by
  have hhigh : toInt32 ((usub (usize S) 1 : Nat) : Int) = (S.length : Int) - 1 := by
    unfold toInt32 usub usize; omega
  obtain ⟨out, ho, hlen, hperm, _, hsort⟩ :=
    mergeSort_spec S.length h S.length 0 S.length S (by omega) (le_refl _) rfl (by omega)
  refine ⟨out, ?_, sorted_of_getD out (fun a b hab hb => hsort a b (by omega) hab (by omega)),
    hperm⟩
  unfold mergeSortRun
  rw [hhigh]
  exact ho

theorem upd_same {α : Type} (t : Pos → α) (p : Pos) (v : α) : upd t p v p = v := by
  simp [upd]

theorem upd_other {α : Type} (t : Pos → α) (p q : Pos) (v : α) (h : q ≠ p) :
    upd t p v q = t q := by
  simp [upd, h]

theorem tget_ok {α : Type} {n : Int} (t : Pos → α) {p : Pos} (h : inBounds n p = true) :
    tget n t p = .ok (t p) := by
  simp [tget, h]

theorem tset_ok {α : Type} {n : Int} (t : Pos → α) {p : Pos} (v : α)
    (h : inBounds n p = true) : tset n t p v = .ok (upd t p v) := by
  simp [tset, h]

theorem walkBack_spec (adj : Pos → Pos → Prop) (n : Int) (startPoint endPoint : Pos)
    (parent : Pos → Pos) (R : Pos → Prop) (rank : Pos → Nat)
    (h : ParentsOK adj n startPoint endPoint parent R rank) :
    ∀ (fuel : Nat) (cur : Pos) (g : Pos → Int) (route : List Pos), R cur → rank cur < fuel →
      ∃ (g1 : Pos → Int) (pre : List Pos),
        walkBack n startPoint parent fuel cur (g, route) = .ok (g1, pre ++ route) ∧
        List.Chain' adj (pre ++ [cur]) ∧
        (pre ++ [cur]).head? = some startPoint ∧
        (∀ p ∈ pre, R p ∧ rank p < rank cur ∧ p ≠ endPoint) ∧
        List.Pairwise (fun a b => rank a < rank b) (pre ++ [cur]) ∧
        (∀ p, g1 p = if p ∈ pre ∧ p ≠ startPoint then 3 else g p) := by
  intro fuel
  induction fuel with
  | zero => intro cur g route _ hr; omega
  | succ f ih =>
    intro cur g route hR hr
    by_cases hcs : cur = startPoint
    · refine ⟨g, [], ?_, by simp, by simp [hcs], by simp, by simp, by simp⟩
      unfold walkBack
      rw [if_pos hcs]; rfl
    · obtain ⟨hRp, hadj, hrank, hne⟩ := h.2 cur hR hcs
      have hb : inBounds n (parent cur) = true := h.1 _ hRp
      have hbc : inBounds n cur = true := h.1 _ hR
      obtain ⟨g1, pre, hw, hchain, hhead, hpre, hpw, hg⟩ :=
        ih (parent cur) (if parent cur ≠ startPoint then upd g (parent cur) 3 else g)
          (parent cur :: route) hRp (by omega)
      refine ⟨g1, pre ++ [parent cur], ?_, ?_, ?_, ?_, ?_, ?_⟩
      · unfold walkBack
        rw [if_neg hcs, tget_ok _ hbc]
        simp only [Run.ok_bind]
        by_cases hps : parent cur = startPoint
        · simp only [hps, ne_eq, not_true_eq_false, if_false, Run.ok_bind] at hw ⊢
          rw [hw]; simp
        · simp only [ne_eq, hps, not_false_eq_true, if_true, tset_ok _ _ hb, Run.ok_bind] at hw ⊢
          rw [hw]; simp
      · rw [List.chain'_append]
        refine ⟨hchain, List.chain'_singleton _, ?_⟩
        intro x hx y hy
        simp at hx hy
        subst hx; subst hy; exact hadj
      · cases pre with
        | nil => simpa using hhead
        | cons a l => simpa using hhead
      · intro p hp
        rw [List.mem_append, List.mem_singleton] at hp
        rcases hp with hp | hp
        · obtain ⟨h1, h2, h3⟩ := hpre p hp
          exact ⟨h1, by omega, h3⟩
        · subst hp; exact ⟨hRp, hrank, hne⟩
      · rw [List.pairwise_append]
        refine ⟨hpw, List.pairwise_singleton _ _, ?_⟩
        intro a ha b hb2
        rw [List.mem_singleton] at hb2
        subst hb2
        rw [List.mem_append, List.mem_singleton] at ha
        rcases ha with ha | ha
        · have := (hpre a ha).2.1; omega
        · subst ha; exact hrank
      · intro p
        rw [hg p]
        by_cases hpp : p ∈ pre ∧ p ≠ startPoint
        · rw [if_pos hpp, if_pos ⟨List.mem_append_left _ hpp.1, hpp.2⟩]
        · rw [if_neg hpp]
          by_cases hpc : p = parent cur
          · subst hpc
            by_cases hps : parent cur = startPoint
            · rw [if_neg (by simp [hps]), if_neg (fun hh => hh.2 hps)]
            · rw [if_pos hps, upd_same, if_pos ⟨by simp, hps⟩]
          · have hnm : ¬ (p ∈ pre ++ [parent cur] ∧ p ≠ startPoint) := by
              intro hh
              rw [List.mem_append, List.mem_singleton] at hh
              rcases hh.1 with h1 | h1
              · exact hpp ⟨h1, hh.2⟩
              · exact hpc h1
            rw [if_neg hnm]
            by_cases hps : parent cur = startPoint
            · rw [if_neg (by simp [hps])]
            · rw [if_pos hps, upd_other _ _ _ _ hpc]

theorem mem_cells (n : Int) (p : Pos) : p ∈ cells n ↔ inBounds n p = true := by
  simp only [cells, Finset.mem_product, Finset.mem_Icc, inBounds, Bool.and_eq_true,
    decide_eq_true_eq]
  constructor
  · rintro ⟨⟨h1, h2⟩, h3, h4⟩; exact ⟨⟨⟨h1, by omega⟩, h3⟩, by omega⟩
  · rintro ⟨⟨⟨h1, h2⟩, h3⟩, h4⟩; exact ⟨⟨h1, by omega⟩, h3, by omega⟩

theorem unvisitedCount_upd (n : Int) (vis : Pos → Bool) (p : Pos)
    (hb : inBounds n p = true) (hv : vis p = false) :
    unvisitedCount n (upd vis p true) + 1 = unvisitedCount n vis := by
  unfold unvisitedCount
  have hmem : p ∈ (cells n).filter (fun q => vis q = false) := by
    rw [Finset.mem_filter]; exact ⟨(mem_cells n p).mpr hb, hv⟩
  have heq : (cells n).filter (fun q => upd vis p true q = false) =
      ((cells n).filter (fun q => vis q = false)).erase p := by
    ext q
    simp only [Finset.mem_filter, Finset.mem_erase, upd]
    by_cases hq : q = p
    · subst hq; simp
    · simp [hq]
  rw [heq, Finset.card_erase_of_mem hmem]
  have : 0 < ((cells n).filter (fun q => vis q = false)).card := Finset.card_pos.mpr ⟨p, hmem⟩
  omega

theorem unvisitedCount_le (n : Int) (vis : Pos → Bool) :
    unvisitedCount n vis ≤ (cells n).card := Finset.card_filter_le _ _

theorem grid_ne_one_of_core {w : World} {L : Pos → Nat} {s : Search} (h : BfsCore w L s)
    (p : Pos) : s.grid p ≠ 1 ↔ w.grid p ≠ 1 := by
  by_cases hp : s.grid p = w.grid p
  · rw [hp]
  · obtain ⟨h1, _, _, h4⟩ := h.1 p hp
    constructor
    · intro _; exact h1.2
    · intro _; rw [h4]; decide

theorem bfsVisit_eq (n : Int) (c d : Pos) (s : Search) :
    bfsVisit n c s d =
      if (inBounds n (c.1 + d.1, c.2 + d.2) && !s.visited (c.1 + d.1, c.2 + d.2) &&
          s.grid (c.1 + d.1, c.2 + d.2) != 1) = true then
        { s with frontier := s.frontier ++ [(c.1 + d.1, c.2 + d.2)],
                 visited := upd s.visited (c.1 + d.1, c.2 + d.2) true,
                 parent := upd s.parent (c.1 + d.1, c.2 + d.2) c }
      else s := rfl

theorem adj4_symm {p q : Pos} (h : adj4 p q) : adj4 q p := by
  obtain ⟨e, he, hqe⟩ := h
  refine ⟨(-e.1, -e.2), ?_, ?_⟩
  · simp only [directions4, List.mem_cons, List.mem_singleton, List.mem_nil_iff,
      or_false] at he ⊢
    rcases he with rfl | rfl | rfl | rfl <;> simp
  · rw [hqe]; ext <;> simp

theorem bfsVisit_mid (w : World) (L : Pos → Nat) (s : Search) (c d : Pos) (pend : List Pos)
    (hd : d ∈ directions4) (h : BfsMid w L s c (d :: pend)) :
    ∃ L1, BfsMid w L1 (bfsVisit w.gridSize c s d) c pend := by
  obtain ⟨hcore, hF1, hE, hCv, hCe, hQ1, hQ2, hX⟩ := h
  obtain ⟨hFR, hV0, hL0, hV1, hP, hM, hB⟩ := hcore
  have hgrid := grid_ne_one_of_core (L := L) (s := s) ⟨hFR, hV0, hL0, hV1, hP, hM, hB⟩
  rw [bfsVisit_eq]
  by_cases hcond : (inBounds w.gridSize (c.1 + d.1, c.2 + d.2) &&
      !s.visited (c.1 + d.1, c.2 + d.2) && s.grid (c.1 + d.1, c.2 + d.2) != 1) = true
  · rw [if_pos hcond]
    simp only [Bool.and_eq_true, Bool.not_eq_true', bne_iff_ne, ne_eq] at hcond
    obtain ⟨⟨hnb, hnv⟩, hng⟩ := hcond
    generalize hnx : ((c.1 + d.1, c.2 + d.2) : Pos) = next at *
    have hnpass : passable w next := ⟨hnb, (hgrid next).mp hng⟩
    have hns : next ≠ w.startPoint := by
      intro he; rw [he, hV0] at hnv; exact Bool.noConfusion hnv
    have hnc : next ≠ c := by
      intro he; rw [he, hCv] at hnv; exact Bool.noConfusion hnv
    have hadj : adj4 c next := ⟨d, hd, hnx.symm⟩
    have hvis : ∀ p, upd s.visited next true p = true ↔ p = next ∨ s.visited p = true := by
      intro p
      by_cases hp : p = next
      · subst hp; simp [upd]
      · simp [upd, hp]
    have hvn : ∀ p, s.visited p = true → p ≠ next := by
      intro p hp he; rw [he, hnv] at hp; exact Bool.noConfusion hp
    obtain ⟨L1, hLnn, hLn⟩ : ∃ L1 : Pos → Nat, L1 next = L c + 1 ∧ ∀ p, p ≠ next → L1 p = L p :=
      ⟨fun q => if q = next then L c + 1 else L q, by simp, fun p hp => by simp [hp]⟩
    have hcnt := unvisitedCount_upd w.gridSize s.visited next hnb hnv
    refine ⟨L1, ⟨hFR, (hvis _).mpr (Or.inr hV0), by rw [hLn _ hns.symm]; exact hL0,
      ?_, ?_, ?_, ?_⟩, ?_, ?_, (hvis _).mpr (Or.inr hCv), hCe, ?_, ?_, ?_⟩
    · intro p hp
      dsimp only at hp
      rcases (hvis p).mp hp with hp | hp
      · subst hp; exact hnpass
      · exact hV1 p hp
    · intro p hp hps
      dsimp only at hp ⊢
      rcases (hvis p).mp hp with hp | hp
      · subst hp
        simp only [upd_same]
        refine ⟨(hvis _).mpr (Or.inr hCv), hadj, ?_, hCe⟩
        rw [hLnn, hLn _ hnc.symm]
      · have hpn := hvn p hp
        simp only [upd_other _ _ _ _ hpn]
        obtain ⟨h1, h2, h3, h4⟩ := hP p hp hps
        refine ⟨(hvis _).mpr (Or.inr h1), h2, ?_, h4⟩
        rw [hLn _ hpn, hLn _ (hvn _ h1)]; exact h3
    · intro p q hp hq hpq
      dsimp only at hp hq
      rcases (hvis p).mp hp with hp1 | hp1 <;> rcases (hvis q).mp hq with hq1 | hq1
      · subst hp1; subst hq1; omega
      · -- `p` is the new cell, `q` was visited before
        subst hp1
        rw [hLnn, hLn _ (hvn _ hq1)]
        by_cases hqc : q = c
        · subst hqc; omega
        · by_cases hqf : q ∈ s.frontier
          · have := (hQ2 q hqf).2; omega
          · rcases hX q hq1 hqf p (adj4_symm hpq) hnpass with ⟨h1, _⟩ | h1
            · exact absurd h1 hqc
            · rw [hnv] at h1; exact Bool.noConfusion h1
      · -- `q` is the new cell, `p` was visited before
        subst hq1
        rw [hLnn, hLn _ (hvn _ hp1)]
        by_cases hpc : p = c
        · subst hpc; omega
        · by_cases hpf : p ∈ s.frontier
          · have := (hQ2 p hpf).1; omega
          · rcases hX p hp1 hpf q hpq hnpass with ⟨h1, _⟩ | h1
            · exact absurd h1 hpc
            · rw [hnv] at h1; exact Bool.noConfusion h1
      · rw [hLn _ (hvn _ hp1), hLn _ (hvn _ hq1)]; exact hM p q hp1 hq1 hpq
    · intro p hp
      dsimp only at hp ⊢
      rcases (hvis p).mp hp with hp | hp
      · subst hp
        have := hB c hCv
        rw [hLnn]; omega
      · have := hB p hp
        rw [hLn _ (hvn _ hp)]; omega
    · intro p hp
      dsimp only at hp ⊢
      rw [List.mem_append, List.mem_singleton] at hp
      rcases hp with hp | hp
      · exact (hvis p).mpr (Or.inr (hF1 p hp))
      · exact (hvis p).mpr (Or.inl hp)
    · intro he
      dsimp only at he ⊢
      rcases (hvis _).mp he with he | he
      · rw [he]; simp
      · exact List.mem_append_left _ (hE he)
    · dsimp only
      rw [List.pairwise_append]
      refine ⟨?_, List.pairwise_singleton _ _, ?_⟩
      · refine hQ1.imp_of_mem ?_
        intro a b ha hb hab
        rw [hLn _ (hvn _ (hF1 a ha)), hLn _ (hvn _ (hF1 b hb))]; exact hab
      · intro a ha b hb
        rw [List.mem_singleton] at hb
        subst hb
        rw [hLnn, hLn _ (hvn _ (hF1 a ha))]
        exact (hQ2 a ha).2
    · intro p hp
      dsimp only at hp
      rw [List.mem_append, List.mem_singleton] at hp
      rw [hLn _ hnc.symm]
      rcases hp with hp | hp
      · rw [hLn _ (hvn _ (hF1 p hp))]; exact hQ2 p hp
      · subst hp; rw [hLnn]; omega
    · intro p hp hpf q hpq hq
      dsimp only at hp hpf ⊢
      rw [List.mem_append, List.mem_singleton, not_or] at hpf
      rcases (hvis p).mp hp with hp | hp
      · exact absurd hp hpf.2
      · rcases hX p hp hpf.1 q hpq hq with ⟨h1, e, he, hqe⟩ | h1
        · rw [List.mem_cons] at he
          rcases he with he | he
          · subst he
            right; rw [hvis]; left; rw [hqe]; exact hnx
          · left; exact ⟨h1, e, he, hqe⟩
        · right; exact (hvis q).mpr (Or.inr h1)
  · rw [if_neg hcond]
    refine ⟨L, ⟨hFR, hV0, hL0, hV1, hP, hM, hB⟩, hF1, hE, hCv, hCe, hQ1, hQ2, ?_⟩
    intro p hp hpf q hpq hq
    rcases hX p hp hpf q hpq hq with ⟨h1, e, he, hqe⟩ | h1
    · rw [List.mem_cons] at he
      rcases he with he | he
      · subst he
        right
        rw [← hqe] at hcond
        have hqb : inBounds w.gridSize q = true := hq.1
        have hqg : s.grid q ≠ 1 := (hgrid q).mpr hq.2
        by_contra hv
        have hv2 : s.visited q = false := by simpa using hv
        apply hcond
        simp [hqb, hv2, hqg]
      · left; exact ⟨h1, e, he, hqe⟩
    · right; exact h1

theorem bfsVisit_measure (n : Int) (c d : Pos) (s : Search) :
    bfsMeasure n (bfsVisit n c s d) = bfsMeasure n s := by
  rw [bfsVisit_eq]
  by_cases hcond : (inBounds n (c.1 + d.1, c.2 + d.2) &&
      !s.visited (c.1 + d.1, c.2 + d.2) && s.grid (c.1 + d.1, c.2 + d.2) != 1) = true
  · rw [if_pos hcond]
    simp only [Bool.and_eq_true, Bool.not_eq_true', bne_iff_ne, ne_eq] at hcond
    obtain ⟨⟨hnb, hnv⟩, _⟩ := hcond
    have := unvisitedCount_upd n s.visited _ hnb hnv
    simp only [bfsMeasure, List.length_append, List.length_singleton]
    omega
  · rw [if_neg hcond]

theorem bfsFold_mid (w : World) (c : Pos) :
    ∀ (dirs : List Pos), (∀ d ∈ dirs, d ∈ directions4) → ∀ (s : Search) (L : Pos → Nat),
      BfsMid w L s c dirs →
      ∃ L1, BfsMid w L1 (dirs.foldl (bfsVisit w.gridSize c) s) c [] ∧
        bfsMeasure w.gridSize (dirs.foldl (bfsVisit w.gridSize c) s) =
          bfsMeasure w.gridSize s := by
  intro dirs
  induction dirs with
  | nil => intro _ s L h; exact ⟨L, h, rfl⟩
  | cons d ds ih =>
    intro hd s L h
    obtain ⟨L1, h1⟩ := bfsVisit_mid w L s c d ds (hd d (List.mem_cons_self _ _)) h
    obtain ⟨L2, h2, hm⟩ := ih (fun e he => hd e (List.mem_cons_of_mem _ he)) _ L1 h1
    refine ⟨L2, h2, ?_⟩
    rw [List.foldl_cons, hm, bfsVisit_measure]

theorem bfs_pop (w : World) (L : Pos → Nat) (s : Search) (c : Pos) (rest : List Pos)
    (h : BfsOuter w L s) (hf : s.frontier = c :: rest) (hce : c ≠ w.endPoint) :
    ∃ g1, markVisited w.gridSize w.startPoint w.endPoint c s.grid = .ok g1 ∧
      BfsMid w L { s with frontier := rest, grid := g1 } c directions4 := by
  obtain ⟨hcore, hF1, hE, hQ1, hQ2, hX⟩ := h
  obtain ⟨hFR, hV0, hL0, hV1, hP, hM, hB⟩ := hcore
  rw [hf] at hF1 hE hQ1 hQ2 hX
  have hcv : s.visited c = true := hF1 c (List.mem_cons_self _ _)
  have hcp : passable w c := hV1 c hcv
  have hmid : ∀ g1 : Pos → Int,
      (∀ p, g1 p ≠ w.grid p →
        passable w p ∧ p ≠ w.startPoint ∧ p ≠ w.endPoint ∧ g1 p = 2) →
      BfsMid w L { s with frontier := rest, grid := g1 } c directions4 := by
    intro g1 hg1
    refine ⟨⟨hg1, hV0, hL0, hV1, hP, hM, hB⟩, fun p hp => hF1 p (List.mem_cons_of_mem _ hp),
      ?_, hcv, hce, (List.pairwise_cons.mp hQ1).2, ?_, ?_⟩
    · intro he
      have := hE he
      rw [List.mem_cons] at this
      rcases this with h1 | h1
      · exact absurd h1.symm hce
      · exact h1
    · intro p hp
      exact ⟨(List.pairwise_cons.mp hQ1).1 p hp,
        hQ2 c (List.mem_cons_self _ _) p (List.mem_cons_of_mem _ hp)⟩
    · intro p hp hpf q hpq hq
      dsimp only at hp hpf ⊢
      by_cases hpc : p = c
      · left
        refine ⟨hpc, ?_⟩
        subst hpc
        exact hpq
      · right
        exact hX p hp (by rw [List.mem_cons, not_or]; exact ⟨hpc, hpf⟩) q hpq hq
  unfold markVisited
  by_cases hc : c ≠ w.startPoint ∧ c ≠ w.endPoint
  · rw [if_pos hc, tset_ok _ _ hcp.1]
    refine ⟨_, rfl, hmid _ ?_⟩
    intro p hp
    by_cases hpc : p = c
    · subst hpc
      exact ⟨hcp, hc.1, hc.2, upd_same _ _ _⟩
    · rw [upd_other _ _ _ _ hpc] at hp ⊢
      exact hFR p hp
  · rw [if_neg hc]
    exact ⟨_, rfl, hmid _ hFR⟩

theorem bfs_close (w : World) (L : Pos → Nat) (s : Search) (c : Pos)
    (h : BfsMid w L s c []) : BfsOuter w L s := by
  obtain ⟨hcore, hF1, hE, hCv, hCe, hQ1, hQ2, hX⟩ := h
  refine ⟨hcore, hF1, hE, hQ1, ?_, ?_⟩
  · intro a ha b hb
    have h1 := (hQ2 a ha).1
    have h2 := (hQ2 b hb).2
    omega
  · intro p hp hpf q hpq hq
    rcases hX p hp hpf q hpq hq with ⟨_, e, he, _⟩ | h1
    · simp at he
    · exact h1

theorem bfsLoop_nil (n : Int) (a b : Pos) (fuel : Nat) (s : Search) (h : s.frontier = []) :
    bfsLoop n a b fuel s = .ok (false, s) := by
  unfold bfsLoop
  rw [h]

theorem bfsLoop_cons (n : Int) (a b : Pos) (f : Nat) (s : Search) (c : Pos) (rest : List Pos)
    (h : s.frontier = c :: rest) :
    bfsLoop n a b (f + 1) s =
      if c = b then .ok (true, { s with frontier := rest })
      else markVisited n a b c s.grid >>= fun g1 =>
        bfsLoop n a b f
          (directions4.foldl (bfsVisit n c) { s with frontier := rest, grid := g1 }) := by
  rw [bfsLoop]
  simp only [h]

theorem bfsLoop_spec (w : World) :
    ∀ (fuel : Nat) (s : Search) (L : Pos → Nat), BfsOuter w L s →
      bfsMeasure w.gridSize s < fuel →
      ∃ (found : Bool) (s1 : Search) (L1 : Pos → Nat),
        bfsLoop w.gridSize w.startPoint w.endPoint fuel s = .ok (found, s1) ∧
        BfsCore w L1 s1 ∧
        (found = true → s1.visited w.endPoint = true ∧
          ∀ p, s1.visited p = true → L1 p < L1 w.endPoint →
            ∀ q, adj4 p q → passable w q → s1.visited q = true) ∧
        (found = false → s1.visited w.endPoint = false ∧
          ∀ p, s1.visited p = true → ∀ q, adj4 p q → passable w q → s1.visited q = true) := by
  intro fuel
  induction fuel with
  | zero => intro s L _ hm; omega
  | succ f ih =>
    intro s L h hm
    cases hfr : s.frontier with
    | nil =>
      obtain ⟨hcore, hF1, hE, hQ1, hQ2, hX⟩ := h
      refine ⟨false, s, L, bfsLoop_nil _ _ _ _ _ hfr, hcore, fun hh => Bool.noConfusion hh,
        fun _ => ⟨?_, fun p hp q hpq hq => hX p hp (by rw [hfr]; simp) q hpq hq⟩⟩
      by_contra hv
      have hv2 : s.visited w.endPoint = true := by simpa using hv
      have := hE hv2
      rw [hfr] at this
      simp at this
    | cons c rest =>
      rw [bfsLoop_cons _ _ _ _ _ _ _ hfr]
      by_cases hce : c = w.endPoint
      · rw [if_pos hce]
        obtain ⟨hcore, hF1, hE, hQ1, hQ2, hX⟩ := h
        refine ⟨true, _, L, rfl, hcore, fun _ => ⟨?_, ?_⟩, fun hh => Bool.noConfusion hh⟩
        · exact hF1 _ (by rw [hfr, hce]; exact List.mem_cons_self _ _)
        · intro p hp hlt q hpq hq
          dsimp only at hp ⊢
          refine hX p hp ?_ q hpq hq
          intro hpf
          rw [hfr, List.mem_cons] at hpf
          rw [hfr] at hQ1
          rcases hpf with h1 | h1
          · rw [h1, hce] at hlt; omega
          · have := (List.pairwise_cons.mp hQ1).1 p h1
            rw [hce] at this; omega
      · rw [if_neg hce]
        obtain ⟨g1, hg1, hmid⟩ := bfs_pop w L s c rest h hfr hce
        rw [hg1]
        simp only [Run.ok_bind]
        obtain ⟨L1, hmid1, hmeas⟩ := bfsFold_mid w c directions4 (fun _ hd => hd) _ L hmid
        have hout := bfs_close w L1 _ c hmid1
        have hm2 : bfsMeasure w.gridSize
            (directions4.foldl (bfsVisit w.gridSize c) { s with frontier := rest, grid := g1 })
            < f := by
          rw [hmeas]
          simp only [bfsMeasure] at hm ⊢
          rw [hfr, List.length_cons] at hm
          omega
        exact ih _ L1 hout hm2

theorem ranked_length (rank : Pos → Nat) :
    ∀ (l : List Pos) (a x : Pos), l.Pairwise (fun p q => rank p < rank q) →
      l.head? = some a → l.getLast? = some x → rank a + l.length ≤ rank x + 1 := by
  intro l
  induction l with
  | nil => intro a x _ h; simp at h
  | cons b t ih =>
    intro a x hp hh hl
    simp only [List.head?_cons, Option.some.injEq] at hh
    subst hh
    cases t with
    | nil =>
      simp only [List.getLast?_singleton, Option.some.injEq] at hl
      subst hl; simp
    | cons c t2 =>
      have h1 := ih c x (List.pairwise_cons.mp hp).2 rfl (by simpa using hl)
      have h2 := (List.pairwise_cons.mp hp).1 c (List.mem_cons_self _ _)
      simp only [List.length_cons] at h1 ⊢
      omega

theorem closed_visits_path (w : World) (vis : Pos → Bool)
    (hcl : ∀ p, vis p = true → ∀ q, adj4 p q → passable w q → vis q = true) :
    ∀ (l : List Pos) (a : Pos), vis a = true → List.Chain adj4 a l →
      (∀ p ∈ l, passable w p) → ∀ p ∈ l, vis p = true := by
  intro l
  induction l with
  | nil => intro a _ _ _ p hp; simp at hp
  | cons b t ih =>
    intro a ha hc hpass p hp
    rw [List.chain_cons] at hc
    have hb : vis b = true := hcl a ha b hc.1 (hpass b (List.mem_cons_self _ _))
    rw [List.mem_cons] at hp
    rcases hp with hp | hp
    · rw [hp]; exact hb
    · exact ih b hb hc.2 (fun q hq => hpass q (List.mem_cons_of_mem _ hq)) p hp

theorem level_le_path (w : World) (L : Pos → Nat) (s : Search)
    (hM : ∀ p q, s.visited p = true → s.visited q = true → adj4 p q → L q ≤ L p + 1)
    (hcl : ∀ p, s.visited p = true → L p < L w.endPoint →
      ∀ q, adj4 p q → passable w q → s.visited q = true) :
    ∀ (l : List Pos) (a : Pos) (k : Nat), s.visited a = true → L a ≤ k →
      List.Chain adj4 a l → (∀ p ∈ l, passable w p) →
      (a :: l).getLast? = some w.endPoint → L w.endPoint ≤ k + l.length := by
  intro l
  induction l with
  | nil =>
    intro a k _ hk _ _ hl
    simp only [List.getLast?_singleton, Option.some.injEq] at hl
    rw [← hl]; simpa using hk
  | cons b t ih =>
    intro a k ha hk hc hpass hl
    rw [List.chain_cons] at hc
    by_cases hlt : L a < L w.endPoint
    · have hb : s.visited b = true :=
        hcl a ha hlt b hc.1 (hpass b (List.mem_cons_self _ _))
      have hLb := hM a b ha hb hc.1
      have := ih b (k + 1) hb (by omega) hc.2
        (fun q hq => hpass q (List.mem_cons_of_mem _ hq)) (by simpa using hl)
      simp only [List.length_cons]
      omega
    · simp only [List.length_cons]; omega

theorem unvisitedCount_init (n : Int) (a : Pos) (h : inBounds n a = true) :
    unvisitedCount n (upd (fun _ => false) a true) + 1 = (cells n).card := by
  rw [unvisitedCount_upd n (fun _ => false) a h rfl]
  unfold unvisitedCount
  rw [Finset.filter_true_of_mem (fun _ _ => rfl)]

theorem bfs_init_outer (w : World) (hs : passable w w.startPoint) :
    BfsOuter w (fun _ => 0)
      { grid := w.grid, visited := upd (fun _ => false) w.startPoint true,
        parent := fun _ => (-1, -1), frontier := [w.startPoint] } := by
  have hvis : ∀ p, upd (fun _ => false) w.startPoint true p = true → p = w.startPoint := by
    intro p hp
    by_contra hne
    rw [upd_other _ _ _ _ hne] at hp
    exact Bool.noConfusion hp
  unfold BfsOuter BfsCore
  dsimp only
  refine ⟨⟨fun p hp => absurd rfl hp, upd_same _ _ _, rfl, ?_, ?_, ?_, ?_⟩, ?_, ?_, ?_, ?_, ?_⟩
  · intro p hp; rw [hvis p hp]; exact hs
  · intro p hp hne; exact absurd (hvis p hp) hne
  · intro p q _ _ _; omega
  · intro p _
    have := unvisitedCount_init w.gridSize w.startPoint hs.1
    omega
  · intro p hp
    rw [List.mem_singleton] at hp
    rw [hp]; exact upd_same _ _ _
  · intro he
    rw [hvis _ he]; exact List.mem_singleton_self _
  · exact List.pairwise_singleton _ _
  · intro a _ b _; omega
  · intro p hp hpf
    exact absurd (List.mem_singleton.mpr (hvis p hp)) hpf

theorem bfs_shortest (w : World) (h : ∃ l, OrthPath w l) :
    ∃ F, ∀ fuel, F ≤ fuel → ∃ r, bfs fuel w = .ok r ∧ r.found = true ∧
      OrthPath w r.route ∧ ∀ l, OrthPath w l → r.route.length ≤ l.length := by
  obtain ⟨l0, hh0, hl0, hc0, hp0⟩ := h
  have hs : passable w w.startPoint := by
    cases l0 with
    | nil => simp at hh0
    | cons a t =>
      simp only [List.head?_cons, Option.some.injEq] at hh0
      rw [← hh0]; exact hp0 a (List.mem_cons_self _ _)
  refine ⟨(cells w.gridSize).card + 1, fun fuel hfuel => ?_⟩
  have hcnt := unvisitedCount_init w.gridSize w.startPoint hs.1
  obtain ⟨found, s1, L1, hloop, hcore, hfound, hnot⟩ :=
    bfsLoop_spec w fuel _ _ (bfs_init_outer w hs) (by simp only [bfsMeasure, List.length_singleton]; omega)
  obtain ⟨hFR, hV0, hL0, hV1, hP, hM, hB⟩ := hcore
  -- the search cannot fail: the visited cells would be closed under passable moves
  have hf : found = true := by
    by_contra hne
    have hff : found = false := by simpa using hne
    obtain ⟨hne2, hcl⟩ := hnot hff
    cases l0 with
    | nil => simp at hh0
    | cons a t =>
      simp only [List.head?_cons, Option.some.injEq] at hh0
      subst hh0
      have hall := closed_visits_path w s1.visited hcl t w.startPoint hV0 hc0
        (fun p hp => hp0 p (List.mem_cons_of_mem _ hp))
      have hend : w.endPoint ∈ w.startPoint :: t := List.mem_of_getLast?_eq_some hl0
      rw [List.mem_cons] at hend
      rcases hend with he | he
      · rw [he, hV0] at hne2; exact Bool.noConfusion hne2
      · rw [hall _ he] at hne2; exact Bool.noConfusion hne2
  subst hf
  obtain ⟨hve, hcl⟩ := hfound rfl
  have hpar : ParentsOK adj4 w.gridSize w.startPoint w.endPoint s1.parent
      (fun p => s1.visited p = true) L1 := by
    refine ⟨fun p hp => (hV1 p hp).1, fun p hp hne => ?_⟩
    obtain ⟨h1, h2, h3, h4⟩ := hP p hp hne
    exact ⟨h1, h2, by omega, h4⟩
  have hrank : L1 w.endPoint < fuel := by
    have := hB _ hve; omega
  obtain ⟨g1, pre, hw, hchain, hhead, hpre, hpw, hg⟩ :=
    walkBack_spec adj4 w.gridSize w.startPoint w.endPoint s1.parent _ L1 hpar fuel
      w.endPoint s1.grid [w.endPoint] hve hrank
  have hlast : (pre ++ [w.endPoint]).getLast? = some w.endPoint := by simp
  refine ⟨{ found := true, grid := g1, parent := s1.parent, route := pre ++ [w.endPoint] },
    ?_, rfl, ⟨hhead, hlast, hchain, ?_⟩, ?_⟩
  · unfold bfs
    rw [tset_ok _ _ hs.1]
    simp only [Run.ok_bind, hloop, reconstruct, if_true, hw, Run.pure_eq]
  · intro p hp
    rw [List.mem_append, List.mem_singleton] at hp
    rcases hp with hp | hp
    · exact hV1 p (hpre p hp).1
    · rw [hp]; exact hV1 _ hve
  · intro l hl
    obtain ⟨hh, hll, hc, hpp⟩ := hl
    have h1 := ranked_length L1 _ _ _ hpw hhead hlast
    cases l with
    | nil => simp at hh
    | cons a t =>
      simp only [List.head?_cons, Option.some.injEq] at hh
      subst hh
      have h2 := level_le_path w L1 s1 hM hcl t w.startPoint 0 hV0 (by omega) hc
        (fun p hp => hpp p (List.mem_cons_of_mem _ hp)) hll
      simp only [List.length_cons]
      omega

theorem reconstruct_spec (adj : Pos → Pos → Prop) (w : World) (bound fuel : Nat)
    (found : Bool) (grid : Pos → Int) (parent : Pos → Pos) (hfuel : bound ≤ fuel)
    (h : SearchPost adj w bound found grid parent) :
    ∃ r, reconstruct w fuel found grid parent = .ok r ∧ r.found = found ∧
      r.parent = parent ∧ GoodResult adj w r := by
  obtain ⟨hFR, hfound⟩ := h
  cases found with
  | false =>
    refine ⟨{ found := false, grid := grid, parent := parent, route := [] }, rfl, rfl, rfl,
      ?_, fun hh => Bool.noConfusion hh, fun _ => ⟨rfl, ?_⟩⟩
    · intro p hp
      obtain ⟨h1, h2, h3, h4⟩ := hFR p hp
      exact ⟨h1, h2, h3, Or.inl h4⟩
    · intro p hp
      dsimp only at hp
      by_contra hne
      have hch : grid p ≠ w.grid p := by rw [hp]; exact fun hh => hne hh.symm
      have := (hFR p hch).2.2.2
      rw [hp] at this; omega
  | true =>
    obtain ⟨R, rank, hpar, hRe, hRp, hrank⟩ := hfound rfl
    obtain ⟨g1, pre, hw, hchain, hhead, hpre, hpw, hg⟩ :=
      walkBack_spec adj w.gridSize w.startPoint w.endPoint parent R rank hpar fuel
        w.endPoint grid [w.endPoint] hRe (by omega)
    have hlast : (pre ++ [w.endPoint]).getLast? = some w.endPoint := by simp
    have hmem : ∀ p, (p ∈ pre ++ [w.endPoint] ∧ p ≠ w.startPoint ∧ p ≠ w.endPoint) ↔
        (p ∈ pre ∧ p ≠ w.startPoint) := by
      intro p
      rw [List.mem_append, List.mem_singleton]
      constructor
      · rintro ⟨h1 | h1, h2, h3⟩
        · exact ⟨h1, h2⟩
        · exact absurd h1 h3
      · rintro ⟨h1, h2⟩
        exact ⟨Or.inl h1, h2, (hpre p h1).2.2⟩
    refine ⟨{ found := true, grid := g1, parent := parent, route := pre ++ [w.endPoint] },
      ?_, rfl, rfl, ?_, fun _ => ⟨hhead, hlast, hchain, ?_, ?_, ?_, ?_⟩,
      fun hh => Bool.noConfusion hh⟩
    · simp only [reconstruct, if_true, hw, Run.ok_bind, Run.pure_eq]
    · intro p hp
      dsimp only at hp ⊢
      rw [hg p] at hp ⊢
      by_cases hpp : p ∈ pre ∧ p ≠ w.startPoint
      · rw [if_pos hpp]
        exact ⟨hRp p (hpre p hpp.1).1, hpp.2, (hpre p hpp.1).2.2, Or.inr rfl⟩
      · rw [if_neg hpp] at hp ⊢
        obtain ⟨h1, h2, h3, h4⟩ := hFR p hp
        exact ⟨h1, h2, h3, Or.inl h4⟩
    · exact hpw.imp (fun hab hh => by rw [hh] at hab; omega)
    · intro p hp
      dsimp only at hp
      rw [List.mem_append, List.mem_singleton] at hp
      rcases hp with hp | hp
      · exact hRp p (hpre p hp).1
      · rw [hp]; exact hRp _ hRe
    · intro p hp h1 h2
      dsimp only at hp ⊢
      rw [hg p, if_pos ((hmem p).mp ⟨hp, h1, h2⟩)]
    · intro p hp
      dsimp only at hp ⊢
      rw [hg p] at hp
      by_cases hpp : p ∈ pre ∧ p ≠ w.startPoint
      · left; exact (hmem p).mpr hpp
      · rw [if_neg hpp] at hp
        right
        by_contra hne
        have hch : grid p ≠ w.grid p := by rw [hp]; exact fun hh => hne hh.symm
        have := (hFR p hch).2.2.2
        rw [hp] at this; omega

theorem bfs_good (w : World) (hs : passable w w.startPoint) :
    ∃ F, ∀ fuel, F ≤ fuel → ∃ r, bfs fuel w = .ok r ∧ GoodResult adj4 w r := by
  refine ⟨(cells w.gridSize).card + 1, fun fuel hfuel => ?_⟩
  have hcnt := unvisitedCount_init w.gridSize w.startPoint hs.1
  obtain ⟨found, s1, L1, hloop, hcore, hfound, _⟩ :=
    bfsLoop_spec w fuel _ _ (bfs_init_outer w hs)
      (by simp only [bfsMeasure, List.length_singleton]; omega)
  obtain ⟨hFR, hV0, hL0, hV1, hP, hM, hB⟩ := hcore
  have hpost : SearchPost adj4 w ((cells w.gridSize).card + 1) found s1.grid s1.parent := by
    refine ⟨hFR, fun hf => ⟨fun p => s1.visited p = true, L1, ⟨fun p hp => (hV1 p hp).1,
      fun p hp hne => ?_⟩, (hfound hf).1, hV1, ?_⟩⟩
    · obtain ⟨h1, h2, h3, h4⟩ := hP p hp hne
      exact ⟨h1, h2, by omega, h4⟩
    · have := hB _ (hfound hf).1; omega
  obtain ⟨r, hr, _, _, hgood⟩ := reconstruct_spec adj4 w _ fuel found s1.grid s1.parent hfuel hpost
  refine ⟨r, ?_, hgood⟩
  unfold bfs
  rw [tset_ok _ _ hs.1]
  simp only [Run.ok_bind, hloop]
  exact hr

theorem dfsVisit_eq (n : Int) (c d : Pos) (s : Search) :
    dfsVisit n c s d =
      if (inBounds n (c.1 + d.1, c.2 + d.2) && !s.visited (c.1 + d.1, c.2 + d.2) &&
          s.grid (c.1 + d.1, c.2 + d.2) != 1) = true then
        { s with frontier := (c.1 + d.1, c.2 + d.2) :: s.frontier,
                 parent := upd s.parent (c.1 + d.1, c.2 + d.2) c }
      else s := rfl

theorem grid_ne_one_of_frame {w : World} {g : Pos → Int}
    (h : ∀ p, g p ≠ w.grid p → passable w p ∧ p ≠ w.startPoint ∧ p ≠ w.endPoint ∧ g p = 2)
    (p : Pos) : g p ≠ 1 ↔ w.grid p ≠ 1 := by
  by_cases hp : g p = w.grid p
  · rw [hp]
  · obtain ⟨h1, _, _, h4⟩ := h p hp
    constructor
    · intro _; exact h1.2
    · intro _; rw [h4]; decide

theorem dfsVisit_inv (w : World) (rank : Pos → Nat) (s : Search) (c d : Pos)
    (hd : d ∈ directions4) (hc : s.visited c = true) (h : DfsInv w rank s) :
    DfsInv w rank (dfsVisit w.gridSize c s d) ∧
      (dfsVisit w.gridSize c s d).visited = s.visited ∧
      (dfsVisit w.gridSize c s d).frontier.length ≤ s.frontier.length + 1 := by
  obtain ⟨hFR, hV1, hS1, hS2, hB⟩ := h
  rw [dfsVisit_eq]
  by_cases hcond : (inBounds w.gridSize (c.1 + d.1, c.2 + d.2) &&
      !s.visited (c.1 + d.1, c.2 + d.2) && s.grid (c.1 + d.1, c.2 + d.2) != 1) = true
  · rw [if_pos hcond]
    simp only [Bool.and_eq_true, Bool.not_eq_true', bne_iff_ne, ne_eq] at hcond
    obtain ⟨⟨hnb, hnv⟩, hng⟩ := hcond
    have hadj : adj4 c (c.1 + d.1, c.2 + d.2) := ⟨d, hd, rfl⟩
    generalize ((c.1 + d.1, c.2 + d.2) : Pos) = next at *
    have hnpass : passable w next := ⟨hnb, (grid_ne_one_of_frame hFR next).mp hng⟩
    have hvn : ∀ p, s.visited p = true → p ≠ next := by
      intro p hp he; rw [he, hnv] at hp; exact Bool.noConfusion hp
    refine ⟨⟨hFR, hV1, ?_, ?_, hB⟩, rfl, by simp⟩
    · intro p hp
      dsimp only at hp ⊢
      rw [List.mem_cons] at hp
      by_cases hpn : p = next
      · subst hpn
        rw [upd_same]
        exact ⟨hnpass, Or.inr ⟨hc, hadj⟩⟩
      · rcases hp with hp | hp
        · exact absurd hp hpn
        · rw [upd_other _ _ _ _ hpn]; exact hS1 p hp
    · intro p hp hne
      dsimp only at hp ⊢
      rw [upd_other _ _ _ _ (hvn p hp)]
      exact hS2 p hp hne
  · rw [if_neg hcond]
    exact ⟨⟨hFR, hV1, hS1, hS2, hB⟩, rfl, by omega⟩

theorem dfsFold_inv (w : World) (rank : Pos → Nat) (c : Pos) :
    ∀ (dirs : List Pos), (∀ d ∈ dirs, d ∈ directions4) → ∀ (s : Search),
      s.visited c = true → DfsInv w rank s →
      DfsInv w rank (dirs.foldl (dfsVisit w.gridSize c) s) ∧
        (dirs.foldl (dfsVisit w.gridSize c) s).visited = s.visited ∧
        (dirs.foldl (dfsVisit w.gridSize c) s).frontier.length ≤
          s.frontier.length + dirs.length := by
  intro dirs
  induction dirs with
  | nil => intro _ s _ h; exact ⟨h, rfl, by simp⟩
  | cons d ds ih =>
    intro hd s hc h
    obtain ⟨h1, h2, h3⟩ := dfsVisit_inv w rank s c d (hd d (List.mem_cons_self _ _)) hc h
    obtain ⟨h4, h5, h6⟩ := ih (fun e he => hd e (List.mem_cons_of_mem _ he)) _
      (by rw [h2]; exact hc) h1
    refine ⟨h4, by rw [List.foldl_cons, h5, h2], ?_⟩
    rw [List.foldl_cons, List.length_cons]
    omega

theorem dfsLoop_nil (n : Int) (a b : Pos) (fuel : Nat) (s : Search) (h : s.frontier = []) :
    dfsLoop n a b fuel s = .ok (false, s) := by
  unfold dfsLoop
  rw [h]

theorem dfsLoop_cons (n : Int) (a b : Pos) (f : Nat) (s : Search) (c : Pos) (rest : List Pos)
    (h : s.frontier = c :: rest) :
    dfsLoop n a b (f + 1) s =
      if c = b then .ok (true, { s with frontier := rest })
      else tget n s.visited c >>= fun seen =>
        if seen then dfsLoop n a b f { s with frontier := rest }
        else tset n s.visited c true >>= fun visited =>
          markVisited n a b c s.grid >>= fun g1 =>
            dfsLoop n a b f
              (directions4.foldl (dfsVisit n c)
                { s with frontier := rest, visited := visited, grid := g1 }) := by
  rw [dfsLoop]
  simp only [h]

theorem markVisited_frame (w : World) (c : Pos) (g : Pos → Int) (hc : passable w c)
    (hce : c ≠ w.endPoint)
    (h : ∀ p, g p ≠ w.grid p → passable w p ∧ p ≠ w.startPoint ∧ p ≠ w.endPoint ∧ g p = 2) :
    ∃ g1, markVisited w.gridSize w.startPoint w.endPoint c g = .ok g1 ∧
      ∀ p, g1 p ≠ w.grid p → passable w p ∧ p ≠ w.startPoint ∧ p ≠ w.endPoint ∧ g1 p = 2 := by
  unfold markVisited
  by_cases hcs : c ≠ w.startPoint ∧ c ≠ w.endPoint
  · rw [if_pos hcs, tset_ok _ _ hc.1]
    refine ⟨_, rfl, fun p hp => ?_⟩
    by_cases hpc : p = c
    · subst hpc
      exact ⟨hc, hcs.1, hcs.2, upd_same _ _ _⟩
    · rw [upd_other _ _ _ _ hpc] at hp ⊢
      exact h p hp
  · rw [if_neg hcs]
    exact ⟨_, rfl, h⟩

theorem dfs_visit_inv (w : World) (rank : Pos → Nat) (s : Search) (c : Pos) (rest : List Pos)
    (g1 : Pos → Int) (h : DfsInv w rank s) (hfr : s.frontier = c :: rest)
    (hce : c ≠ w.endPoint) (hcv : s.visited c = false)
    (hg1 : ∀ p, g1 p ≠ w.grid p →
      passable w p ∧ p ≠ w.startPoint ∧ p ≠ w.endPoint ∧ g1 p = 2) :
    ∃ rank1, DfsInv w rank1
      { s with frontier := rest, visited := upd s.visited c true, grid := g1 } := by
  obtain ⟨hFR, hV1, hS1, hS2, hB⟩ := h
  rw [hfr] at hS1
  have hcS := hS1 c (List.mem_cons_self _ _)
  have hcnt := unvisitedCount_upd w.gridSize s.visited c hcS.1.1 hcv
  have hle := unvisitedCount_le w.gridSize s.visited
  have hvis : ∀ p, upd s.visited c true p = true ↔ p = c ∨ s.visited p = true := by
    intro p
    by_cases hp : p = c
    · subst hp; simp [upd]
    · simp [upd, hp]
  have hvn : ∀ p, s.visited p = true → p ≠ c := by
    intro p hp he; rw [he, hcv] at hp; exact Bool.noConfusion hp
  obtain ⟨rank1, hrc, hro⟩ : ∃ r1 : Pos → Nat,
      r1 c = (cells w.gridSize).card - unvisitedCount w.gridSize s.visited ∧
        ∀ p, p ≠ c → r1 p = rank p :=
    ⟨fun q => if q = c then (cells w.gridSize).card - unvisitedCount w.gridSize s.visited
      else rank q, by simp, fun p hp => by simp [hp]⟩
  refine ⟨rank1, hg1, ?_, ?_, ?_, ?_⟩
  · intro p hp
    dsimp only at hp
    rcases (hvis p).mp hp with hp1 | hp1
    · rw [hp1]; exact ⟨hcS.1, hce⟩
    · exact hV1 p hp1
  · intro p hp
    dsimp only at hp ⊢
    obtain ⟨h1, h2⟩ := hS1 p (List.mem_cons_of_mem _ hp)
    refine ⟨h1, ?_⟩
    rcases h2 with h2 | h2
    · exact Or.inl h2
    · exact Or.inr ⟨(hvis _).mpr (Or.inr h2.1), h2.2⟩
  · intro p hp hne
    dsimp only at hp ⊢
    rcases (hvis p).mp hp with hp1 | hp1
    · subst hp1
      rcases hcS.2 with h2 | h2
      · exact absurd h2 hne
      · have := hB _ h2.1
        refine ⟨(hvis _).mpr (Or.inr h2.1), h2.2, ?_⟩
        rw [hrc, hro _ (hvn _ h2.1)]; omega
    · obtain ⟨h1, h2, h3⟩ := hS2 p hp1 hne
      refine ⟨(hvis _).mpr (Or.inr h1), h2, ?_⟩
      rw [hro _ (hvn _ h1), hro _ (hvn _ hp1)]; exact h3
  · intro p hp
    dsimp only at hp ⊢
    rcases (hvis p).mp hp with hp1 | hp1
    · subst hp1; rw [hrc]; omega
    · have := hB p hp1
      rw [hro _ (hvn _ hp1)]; omega

theorem dfsLoop_spec (w : World) :
    ∀ (fuel : Nat) (s : Search) (rank : Pos → Nat), DfsInv w rank s →
      dfsMeasure w.gridSize s < fuel →
      ∃ (found : Bool) (s1 : Search),
        dfsLoop w.gridSize w.startPoint w.endPoint fuel s = .ok (found, s1) ∧
        SearchPost adj4 w ((cells w.gridSize).card + 2) found s1.grid s1.parent := by
  intro fuel
  induction fuel with
  | zero => intro s rank _ hm; omega
  | succ f ih =>
    intro s rank h hm
    cases hfr : s.frontier with
    | nil =>
      exact ⟨false, s, dfsLoop_nil _ _ _ _ _ hfr, h.1, fun hh => Bool.noConfusion hh⟩
    | cons c rest =>
      rw [dfsLoop_cons _ _ _ _ _ _ _ hfr]
      have hinv := h
      obtain ⟨hFR, hV1, hS1, hS2, hB⟩ := h
      have hcS := hS1 c (by rw [hfr]; exact List.mem_cons_self _ _)
      by_cases hce : c = w.endPoint
      · rw [if_pos hce]
        subst hce
        obtain ⟨rank1, hre, hro⟩ : ∃ r1 : Pos → Nat,
            r1 w.endPoint = (cells w.gridSize).card + 1 ∧
              ∀ p, p ≠ w.endPoint → r1 p = rank p :=
          ⟨fun q => if q = w.endPoint then (cells w.gridSize).card + 1 else rank q, by simp,
            fun p hp => by simp [hp]⟩
        refine ⟨true, _, rfl, hFR, fun _ => ⟨fun p => s.visited p = true ∨ p = w.endPoint,
          rank1, ⟨?_, ?_⟩, Or.inr rfl, ?_, by rw [hre]; omega⟩⟩
        · rintro p (hp | hp)
          · exact (hV1 p hp).1.1
          · rw [hp]; exact hcS.1.1
        · rintro p (hp | hp) hne
          · obtain ⟨h1, h2, h3⟩ := hS2 p hp hne
            refine ⟨Or.inl h1, h2, ?_, (hV1 _ h1).2⟩
            rw [hro _ (hV1 _ h1).2, hro _ (hV1 _ hp).2]; exact h3
          · subst hp
            rcases hcS.2 with h2 | h2
            · exact absurd h2 hne
            · have := hB _ h2.1
              refine ⟨Or.inl h2.1, h2.2, ?_, (hV1 _ h2.1).2⟩
              rw [hre, hro _ (hV1 _ h2.1).2]; omega
        · rintro p (hp | hp)
          · exact (hV1 p hp).1
          · rw [hp]; exact hcS.1
      · rw [if_neg hce, tget_ok _ hcS.1.1]
        simp only [Run.ok_bind]
        have hrest : ∀ p ∈ rest, p ∈ s.frontier := by
          intro p hp; rw [hfr]; exact List.mem_cons_of_mem _ hp
        cases hcv : s.visited c with
        | true =>
          simp only [if_true]
          refine ih _ rank ⟨hFR, hV1, fun p hp => hS1 p (hrest p hp), hS2, hB⟩ ?_
          simp only [dfsMeasure] at hm ⊢
          rw [hfr, List.length_cons] at hm
          omega
        | false =>
          simp only [Bool.false_eq_true, if_false, tset_ok _ _ hcS.1.1, Run.ok_bind]
          obtain ⟨g1, hg1, hfr1⟩ := markVisited_frame w c s.grid hcS.1 hce hFR
          rw [hg1]
          simp only [Run.ok_bind]
          obtain ⟨rank1, hinv1⟩ := dfs_visit_inv w rank s c rest g1 hinv hfr hce hcv hfr1
          obtain ⟨hinv2, hvis2, hlen2⟩ := dfsFold_inv w rank1 c directions4 (fun _ hd => hd) _
            (upd_same _ _ _) hinv1
          refine ih _ rank1 hinv2 ?_
          have hcnt := unvisitedCount_upd w.gridSize s.visited c hcS.1.1 hcv
          simp only [dfsMeasure] at hm ⊢
          rw [hfr, List.length_cons] at hm
          rw [hvis2]
          have hd4 : directions4.length = 4 := rfl
          rw [hd4] at hlen2
          dsimp only at hlen2 ⊢
          omega

theorem dfs_good (w : World) (hs : passable w w.startPoint) :
    ∃ F, ∀ fuel, F ≤ fuel → ∃ r, dfs fuel w = .ok r ∧ GoodResult adj4 w r := by
  refine ⟨4 * (cells w.gridSize).card + 2, fun fuel hfuel => ?_⟩
  have hinit : DfsInv w (fun _ => 0)
      { grid := w.grid, visited := fun _ => false, parent := fun _ => (-1, -1),
        frontier := [w.startPoint] } := by
    refine ⟨fun p hp => absurd rfl hp, fun p hp => Bool.noConfusion hp, ?_,
      fun p hp => Bool.noConfusion hp, fun p hp => Bool.noConfusion hp⟩
    intro p hp
    rw [List.mem_singleton] at hp
    rw [hp]; exact ⟨hs, Or.inl rfl⟩
  have hU : unvisitedCount w.gridSize (fun _ => false) = (cells w.gridSize).card := by
    unfold unvisitedCount
    rw [Finset.filter_true_of_mem (fun _ _ => rfl)]
  obtain ⟨found, s1, hloop, hpost⟩ := dfsLoop_spec w fuel _ _ hinit
    (by simp only [dfsMeasure, List.length_singleton, hU]; omega)
  obtain ⟨r, hr, _, _, hgood⟩ := reconstruct_spec adj4 w _ fuel found s1.grid s1.parent
    (by omega) hpost
  refine ⟨r, ?_, hgood⟩
  unfold dfs
  simp only [Run.ok_bind, hloop]
  exact hr

theorem edgeWeight_pos (d : Pos) : 1 ≤ edgeWeight d := by
  unfold edgeWeight; split <;> omega

theorem stepWeight_add (c d : Pos) : stepWeight c (c.1 + d.1, c.2 + d.2) = edgeWeight d := by
  unfold stepWeight
  simp

theorem dijkstraRelax_eq (n : Int) (c d : Pos) (s : DState)
    (hw : toInt32 (s.distance c + edgeWeight d) = s.distance c + edgeWeight d) :
    dijkstraRelax n c s d =
      if (inBounds n (c.1 + d.1, c.2 + d.2) && s.grid (c.1 + d.1, c.2 + d.2) != 1) = true then
        if s.distance c + edgeWeight d < s.distance (c.1 + d.1, c.2 + d.2) then
          { s with distance := upd s.distance (c.1 + d.1, c.2 + d.2)
                     (s.distance c + edgeWeight d),
                   parent := upd s.parent (c.1 + d.1, c.2 + d.2) c,
                   pq := (s.distance c + edgeWeight d, (c.1 + d.1, c.2 + d.2)) :: s.pq }
        else s
      else s := by
  unfold dijkstraRelax
  simp only [hw]

theorem sum_upd_lt (n : Int) (dist : Pos → Int) (p : Pos) (v : Int)
    (hb : inBounds n p = true) (h0 : 0 ≤ v) (hlt : v < dist p) :
    (∑ q in cells n, (upd dist p v q).toNat) + 1 ≤ ∑ q in cells n, (dist q).toNat := by
  have hmem : p ∈ cells n := (mem_cells n p).mpr hb
  rw [← Finset.add_sum_erase _ _ hmem, ← Finset.add_sum_erase _ (fun q => (dist q).toNat) hmem]
  have heq : ∑ q in (cells n).erase p, (upd dist p v q).toNat =
      ∑ q in (cells n).erase p, (dist q).toNat := by
    apply Finset.sum_congr rfl
    intro q hq
    rw [upd_other _ _ _ _ (Finset.ne_of_mem_erase hq)]
  rw [heq, upd_same]
  omega

theorem edgeWeight_le (d : Pos) : edgeWeight d ≤ 14 := by
  unfold edgeWeight; split <;> omega

theorem unreachedCount_upd (n : Int) (dist : Pos → Int) (p : Pos) (v : Int)
    (hb : inBounds n p = true) (hv : v ≠ 2147483647) :
    unreachedCount n (upd dist p v) ≤ unreachedCount n dist ∧
      (dist p = 2147483647 → unreachedCount n (upd dist p v) + 1 = unreachedCount n dist) := by
  have hfun : (fun q => decide (upd dist p v q ≠ 2147483647)) =
      upd (fun q => decide (dist q ≠ 2147483647)) p true := by
    funext q
    by_cases hq : q = p
    · subst hq; simp [upd, hv]
    · simp [upd, hq]
  unfold unreachedCount
  rw [hfun]
  by_cases hp : dist p = 2147483647
  · have := unvisitedCount_upd n (fun q => decide (dist q ≠ 2147483647)) p hb (by simp [hp])
    exact ⟨by omega, fun _ => this⟩
  · refine ⟨le_of_eq ?_, fun h => absurd h hp⟩
    congr 1
    funext q
    by_cases hq : q = p
    · subst hq; simp [upd, hp]
    · simp [upd, hq]

theorem dijkstraRelax_mid (w : World) (hsize : 14 * ((cells w.gridSize).card : Int) ≤ 2147483647)
    (done : Pos → Prop) (s : DState) (c d : Pos)
    (pend : List Pos) (hd : d ∈ directions8) (h : DjMid w done s c (d :: pend)) :
    ∃ done1, DjMid w done1 (dijkstraRelax w.gridSize c s d) c pend ∧
      djMeasure w.gridSize (dijkstraRelax w.gridSize c s d) ≤ djMeasure w.gridSize s := by
  obtain ⟨hcore, hI2, hcr, hce, hX⟩ := h
  obtain ⟨hFR, hD0, hD1, hD1p, hD2, hI1, hI3, hDB⟩ := hcore
  have hgrid := grid_ne_one_of_frame hFR
  have hwd := edgeWeight_pos d
  have hsw := stepWeight_add c d
  have hadj : adj8 c (c.1 + d.1, c.2 + d.2) := ⟨d, hd, rfl⟩
  -- nothing changes: only the pending list shrinks
  have hskip : (∀ v, v = (c.1 + d.1, c.2 + d.2) → passable w v →
      s.distance v ≤ s.distance c + stepWeight c v) →
      DjMid w done s c pend := by
    intro hv
    refine ⟨⟨hFR, hD0, hD1, hD1p, hD2, hI1, hI3, hDB⟩, hI2, hcr, hce, ?_⟩
    intro v hav hpv
    rcases hX v hav hpv with ⟨e, he, hve⟩ | h1
    · rw [List.mem_cons] at he
      rcases he with he | he
      · subst he; right; exact hv v hve hpv
      · left; exact ⟨e, he, hve⟩
    · right; exact h1
  have hwr : toInt32 (s.distance c + edgeWeight d) = s.distance c + edgeWeight d := by
    have h1 := hDB c hcr
    have h2 := (hD1 c).1
    have h3 := edgeWeight_le d
    unfold toInt32
    omega
  rw [dijkstraRelax_eq _ _ _ _ hwr]
  by_cases hcond : (inBounds w.gridSize (c.1 + d.1, c.2 + d.2) &&
      s.grid (c.1 + d.1, c.2 + d.2) != 1) = true
  · rw [if_pos hcond]
    simp only [Bool.and_eq_true, bne_iff_ne, ne_eq] at hcond
    obtain ⟨hnb, hng⟩ := hcond
    by_cases hlt : s.distance c + edgeWeight d < s.distance (c.1 + d.1, c.2 + d.2)
    · rw [if_pos hlt]
      generalize hnx : ((c.1 + d.1, c.2 + d.2) : Pos) = next at *
      have hnpass : passable w next := ⟨hnb, (hgrid next).mp hng⟩
      have hc0 := (hD1 c).1
      have hn1 := (hD1 next).2
      have hnc : next ≠ c := by
        intro he; rw [he] at hlt; omega
      have hns : next ≠ w.startPoint := by
        intro he; rw [he, hD0] at hlt; omega
      have hdn : upd s.distance next (s.distance c + edgeWeight d) next =
          s.distance c + edgeWeight d := upd_same _ _ _
      have hdo : ∀ p, p ≠ next → upd s.distance next (s.distance c + edgeWeight d) p =
          s.distance p := fun p hp => upd_other _ _ _ _ hp
      have hle : ∀ p, upd s.distance next (s.distance c + edgeWeight d) p ≤ s.distance p := by
        intro p
        by_cases hp : p = next
        · rw [hp, hdn]; omega
        · rw [hdo p hp]
      have hreach : ∀ p, s.distance p ≠ 2147483647 →
          upd s.distance next (s.distance c + edgeWeight d) p ≠ 2147483647 := by
        intro p hp
        have h1 := hle p
        have h2 := (hD1 p).2
        omega
      refine ⟨fun p => done p ∧ p ≠ next, ⟨⟨hFR, ?_, ?_, ?_, ?_, ?_, ?_, ?_⟩, ?_, ?_, hce, ?_⟩, ?_⟩
      · dsimp only; rw [hdo _ hns.symm]; exact hD0
      · intro p
        dsimp only
        by_cases hp : p = next
        · rw [hp, hdn]; omega
        · rw [hdo p hp]; exact hD1 p
      · intro p hp
        dsimp only at hp
        by_cases hpn : p = next
        · rw [hpn]; exact hnpass
        · rw [hdo p hpn] at hp; exact hD1p p hp
      · intro p hp hps
        dsimp only at hp ⊢
        by_cases hpn : p = next
        · subst hpn
          rw [upd_same, hdn, hdo _ hnc.symm]
          refine ⟨hcr, hadj, ?_, hce⟩
          rw [hsw]
        · rw [upd_other _ _ _ _ hpn, hdo p hpn]
          rw [hdo p hpn] at hp
          obtain ⟨h1, h2, h3, h4⟩ := hD2 p hp hps
          refine ⟨hreach _ h1, h2, ?_, h4⟩
          have := hle (s.parent p)
          omega
      · intro e he
        dsimp only at he ⊢
        rw [List.mem_cons] at he
        rcases he with he | he
        · rw [he]; dsimp only; rw [hdn]; exact ⟨le_refl _, by omega⟩
        · have h1 := hI1 e he
          have h2 := hle e.2
          exact ⟨by omega, hreach _ h1.2⟩
      · rintro u ⟨hu, hun⟩
        dsimp only
        obtain ⟨h1, h2, h3⟩ := hI3 u hu
        rw [hdo u hun]
        refine ⟨h1, h2, fun v hv hpv => ?_⟩
        have := h3 v hv hpv
        have := hle v
        omega
      · intro p hp
        dsimp only at hp ⊢
        have hw14 := edgeWeight_le d
        have hcnt := unreachedCount_upd w.gridSize s.distance next
          (s.distance c + edgeWeight d) hnb (by omega)
        have hcb := hDB c hcr
        by_cases hpn : p = next
        · rw [hpn, hdn]
          by_cases hinf : s.distance next = 2147483647
          · have := hcnt.2 hinf
            omega
          · have := hcnt.1
            have := hDB next hinf
            omega
        · rw [hdo p hpn] at hp ⊢
          have := hcnt.1
          have := hDB p hp
          omega
      · intro p hp hnd hpc
        dsimp only at hp ⊢
        by_cases hpn : p = next
        · rw [hpn, hdn]; exact List.mem_cons_self _ _
        · rw [hdo p hpn] at hp ⊢
          refine List.mem_cons_of_mem _ (hI2 p hp (fun hdp => hnd ⟨hdp, hpn⟩) hpc)
      · dsimp only; rw [hdo _ hnc.symm]; exact hcr
      · intro v hav hpv
        dsimp only
        rw [hdo _ hnc.symm]
        rcases hX v hav hpv with ⟨e, he, hve⟩ | h1
        · rw [List.mem_cons] at he
          rcases he with he | he
          · subst he
            right
            rw [hve, hnx, hdn, hsw]
          · left; exact ⟨e, he, hve⟩
        · right
          have := hle v
          omega
      · have := sum_upd_lt w.gridSize s.distance next (s.distance c + edgeWeight d) hnb
          (by omega) hlt
        simp only [djMeasure, List.length_cons]
        omega
    · rw [if_neg hlt]
      refine ⟨done, hskip ?_, le_refl _⟩
      intro v hv _
      rw [hv, hsw]; omega
  · rw [if_neg hcond]
    refine ⟨done, hskip ?_, le_refl _⟩
    intro v hv hpv
    exfalso
    apply hcond
    rw [← hv]
    have hqg : s.grid v ≠ 1 := (hgrid v).mpr hpv.2
    simp [hpv.1, hqg]

theorem dijkstraFold_mid (w : World) (hsize : 14 * ((cells w.gridSize).card : Int) ≤ 2147483647)
    (c : Pos) :
    ∀ (dirs : List Pos), (∀ d ∈ dirs, d ∈ directions8) → ∀ (s : DState) (done : Pos → Prop),
      DjMid w done s c dirs →
      ∃ done1, DjMid w done1 (dirs.foldl (dijkstraRelax w.gridSize c) s) c [] ∧
        djMeasure w.gridSize (dirs.foldl (dijkstraRelax w.gridSize c) s) ≤
          djMeasure w.gridSize s := by
  intro dirs
  induction dirs with
  | nil => intro _ s done h; exact ⟨done, h, le_refl _⟩
  | cons d ds ih =>
    intro hd s done h
    obtain ⟨done1, h1, hm1⟩ := dijkstraRelax_mid w hsize done s c d ds (hd d (List.mem_cons_self _ _)) h
    obtain ⟨done2, h2, hm2⟩ := ih (fun e he => hd e (List.mem_cons_of_mem _ he)) _ done1 h1
    refine ⟨done2, h2, ?_⟩
    rw [List.foldl_cons]
    omega

theorem dj_close (w : World) (done : Pos → Prop) (s : DState) (c : Pos)
    (h : DjMid w done s c []) : DjOuter w (fun p => done p ∨ p = c) s := by
  obtain ⟨hcore, hI2, hcr, hce, hX⟩ := h
  obtain ⟨hFR, hD0, hD1, hD1p, hD2, hI1, hI3, hDB⟩ := hcore
  refine ⟨⟨hFR, hD0, hD1, hD1p, hD2, hI1, ?_, hDB⟩, ?_⟩
  · rintro u (hu | hu)
    · exact hI3 u hu
    · subst hu
      refine ⟨hcr, hce, fun v hv hpv => ?_⟩
      rcases hX v hv hpv with ⟨e, he, _⟩ | h1
      · simp at he
      · exact h1
  · intro p hp hnd
    rw [not_or] at hnd
    exact hI2 p hp hnd.1 hnd.2

theorem pqFold_spec (posLt : Pos → Pos → Bool) :
    ∀ (es : List (Int × Pos)) (best : Int × Pos),
      es.foldl (fun b x => if pqLess posLt x b then x else b) best ∈ best :: es ∧
      (es.foldl (fun b x => if pqLess posLt x b then x else b) best).1 ≤ best.1 ∧
      ∀ x ∈ es, (es.foldl (fun b x => if pqLess posLt x b then x else b) best).1 ≤ x.1 := by
  intro es
  induction es with
  | nil => intro best; simp
  | cons y ys ih =>
    intro best
    rw [List.foldl_cons]
    obtain ⟨h1, h2, h3⟩ := ih (if pqLess posLt y best then y else best)
    have hstep : (if pqLess posLt y best then y else best).1 ≤ best.1 ∧
        (if pqLess posLt y best then y else best).1 ≤ y.1 ∧
        ((if pqLess posLt y best then y else best) = y ∨
          (if pqLess posLt y best then y else best) = best) := by
      by_cases hl : pqLess posLt y best = true
      · rw [if_pos hl]
        simp only [pqLess, Bool.or_eq_true, decide_eq_true_eq, Bool.and_eq_true] at hl
        refine ⟨?_, le_refl _, Or.inl rfl⟩
        rcases hl with hl | hl
        · omega
        · omega
      · rw [if_neg hl]
        simp only [pqLess, Bool.or_eq_true, decide_eq_true_eq, Bool.and_eq_true, not_or] at hl
        exact ⟨le_refl _, by omega, Or.inr rfl⟩
    refine ⟨?_, by omega, ?_⟩
    · rw [List.mem_cons] at h1
      rcases h1 with h1 | h1
      · rcases hstep.2.2 with h4 | h4
        · rw [h1, h4]; simp
        · rw [h1, h4]; simp
      · exact List.mem_cons_of_mem _ (List.mem_cons_of_mem _ h1)
    · intro x hx
      rw [List.mem_cons] at hx
      rcases hx with hx | hx
      · rw [hx]; omega
      · exact h3 x hx

theorem pqTop_none (posLt : Pos → Pos → Bool) (l : List (Int × Pos))
    (h : pqTop posLt l = none) : l = [] := by
  cases l with
  | nil => rfl
  | cons e es => simp [pqTop] at h

theorem pqTop_some (posLt : Pos → Pos → Bool) (l : List (Int × Pos)) (e : Int × Pos)
    (h : pqTop posLt l = some e) : e ∈ l ∧ ∀ x ∈ l, e.1 ≤ x.1 := by
  cases l with
  | nil => simp [pqTop] at h
  | cons a es =>
    simp only [pqTop, Option.some.injEq] at h
    obtain ⟨h1, h2, h3⟩ := pqFold_spec posLt es a
    rw [h] at h1 h2 h3
    refine ⟨h1, fun x hx => ?_⟩
    rw [List.mem_cons] at hx
    rcases hx with hx | hx
    · rw [hx]; exact h2
    · exact h3 x hx

theorem dijkstraLoop_none (posLt : Pos → Pos → Bool) (n : Int) (a b : Pos) (fuel : Nat)
    (s : DState) (h : pqTop posLt s.pq = none) :
    dijkstraLoop posLt n a b fuel s = .ok (false, s) := by
  unfold dijkstraLoop
  rw [h]

theorem dijkstraLoop_some (posLt : Pos → Pos → Bool) (n : Int) (a b : Pos) (f : Nat)
    (s : DState) (k : Int) (c : Pos) (h : pqTop posLt s.pq = some (k, c)) :
    dijkstraLoop posLt n a b (f + 1) s =
      if c = b then .ok (true, { s with pq := s.pq.erase (k, c) })
      else tget n s.distance c >>= fun best =>
        if k > best then dijkstraLoop posLt n a b f { s with pq := s.pq.erase (k, c) }
        else markVisited n a b c s.grid >>= fun g1 =>
          dijkstraLoop posLt n a b f
            (directions8.foldl (dijkstraRelax n c)
              { s with pq := s.pq.erase (k, c), grid := g1 }) := by
  rw [dijkstraLoop]
  simp only [h]

theorem dj_erase_outer (w : World) (done : Pos → Prop) (s : DState) (k : Int) (c : Pos)
    (h : DjOuter w done s) (hstale : s.distance c < k) :
    DjOuter w done { s with pq := s.pq.erase (k, c) } := by
  obtain ⟨⟨hFR, hD0, hD1, hD1p, hD2, hI1, hI3, hDB⟩, hI2⟩ := h
  refine ⟨⟨hFR, hD0, hD1, hD1p, hD2, fun e he => hI1 e (List.mem_of_mem_erase he), hI3, hDB⟩, ?_⟩
  intro p hp hnd
  dsimp only
  refine (List.mem_erase_of_ne ?_).mpr (hI2 p hp hnd)
  intro he
  simp only [Prod.mk.injEq] at he
  rw [he.2] at he
  omega

theorem dj_pop_mid (w : World) (done : Pos → Prop) (s : DState) (k : Int) (c : Pos)
    (g1 : Pos → Int) (h : DjOuter w done s) (hc : s.distance c ≠ 2147483647)
    (hce : c ≠ w.endPoint)
    (hg1 : ∀ p, g1 p ≠ w.grid p →
      passable w p ∧ p ≠ w.startPoint ∧ p ≠ w.endPoint ∧ g1 p = 2) :
    DjMid w done { s with pq := s.pq.erase (k, c), grid := g1 } c directions8 := by
  obtain ⟨⟨hFR, hD0, hD1, hD1p, hD2, hI1, hI3, hDB⟩, hI2⟩ := h
  refine ⟨⟨hg1, hD0, hD1, hD1p, hD2, fun e he => hI1 e (List.mem_of_mem_erase he), hI3, hDB⟩,
    ?_, hc, hce, ?_⟩
  · intro p hp hnd hpc
    dsimp only
    refine (List.mem_erase_of_ne ?_).mpr (hI2 p hp hnd)
    intro he
    simp only [Prod.mk.injEq] at he
    exact hpc he.2
  · intro v hv _
    left
    exact hv

theorem dijkstraLoop_spec (posLt : Pos → Pos → Bool) (w : World)
    (hsize : 14 * ((cells w.gridSize).card : Int) ≤ 2147483647) :
    ∀ (fuel : Nat) (s : DState) (done : Pos → Prop), DjOuter w done s →
      djMeasure w.gridSize s < fuel →
      ∃ (found : Bool) (s1 : DState) (done1 : Pos → Prop),
        dijkstraLoop posLt w.gridSize w.startPoint w.endPoint fuel s = .ok (found, s1) ∧
        DjCore w done1 s1 ∧
        (found = true → s1.distance w.endPoint ≠ 2147483647 ∧
          ∀ p, s1.distance p ≠ 2147483647 → ¬ done1 p →
            s1.distance w.endPoint ≤ s1.distance p) ∧
        (found = false → ∀ p, s1.distance p ≠ 2147483647 → done1 p) := by
  intro fuel
  induction fuel with
  | zero => intro s done _ hm; omega
  | succ f ih =>
    intro s done h hm
    cases htop : pqTop posLt s.pq with
    | none =>
      have hnil := pqTop_none posLt _ htop
      refine ⟨false, s, done, dijkstraLoop_none _ _ _ _ _ _ htop, h.1,
        fun hh => Bool.noConfusion hh, fun _ p hp => ?_⟩
      by_contra hnd
      have := h.2 p hp hnd
      rw [hnil] at this
      simp at this
    | some e =>
      obtain ⟨k, c⟩ := e
      obtain ⟨hmem, hmin⟩ := pqTop_some posLt _ _ htop
      rw [dijkstraLoop_some _ _ _ _ _ _ _ _ htop]
      have hout := h
      obtain ⟨⟨hFR, hD0, hD1, hD1p, hD2, hI1, hI3, hDB⟩, hI2⟩ := h
      have hck := hI1 _ hmem
      dsimp only at hck
      have hlen : (s.pq.erase (k, c)).length + 1 = s.pq.length := by
        rw [List.length_erase_of_mem hmem]
        have : 0 < s.pq.length := List.length_pos_of_mem hmem
        omega
      by_cases hce : c = w.endPoint
      · rw [if_pos hce]
        refine ⟨true, _, done, rfl,
          ⟨hFR, hD0, hD1, hD1p, hD2, fun e he => hI1 e (List.mem_of_mem_erase he), hI3, hDB⟩,
          fun _ => ⟨by rw [← hce]; exact hck.2, fun p hp hnd => ?_⟩,
          fun hh => Bool.noConfusion hh⟩
        dsimp only at hp hnd ⊢
        have := hmin _ (hI2 p hp hnd)
        dsimp only at this
        rw [← hce]; omega
      · rw [if_neg hce, tget_ok _ (hD1p c hck.2).1]
        simp only [Run.ok_bind]
        by_cases hst : k > s.distance c
        · rw [if_pos hst]
          refine ih _ done (dj_erase_outer w done s k c hout hst) ?_
          simp only [djMeasure] at hm ⊢
          omega
        · rw [if_neg hst]
          obtain ⟨g1, hg1, hfr1⟩ := markVisited_frame w c s.grid (hD1p c hck.2) hce hFR
          rw [hg1]
          simp only [Run.ok_bind]
          have hmid := dj_pop_mid w done s k c g1 hout hck.2 hce hfr1
          obtain ⟨done1, hmid1, hmeas⟩ :=
            dijkstraFold_mid w hsize c directions8 (fun _ hd => hd) _ done hmid
          refine ih _ _ (dj_close w done1 _ c hmid1) ?_
          simp only [djMeasure] at hm hmeas ⊢
          omega

theorem routeCost_nonneg (wt : Pos → Int) (hwt : ∀ d, 0 ≤ wt d) :
    ∀ l : List Pos, 0 ≤ routeCost wt l := by
  intro l
  induction l with
  | nil => simp [routeCost]
  | cons a t ih =>
    cases t with
    | nil => simp [routeCost]
    | cons b t2 =>
      simp only [routeCost]
      have := hwt (b.1 - a.1, b.2 - a.2)
      omega

theorem routeCost_telescope (dist : Pos → Int) :
    ∀ (l : List Pos) (a x : Pos),
      List.Chain' (fun u v => adj8 u v ∧ dist u + stepWeight u v ≤ dist v) l →
      l.head? = some a → l.getLast? = some x →
      routeCost edgeWeight l ≤ dist x - dist a := by
  intro l
  induction l with
  | nil => intro a x _ h; simp at h
  | cons b t ih =>
    intro a x hc hh hl
    simp only [List.head?_cons, Option.some.injEq] at hh
    subst hh
    cases t with
    | nil =>
      simp only [List.getLast?_singleton, Option.some.injEq] at hl
      subst hl; simp [routeCost]
    | cons c t2 =>
      rw [List.chain'_cons] at hc
      have h1 := ih c x hc.2 rfl (by simpa using hl)
      have h2 := hc.1.2
      simp only [routeCost]
      unfold stepWeight at h2
      omega

theorem dj_le_path (w : World) (done : Pos → Prop) (s : DState) (hcore : DjCore w done s)
    (hmin : ∀ p, s.distance p ≠ 2147483647 → ¬ done p →
      s.distance w.endPoint ≤ s.distance p) :
    ∀ (l : List Pos) (a : Pos) (k : Int), s.distance a ≤ k →
      List.Chain adj8 a l → (∀ p ∈ l, passable w p) →
      (a :: l).getLast? = some w.endPoint →
      s.distance w.endPoint ≤ k + routeCost edgeWeight (a :: l) := by
  obtain ⟨hFR, hD0, hD1, hD1p, hD2, hI1, hI3, hDB⟩ := hcore
  intro l
  induction l with
  | nil =>
    intro a k hk _ _ hl
    simp only [List.getLast?_singleton, Option.some.injEq] at hl
    rw [← hl]; simpa [routeCost] using hk
  | cons b t ih =>
    intro a k hk hc hpass hl
    rw [List.chain_cons] at hc
    have hnn := routeCost_nonneg edgeWeight (fun d => by have := edgeWeight_pos d; omega)
      (b :: t)
    have hw := edgeWeight_pos (b.1 - a.1, b.2 - a.2)
    simp only [routeCost]
    by_cases hinf : s.distance a = 2147483647
    · have := (hD1 w.endPoint).2; omega
    · by_cases hd : done a
      · have hb := (hI3 a hd).2.2 b hc.1 (hpass b (List.mem_cons_self _ _))
        unfold stepWeight at hb
        have := ih b (k + edgeWeight (b.1 - a.1, b.2 - a.2)) (by omega) hc.2
          (fun q hq => hpass q (List.mem_cons_of_mem _ hq)) (by simpa using hl)
        omega
      · have := hmin a hinf hd; omega

theorem dj_closed_reach (w : World) (done : Pos → Prop) (s : DState)
    (hcore : DjCore w done s) (hsize : 14 * ((cells w.gridSize).card : Int) ≤ 2147483647)
    (hall : ∀ p, s.distance p ≠ 2147483647 → done p) :
    ∀ (l : List Pos) (a : Pos), s.distance a ≠ 2147483647 → List.Chain adj8 a l →
      (∀ p ∈ l, passable w p) → ∀ p ∈ l, s.distance p ≠ 2147483647 := by
  obtain ⟨hFR, hD0, hD1, hD1p, hD2, hI1, hI3, hDB⟩ := hcore
  intro l
  induction l with
  | nil => intro a _ _ _ p hp; simp at hp
  | cons b t ih =>
    intro a ha hc hpass p hp
    rw [List.chain_cons] at hc
    have hb : s.distance b ≠ 2147483647 := by
      have h1 := (hI3 a (hall a ha)).2.2 b hc.1 (hpass b (List.mem_cons_self _ _))
      have h2 := hDB a ha
      have h3 : stepWeight a b ≤ 14 := edgeWeight_le _
      omega
    rw [List.mem_cons] at hp
    rcases hp with hp | hp
    · rw [hp]; exact hb
    · exact ih b hb hc.2 (fun q hq => hpass q (List.mem_cons_of_mem _ hq)) p hp

theorem GoodResult.mono {adj adj1 : Pos → Pos → Prop} {w : World} {r : PathResult}
    (hadj : ∀ u v, adj u v → adj1 u v) (h : GoodResult adj w r) : GoodResult adj1 w r := by
  obtain ⟨h1, h2, h3⟩ := h
  refine ⟨h1, fun hf => ?_, h3⟩
  obtain ⟨a, b, c, d⟩ := h2 hf
  exact ⟨a, b, c.imp (fun {u v} huv => hadj u v huv), d⟩

theorem unreachedCount_init (n : Int) (a : Pos) (h : inBounds n a = true) :
    unreachedCount n (upd (fun _ => (2147483647 : Int)) a 0) + 1 = (cells n).card := by
  have h1 := (unreachedCount_upd n (fun _ => (2147483647 : Int)) a 0 h (by omega)).2 rfl
  rw [h1]
  unfold unreachedCount unvisitedCount
  rw [Finset.filter_true_of_mem (fun _ _ => by simp)]

theorem dj_init_outer (w : World) (hs : passable w w.startPoint) :
    DjOuter w (fun _ => False)
      { grid := w.grid, distance := upd (fun _ => (2147483647 : Int)) w.startPoint 0,
        parent := fun _ => (-1, -1), pq := [(0, w.startPoint)] } := by
  have hreach : ∀ p, upd (fun _ => (2147483647 : Int)) w.startPoint 0 p ≠ 2147483647 →
      p = w.startPoint := by
    intro p hp
    by_contra hne
    rw [upd_other _ _ _ _ hne] at hp
    exact hp rfl
  have hU := unreachedCount_init w.gridSize w.startPoint hs.1
  unfold DjOuter DjCore
  dsimp only
  refine ⟨⟨fun p hp => absurd rfl hp, upd_same _ _ _, ?_, ?_, ?_, ?_, ?_, ?_⟩, ?_⟩
  · intro p
    by_cases hp : p = w.startPoint
    · rw [hp, upd_same]; omega
    · rw [upd_other _ _ _ _ hp]; omega
  · intro p hp; rw [hreach p hp]; exact hs
  · intro p hp hne; exact absurd (hreach p hp) hne
  · intro e he
    rw [List.mem_singleton] at he
    rw [he]; dsimp only; rw [upd_same]; omega
  · intro u hu; exact absurd hu id
  · intro p hp
    rw [hreach p hp, upd_same]
    omega
  · intro p hp _
    rw [hreach p hp, upd_same]
    exact List.mem_singleton_self _

theorem dj_init_measure (w : World) :
    djMeasure w.gridSize
      { grid := w.grid, distance := upd (fun _ => (2147483647 : Int)) w.startPoint 0,
        parent := fun _ => (-1, -1), pq := [(0, w.startPoint)] } ≤
      (cells w.gridSize).card * 2147483647 + 1 := by
  simp only [djMeasure, List.length_singleton]
  have : ∑ p in cells w.gridSize,
      (upd (fun _ => (2147483647 : Int)) w.startPoint 0 p).toNat ≤
      (cells w.gridSize).card • 2147483647 := by
    apply Finset.sum_le_card_nsmul
    intro p _
    by_cases hp : p = w.startPoint
    · rw [hp, upd_same]; simp
    · rw [upd_other _ _ _ _ hp]; simp
  rw [smul_eq_mul] at this
  omega

theorem dijkstra_run (posLt : Pos → Pos → Bool) (w : World) (hs : passable w w.startPoint)
    (hsize : 14 * ((cells w.gridSize).card : Int) ≤ 2147483647) :
    ∃ F, ∀ fuel, F ≤ fuel → ∃ (r : PathResult) (s1 : DState) (done1 : Pos → Prop),
      dijkstra posLt fuel w = .ok r ∧ DjCore w done1 s1 ∧
      GoodResult (fun u v => adj8 u v ∧ s1.distance u + stepWeight u v ≤ s1.distance v) w r ∧
      (r.found = true → ∀ p, s1.distance p ≠ 2147483647 → ¬ done1 p →
        s1.distance w.endPoint ≤ s1.distance p) ∧
      (r.found = false → ∀ p, s1.distance p ≠ 2147483647 → done1 p) := by
  refine ⟨(cells w.gridSize).card * 2147483647 + 2147483647, fun fuel hfuel => ?_⟩
  have hcard : 0 < (cells w.gridSize).card :=
    Finset.card_pos.mpr ⟨_, (mem_cells _ _).mpr hs.1⟩
  obtain ⟨found, s1, done1, hloop, hcore, hfound, hnot⟩ :=
    dijkstraLoop_spec posLt w hsize fuel _ _ (dj_init_outer w hs)
      (by have := dj_init_measure w; omega)
  have hcore2 := hcore
  obtain ⟨hFR, hD0, hD1, hD1p, hD2, hI1, hI3, hDB⟩ := hcore
  have hpost : SearchPost
      (fun u v => adj8 u v ∧ s1.distance u + stepWeight u v ≤ s1.distance v) w
      2147483647 found s1.grid s1.parent := by
    refine ⟨hFR, fun hf => ⟨fun p => s1.distance p ≠ 2147483647,
      fun p => (s1.distance p).toNat, ⟨fun p hp => (hD1p p hp).1, fun p hp hne => ?_⟩,
      (hfound hf).1, hD1p, ?_⟩⟩
    · obtain ⟨h1, h2, h3, h4⟩ := hD2 p hp hne
      refine ⟨h1, ⟨h2, h3⟩, ?_, h4⟩
      have hw : 1 ≤ stepWeight (s1.parent p) p := edgeWeight_pos _
      have := (hD1 (s1.parent p)).1
      dsimp only
      omega
    · have h1 := (hfound hf).1
      have h2 := hD1 w.endPoint
      dsimp only
      omega
  obtain ⟨r, hr, hrf, _, hgood⟩ :=
    reconstruct_spec _ w _ fuel found s1.grid s1.parent (by omega) hpost
  refine ⟨r, s1, done1, ?_, hcore2, hgood, ?_, ?_⟩
  · unfold dijkstra
    rw [tset_ok _ _ hs.1]
    simp only [Run.ok_bind, hloop]
    exact hr
  · rw [hrf]; exact fun hf => (hfound hf).2
  · rw [hrf]; exact hnot

theorem dijkstra_good (posLt : Pos → Pos → Bool) (w : World) (hs : passable w w.startPoint)
    (hsize : 14 * ((cells w.gridSize).card : Int) ≤ 2147483647) :
    ∃ F, ∀ fuel, F ≤ fuel → ∃ r, dijkstra posLt fuel w = .ok r ∧ GoodResult adj8 w r := by
  obtain ⟨F, hF⟩ := dijkstra_run posLt w hs hsize
  refine ⟨F, fun fuel hfuel => ?_⟩
  obtain ⟨r, s1, done1, hr, _, hgood, _, _⟩ := hF fuel hfuel
  exact ⟨r, hr, hgood.mono (fun u v h => h.1)⟩

theorem dijkstra_optimal (posLt : Pos → Pos → Bool) (w : World)
    (hs : passable w w.startPoint)
    (hsize : 14 * ((cells w.gridSize).card : Int) ≤ 2147483647) :
    ∃ F, ∀ fuel, F ≤ fuel → ∃ r, dijkstra posLt fuel w = .ok r ∧ GoodResult adj8 w r ∧
      (r.found = true → ∀ l, Path8 w l →
        routeCost edgeWeight r.route ≤ routeCost edgeWeight l) ∧
      (r.found = false → ∀ l, ¬ Path8 w l) := by
  obtain ⟨F, hF⟩ := dijkstra_run posLt w hs hsize
  refine ⟨F, fun fuel hfuel => ?_⟩
  obtain ⟨r, s1, done1, hr, hcore, hgood, hfound, hnot⟩ := hF fuel hfuel
  have hD0 := hcore.2.1
  refine ⟨r, hr, hgood.mono (fun u v h => h.1), fun hf l hl => ?_, fun hf l hl => ?_⟩
  · obtain ⟨hh, hll, hc, hpp⟩ := hl
    obtain ⟨rh, rl, rc, _⟩ := hgood.2.1 hf
    have h1 := routeCost_telescope s1.distance r.route _ _ rc rh rl
    cases l with
    | nil => simp at hh
    | cons a t =>
      simp only [List.head?_cons, Option.some.injEq] at hh
      subst hh
      have h2 := dj_le_path w done1 s1 hcore (hfound hf) t w.startPoint 0 (by omega) hc
        (fun p hp => hpp p (List.mem_cons_of_mem _ hp)) hll
      omega
  · obtain ⟨hh, hll, hc, hpp⟩ := hl
    cases l with
    | nil => simp at hh
    | cons a t =>
      simp only [List.head?_cons, Option.some.injEq] at hh
      subst hh
      have hsr : s1.distance w.startPoint ≠ 2147483647 := by omega
      have hall := dj_closed_reach w done1 s1 hcore hsize (hnot hf) t w.startPoint hsr hc
        (fun p hp => hpp p (List.mem_cons_of_mem _ hp))
      have hend : w.endPoint ∈ w.startPoint :: t := List.mem_of_getLast?_eq_some hll
      have hre : s1.distance w.endPoint ≠ 2147483647 := by
        rw [List.mem_cons] at hend
        rcases hend with he | he
        · rw [he]; exact hsr
        · exact hall _ he
      exact (hcore.2.2.2.2.2.2.1 _ (hnot hf _ hre)).2.1 rfl

theorem card_cells (n : Int) : (cells n).card = n.toNat * n.toNat := by
  unfold cells
  rw [Finset.card_product, Int.card_Icc]
  simp

theorem adj4_adj8 {u v : Pos} (h : adj4 u v) : adj8 u v := by
  obtain ⟨d, hd, hv⟩ := h
  refine ⟨d, ?_, hv⟩
  simp only [directions4, directions8, List.mem_cons, List.mem_singleton, List.mem_nil_iff,
    or_false] at hd ⊢
  rcases hd with h | h | h | h <;> simp [h]

theorem edgeWeight_adj4 {u v : Pos} (h : adj4 u v) : edgeWeight (v.1 - u.1, v.2 - u.2) = 1 := by
  obtain ⟨d, hd, hv⟩ := h
  subst hv
  simp only [directions4, List.mem_cons, List.mem_singleton, List.mem_nil_iff,
    or_false] at hd
  rcases hd with h | h | h | h <;> subst h <;> simp [edgeWeight]

theorem routeCost_orth :
    ∀ l : List Pos, List.Chain' adj4 l → routeCost edgeWeight l + 1 = l.length ∨ l = [] := by
  intro l
  induction l with
  | nil => intro _; right; rfl
  | cons a t ih =>
    intro hc
    left
    cases t with
    | nil => simp [routeCost]
    | cons b t2 =>
      rw [List.chain'_cons] at hc
      have h1 := edgeWeight_adj4 hc.1
      rcases ih hc.2 with h2 | h2
      · simp only [routeCost, List.length_cons] at h2 ⊢
        rw [h1]; omega
      · simp at h2

theorem specWeight_le (d : Pos) : specWeight d ≤ 10 * edgeWeight d := by
  unfold specWeight edgeWeight
  split <;> omega

theorem routeCost_spec_le : ∀ l : List Pos,
    routeCost specWeight l ≤ 10 * routeCost edgeWeight l := by
  intro l
  induction l with
  | nil => simp [routeCost]
  | cons a t ih =>
    cases t with
    | nil => simp [routeCost]
    | cons b t2 =>
      simp only [routeCost]
      have := specWeight_le (b.1 - a.1, b.2 - a.2)
      omega

theorem card_cells_le (n : Int) : ((cells n).card : Int) ≤ n * n := by
  rw [card_cells]
  push_cast
  rcases le_total 0 n with h | h
  · rw [Int.toNat_of_nonneg h]
  · rw [Int.toNat_eq_zero.mpr h]
    simpa using mul_self_nonneg n

theorem fits_of_gridSize (w : World) (h : 14 * (w.gridSize * w.gridSize) ≤ 2147483647) :
    14 * ((cells w.gridSize).card : Int) ≤ 2147483647 := by
  have := card_cells_le w.gridSize
  omega

theorem WellFormed.start {w : World} (h : WellFormed w) : passable w w.startPoint :=
  ⟨h.1, h.2.2.1⟩

theorem routeMarked_of_good {adj : Pos → Pos → Prop} {w : World} {r : PathResult}
    (hg : GoodResult adj w r) (hf : r.found = true) : RouteMarked adj w r := by
  obtain ⟨_, h2, _⟩ := hg
  obtain ⟨hh, hl, hc, hn, hp, hm1, hm2⟩ := h2 hf
  refine ⟨hh, hl, hn, hc, hp, hm1, fun p h3 hn3 => ?_⟩
  rcases hm2 p h3 with h | h
  · exact h
  · exact absurd h hn3

theorem frameKept_of_good {adj : Pos → Pos → Prop} {w : World} {r : PathResult}
    (hw : WellFormed w) (hg : GoodResult adj w r) : FrameKept w r := by
  obtain ⟨h1, _, _⟩ := hg
  refine ⟨fun p hp => ?_, fun p hp => ?_, ?_, ?_, fun p hp => ?_⟩
  · by_contra hne
    exact (h1 p (by omega)).1.2 hp
  · by_contra hne
    have := (h1 p (by omega)).2.2.2
    omega
  · by_contra hne
    exact (h1 _ hne).2.1 rfl
  · by_contra hne
    exact (h1 _ hne).2.2.1 rfl
  · obtain ⟨⟨hb, hn⟩, _, _, h23⟩ := h1 p hp
    refine ⟨?_, h23⟩
    rcases hw.2.1 p hb with h0 | h0
    · exact h0
    · exact absurd h0 hn

theorem routeCost_ten_orth :
    ∀ l : List Pos, List.Chain' adj4 l →
      routeCost (fun _ => 10) l = 10 * routeCost edgeWeight l := by
  intro l
  induction l with
  | nil => intro _; simp [routeCost]
  | cons a t ih =>
    intro hc
    cases t with
    | nil => simp [routeCost]
    | cons b t2 =>
      rw [List.chain'_cons] at hc
      have h1 := edgeWeight_adj4 hc.1
      have h2 := ih hc.2
      simp only [routeCost] at h2 ⊢
      rw [h1, h2]; ring

theorem path8_of_good4 {w : World} {r : PathResult} (hg : GoodResult adj4 w r)
    (hf : r.found = true) : Path8 w r.route ∧ List.Chain' adj4 r.route := by
  obtain ⟨hh, hl, hc, _, hp, _⟩ := hg.2.1 hf
  exact ⟨⟨hh, hl, hc.imp (fun {u v} h => adj4_adj8 h), hp⟩, hc⟩

theorem open3_wellFormed : WellFormed open3 :=
  ⟨by decide, fun _ _ => Or.inl rfl, by decide, by decide⟩

theorem open3_orthPath : OrthPath open3 [(0, 0), (1, 0), (2, 0), (2, 1), (2, 2)] := by
  refine ⟨rfl, rfl, ?_, ?_⟩
  · simp only [List.chain'_cons, List.chain'_singleton, and_true]
    refine ⟨⟨(1, 0), ?_, rfl⟩, ⟨(1, 0), ?_, rfl⟩, ⟨(0, 1), ?_, rfl⟩, ⟨(0, 1), ?_, rfl⟩⟩ <;>
      simp [directions4]
  · intro p hp
    refine ⟨?_, by simp [open3]⟩
    simp only [List.mem_cons, List.mem_singleton, List.mem_nil_iff, or_false] at hp
    rcases hp with h | h | h | h | h <;> subst h <;> decide

theorem open3_path8 : Path8 open3 [(0, 0), (1, 0), (2, 0), (2, 1), (2, 2)] := by
  obtain ⟨a, b, c, d⟩ := open3_orthPath
  exact ⟨a, b, c.imp (fun {u v} h => adj4_adj8 h), d⟩

theorem bubbleStep_spec (S t : List Int) (i j : Nat) (h : S.length < 18446744073709551616)
    (hj : j + i + 1 < S.length) (hp : t.Perm S)
    (hs : ∀ a b, a < b → S.length - i ≤ b → b < S.length → t.getD a 0 ≤ t.getD b 0)
    (hm : ∀ a, a ≤ j → t.getD a 0 ≤ t.getD j 0) :
    ∃ t1, (rd t j >>= fun a => rd t (uadd j 1) >>= fun b =>
        if a > b then swapAt t j (uadd j 1) else pure t) = .ok t1 ∧ t1.Perm S ∧
      (∀ a b, a < b → S.length - i ≤ b → b < S.length → t1.getD a 0 ≤ t1.getD b 0) ∧
      ∀ a, a ≤ j + 1 → t1.getD a 0 ≤ t1.getD (j + 1) 0 := by
  have hlen : t.length = S.length := hp.length_eq
  have e2 : uadd j 1 = j + 1 := by unfold uadd; omega
  have hj0 : j < t.length := by omega
  have hj1 : j + 1 < t.length := by omega
  rw [e2, rd_ok hj0, rd_ok hj1]
  simp only [Run.ok_bind]
  by_cases hgt : t.getD j 0 > t.getD (j + 1) 0
  · rw [if_pos hgt, swapAt_ok hj0 hj1]
    have hl1 : j + 1 < (t.set j (t.getD (j + 1) 0)).length := by simpa using hj1
    refine ⟨_, rfl, (swap_perm t j (j + 1) hj0 hj1).trans hp, ?_, ?_⟩
    · intro a b hab hb1 hb2
      rw [getD_set _ _ _ _ hl1, getD_set _ _ _ _ hj0, getD_set _ _ _ _ hl1,
        getD_set _ _ _ _ hj0]
      rw [if_neg (by omega : ¬ j + 1 = b), if_neg (by omega : ¬ j = b)]
      by_cases ha1 : j + 1 = a
      · rw [if_pos ha1]; exact hs j b (by omega) hb1 hb2
      · rw [if_neg ha1]
        by_cases ha0 : j = a
        · rw [if_pos ha0]; exact hs (j + 1) b (by omega) hb1 hb2
        · rw [if_neg ha0]; exact hs a b hab hb1 hb2
    · intro a ha
      rw [getD_set _ _ _ _ hl1, getD_set _ _ _ _ hj0, getD_set _ _ _ _ hl1,
        getD_set _ _ _ _ hj0]
      rw [if_pos rfl]
      by_cases ha1 : j + 1 = a
      · rw [if_pos ha1]
      · rw [if_neg ha1]
        by_cases ha0 : j = a
        · rw [if_pos ha0]; omega
        · rw [if_neg ha0]; exact hm a (by omega)
  · rw [if_neg hgt]
    refine ⟨t, rfl, hp, hs, fun a ha => ?_⟩
    by_cases ha1 : a = j + 1
    · subst ha1; exact le_refl _
    · have := hm a (by omega)
      omega

theorem bubblePass_spec (S d : List Int) (i : Nat) (h : S.length < 18446744073709551616)
    (hi : i + 1 < S.length) (hp : d.Perm S)
    (hs : ∀ a b, a < b → S.length - i ≤ b → b < S.length → d.getD a 0 ≤ d.getD b 0) :
    ∃ t1, bubblePass i d = .ok t1 ∧ t1.Perm S ∧
      ∀ a b, a < b → S.length - (i + 1) ≤ b → b < S.length → t1.getD a 0 ≤ t1.getD b 0 := by
  have hlen : d.length = S.length := hp.length_eq
  have e : usub (usub (usize d) i) 1 = S.length - i - 1 := by unfold usub usize; omega
  unfold bubblePass
  rw [e]
  obtain ⟨t1, ht, hp1, hs1, hm1⟩ := forLoop_inv _
    (fun j t => t.Perm S ∧
      (∀ a b, a < b → S.length - i ≤ b → b < S.length → t.getD a 0 ≤ t.getD b 0) ∧
      ∀ a, a ≤ j → t.getD a 0 ≤ t.getD j 0)
    (S.length - i - 1) 0 d
    ⟨hp, hs, fun a ha => by
      have : a = 0 := by omega
      subst this
      exact le_refl _⟩
    (fun j t _ hj2 hinv => bubbleStep_spec S t i j h (by omega) hinv.1 hinv.2.1 hinv.2.2)
  refine ⟨t1, ht, hp1, fun a b hab hb1 hb2 => ?_⟩
  by_cases hb : S.length - i ≤ b
  · exact hs1 a b hab hb hb2
  · have hbe : b = 0 + (S.length - i - 1) := by omega
    rw [hbe]
    exact hm1 a (by omega)

theorem bubbleSort_sorts (S : List Int) (h0 : 0 < S.length)
    (h : S.length < 18446744073709551616) :
    ∃ out, bubbleSort S = .ok out ∧ out.Sorted (· ≤ ·) ∧ out.Perm S := by
  have hus : usub (usize S) 1 = S.length - 1 := by unfold usub usize; omega
  unfold bubbleSort
  rw [hus]
  obtain ⟨out, ho, hperm, hsort⟩ := forLoop_inv bubblePass
    (fun i d => d.Perm S ∧
      ∀ a b, a < b → S.length - i ≤ b → b < S.length → d.getD a 0 ≤ d.getD b 0)
    (S.length - 1) 0 S ⟨List.Perm.refl _, fun a b _ hb1 hb2 => by omega⟩
    (fun i d _ hi2 hinv => bubblePass_spec S d i h (by omega) hinv.1 hinv.2)
  refine ⟨out, ho, sorted_of_getD out (fun a b hab hb => ?_), hperm⟩
  rw [hperm.length_eq] at hb
  exact hsort a b hab (by omega) hb

theorem adj4_ne {p q : Pos} (h : adj4 p q) : q ≠ p := by
  obtain ⟨d, hd, hq⟩ := h
  simp only [directions4, List.mem_cons, List.mem_singleton, List.mem_nil_iff,
    or_false] at hd
  intro he
  rw [he] at hq
  have h1 := congrArg Prod.fst hq
  have h2 := congrArg Prod.snd hq
  simp only at h1 h2
  rcases hd with h | h | h | h <;> subst h <;> simp at h1 h2

theorem adj8_ne {p q : Pos} (h : adj8 p q) : q ≠ p := by
  obtain ⟨d, hd, hq⟩ := h
  simp only [directions8, List.mem_cons, List.mem_singleton, List.mem_nil_iff,
    or_false] at hd
  intro he
  rw [he] at hq
  have h1 := congrArg Prod.fst hq
  have h2 := congrArg Prod.snd hq
  simp only at h1 h2
  rcases hd with h | h | h | h | h | h | h | h <;> subst h <;> simp at h1 h2

theorem bfsVisit_marked (n : Int) (a b c d : Pos) (s : Search) (h : VisitedMarked a b s) :
    VisitedMarked a b (bfsVisit n c s d) := by
  rw [bfsVisit_eq]
  split
  · intro p hp
    dsimp only at hp ⊢
    by_cases hpn : p = (c.1 + d.1, c.2 + d.2)
    · left; rw [hpn]; simp
    · rw [upd_other _ _ _ _ hpn] at hp
      rcases h p hp with h1 | h1 | h1 | h1
      · left; exact List.mem_append_left _ h1
      · right; left; exact h1
      · right; right; left; exact h1
      · right; right; right; exact h1
  · exact h

theorem bfsFold_marked (n : Int) (a b c : Pos) :
    ∀ (dirs : List Pos) (s : Search), VisitedMarked a b s →
      VisitedMarked a b (dirs.foldl (bfsVisit n c) s) := by
  intro dirs
  induction dirs with
  | nil => intro s h; exact h
  | cons d ds ih =>
    intro s h
    rw [List.foldl_cons]
    exact ih _ (bfsVisit_marked n a b c d s h)

theorem markVisited_eq (n : Int) (a b c : Pos) (g g1 : Pos → Int)
    (h : markVisited n a b c g = .ok g1) :
    g1 = if c ≠ a ∧ c ≠ b then upd g c 2 else g := by
  unfold markVisited at h
  split at h
  · rename_i hc
    rw [if_pos hc]
    unfold tset at h
    split at h
    · cases h; rfl
    · cases h
  · rename_i hc
    rw [if_neg hc]
    cases h; rfl

theorem bfsLoop_marked (n : Int) (a b : Pos) :
    ∀ (fuel : Nat) (s : Search) (found : Bool) (s1 : Search),
      bfsLoop n a b fuel s = .ok (found, s1) → VisitedMarked a b s →
      VisitedMarked a b s1 ∧ (found = false → s1.frontier = []) := by
  intro fuel
  induction fuel with
  | zero =>
    intro s found s1 h hinv
    cases hfr : s.frontier with
    | nil =>
      rw [bfsLoop_nil _ _ _ _ _ hfr] at h
      cases h
      exact ⟨hinv, fun _ => hfr⟩
    | cons c rest =>
      unfold bfsLoop at h
      simp [hfr] at h
  | succ f ih =>
    intro s found s1 h hinv
    cases hfr : s.frontier with
    | nil =>
      rw [bfsLoop_nil _ _ _ _ _ hfr] at h
      cases h
      exact ⟨hinv, fun _ => hfr⟩
    | cons c rest =>
      rw [bfsLoop_cons _ _ _ _ _ _ _ hfr] at h
      by_cases hc : c = b
      · rw [if_pos hc] at h
        cases h
        refine ⟨fun p hp => ?_, fun hh => Bool.noConfusion hh⟩
        dsimp only at hp ⊢
        rcases hinv p hp with h1 | h1 | h1 | h1
        · rw [hfr, List.mem_cons] at h1
          rcases h1 with h1 | h1
          · right; right; left; rw [h1, hc]
          · left; exact h1
        · right; left; exact h1
        · right; right; left; exact h1
        · right; right; right; exact h1
      · rw [if_neg hc] at h
        cases hm : markVisited n a b c s.grid with
        | ok g1 =>
          rw [hm] at h
          have hg := markVisited_eq _ _ _ _ _ _ hm
          refine ih _ _ _ h (bfsFold_marked n a b c _ _ ?_)
          intro p hp
          dsimp only at hp ⊢
          have hg2 : s.grid p = 2 → g1 p = 2 := by
            intro h2
            rw [hg]
            split
            · by_cases hpc : p = c
              · rw [hpc, upd_same]
              · rw [upd_other _ _ _ _ hpc]; exact h2
            · exact h2
          rcases hinv p hp with h1 | h1 | h1 | h1
          · rw [hfr, List.mem_cons] at h1
            rcases h1 with h1 | h1
            · by_cases hca : c = a
              · right; left; rw [h1, hca]
              · right; right; right
                rw [hg, if_pos ⟨hca, hc⟩, h1, upd_same]
            · left; exact h1
          · right; left; exact h1
          · right; right; left; exact h1
          · right; right; right; exact hg2 h1
        | oob => rw [hm] at h; cases h
        | fuel => rw [hm] at h; cases h

theorem bfs_walled (w : World) (hs : passable w w.startPoint) (hno : ¬ ∃ l, OrthPath w l) :
    ∃ F, ∀ fuel, F ≤ fuel → ∃ r, bfs fuel w = .ok r ∧ r.found = false ∧ r.route = [] ∧
      (∀ p, r.grid p = 3 → w.grid p = 3) ∧
      (∀ q, adj4 w.startPoint q → passable w q → r.grid q = 2) := by
  refine ⟨(cells w.gridSize).card + 1, fun fuel hfuel => ?_⟩
  have hcnt := unvisitedCount_init w.gridSize w.startPoint hs.1
  obtain ⟨found, s1, L1, hloop, hcore, hfound, hnot⟩ :=
    bfsLoop_spec w fuel _ _ (bfs_init_outer w hs)
      (by simp only [bfsMeasure, List.length_singleton]; omega)
  have hcore2 := hcore
  obtain ⟨hFR, hV0, hL0, hV1, hP, hM, hB⟩ := hcore
  have hpost : SearchPost adj4 w ((cells w.gridSize).card + 1) found s1.grid s1.parent := by
    refine ⟨hFR, fun hf => ⟨fun p => s1.visited p = true, L1, ⟨fun p hp => (hV1 p hp).1,
      fun p hp hne => ?_⟩, (hfound hf).1, hV1, ?_⟩⟩
    · obtain ⟨h1, h2, h3, h4⟩ := hP p hp hne
      exact ⟨h1, h2, by omega, h4⟩
    · have := hB _ (hfound hf).1; omega
  obtain ⟨r, hr, hrf, _, hgood⟩ :=
    reconstruct_spec adj4 w _ fuel found s1.grid s1.parent hfuel hpost
  have hff : found = false := by
    cases hfd : found with
    | false => rfl
    | true =>
      exfalso
      rw [hfd] at hrf
      obtain ⟨h1, h2, h3, _, h5, _⟩ := hgood.2.1 hrf
      exact hno ⟨r.route, h1, h2, h3, h5⟩
  subst hff
  have hrg : r.grid = s1.grid := by
    have : reconstruct w fuel false s1.grid s1.parent =
        .ok { found := false, grid := s1.grid, parent := s1.parent, route := [] } := rfl
    rw [this] at hr
    cases hr
    rfl
  obtain ⟨hmk, hemp⟩ := bfsLoop_marked _ _ _ _ _ _ _ hloop (by
    intro p hp
    by_cases hps : p = w.startPoint
    · right; left; exact hps
    · dsimp only at hp
      rw [upd_other _ _ _ _ hps] at hp
      exact Bool.noConfusion hp)
  refine ⟨r, ?_, hrf, (hgood.2.2 hrf).1, (hgood.2.2 hrf).2, fun q hq hpq => ?_⟩
  · unfold bfs
    rw [tset_ok _ _ hs.1]
    simp only [Run.ok_bind, hloop]
    exact hr
  · obtain ⟨hEnd, hclosed⟩ := hnot rfl
    have hvq := hclosed _ hV0 q hq hpq
    rw [hrg]
    rcases hmk q hvq with h1 | h1 | h1 | h1
    · rw [hemp rfl] at h1
      simp at h1
    · exact absurd h1 (adj4_ne hq)
    · rw [h1, hEnd] at hvq
      exact Bool.noConfusion hvq
    · exact h1

theorem dfsVisit_closed (w : World) (s : Search) (c d : Pos) (pend : List Pos)
    (h : DfsClosedMid w s c (d :: pend)) :
    DfsClosedMid w (dfsVisit w.gridSize c s d) c pend := by
  obtain ⟨hS, hG, hM, hC⟩ := h
  rw [dfsVisit_eq]
  split
  · refine ⟨?_, hG, hM, fun p hp q hq hpq => ?_⟩
    · rcases hS with h1 | h1
      · left; exact List.mem_cons_of_mem _ h1
      · right; exact h1
    · dsimp only at hp ⊢
      rcases hC p hp q hq hpq with h1 | h1 | ⟨h1, e, he, hqe⟩
      · left; exact h1
      · right; left; exact List.mem_cons_of_mem _ h1
      · rw [List.mem_cons] at he
        rcases he with he | he
        · right; left; rw [hqe, he]; exact List.mem_cons_self _ _
        · right; right; exact ⟨h1, e, he, hqe⟩
  · rename_i hcond
    refine ⟨hS, hG, hM, fun p hp q hq hpq => ?_⟩
    rcases hC p hp q hq hpq with h1 | h1 | ⟨h1, e, he, hqe⟩
    · left; exact h1
    · right; left; exact h1
    · rw [List.mem_cons] at he
      rcases he with he | he
      · left
        subst he
        rw [← hqe] at hcond
        have h1b := hpq.1
        have h2b := hG q hpq.2
        by_contra hv
        apply hcond
        have hv2 : s.visited q = false := by simpa using hv
        simp [h1b, h2b, hv2]
      · right; right; exact ⟨h1, e, he, hqe⟩

theorem dfsFold_closed (w : World) (c : Pos) :
    ∀ (dirs : List Pos) (s : Search), DfsClosedMid w s c dirs →
      DfsClosedMid w (dirs.foldl (dfsVisit w.gridSize c) s) c [] := by
  intro dirs
  induction dirs with
  | nil => intro s h; exact h
  | cons d ds ih =>
    intro s h
    rw [List.foldl_cons]
    exact ih _ (dfsVisit_closed w s c d ds h)

theorem dfsLoop_closed (w : World) :
    ∀ (fuel : Nat) (s : Search) (found : Bool) (s1 : Search),
      dfsLoop w.gridSize w.startPoint w.endPoint fuel s = .ok (found, s1) → DfsClosed w s →
      (found = false → DfsClosed w s1 ∧ s1.frontier = []) := by
  intro fuel
  induction fuel with
  | zero =>
    intro s found s1 h hinv
    cases hfr : s.frontier with
    | nil =>
      rw [dfsLoop_nil _ _ _ _ _ hfr] at h
      cases h
      exact fun _ => ⟨hinv, hfr⟩
    | cons c rest =>
      unfold dfsLoop at h
      simp [hfr] at h
  | succ f ih =>
    intro s found s1 h hinv
    cases hfr : s.frontier with
    | nil =>
      rw [dfsLoop_nil _ _ _ _ _ hfr] at h
      cases h
      exact fun _ => ⟨hinv, hfr⟩
    | cons c rest =>
      obtain ⟨hS, hG, hM, hC⟩ := hinv
      rw [dfsLoop_cons _ _ _ _ _ _ _ hfr] at h
      by_cases hc : c = w.endPoint
      · rw [if_pos hc] at h
        cases h
        exact fun hh => Bool.noConfusion hh
      · rw [if_neg hc] at h
        cases hseen : tget w.gridSize s.visited c with
        | ok seen =>
          rw [hseen] at h
          simp only [Run.ok_bind] at h
          have hsv : seen = s.visited c := by
            unfold tget at hseen
            split at hseen
            · cases hseen; rfl
            · cases hseen
          cases hsn : seen with
          | true =>
            rw [hsn] at h hsv
            simp only [if_true] at h
            refine ih _ _ _ h ⟨?_, hG, hM, fun p hp q hq hpq => ?_⟩
            · dsimp only
              rcases hS with h1 | h1
              · rw [hfr, List.mem_cons] at h1
                rcases h1 with h1 | h1
                · right; rw [h1]; exact hsv.symm
                · left; exact h1
              · right; exact h1
            · dsimp only at hp ⊢
              rcases hC p hp q hq hpq with h1 | h1
              · left; exact h1
              · rw [hfr, List.mem_cons] at h1
                rcases h1 with h1 | h1
                · left; rw [h1]; exact hsv.symm
                · right; exact h1
          | false =>
            rw [hsn] at h hsv
            simp only [Bool.false_eq_true, if_false] at h
            cases hts : tset w.gridSize s.visited c true with
            | ok vis =>
              rw [hts] at h
              simp only [Run.ok_bind] at h
              have hvis : vis = upd s.visited c true := by
                unfold tset at hts
                split at hts
                · cases hts; rfl
                · cases hts
              cases hm : markVisited w.gridSize w.startPoint w.endPoint c s.grid with
              | ok g1 =>
                rw [hm] at h
                simp only [Run.ok_bind] at h
                have hg := markVisited_eq _ _ _ _ _ _ hm
                have hfold := dfsFold_closed w c directions4
                  { s with frontier := rest, visited := vis, grid := g1 } (by
                    subst hvis
                    refine ⟨?_, fun q hq => ?_, fun p hp => ?_, fun p hp q hq hpq => ?_⟩
                    · dsimp only
                      rcases hS with h1 | h1
                      · rw [hfr, List.mem_cons] at h1
                        rcases h1 with h1 | h1
                        · right; rw [h1, upd_same]
                        · left; exact h1
                      · right
                        by_cases hsc : w.startPoint = c
                        · rw [hsc, upd_same]
                        · rw [upd_other _ _ _ _ hsc]; exact h1
                    · dsimp only
                      rw [hg]
                      split
                      · by_cases hqc : q = c
                        · rw [hqc, upd_same]; decide
                        · rw [upd_other _ _ _ _ hqc]; exact hG q hq
                      · exact hG q hq
                    · dsimp only at hp ⊢
                      by_cases hpc : p = c
                      · by_cases hca : c = w.startPoint
                        · left; rw [hpc, hca]
                        · right; right
                          rw [hg, if_pos ⟨hca, hc⟩, hpc, upd_same]
                      · rw [upd_other _ _ _ _ hpc] at hp
                        rcases hM p hp with h1 | h1 | h1
                        · left; exact h1
                        · right; left; exact h1
                        · right; right
                          rw [hg]
                          split
                          · rw [upd_other _ _ _ _ hpc]; exact h1
                          · exact h1
                    · dsimp only at hp ⊢
                      by_cases hpc : p = c
                      · right; right
                        obtain ⟨e, he, hqe⟩ := hq
                        rw [hpc] at hqe
                        exact ⟨hpc, e, he, hqe⟩
                      · rw [upd_other _ _ _ _ hpc] at hp
                        rcases hC p hp q hq hpq with h1 | h1
                        · left
                          by_cases hqc : q = c
                          · rw [hqc, upd_same]
                          · rw [upd_other _ _ _ _ hqc]; exact h1
                        · rw [hfr, List.mem_cons] at h1
                          rcases h1 with h1 | h1
                          · left; rw [h1, upd_same]
                          · right; left; exact h1)
                refine ih _ _ _ h ?_
                obtain ⟨k1, k2, k3, k4⟩ := hfold
                refine ⟨k1, k2, k3, fun p hp q hq hpq => ?_⟩
                rcases k4 p hp q hq hpq with h1 | h1 | ⟨_, e, he, _⟩
                · left; exact h1
                · right; exact h1
                · simp at he
              | oob => rw [hm] at h; cases h
              | fuel => rw [hm] at h; cases h
            | oob => rw [hts] at h; cases h
            | fuel => rw [hts] at h; cases h
        | oob => rw [hseen] at h; cases h
        | fuel => rw [hseen] at h; cases h

theorem dfs_walled (w : World) (hs : passable w w.startPoint) (hno : ¬ ∃ l, OrthPath w l) :
    ∃ F, ∀ fuel, F ≤ fuel → ∃ r, dfs fuel w = .ok r ∧ r.found = false ∧ r.route = [] ∧
      (∀ p, r.grid p = 3 → w.grid p = 3) ∧
      (∀ q, adj4 w.startPoint q → passable w q → r.grid q = 2) := by
  refine ⟨4 * (cells w.gridSize).card + 2, fun fuel hfuel => ?_⟩
  have hinit : DfsInv w (fun _ => 0)
      { grid := w.grid, visited := fun _ => false, parent := fun _ => (-1, -1),
        frontier := [w.startPoint] } := by
    refine ⟨fun p hp => absurd rfl hp, fun p hp => Bool.noConfusion hp, ?_,
      fun p hp => Bool.noConfusion hp, fun p hp => Bool.noConfusion hp⟩
    intro p hp
    rw [List.mem_singleton] at hp
    rw [hp]; exact ⟨hs, Or.inl rfl⟩
  have hU : unvisitedCount w.gridSize (fun _ => false) = (cells w.gridSize).card := by
    unfold unvisitedCount
    rw [Finset.filter_true_of_mem (fun _ _ => rfl)]
  obtain ⟨found, s1, hloop, hpost⟩ := dfsLoop_spec w fuel _ _ hinit
    (by simp only [dfsMeasure, List.length_singleton, hU]; omega)
  obtain ⟨r, hr, hrf, _, hgood⟩ := reconstruct_spec adj4 w _ fuel found s1.grid s1.parent
    (by omega) hpost
  have hff : found = false := by
    cases hfd : found with
    | false => rfl
    | true =>
      exfalso
      rw [hfd] at hrf
      obtain ⟨h1, h2, h3, _, h5, _⟩ := hgood.2.1 hrf
      exact hno ⟨r.route, h1, h2, h3, h5⟩
  subst hff
  have hrg : r.grid = s1.grid := by
    have : reconstruct w fuel false s1.grid s1.parent =
        .ok { found := false, grid := s1.grid, parent := s1.parent, route := [] } := rfl
    rw [this] at hr
    cases hr
    rfl
  obtain ⟨⟨hS, _, hM, hC⟩, hemp⟩ := dfsLoop_closed w _ _ _ _ hloop
    ⟨Or.inl (List.mem_singleton.mpr rfl), fun q hq => hq, fun p hp => Bool.noConfusion hp,
      fun p hp => Bool.noConfusion hp⟩ rfl
  refine ⟨r, ?_, hrf, (hgood.2.2 hrf).1, (hgood.2.2 hrf).2, fun q hq hpq => ?_⟩
  · unfold dfs
    simp only [Run.ok_bind, hloop]
    exact hr
  · rw [hemp] at hS hC
    have hvS : s1.visited w.startPoint = true := by
      rcases hS with h1 | h1
      · simp at h1
      · exact h1
    have hvq : s1.visited q = true := by
      rcases hC _ hvS q hq hpq with h1 | h1
      · exact h1
      · simp at h1
    rw [hrg]
    rcases hM q hvq with h1 | h1 | h1
    · exact absurd h1 (adj4_ne hq)
    · exfalso
      apply hno
      refine ⟨[w.startPoint, q], rfl, by rw [h1]; rfl, ?_, ?_⟩
      · simp only [List.chain'_cons, List.chain'_singleton, and_true]
        exact hq
      · intro p hp
        simp only [List.mem_cons, List.mem_singleton, List.mem_nil_iff, or_false] at hp
        rcases hp with hp | hp
        · rw [hp]; exact hs
        · rw [hp]; exact hpq
    · exact h1

theorem dijkstraRelax_marked (n : Int) (a b c d : Pos) (s : DState)
    (h : ReachedMarked a b s) : ReachedMarked a b (dijkstraRelax n c s d) := by
  unfold dijkstraRelax
  dsimp only
  split
  · split
    · intro p hp
      dsimp only at hp ⊢
      by_cases hpn : p = (c.1 + d.1, c.2 + d.2)
      · left
        rw [hpn, upd_same]
        exact List.mem_cons_self _ _
      · rw [upd_other _ _ _ _ hpn] at hp ⊢
        rcases h p hp with h1 | h1 | h1 | h1
        · left; exact List.mem_cons_of_mem _ h1
        · right; left; exact h1
        · right; right; left; exact h1
        · right; right; right; exact h1
    · exact h
  · exact h

theorem dijkstraFold_marked (n : Int) (a b c : Pos) :
    ∀ (dirs : List Pos) (s : DState), ReachedMarked a b s →
      ReachedMarked a b (dirs.foldl (dijkstraRelax n c) s) := by
  intro dirs
  induction dirs with
  | nil => intro s h; exact h
  | cons d ds ih =>
    intro s h
    rw [List.foldl_cons]
    exact ih _ (dijkstraRelax_marked n a b c d s h)

theorem dijkstraLoop_marked (posLt : Pos → Pos → Bool) (n : Int) (a b : Pos) :
    ∀ (fuel : Nat) (s : DState) (found : Bool) (s1 : DState),
      dijkstraLoop posLt n a b fuel s = .ok (found, s1) → ReachedMarked a b s →
      (found = false → ReachedMarked a b s1 ∧ s1.pq = []) := by
  intro fuel
  induction fuel with
  | zero =>
    intro s found s1 h hinv
    cases htop : pqTop posLt s.pq with
    | none =>
      rw [dijkstraLoop_none _ _ _ _ _ _ htop] at h
      cases h
      exact fun _ => ⟨hinv, pqTop_none _ _ htop⟩
    | some e =>
      unfold dijkstraLoop at h
      simp [htop] at h
  | succ f ih =>
    intro s found s1 h hinv
    cases htop : pqTop posLt s.pq with
    | none =>
      rw [dijkstraLoop_none _ _ _ _ _ _ htop] at h
      cases h
      exact fun _ => ⟨hinv, pqTop_none _ _ htop⟩
    | some e =>
      obtain ⟨k, c⟩ := e
      rw [dijkstraLoop_some _ _ _ _ _ _ _ _ htop] at h
      by_cases hc : c = b
      · rw [if_pos hc] at h
        cases h
        exact fun hh => Bool.noConfusion hh
      · rw [if_neg hc] at h
        cases hbest : tget n s.distance c with
        | ok best =>
          rw [hbest] at h
          simp only [Run.ok_bind] at h
          have hbv : best = s.distance c := by
            unfold tget at hbest
            split at hbest
            · cases hbest; rfl
            · cases hbest
          subst hbv
          by_cases hst : k > s.distance c
          · rw [if_pos hst] at h
            refine ih _ _ _ h (fun p hp => ?_)
            dsimp only at hp ⊢
            rcases hinv p hp with h1 | h1 | h1 | h1
            · left
              refine (List.mem_erase_of_ne ?_).mpr h1
              intro he
              have e1 := congrArg Prod.fst he
              have e2 := congrArg Prod.snd he
              simp only at e1 e2
              rw [e2] at e1
              omega
            · right; left; exact h1
            · right; right; left; exact h1
            · right; right; right; exact h1
          · rw [if_neg hst] at h
            cases hm : markVisited n a b c s.grid with
            | ok g1 =>
              rw [hm] at h
              simp only [Run.ok_bind] at h
              have hg := markVisited_eq _ _ _ _ _ _ hm
              refine ih _ _ _ h (dijkstraFold_marked n a b c _ _ (fun p hp => ?_))
              dsimp only at hp ⊢
              by_cases hpc : p = c
              · by_cases hca : c = a
                · right; left; rw [hpc, hca]
                · right; right; right
                  rw [hg, if_pos ⟨hca, hc⟩, hpc, upd_same]
              · rcases hinv p hp with h1 | h1 | h1 | h1
                · left
                  refine (List.mem_erase_of_ne ?_).mpr h1
                  intro he
                  exact hpc (congrArg Prod.snd he)
                · right; left; exact h1
                · right; right; left; exact h1
                · right; right; right
                  rw [hg]
                  split
                  · rw [upd_other _ _ _ _ hpc]; exact h1
                  · exact h1
            | oob => rw [hm] at h; cases h
            | fuel => rw [hm] at h; cases h
        | oob => rw [hbest] at h; cases h
        | fuel => rw [hbest] at h; cases h

theorem dijkstra_walled (posLt : Pos → Pos → Bool) (w : World)
    (hs : passable w w.startPoint)
    (hsize : 14 * ((cells w.gridSize).card : Int) ≤ 2147483647)
    (hno : ¬ ∃ l, Path8 w l) :
    ∃ F, ∀ fuel, F ≤ fuel → ∃ r, dijkstra posLt fuel w = .ok r ∧ r.found = false ∧
      r.route = [] ∧ (∀ p, r.grid p = 3 → w.grid p = 3) ∧
      (∀ q, adj8 w.startPoint q → passable w q → r.grid q = 2) := by
  refine ⟨(cells w.gridSize).card * 2147483647 + 2147483647, fun fuel hfuel => ?_⟩
  have hcard : 0 < (cells w.gridSize).card :=
    Finset.card_pos.mpr ⟨_, (mem_cells _ _).mpr hs.1⟩
  obtain ⟨found, s1, done1, hloop, hcore, hfound, hnot⟩ :=
    dijkstraLoop_spec posLt w hsize fuel _ _ (dj_init_outer w hs)
      (by have := dj_init_measure w; omega)
  obtain ⟨hFR, hD0, hD1, hD1p, hD2, hI1, hI3, hDB⟩ := hcore
  have hpost : SearchPost
      (fun u v => adj8 u v ∧ s1.distance u + stepWeight u v ≤ s1.distance v) w
      2147483647 found s1.grid s1.parent := by
    refine ⟨hFR, fun hf => ⟨fun p => s1.distance p ≠ 2147483647,
      fun p => (s1.distance p).toNat, ⟨fun p hp => (hD1p p hp).1, fun p hp hne => ?_⟩,
      (hfound hf).1, hD1p, ?_⟩⟩
    · obtain ⟨h1, h2, h3, h4⟩ := hD2 p hp hne
      refine ⟨h1, ⟨h2, h3⟩, ?_, h4⟩
      have hw : 1 ≤ stepWeight (s1.parent p) p := edgeWeight_pos _
      have := (hD1 (s1.parent p)).1
      dsimp only
      omega
    · have h1 := (hfound hf).1
      have h2 := hD1 w.endPoint
      dsimp only
      omega
  obtain ⟨r, hr, hrf, _, hgood⟩ :=
    reconstruct_spec _ w _ fuel found s1.grid s1.parent (by omega) hpost
  have hff : found = false := by
    cases hfd : found with
    | false => rfl
    | true =>
      exfalso
      rw [hfd] at hrf
      obtain ⟨h1, h2, h3, _, h5, _⟩ := hgood.2.1 hrf
      exact hno ⟨r.route, h1, h2, h3.imp (fun {u v} h => h.1), h5⟩
  subst hff
  have hrg : r.grid = s1.grid := by
    have : reconstruct w fuel false s1.grid s1.parent =
        .ok { found := false, grid := s1.grid, parent := s1.parent, route := [] } := rfl
    rw [this] at hr
    cases hr
    rfl
  obtain ⟨hmk, hemp⟩ := dijkstraLoop_marked posLt _ _ _ _ _ _ _ hloop (by
    intro p hp
    dsimp only at hp ⊢
    by_cases hps : p = w.startPoint
    · right; left; exact hps
    · rw [upd_other _ _ _ _ hps] at hp
      exact absurd rfl hp) rfl
  refine ⟨r, ?_, hrf, (hgood.2.2 hrf).1, (hgood.2.2 hrf).2, fun q hq hpq => ?_⟩
  · unfold dijkstra
    rw [tset_ok _ _ hs.1]
    simp only [Run.ok_bind, hloop]
    exact hr
  · have hdS : done1 w.startPoint := hnot rfl _ (by rw [hD0]; decide)
    have hle := (hI3 _ hdS).2.2 q hq hpq
    have hsw : stepWeight w.startPoint q ≤ 14 := edgeWeight_le _
    have hfin : s1.distance q ≠ 2147483647 := by
      rw [hD0] at hle
      omega
    have hdq := hnot rfl q hfin
    rw [hrg]
    rcases hmk q hfin with h1 | h1 | h1 | h1
    · rw [hemp] at h1
      simp at h1
    · exact absurd h1 (adj8_ne hq)
    · exact absurd h1 (hI3 _ hdq).2.1
    · exact h1

theorem dfsLoop_false_empty (n : Int) (a b : Pos) :
    ∀ (fuel : Nat) (s s1 : Search), dfsLoop n a b fuel s = .ok (false, s1) →
      s1.frontier = [] := by
  intro fuel
  induction fuel with
  | zero =>
    intro s s1 h
    cases hfr : s.frontier with
    | nil =>
      rw [dfsLoop_nil _ _ _ _ _ hfr] at h
      cases h
      exact hfr
    | cons c rest =>
      unfold dfsLoop at h
      simp [hfr] at h
  | succ f ih =>
    intro s s1 h
    cases hfr : s.frontier with
    | nil =>
      rw [dfsLoop_nil _ _ _ _ _ hfr] at h
      cases h
      exact hfr
    | cons c rest =>
      rw [dfsLoop_cons _ _ _ _ _ _ _ hfr] at h
      by_cases hc : c = b
      · rw [if_pos hc] at h
        cases h
      · rw [if_neg hc] at h
        cases hseen : tget n s.visited c with
        | ok seen =>
          rw [hseen] at h
          simp only [Run.ok_bind] at h
          cases hsn : seen with
          | true =>
            rw [hsn] at h
            simp only [if_true] at h
            exact ih _ _ h
          | false =>
            rw [hsn] at h
            simp only [Bool.false_eq_true, if_false] at h
            cases hts : tset n s.visited c true with
            | ok vis =>
              rw [hts] at h
              simp only [Run.ok_bind] at h
              cases hm : markVisited n a b c s.grid with
              | ok g1 =>
                rw [hm] at h
                exact ih _ _ h
              | oob => rw [hm] at h; cases h
              | fuel => rw [hm] at h; cases h
            | oob => rw [hts] at h; cases h
            | fuel => rw [hts] at h; cases h
        | oob => rw [hseen] at h; cases h
        | fuel => rw [hseen] at h; cases h

theorem dijkstraLoop_false_empty (posLt : Pos → Pos → Bool) (n : Int) (a b : Pos) :
    ∀ (fuel : Nat) (s s1 : DState), dijkstraLoop posLt n a b fuel s = .ok (false, s1) →
      s1.pq = [] := by
  intro fuel
  induction fuel with
  | zero =>
    intro s s1 h
    cases htop : pqTop posLt s.pq with
    | none =>
      rw [dijkstraLoop_none _ _ _ _ _ _ htop] at h
      cases h
      exact pqTop_none _ _ htop
    | some e =>
      unfold dijkstraLoop at h
      simp [htop] at h
  | succ f ih =>
    intro s s1 h
    cases htop : pqTop posLt s.pq with
    | none =>
      rw [dijkstraLoop_none _ _ _ _ _ _ htop] at h
      cases h
      exact pqTop_none _ _ htop
    | some e =>
      obtain ⟨k, c⟩ := e
      rw [dijkstraLoop_some _ _ _ _ _ _ _ _ htop] at h
      by_cases hc : c = b
      · rw [if_pos hc] at h
        cases h
      · rw [if_neg hc] at h
        cases hbest : tget n s.distance c with
        | ok best =>
          rw [hbest] at h
          simp only [Run.ok_bind] at h
          by_cases hst : k > best
          · rw [if_pos hst] at h
            exact ih _ _ h
          · rw [if_neg hst] at h
            cases hm : markVisited n a b c s.grid with
            | ok g1 =>
              rw [hm] at h
              exact ih _ _ h
            | oob => rw [hm] at h; cases h
            | fuel => rw [hm] at h; cases h
        | oob => rw [hbest] at h; cases h
        | fuel => rw [hbest] at h; cases h

theorem path8_of_orthPath {w : World} {l : List Pos} (h : OrthPath w l) : Path8 w l := by
  obtain ⟨a, b, c, d⟩ := h
  exact ⟨a, b, c.imp (fun {u v} h => adj4_adj8 h), d⟩

theorem chain_closed (w : World) (C : Pos → Prop)
    (hstep : ∀ p q, C p → adj8 p q → passable w q → C q) :
    ∀ (l : List Pos) (a : Pos), C a → List.Chain adj8 a l → (∀ p ∈ l, passable w p) →
      ∀ p ∈ l, C p := by
  intro l
  induction l with
  | nil => intro a _ _ _ p hp; simp at hp
  | cons b t ih =>
    intro a ha hc hpass p hp
    rw [List.chain_cons] at hc
    have hb : C b := hstep a b ha hc.1 (hpass b (List.mem_cons_self _ _))
    rw [List.mem_cons] at hp
    rcases hp with hp | hp
    · rw [hp]; exact hb
    · exact ih b hb hc.2 (fun q hq => hpass q (List.mem_cons_of_mem _ hq)) p hp

theorem no_path8_of_closed (w : World) (C : Pos → Prop) (hS : C w.startPoint)
    (hE : ¬ C w.endPoint) (hstep : ∀ p q, C p → adj8 p q → passable w q → C q) :
    ¬ ∃ l, Path8 w l := by
  rintro ⟨l, hh, hl, hc, hp⟩
  cases l with
  | nil => simp at hh
  | cons a t =>
    simp only [List.head?_cons, Option.some.injEq] at hh
    subst hh
    have hall : ∀ p ∈ w.startPoint :: t, C p := by
      intro p hp1
      rw [List.mem_cons] at hp1
      rcases hp1 with hp1 | hp1
      · rw [hp1]; exact hS
      · exact chain_closed w C hstep t _ hS hc
          (fun q hq => hp q (List.mem_cons_of_mem _ hq)) p hp1
    exact hE (hall _ (List.mem_of_getLast?_eq_some hl))

theorem enclosed3_no_path : ¬ ∃ l, Path8 enclosed3 l := by
  refine no_path8_of_closed enclosed3 (fun p => p = (0, 0)) rfl (by decide) ?_
  rintro p q hp ⟨d, hd, hq⟩ ⟨hb, hg⟩
  subst hp
  subst hq
  exfalso
  simp only [directions8, List.mem_cons, List.mem_singleton, List.mem_nil_iff,
    or_false] at hd
  rcases hd with h | h | h | h | h | h | h | h <;> subst h <;>
    first
    | exact absurd hb (by decide)
    | exact hg (by decide)

theorem walled3_no_path : ¬ ∃ l, Path8 walled3 l := by
  refine no_path8_of_closed walled3 (fun p => p.1 = 0) rfl (by decide) ?_
  rintro p q hp ⟨d, hd, hq⟩ ⟨hb, hg⟩
  subst hq
  simp only [inBounds, Bool.and_eq_true, decide_eq_true_eq] at hb
  simp only [walled3, ne_eq, ite_eq_left_iff, not_forall] at hg
  simp only [directions8, List.mem_cons, List.mem_singleton, List.mem_nil_iff,
    or_false] at hd
  rcases hd with h | h | h | h | h | h | h | h <;> subst h <;> simp at hb hg ⊢ <;> omega

theorem bfsLoop_false_empty (n : Int) (a b : Pos) :
    ∀ (fuel : Nat) (s s1 : Search), bfsLoop n a b fuel s = .ok (false, s1) →
      s1.frontier = [] := by
  intro fuel
  induction fuel with
  | zero =>
    intro s s1 h
    cases hfr : s.frontier with
    | nil =>
      rw [bfsLoop_nil _ _ _ _ _ hfr] at h
      cases h
      exact hfr
    | cons c rest =>
      unfold bfsLoop at h
      simp [hfr] at h
  | succ f ih =>
    intro s s1 h
    cases hfr : s.frontier with
    | nil =>
      rw [bfsLoop_nil _ _ _ _ _ hfr] at h
      cases h
      exact hfr
    | cons c rest =>
      rw [bfsLoop_cons _ _ _ _ _ _ _ hfr] at h
      by_cases hc : c = b
      · rw [if_pos hc] at h
        cases h
      · rw [if_neg hc] at h
        cases hm : markVisited n a b c s.grid with
        | ok g1 =>
          rw [hm] at h
          exact ih _ _ h
        | oob => rw [hm] at h; cases h
        | fuel => rw [hm] at h; cases h

theorem initializeGrid_ok (v : Visualizer) (draws : Nat → Nat) (h : 0 < v.gridSize) :
    ∃ g, initializeGrid v draws =
      .ok ({ v with grid := g, startPoint := (0, 0),
                    endPoint := (v.gridSize - 1, v.gridSize - 1) },
        fun i => draws (i + v.gridSize.toNat * v.gridSize.toNat)) ∧
      g (0, 0) = 0 ∧ g (v.gridSize - 1, v.gridSize - 1) = 0 ∧
      ∀ p, g p = 0 ∨ g p = 1 := by
  have hb0 : inBounds v.gridSize (0, 0) = true := by
    simp [inBounds]; omega
  have hb1 : inBounds v.gridSize (v.gridSize - 1, v.gridSize - 1) = true := by
    simp [inBounds]; omega
  unfold initializeGrid
  simp only [tset_ok _ _ hb0, tset_ok _ _ hb1, Run.ok_bind, Run.pure_eq]
  refine ⟨_, rfl, ?_, upd_same _ _ _, fun p => ?_⟩
  · by_cases h01 : ((0 : Int), (0 : Int)) = (v.gridSize - 1, v.gridSize - 1)
    · rw [← h01, upd_same]
    · rw [upd_other _ _ _ _ h01, upd_same]
  · by_cases h1 : p = (v.gridSize - 1, v.gridSize - 1)
    · left; rw [h1, upd_same]
    · rw [upd_other _ _ _ _ h1]
      by_cases h0 : p = (0, 0)
      · left; rw [h0, upd_same]
      · rw [upd_other _ _ _ _ h0]
        split
        · right; rfl
        · left; rfl

theorem handleEvent_speed (ev : Event) (v : Visualizer) (draws : Nat → Nat)
    (hlo : 10 ≤ v.speed) (hhi : v.speed ≤ 200) (hg : 0 < v.gridSize) :
    ∃ v1 d1, handleEvent ev v draws = .ok (v1, d1) ∧ v1.gridSize = v.gridSize ∧
      v1.speed =
        (if ev = .KeyPressed .Add ∨ ev = .KeyPressed .Equal then max 10 (v.speed - 10)
         else if ev = .KeyPressed .Subtract ∨ ev = .KeyPressed .Dash then
           min 200 (v.speed + 10)
         else v.speed) := by
  have e1 : toInt32 (v.speed - 10) = v.speed - 10 := by unfold toInt32; omega
  have e2 : toInt32 (v.speed + 10) = v.speed + 10 := by unfold toInt32; omega
  cases ev with
  | Closed => exact ⟨_, _, rfl, rfl, by simp⟩
  | Other => exact ⟨_, _, rfl, rfl, by simp⟩
  | KeyPressed code =>
    cases code with
    | Escape => exact ⟨_, _, rfl, rfl, by simp⟩
    | R =>
      obtain ⟨g, hgi, _⟩ := initializeGrid_ok (generateRandomData v draws).1
        (generateRandomData v draws).2 hg
      simp only [handleEvent, hgi, Run.ok_bind, Run.pure_eq]
      exact ⟨_, _, rfl, rfl, by simp [generateRandomData]⟩
    | Space => exact ⟨_, _, rfl, rfl, by simp⟩
    | Add => exact ⟨_, _, rfl, rfl, by simp [e1]⟩
    | Equal => exact ⟨_, _, rfl, rfl, by simp [e1]⟩
    | Subtract => exact ⟨_, _, rfl, rfl, by simp [e2]⟩
    | Dash => exact ⟨_, _, rfl, rfl, by simp [e2]⟩
    | Num1 => exact ⟨_, _, rfl, rfl, by simp [generateRandomData]⟩
    | Num2 => exact ⟨_, _, rfl, rfl, by simp [generateRandomData]⟩
    | Num3 => exact ⟨_, _, rfl, rfl, by simp [generateRandomData]⟩
    | Num4 => exact ⟨_, _, rfl, rfl, by simp [generateRandomData]⟩
    | Num5 => exact ⟨_, _, rfl, rfl, by simp [generateRandomData]⟩
    | Num6 =>
      obtain ⟨g, hgi, _⟩ := initializeGrid_ok { v with currentAlgorithm := .BFS } draws hg
      simp only [handleEvent, hgi, Run.ok_bind, Run.pure_eq]
      exact ⟨_, _, rfl, rfl, by simp⟩
    | Num7 =>
      obtain ⟨g, hgi, _⟩ := initializeGrid_ok { v with currentAlgorithm := .DFS } draws hg
      simp only [handleEvent, hgi, Run.ok_bind, Run.pure_eq]
      exact ⟨_, _, rfl, rfl, by simp⟩
    | Num8 =>
      obtain ⟨g, hgi, _⟩ := initializeGrid_ok { v with currentAlgorithm := .DIJKSTRA } draws hg
      simp only [handleEvent, hgi, Run.ok_bind, Run.pure_eq]
      exact ⟨_, _, rfl, rfl, by simp⟩
    | Other => exact ⟨_, _, rfl, rfl, by simp⟩

theorem handleEvents_speed :
    ∀ (pending : List Event) (v : Visualizer) (draws : Nat → Nat),
      10 ≤ v.speed → v.speed ≤ 200 → 0 < v.gridSize →
      ∃ v1 d1, handleEvents pending v draws = .ok (v1, d1) ∧ v1.gridSize = v.gridSize ∧
        10 ≤ v1.speed ∧ v1.speed ≤ 200 := by
  intro pending
  induction pending with
  | nil => intro v draws h1 h2 _; exact ⟨v, draws, rfl, rfl, h1, h2⟩
  | cons ev rest ih =>
    intro v draws h1 h2 hg
    unfold handleEvents
    by_cases hw : v.windowOpen = true
    · rw [if_pos hw]
      obtain ⟨v1, d1, he, hg1, hsp⟩ := handleEvent_speed ev v draws h1 h2 hg
      rw [he]
      simp only [Run.ok_bind]
      have hr : 10 ≤ v1.speed ∧ v1.speed ≤ 200 := by
        rw [hsp]
        split
        · omega
        · split <;> omega
      obtain ⟨v2, d2, h3, h4, h5, h6⟩ := ih v1 d1 hr.1 hr.2 (by omega)
      exact ⟨v2, d2, h3, by omega, h5, h6⟩
    · rw [if_neg hw]
      exact ⟨v, draws, rfl, rfl, h1, h2⟩

theorem handleAll_speed :
    ∀ (polls : List (List Event)) (v : Visualizer) (draws : Nat → Nat),
      10 ≤ v.speed → v.speed ≤ 200 → 0 < v.gridSize →
      ∃ v1 d1, handleAll polls v draws = .ok (v1, d1) ∧ 10 ≤ v1.speed ∧ v1.speed ≤ 200 := by
  intro polls
  induction polls with
  | nil => intro v draws h1 h2 _; exact ⟨v, draws, rfl, h1, h2⟩
  | cons p rest ih =>
    intro v draws h1 h2 hg
    obtain ⟨v1, d1, he, hg1, h3, h4⟩ := handleEvents_speed p v draws h1 h2 hg
    obtain ⟨v2, d2, h5, h6, h7⟩ := ih v1 d1 h3 h4 (by omega)
    refine ⟨v2, d2, ?_, h6, h7⟩
    unfold handleAll
    rw [he]
    exact h5

theorem construct_ok (draws : Nat → Nat) :
    ∃ v d, construct draws = .ok (v, d) ∧ v.speed = 50 ∧ v.gridSize = 20 ∧
      v.arraySize = 100 ∧ v.isRunning = false ∧ v.isPaused = false := by
  unfold construct
  dsimp only
  obtain ⟨g, hgi, _⟩ := initializeGrid_ok
    (generateRandomData
      { windowOpen := true, data := [], currentAlgorithm := .BUBBLE_SORT, isRunning := false,
        isPaused := false, speed := 50, arraySize := 100, maxValue := 500,
        grid := fun _ => 0, startPoint := (0, 0), endPoint := (0, 0), gridSize := 20 }
      draws).1
    (generateRandomData
      { windowOpen := true, data := [], currentAlgorithm := .BUBBLE_SORT, isRunning := false,
        isPaused := false, speed := 50, arraySize := 100, maxValue := 500,
        grid := fun _ => 0, startPoint := (0, 0), endPoint := (0, 0), gridSize := 20 }
      draws).2 (by simp [generateRandomData])
  exact ⟨_, _, hgi, rfl, rfl, rfl, rfl, rfl⟩

theorem handleEvent_select_sort (k : Nat) (v : Visualizer) (draws : Nat → Nat)
    (h1 : 1 ≤ k) (h5 : k ≤ 5) :
    handleEvent (.KeyPressed (selectKey k)) v draws =
      .ok ({ v with currentAlgorithm := kthAlgorithm k,
                    data := (List.range v.arraySize.toNat).map fun i =>
                      uniformInt 10 v.maxValue (draws i),
                    isPaused := true },
        fun i => draws (i + v.arraySize.toNat)) := by
  have hk : k = 1 ∨ k = 2 ∨ k = 3 ∨ k = 4 ∨ k = 5 := by omega
  rcases hk with h | h | h | h | h <;> subst h <;> rfl

theorem handleEvent_select_search (k : Nat) (v : Visualizer) (draws : Nat → Nat)
    (h6 : 6 ≤ k) (h8 : k ≤ 8) (hg : 0 < v.gridSize) :
    ∃ g, handleEvent (.KeyPressed (selectKey k)) v draws =
      .ok ({ v with currentAlgorithm := kthAlgorithm k, grid := g, startPoint := (0, 0),
                    endPoint := (v.gridSize - 1, v.gridSize - 1), isPaused := true },
        fun i => draws (i + v.gridSize.toNat * v.gridSize.toNat)) ∧
      g (0, 0) = 0 ∧ g (v.gridSize - 1, v.gridSize - 1) = 0 ∧ ∀ p, g p = 0 ∨ g p = 1 := by
  have hk : k = 6 ∨ k = 7 ∨ k = 8 := by omega
  rcases hk with h | h | h <;> subst h
  · obtain ⟨g, hgi, hrest⟩ := initializeGrid_ok { v with currentAlgorithm := .BFS } draws hg
    refine ⟨g, ?_, hrest⟩
    simp only [selectKey, kthAlgorithm, handleEvent, hgi, Run.ok_bind, Run.pure_eq]
  · obtain ⟨g, hgi, hrest⟩ := initializeGrid_ok { v with currentAlgorithm := .DFS } draws hg
    refine ⟨g, ?_, hrest⟩
    simp only [selectKey, kthAlgorithm, handleEvent, hgi, Run.ok_bind, Run.pure_eq]
  · obtain ⟨g, hgi, hrest⟩ :=
      initializeGrid_ok { v with currentAlgorithm := .DIJKSTRA } draws hg
    refine ⟨g, ?_, hrest⟩
    simp only [selectKey, kthAlgorithm, handleEvent, hgi, Run.ok_bind, Run.pure_eq]

theorem unpause_eq (v : Visualizer) (h : v.isPaused = false) :
    ({ v with isPaused := false } : Visualizer) = v := by
  cases v
  simp only at h
  subst h
  rfl

theorem handleEvents_spaces :
    ∀ (p : List Event) (v : Visualizer) (draws : Nat → Nat), v.windowOpen = true →
      (∀ e ∈ p, e = Event.KeyPressed Key.Space) →
      handleEvents p v draws =
        .ok ({ v with isPaused := xor v.isPaused (decide (p.length % 2 = 1)) }, draws) := by
  intro p
  induction p with
  | nil =>
    intro v draws _ _
    simp [handleEvents]
  | cons e rest ih =>
    intro v draws hw hp
    have he : e = Event.KeyPressed Key.Space := hp e (List.mem_cons_self _ _)
    subst he
    unfold handleEvents
    rw [if_pos hw]
    simp only [handleEvent, Run.ok_bind]
    have h1 := ih { v with isPaused := !v.isPaused } draws hw
      (fun e he => hp e (List.mem_cons_of_mem _ he))
    rw [h1]
    simp only [List.length_cons, Run.ok.injEq, Prod.mk.injEq, Visualizer.mk.injEq,
      and_true, true_and]
    rcases Nat.mod_two_eq_zero_or_one rest.length with h | h
    · have h2 : (rest.length + 1) % 2 = 1 := by omega
      simp [h, h2]
    · have h2 : (rest.length + 1) % 2 = 0 := by omega
      simp [h, h2]

theorem toggles_cons (p : List Event) (rest : List (List Event)) :
    toggles (p :: rest) = p.length + toggles rest := by
  simp [toggles]

theorem waitWhilePaused_calm :
    ∀ (polls : List (List Event)) (s : Sim), s.v.windowOpen = true → s.v.isRunning = true →
      PauseOnly polls → toggles polls % 2 = (if s.v.isPaused = true then 1 else 0) →
      ∃ s1, waitWhilePaused polls s = .ok s1 ∧ s1.v = { s.v with isPaused := false } ∧
        s1.draws = s.draws ∧ s1.swaps = s.swaps ∧ PauseOnly s1.polls ∧
        toggles s1.polls % 2 = 0 := by
  intro polls
  induction polls with
  | nil =>
    intro s hw hr _ hpar
    have hp : s.v.isPaused = false := by
      cases h : s.v.isPaused with
      | false => rfl
      | true => rw [h] at hpar; simp [toggles] at hpar
    unfold waitWhilePaused
    rw [if_neg (by simp [hp])]
    exact ⟨_, rfl, (unpause_eq _ hp).symm, rfl, rfl, fun p hp1 => by simp at hp1,
      by simp [toggles]⟩
  | cons p rest ih =>
    intro s hw hr hpo hpar
    unfold waitWhilePaused
    by_cases hp : s.v.isPaused = true
    · rw [if_pos (by simp [hp, hr])]
      rw [if_pos hp, toggles_cons] at hpar
      rw [handleEvents_spaces p s.v s.draws hw (hpo p (List.mem_cons_self _ _))]
      simp only [Run.ok_bind]
      obtain ⟨s1, h1, h2, h3, h4, h5, h6⟩ := ih
        { s with v := { s.v with isPaused := xor s.v.isPaused (decide (p.length % 2 = 1)) },
                 draws := s.draws, seen := s.v.data :: s.seen }
        hw hr (fun q hq => hpo q (List.mem_cons_of_mem _ hq)) (by
          dsimp only
          rw [hp]
          rcases Nat.mod_two_eq_zero_or_one p.length with h | h
          · have : ¬ p.length % 2 = 1 := by omega
            simp only [this, decide_False, Bool.xor_false, if_true]
            omega
          · simp only [h, decide_True, Bool.xor_self, Bool.false_eq_true, if_false]
            omega)
      exact ⟨s1, h1, h2, h3, h4, h5, h6⟩
    · have hpf : s.v.isPaused = false := by simpa using hp
      rw [if_neg (by simp [hpf])]
      rw [if_neg hp] at hpar
      exact ⟨_, rfl, (unpause_eq _ hpf).symm, rfl, rfl, hpo, hpar⟩

theorem poll_calm (s : Sim) (h : Calm s) :
    ∃ s1, poll s = .ok s1 ∧ s1.v = s.v ∧ s1.draws = s.draws ∧ s1.swaps = s.swaps ∧
      Calm s1 := by
  obtain ⟨hw, hr, hp, hpo, hev⟩ := h
  have hcalm : ∀ s1 : Sim, s1.v = { s.v with isPaused := false } → PauseOnly s1.polls →
      toggles s1.polls % 2 = 0 → s1.v = s.v ∧ Calm s1 := by
    intro s1 h2 h5 h6
    rw [unpause_eq _ hp] at h2
    refine ⟨h2, ?_, ?_, ?_, h5, h6⟩
    · rw [h2]; exact hw
    · rw [h2]; exact hr
    · rw [h2]; exact hp
  unfold poll pollEvents
  cases hpl : s.polls with
  | nil =>
    simp only [Run.ok_bind]
    obtain ⟨s1, h1, h2, h3, h4, h5, h6⟩ := waitWhilePaused_calm []
      { s with seen := s.v.data :: s.seen } hw hr (fun p hp1 => by simp at hp1)
      (by simp [toggles, hp])
    exact ⟨s1, h1, (hcalm s1 h2 h5 h6).1, h3, h4, (hcalm s1 h2 h5 h6).2⟩
  | cons p rest =>
    rw [hpl] at hpo hev
    simp only
    rw [handleEvents_spaces p s.v s.draws hw (hpo p (List.mem_cons_self _ _))]
    simp only [Run.ok_bind, Run.pure_eq]
    rw [toggles_cons] at hev
    obtain ⟨s1, h1, h2, h3, h4, h5, h6⟩ := waitWhilePaused_calm rest
      { s with v := { s.v with isPaused := xor s.v.isPaused (decide (p.length % 2 = 1)) },
               draws := s.draws, polls := rest, seen := s.v.data :: s.seen }
      hw hr (fun q hq => hpo q (List.mem_cons_of_mem _ hq)) (by
        dsimp only
        rw [hp]
        rcases Nat.mod_two_eq_zero_or_one p.length with h | h
        · have : ¬ p.length % 2 = 1 := by omega
          simp only [this, decide_False, Bool.xor_false, Bool.false_eq_true, if_false]
          omega
        · simp only [h, decide_True, Bool.false_xor, if_true]
          omega)
    exact ⟨s1, h1, (hcalm s1 h2 h5 h6).1, h3, h4, (hcalm s1 h2 h5 h6).2⟩

theorem poll_tracks (Q : List (List Int) → List Int → Prop) (v0 : Visualizer) (s : Sim)
    (d : List Int) (h : Tracks Q v0 s d) : ∃ s1, poll s = .ok s1 ∧ Tracks Q v0 s1 d := by
  obtain ⟨hv, hc, hq⟩ := h
  obtain ⟨s1, h1, h2, _, h4, h5⟩ := poll_calm s hc
  exact ⟨s1, h1, by rw [h2]; exact hv, h5, by rw [h4]; exact hq⟩

theorem setData_tracks (Q : List (List Int) → List Int → Prop) (v0 : Visualizer) (s : Sim)
    (d d1 : List Int) (h : Tracks Q v0 s d) (hq : Q s.swaps d1) :
    Tracks Q v0 (s.setData d1) d1 := by
  obtain ⟨hv, hc, _⟩ := h
  refine ⟨?_, hc, hq⟩
  unfold Sim.setData
  dsimp only
  rw [hv]

theorem swapLive_tracks (Q : List (List Int) → List Int → Prop) (v0 : Visualizer) (s : Sim)
    (d d1 : List Int) (i j : Nat) (h : Tracks Q v0 s d) (hsw : swapAt d i j = .ok d1)
    (hq : Q (d1 :: s.swaps) d1) :
    ∃ s1, swapLive s i j = .ok s1 ∧ Tracks Q v0 s1 d1 := by
  obtain ⟨hv, hc, _⟩ := h
  have hd : s.v.data = d := by rw [hv]
  unfold swapLive
  rw [hd, hsw]
  refine ⟨_, rfl, ?_, hc, hq⟩
  dsimp only
  rw [hv]

theorem tracks_going (Q : List (List Int) → List Int → Prop) (v0 : Visualizer) (s : Sim)
    (d : List Int) (h : Tracks Q v0 s d) : going s = true ∧ s.v.data = d := by
  obtain ⟨hv, ⟨_, hr, hp, _, _⟩, _⟩ := h
  refine ⟨by simp [going, hr, hp], by rw [hv]⟩

theorem forLoopLive_sim {σ τ : Type} (R : Nat → σ → τ → Prop) (cond : Nat → σ → Bool)
    (bodyL : Nat → σ → Run σ) (body : Nat → τ → Run τ) (hi : Nat)
    (hcond : ∀ i s t, R i s t → cond i s = decide (i < hi))
    (hbody : ∀ i s t t1, i < hi → R i s t → body i t = .ok t1 →
      ∃ s1, bodyL i s = .ok s1 ∧ R (i + 1) s1 t1) :
    ∀ (k i : Nat) (s : σ) (t t1 : τ), k = hi - i → R i s t → forLoop body k i t = .ok t1 →
      ∀ fuel, k ≤ fuel → ∃ s1, forLoopLive cond bodyL fuel i s = .ok s1 ∧ R (i + k) s1 t1 := by
  intro k
  induction k with
  | zero =>
    intro i s t t1 hk hR hrun fuel _
    have hc := hcond i s t hR
    have : ¬ i < hi := by omega
    simp only [this, decide_False] at hc
    unfold forLoopLive
    rw [hc]
    simp only [Bool.false_eq_true, if_false]
    simp only [forLoop] at hrun
    cases hrun
    exact ⟨s, rfl, hR⟩
  | succ k ih =>
    intro i s t t1 hk hR hrun fuel hfuel
    have hc := hcond i s t hR
    have hlt : i < hi := by omega
    simp only [hlt, decide_True] at hc
    obtain ⟨f, rfl⟩ : ∃ f, fuel = f + 1 := ⟨fuel - 1, by omega⟩
    unfold forLoopLive
    rw [hc]
    simp only [if_true]
    simp only [forLoop] at hrun
    cases hb : body i t with
    | ok t2 =>
      rw [hb] at hrun
      simp only [Run.ok_bind] at hrun
      obtain ⟨s2, hs2, hR2⟩ := hbody i s t t2 hlt hR hb
      rw [hs2]
      simp only [Run.ok_bind]
      obtain ⟨s1, h1, h2⟩ := ih (i + 1) s2 t2 t1 (by omega) hR2 hrun f (by omega)
      refine ⟨s1, h1, ?_⟩
      have : i + (k + 1) = i + 1 + k := by omega
      rw [this]; exact h2
    | oob => rw [hb] at hrun; cases hrun
    | fuel => rw [hb] at hrun; cases hrun

theorem forLoopLiveZ_sim {σ τ : Type} (R : Int → σ → τ → Prop) (cond : Int → σ → Bool)
    (bodyL : Int → σ → Run σ) (body : Int → τ → Run τ) (hi : Int)
    (hcond : ∀ i s t, R i s t → cond i s = decide (i < hi))
    (hbody : ∀ i s t t1, i < hi → R i s t → body i t = .ok t1 →
      ∃ s1, bodyL i s = .ok s1 ∧ R (i + 1) s1 t1) :
    ∀ (k : Nat) (i : Int) (s : σ) (t t1 : τ), k = (hi - i).toNat → R i s t →
      forLoopZ body k i t = .ok t1 →
      ∀ fuel, k ≤ fuel → ∃ s1, forLoopLiveZ cond bodyL fuel i s = .ok s1 ∧
        R (i + k) s1 t1 := by
  intro k
  induction k with
  | zero =>
    intro i s t t1 hk hR hrun fuel _
    have hc := hcond i s t hR
    have : ¬ i < hi := by omega
    simp only [this, decide_False] at hc
    unfold forLoopLiveZ
    rw [hc]
    simp only [Bool.false_eq_true, if_false]
    simp only [forLoopZ] at hrun
    cases hrun
    exact ⟨s, rfl, by simpa using hR⟩
  | succ k ih =>
    intro i s t t1 hk hR hrun fuel hfuel
    have hc := hcond i s t hR
    have hlt : i < hi := by omega
    simp only [hlt, decide_True] at hc
    obtain ⟨f, rfl⟩ : ∃ f, fuel = f + 1 := ⟨fuel - 1, by omega⟩
    unfold forLoopLiveZ
    rw [hc]
    simp only [if_true]
    simp only [forLoopZ] at hrun
    cases hb : body i t with
    | ok t2 =>
      rw [hb] at hrun
      simp only [Run.ok_bind] at hrun
      obtain ⟨s2, hs2, hR2⟩ := hbody i s t t2 hlt hR hb
      rw [hs2]
      simp only [Run.ok_bind]
      obtain ⟨s1, h1, h2⟩ := ih (i + 1) s2 t2 t1 (by omega) hR2 hrun f (by omega)
      refine ⟨s1, h1, ?_⟩
      have : i + ((k + 1 : Nat) : Int) = i + 1 + (k : Int) := by push_cast; ring
      rw [this]; exact h2
    | oob => rw [hb] at hrun; cases hrun
    | fuel => rw [hb] at hrun; cases hrun

theorem swapAt_length {d d1 : List Int} {i j : Nat} (h : swapAt d i j = .ok d1) :
    d1.length = d.length := by
  unfold swapAt at h
  cases h1 : rd d i with
  | ok a =>
    cases h2 : rd d j with
    | ok b =>
      rw [h1, h2] at h
      simp only [Run.ok_bind] at h
      unfold wr at h
      split at h
      · simp only [Run.ok_bind] at h
        split at h
        · cases h; simp
        · cases h
      · cases h
    | oob => rw [h1, h2] at h; cases h
    | fuel => rw [h1, h2] at h; cases h
  | oob => rw [h1] at h; cases h
  | fuel => rw [h1] at h; cases h

theorem wr_length {d d1 : List Int} {i : Nat} {v : Int} (h : wr d i v = .ok d1) :
    d1.length = d.length := by
  unfold wr at h
  split at h
  · cases h; simp
  · cases h

theorem usub_lt (a b : Nat) : usub a b < 18446744073709551616 := by
  unfold usub; omega

theorem usize_lt (d : List Int) : usize d < 18446744073709551616 := by
  unfold usize; omega

theorem bubbleStepLive_sim (Q : List (List Int) → List Int → Prop) (v0 : Visualizer)
    (hQ : ∀ sw d j a b d1, j + 1 < 18446744073709551616 → Q sw d → rd d j = .ok a →
      rd d (uadd j 1) = .ok b → a > b → swapAt d j (uadd j 1) = .ok d1 → Q (d1 :: sw) d1)
    (j : Nat) (hj : j + 1 < 18446744073709551616) (s : Sim) (d d1 : List Int)
    (h : Tracks Q v0 s d)
    (hpure : (rd d j >>= fun a => rd d (uadd j 1) >>= fun b =>
      if a > b then swapAt d j (uadd j 1) else pure d) = .ok d1) :
    ∃ s1, bubbleStepLive j s = .ok s1 ∧ Tracks Q v0 s1 d1 ∧ d1.length = d.length := by
  obtain ⟨_, hd⟩ := tracks_going Q v0 s d h
  unfold bubbleStepLive
  rw [hd]
  cases ha : rd d j with
  | ok a =>
    cases hb : rd d (uadd j 1) with
    | ok b =>
      rw [ha, hb] at hpure
      simp only [Run.ok_bind] at hpure ⊢
      by_cases hgt : a > b
      · rw [if_pos hgt] at hpure ⊢
        obtain ⟨s2, hs2, ht2⟩ := swapLive_tracks Q v0 s d d1 j (uadd j 1) h hpure
          (hQ _ _ _ _ _ _ hj h.2.2 ha hb hgt hpure)
        rw [hs2]
        simp only [Run.ok_bind]
        obtain ⟨s3, hs3, ht3⟩ := poll_tracks Q v0 s2 d1 ht2
        exact ⟨s3, hs3, ht3, swapAt_length hpure⟩
      · rw [if_neg hgt] at hpure ⊢
        cases hpure
        simp only [Run.pure_eq, Run.ok_bind]
        obtain ⟨s3, hs3, ht3⟩ := poll_tracks Q v0 s d h
        exact ⟨s3, hs3, ht3, trivial⟩
    | oob => rw [ha, hb] at hpure; cases hpure
    | fuel => rw [ha, hb] at hpure; cases hpure
  | oob => rw [ha] at hpure; cases hpure
  | fuel => rw [ha] at hpure; cases hpure

theorem bubblePassLive_sim (Q : List (List Int) → List Int → Prop) (v0 : Visualizer)
    (hQ : ∀ sw d j a b d1, j + 1 < 18446744073709551616 → Q sw d → rd d j = .ok a →
      rd d (uadd j 1) = .ok b → a > b → swapAt d j (uadd j 1) = .ok d1 → Q (d1 :: sw) d1)
    (fuel : Nat) (hfuel : 18446744073709551616 ≤ fuel)
    (i : Nat) (s : Sim) (d d1 : List Int) (h : Tracks Q v0 s d)
    (hpure : bubblePass i d = .ok d1) :
    ∃ s1, bubblePassLive fuel i s = .ok s1 ∧ Tracks Q v0 s1 d1 ∧ d1.length = d.length := by
  unfold bubblePass at hpure
  unfold bubblePassLive
  obtain ⟨s1, h1, h2, h3⟩ := forLoopLive_sim
    (fun _ (s : Sim) (t : List Int) => Tracks Q v0 s t ∧ t.length = d.length)
    (fun j t => decide (j < usub (usub (usize t.v.data) i) 1) && going t)
    bubbleStepLive _ (usub (usub (usize d) i) 1)
    (fun j s t hR => by
      obtain ⟨hg, hd⟩ := tracks_going Q v0 s t hR.1
      have : usize t = usize d := by unfold usize; rw [hR.2]
      simp only [hd, hg, this, Bool.and_true])
    (fun j s t t1 hj hR hb => by
      obtain ⟨s1, h1, h2, h3⟩ := bubbleStepLive_sim Q v0 hQ j
        (by have := usub_lt (usub (usize d) i) 1; omega) s t t1 hR.1 hb
      exact ⟨s1, h1, h2, by omega⟩)
    (usub (usub (usize d) i) 1) 0 s d d1 (by omega) ⟨h, rfl⟩ hpure fuel
    (by have := usub_lt (usub (usize d) i) 1; omega)
  exact ⟨s1, h1, h2, h3⟩

theorem bubbleSortLive_sim (Q : List (List Int) → List Int → Prop) (v0 : Visualizer)
    (hQ : ∀ sw d j a b d1, j + 1 < 18446744073709551616 → Q sw d → rd d j = .ok a →
      rd d (uadd j 1) = .ok b → a > b → swapAt d j (uadd j 1) = .ok d1 → Q (d1 :: sw) d1)
    (fuel : Nat) (hfuel : 18446744073709551616 ≤ fuel)
    (s : Sim) (d d1 : List Int) (h : Tracks Q v0 s d)
    (hpure : bubbleSort d = .ok d1) :
    ∃ s1, bubbleSortLive fuel s = .ok s1 ∧ Tracks Q v0 s1 d1 := by
  unfold bubbleSort at hpure
  unfold bubbleSortLive
  obtain ⟨s1, h1, h2, _⟩ := forLoopLive_sim
    (fun _ (s : Sim) (t : List Int) => Tracks Q v0 s t ∧ t.length = d.length)
    (fun i t => decide (i < usub (usize t.v.data) 1) && going t)
    (bubblePassLive fuel) bubblePass (usub (usize d) 1)
    (fun j s t hR => by
      obtain ⟨hg, hd⟩ := tracks_going Q v0 s t hR.1
      have : usize t = usize d := by unfold usize; rw [hR.2]
      simp only [hd, hg, this, Bool.and_true])
    (fun j s t t1 _ hR hb => by
      obtain ⟨s1, h1, h2, h3⟩ := bubblePassLive_sim Q v0 hQ fuel hfuel j s t t1 hR.1 hb
      exact ⟨s1, h1, h2, by omega⟩)
    (usub (usize d) 1) 0 s d d1 (by omega) ⟨h, rfl⟩ hpure fuel
    (by have := usub_lt (usize d) 1; omega)
  exact ⟨s1, h1, h2⟩

theorem selectStepLive_sim (Q : List (List Int) → List Int → Prop) (v0 : Visualizer)
    (d : List Int) (j : Nat) (ms : Nat × Sim) (m m1 : Nat) (h : Tracks Q v0 ms.2 d)
    (hm : ms.1 = m)
    (hpure : (rd d j >>= fun a => rd d m >>= fun b =>
      (pure (if a < b then j else m) : Run Nat)) = .ok m1) :
    ∃ t1, selectStepLive j ms = .ok t1 ∧ Tracks Q v0 t1.2 d ∧ t1.1 = m1 := by
  obtain ⟨_, hd⟩ := tracks_going Q v0 ms.2 d h
  unfold selectStepLive
  rw [hd, hm]
  cases ha : rd d j with
  | ok a =>
    cases hb : rd d m with
    | ok b =>
      rw [ha, hb] at hpure
      simp only [Run.ok_bind, Run.pure_eq] at hpure ⊢
      cases hpure
      obtain ⟨s3, hs3, ht3⟩ := poll_tracks Q v0 ms.2 d h
      rw [hs3]
      exact ⟨_, rfl, ht3, rfl⟩
    | oob => rw [ha, hb] at hpure; cases hpure
    | fuel => rw [ha, hb] at hpure; cases hpure
  | oob => rw [ha] at hpure; cases hpure
  | fuel => rw [ha] at hpure; cases hpure

theorem selectionBodyLive_sim (Q : List (List Int) → List Int → Prop) (v0 : Visualizer)
    (hQ : ∀ sw d i m d1, i + 1 < 18446744073709551616 → Q sw d → selectMin d i = .ok m →
      m ≠ i → swapAt d i m = .ok d1 → Q (d1 :: sw) d1)
    (fuel : Nat) (hfuel : 18446744073709551616 ≤ fuel)
    (i : Nat) (hi : i + 1 < 18446744073709551616) (s : Sim) (d d1 : List Int)
    (h : Tracks Q v0 s d) (hpure : selectionBody i d = .ok d1) :
    ∃ s1, selectionBodyLive fuel i s = .ok s1 ∧ Tracks Q v0 s1 d1 ∧
      d1.length = d.length := by
  unfold selectionBody at hpure
  cases hmin : selectMin d i with
  | ok m =>
    rw [hmin] at hpure
    simp only [Run.ok_bind] at hpure
    have hmin2 := hmin
    unfold selectMin at hmin2
    obtain ⟨t1, h1, h2, h3⟩ := forLoopLive_sim
      (fun _ (t : Nat × Sim) (m : Nat) => Tracks Q v0 t.2 d ∧ t.1 = m)
      (fun j (t : Nat × Sim) => decide (j < usize t.2.v.data) && going t.2)
      selectStepLive _ (usize d)
      (fun j t m hR => by
        obtain ⟨hg, hd⟩ := tracks_going Q v0 t.2 d hR.1
        simp only [hd, hg, Bool.and_true])
      (fun j t m m1 _ hR hb => selectStepLive_sim Q v0 d j t m m1 hR.1 hR.2 hb)
      (usize d - uadd i 1) (uadd i 1) (i, s) i m rfl ⟨h, rfl⟩ hmin2 fuel
      (by have := usize_lt d; omega)
    unfold selectionBodyLive
    rw [h1]
    simp only [Run.ok_bind]
    obtain ⟨m2, s2⟩ := t1
    simp only at h2 h3 ⊢
    subst h3
    by_cases hmi : m2 ≠ i
    · rw [if_pos hmi] at hpure ⊢
      obtain ⟨s3, hs3, ht3⟩ := swapLive_tracks Q v0 s2 d d1 i m2 h2 hpure
        (hQ _ _ _ _ _ hi h2.2.2 hmin hmi hpure)
      exact ⟨s3, hs3, ht3, swapAt_length hpure⟩
    · rw [if_neg hmi] at hpure ⊢
      cases hpure
      exact ⟨s2, rfl, h2, rfl⟩
  | oob => rw [hmin] at hpure; cases hpure
  | fuel => rw [hmin] at hpure; cases hpure

theorem selectionSortLive_sim (Q : List (List Int) → List Int → Prop) (v0 : Visualizer)
    (hQ : ∀ sw d i m d1, i + 1 < 18446744073709551616 → Q sw d → selectMin d i = .ok m →
      m ≠ i → swapAt d i m = .ok d1 → Q (d1 :: sw) d1)
    (fuel : Nat) (hfuel : 18446744073709551616 ≤ fuel)
    (s : Sim) (d d1 : List Int) (h : Tracks Q v0 s d)
    (hpure : selectionSort d = .ok d1) :
    ∃ s1, selectionSortLive fuel s = .ok s1 ∧ Tracks Q v0 s1 d1 := by
  have hdef : selectionSort d = forLoop selectionBody (usub (usize d) 1) 0 d := rfl
  rw [hdef] at hpure
  unfold selectionSortLive
  obtain ⟨s1, h1, h2, _⟩ := forLoopLive_sim
    (fun _ (s : Sim) (t : List Int) => Tracks Q v0 s t ∧ t.length = d.length)
    (fun i t => decide (i < usub (usize t.v.data) 1) && going t)
    (selectionBodyLive fuel) selectionBody (usub (usize d) 1)
    (fun j s t hR => by
      obtain ⟨hg, hd⟩ := tracks_going Q v0 s t hR.1
      have : usize t = usize d := by unfold usize; rw [hR.2]
      simp only [hd, hg, this, Bool.and_true])
    (fun j s t t1 hj hR hb => by
      obtain ⟨s1, h1, h2, h3⟩ := selectionBodyLive_sim Q v0 hQ fuel hfuel j
        (by have := usub_lt (usize d) 1; omega) s t t1 hR.1 hb
      exact ⟨s1, h1, h2, by omega⟩)
    (usub (usize d) 1) 0 s d d1 (by omega) ⟨h, rfl⟩ hpure fuel
    (by have := usub_lt (usize d) 1; omega)
  exact ⟨s1, h1, h2⟩

theorem insertShiftLive_sim (v0 : Visualizer) (key : Int) :
    ∀ (f : Nat) (j : Int) (s : Sim) (d : List Int) (j1 : Int) (d1 : List Int),
      Tracks AnyLog v0 s d → insertShift key f j d = .ok (j1, d1) →
      ∀ fuel, f ≤ fuel → ∃ s1, insertShiftLive key fuel j s = .ok (j1, s1) ∧
        Tracks AnyLog v0 s1 d1 ∧ d1.length = d.length := by
  intro f
  induction f with
  | zero =>
    intro j s d j1 d1 _ hp
    simp [insertShift] at hp
  | succ f ih =>
    intro j s d j1 d1 h hp fuel hfuel
    obtain ⟨fu, rfl⟩ : ∃ fu, fuel = fu + 1 := ⟨fuel - 1, by omega⟩
    obtain ⟨hg, hd⟩ := tracks_going AnyLog v0 s d h
    unfold insertShift at hp
    unfold insertShiftLive
    by_cases hj : j ≥ 0
    · rw [if_pos hj] at hp ⊢
      rw [hd]
      cases ha : rd d (idx j) with
      | ok a =>
        rw [ha] at hp
        simp only [Run.ok_bind] at hp ⊢
        by_cases hgt : a > key
        · rw [if_pos hgt] at hp
          rw [if_pos ⟨hgt, hg⟩]
          cases hw : wr d (idx (j + 1)) a with
          | ok d2 =>
            rw [hw] at hp
            simp only [Run.ok_bind] at hp ⊢
            obtain ⟨s2, hs2, ht2⟩ := poll_tracks AnyLog v0 _ d2
              (setData_tracks AnyLog v0 s d d2 h trivial)
            rw [hs2]
            simp only [Run.ok_bind]
            obtain ⟨s3, hs3, ht3, hl3⟩ := ih (j - 1) s2 d2 j1 d1 ht2 hp fu (by omega)
            exact ⟨s3, hs3, ht3, by rw [hl3]; exact wr_length hw⟩
          | oob => rw [hw] at hp; cases hp
          | fuel => rw [hw] at hp; cases hp
        · rw [if_neg hgt] at hp
          rw [if_neg (fun hh => hgt hh.1)]
          cases hp
          exact ⟨s, rfl, h, rfl⟩
      | oob => rw [ha] at hp; cases hp
      | fuel => rw [ha] at hp; cases hp
    · rw [if_neg hj] at hp ⊢
      cases hp
      exact ⟨s, rfl, h, rfl⟩

theorem Run.bind_ok {α β : Type} {x : Run α} {f : α → Run β} {b : β}
    (h : (x >>= f) = .ok b) : ∃ a, x = .ok a ∧ f a = .ok b := by
  cases x with
  | ok a => exact ⟨a, rfl, h⟩
  | oob => cases h
  | fuel => cases h

theorem insertionBodyLive_sim (v0 : Visualizer) (fuel : Nat) (i : Nat) (hfuel : i + 1 ≤ fuel)
    (s : Sim) (d d1 : List Int) (h : Tracks AnyLog v0 s d)
    (hpure : insertionBody i d = .ok d1) :
    ∃ s1, insertionBodyLive fuel i s = .ok s1 ∧ Tracks AnyLog v0 s1 d1 ∧
      d1.length = d.length := by
  obtain ⟨_, hd⟩ := tracks_going AnyLog v0 s d h
  unfold insertionBody at hpure
  obtain ⟨key, hk, h2⟩ := Run.bind_ok hpure
  obtain ⟨⟨j1, d2⟩, hsh, h3⟩ := Run.bind_ok h2
  simp only at h3
  unfold insertionBodyLive
  rw [hd, hk]
  simp only [Run.ok_bind]
  obtain ⟨s2, hs2, ht2, hl2⟩ := insertShiftLive_sim v0 key (i + 1) _ s d j1 d2 h hsh fuel hfuel
  rw [hs2]
  simp only [Run.ok_bind]
  obtain ⟨_, hd2⟩ := tracks_going AnyLog v0 s2 d2 ht2
  rw [hd2, h3]
  simp only [Run.ok_bind, Run.pure_eq]
  exact ⟨_, rfl, setData_tracks AnyLog v0 s2 d2 d1 ht2 trivial,
    by rw [wr_length h3, hl2]⟩

theorem insertionSortLive_sim (v0 : Visualizer)
    (fuel : Nat) (hfuel : 18446744073709551616 ≤ fuel)
    (s : Sim) (d d1 : List Int) (h : Tracks AnyLog v0 s d)
    (hpure : insertionSort d = .ok d1) :
    ∃ s1, insertionSortLive fuel s = .ok s1 ∧ Tracks AnyLog v0 s1 d1 := by
  unfold insertionSort at hpure
  unfold insertionSortLive
  obtain ⟨s1, h1, h2, _⟩ := forLoopLive_sim
    (fun _ (s : Sim) (t : List Int) => Tracks AnyLog v0 s t ∧ t.length = d.length)
    (fun i t => decide (i < usize t.v.data) && going t)
    (insertionBodyLive fuel) insertionBody (usize d)
    (fun j s t hR => by
      obtain ⟨hg, hd⟩ := tracks_going AnyLog v0 s t hR.1
      have : usize t = usize d := by unfold usize; rw [hR.2]
      simp only [hd, hg, this, Bool.and_true])
    (fun j s t t1 hj hR hb => by
      obtain ⟨s1, h1, h2, h3⟩ := insertionBodyLive_sim v0 fuel j
        (by have := usize_lt d; omega) s t t1 hR.1 hb
      exact ⟨s1, h1, h2, by omega⟩)
    (usize d - 1) 1 s d d1 rfl ⟨h, rfl⟩ hpure fuel
    (by have := usize_lt d; omega)
  exact ⟨s1, h1, h2⟩

theorem partitionStepLive_sim (v0 : Visualizer) (pivot : Int) (j : Int)
    (t : Int × Sim) (u u1 : Int × List Int) (h : Tracks AnyLog v0 t.2 u.2) (hi : t.1 = u.1)
    (hpure : partitionStep pivot j u = .ok u1) :
    ∃ t1, partitionStepLive pivot j t = .ok t1 ∧ Tracks AnyLog v0 t1.2 u1.2 ∧
      t1.1 = u1.1 ∧ u.1 ≤ u1.1 ∧ u1.1 ≤ u.1 + 1 := by
  obtain ⟨_, hd⟩ := tracks_going AnyLog v0 t.2 u.2 h
  unfold partitionStep at hpure
  unfold partitionStepLive
  rw [hd]
  cases ha : rd u.2 (idx j) with
  | ok a =>
    rw [ha] at hpure
    simp only [Run.ok_bind] at hpure ⊢
    by_cases hlt : a < pivot
    · rw [if_pos hlt] at hpure ⊢
      cases hsw : swapAt u.2 (idx (u.1 + 1)) (idx j) with
      | ok d2 =>
        rw [hsw] at hpure
        simp only [Run.ok_bind, Run.pure_eq] at hpure
        cases hpure
        obtain ⟨s2, hs2, ht2⟩ := swapLive_tracks AnyLog v0 t.2 u.2 d2 _ _ h hsw trivial
        rw [hi, hs2]
        simp only [Run.ok_bind, Run.pure_eq]
        obtain ⟨s3, hs3, ht3⟩ := poll_tracks AnyLog v0 s2 d2 ht2
        rw [hs3]
        exact ⟨_, rfl, ht3, rfl, by simp, by simp⟩
      | oob => rw [hsw] at hpure; cases hpure
      | fuel => rw [hsw] at hpure; cases hpure
    · rw [if_neg hlt] at hpure ⊢
      cases hpure
      simp only [Run.pure_eq, Run.ok_bind]
      obtain ⟨s3, hs3, ht3⟩ := poll_tracks AnyLog v0 t.2 u.2 h
      rw [hs3]
      exact ⟨_, rfl, ht3, hi, le_refl _, by omega⟩
  | oob => rw [ha] at hpure; cases hpure
  | fuel => rw [ha] at hpure; cases hpure

theorem quickSortLive_sim (v0 : Visualizer) (fuel0 : Nat) (hfuel0 : 2147483648 ≤ fuel0) :
    ∀ (f : Nat) (low high : Int) (s : Sim) (d d1 : List Int), 0 ≤ low →
      high ≤ 2147483647 → Tracks AnyLog v0 s d → quickSort f low high d = .ok d1 →
      ∀ fuel, f ≤ fuel → ∃ s1, quickSortLive fuel0 fuel low high s = .ok s1 ∧
        Tracks AnyLog v0 s1 d1 := by
  intro f
  induction f with
  | zero =>
    intro low high s d d1 hlo hhi h hp fuel _
    unfold quickSort at hp
    unfold quickSortLive
    by_cases hlh : low < high
    · rw [if_pos hlh] at hp
      cases hp
    · rw [if_neg hlh] at hp
      rw [if_neg (fun hh => hlh hh.1)]
      cases hp
      exact ⟨s, rfl, h⟩
  | succ f ih =>
    intro low high s d d1 hlo hhi h hp fuel hfuel
    obtain ⟨fu, rfl⟩ : ∃ fu, fuel = fu + 1 := ⟨fuel - 1, by omega⟩
    obtain ⟨hg, hd⟩ := tracks_going AnyLog v0 s d h
    unfold quickSort at hp
    unfold quickSortLive
    by_cases hlh : low < high
    · rw [if_pos hlh] at hp
      rw [if_pos ⟨hlh, hg⟩]
      simp only at hp ⊢
      obtain ⟨pivot, hpv, hp2⟩ := Run.bind_ok hp
      obtain ⟨⟨i, e⟩, hloop, hp3⟩ := Run.bind_ok hp2
      simp only at hp3
      obtain ⟨d3, hsw, hp4⟩ := Run.bind_ok hp3
      obtain ⟨d4, hq1, hq2⟩ := Run.bind_ok hp4
      rw [hd, hpv]
      simp only [Run.ok_bind]
      obtain ⟨t1, ht1, hR1, hR2, hR3, hR4⟩ := forLoopLiveZ_sim
        (fun j (t : Int × Sim) (u : Int × List Int) =>
          Tracks AnyLog v0 t.2 u.2 ∧ t.1 = u.1 ∧ low - 1 ≤ u.1 ∧ u.1 < j)
        (fun j (t : Int × Sim) => decide (j ≤ high - 1) && going t.2)
        (partitionStepLive pivot) (partitionStep pivot) high
        (fun j t u hR => by
          obtain ⟨hg1, _⟩ := tracks_going AnyLog v0 t.2 u.2 hR.1
          simp only [hg1, Bool.and_true]
          by_cases hjh : j < high
          · simp [hjh]; omega
          · simp [hjh]; omega)
        (fun j t u u1 _ hR hb => by
          obtain ⟨t1, h1, h2, h3, h4, h5⟩ :=
            partitionStepLive_sim v0 pivot j t u u1 hR.1 hR.2.1 hb
          exact ⟨t1, h1, h2, h3, by omega, by omega⟩)
        (high - low).toNat low (low - 1, s) (low - 1, d) (i, e) rfl
        ⟨h, rfl, le_refl _, by simp⟩ hloop fuel0 (by omega)
      rw [ht1]
      simp only [Run.ok_bind]
      obtain ⟨i2, s2⟩ := t1
      simp only at hR1 hR2 hR3 hR4 ⊢
      subst hR2
      obtain ⟨s3, hs3, ht3⟩ := swapLive_tracks AnyLog v0 s2 e d3 _ _ hR1 hsw trivial
      rw [hs3]
      simp only [Run.ok_bind]
      obtain ⟨s4, hs4, ht4⟩ := ih low (i2 + 1 - 1) s3 d3 d4 hlo (by omega) ht3 hq1
        fu (by omega)
      rw [hs4]
      simp only [Run.ok_bind]
      exact ih (i2 + 1 + 1) high s4 d4 d1 (by omega) hhi ht4 hq2 fu (by omega)
    · rw [if_neg hlh] at hp
      rw [if_neg (fun hh => hlh hh.1)]
      cases hp
      exact ⟨s, rfl, h⟩

theorem quickSortRunLive_sim (v0 : Visualizer) (s : Sim) (d d1 : List Int)
    (h : Tracks AnyLog v0 s d) (hpure : quickSortRun d = .ok d1)
    (fuel : Nat) (hf1 : 2147483648 ≤ fuel) (hf2 : d.length ≤ fuel) :
    ∃ s1, quickSortRunLive fuel s = .ok s1 ∧ Tracks AnyLog v0 s1 d1 := by
  obtain ⟨_, hd⟩ := tracks_going AnyLog v0 s d h
  unfold quickSortRun at hpure
  unfold quickSortRunLive
  rw [hd]
  exact quickSortLive_sim v0 fuel hf1 d.length 0 _ s d d1 (le_refl _)
    (by unfold toInt32; omega) h hpure fuel hf2

theorem mergeBothLive_sim (v0 : Visualizer) (L R : List Int) (n1 n2 : Int) :
    ∀ (f : Nat) (i j k : Int) (s : Sim) (d : List Int) (r : Int × Int × Int × List Int),
      Tracks AnyLog v0 s d → mergeBoth L R n1 n2 f (i, j, k, d) = .ok r →
      ∀ fuel, f ≤ fuel → ∃ s1, mergeBothLive L R n1 n2 fuel (i, j, k, s) =
        .ok (r.1, r.2.1, r.2.2.1, s1) ∧ Tracks AnyLog v0 s1 r.2.2.2 := by
  intro f
  induction f with
  | zero =>
    intro i j k s d r h hp fuel _
    unfold mergeBoth at hp
    unfold mergeBothLive
    by_cases hc : i < n1 ∧ j < n2
    · rw [if_pos hc] at hp
      cases hp
    · rw [if_neg hc] at hp
      rw [if_neg (fun hh => hc ⟨hh.1, hh.2.1⟩)]
      cases hp
      exact ⟨s, rfl, h⟩
  | succ f ih =>
    intro i j k s d r h hp fuel hfuel
    obtain ⟨fu, rfl⟩ : ∃ fu, fuel = fu + 1 := ⟨fuel - 1, by omega⟩
    obtain ⟨hg, hd⟩ := tracks_going AnyLog v0 s d h
    unfold mergeBoth at hp
    unfold mergeBothLive
    by_cases hc : i < n1 ∧ j < n2
    · rw [if_pos hc] at hp
      rw [if_pos ⟨hc.1, hc.2, hg⟩]
      simp only at hp ⊢
      obtain ⟨a, ha, hp2⟩ := Run.bind_ok hp
      obtain ⟨b, hb, hp3⟩ := Run.bind_ok hp2
      rw [ha, hb]
      simp only [Run.ok_bind]
      by_cases hab : a ≤ b
      · rw [if_pos hab] at hp3 ⊢
        obtain ⟨d2, hw, hp4⟩ := Run.bind_ok hp3
        rw [hd, hw]
        simp only [Run.ok_bind]
        obtain ⟨s2, hs2, ht2⟩ := poll_tracks AnyLog v0 _ d2
          (setData_tracks AnyLog v0 s d d2 h trivial)
        rw [hs2]
        simp only [Run.ok_bind]
        exact ih _ _ _ s2 d2 r ht2 hp4 fu (by omega)
      · rw [if_neg hab] at hp3 ⊢
        obtain ⟨d2, hw, hp4⟩ := Run.bind_ok hp3
        rw [hd, hw]
        simp only [Run.ok_bind]
        obtain ⟨s2, hs2, ht2⟩ := poll_tracks AnyLog v0 _ d2
          (setData_tracks AnyLog v0 s d d2 h trivial)
        rw [hs2]
        simp only [Run.ok_bind]
        exact ih _ _ _ s2 d2 r ht2 hp4 fu (by omega)
    · rw [if_neg hc] at hp
      rw [if_neg (fun hh => hc ⟨hh.1, hh.2.1⟩)]
      cases hp
      exact ⟨s, rfl, h⟩

theorem mergeRestLive_sim (v0 : Visualizer) (src : List Int) (n : Int) :
    ∀ (f : Nat) (i k : Int) (s : Sim) (d : List Int) (r : Int × Int × List Int),
      Tracks AnyLog v0 s d → mergeRest src n f (i, k, d) = .ok r →
      ∀ fuel, f ≤ fuel → ∃ s1, mergeRestLive src n fuel (i, k, s) =
        .ok (r.1, r.2.1, s1) ∧ Tracks AnyLog v0 s1 r.2.2 := by
  intro f
  induction f with
  | zero =>
    intro i k s d r h hp fuel _
    unfold mergeRest at hp
    unfold mergeRestLive
    by_cases hc : i < n
    · rw [if_pos hc] at hp
      cases hp
    · rw [if_neg hc] at hp
      rw [if_neg (fun hh => hc hh.1)]
      cases hp
      exact ⟨s, rfl, h⟩
  | succ f ih =>
    intro i k s d r h hp fuel hfuel
    obtain ⟨fu, rfl⟩ : ∃ fu, fuel = fu + 1 := ⟨fuel - 1, by omega⟩
    obtain ⟨hg, hd⟩ := tracks_going AnyLog v0 s d h
    unfold mergeRest at hp
    unfold mergeRestLive
    by_cases hc : i < n
    · rw [if_pos hc] at hp
      rw [if_pos ⟨hc, hg⟩]
      simp only at hp ⊢
      obtain ⟨a, ha, hp2⟩ := Run.bind_ok hp
      obtain ⟨d2, hw, hp4⟩ := Run.bind_ok hp2
      rw [ha]
      simp only [Run.ok_bind]
      rw [hd, hw]
      simp only [Run.ok_bind]
      obtain ⟨s2, hs2, ht2⟩ := poll_tracks AnyLog v0 _ d2
        (setData_tracks AnyLog v0 s d d2 h trivial)
      rw [hs2]
      simp only [Run.ok_bind]
      exact ih _ _ s2 d2 r ht2 hp4 fu (by omega)
    · rw [if_neg hc] at hp
      rw [if_neg (fun hh => hc hh.1)]
      cases hp
      exact ⟨s, rfl, h⟩

theorem mergeLive_sim (v0 : Visualizer) (fuel : Nat) (left mid right : Int)
    (hf : (right - left + 1).toNat ≤ fuel) (h1 : left ≤ mid) (h2 : mid ≤ right)
    (s : Sim) (d d1 : List Int) (h : Tracks AnyLog v0 s d)
    (hpure : merge left mid right d = .ok d1) :
    ∃ s1, mergeLive fuel left mid right s = .ok s1 ∧ Tracks AnyLog v0 s1 d1 := by
  obtain ⟨_, hd⟩ := tracks_going AnyLog v0 s d h
  unfold merge at hpure
  simp only at hpure
  obtain ⟨L, hL, hp2⟩ := Run.bind_ok hpure
  obtain ⟨R, hR, hp3⟩ := Run.bind_ok hp2
  unfold mergeLoops at hp3
  obtain ⟨⟨i, j, k, e1⟩, hb, hp4⟩ := Run.bind_ok hp3
  simp only at hp4
  obtain ⟨⟨i2, k1, e2⟩, hr1, hp5⟩ := Run.bind_ok hp4
  simp only at hp5
  obtain ⟨⟨j2, k2, e3⟩, hr2, hp6⟩ := Run.bind_ok hp5
  simp only [Run.pure_eq] at hp6
  cases hp6
  unfold mergeLive
  simp only
  rw [hd, hL]
  simp only [Run.ok_bind]
  rw [hR]
  simp only [Run.ok_bind]
  obtain ⟨s1, hs1, ht1⟩ := mergeBothLive_sim v0 L R _ _ _ 0 0 left s d _ h hb fuel (by omega)
  rw [hs1]
  simp only [Run.ok_bind]
  obtain ⟨s2, hs2, ht2⟩ := mergeRestLive_sim v0 L _ _ i k s1 e1 _ ht1 hr1 fuel (by omega)
  rw [hs2]
  simp only [Run.ok_bind]
  obtain ⟨s3, hs3, ht3⟩ := mergeRestLive_sim v0 R _ _ j k1 s2 e2 _ ht2 hr2 fuel (by omega)
  rw [hs3]
  simp only [Run.ok_bind, Run.pure_eq]
  exact ⟨s3, rfl, ht3⟩

theorem mergeSortLive_sim (v0 : Visualizer) (fuel0 : Nat) (hfuel0 : 2147483649 ≤ fuel0) :
    ∀ (f : Nat) (left right : Int) (s : Sim) (d d1 : List Int), 0 ≤ left →
      right ≤ 2147483647 → Tracks AnyLog v0 s d → mergeSort f left right d = .ok d1 →
      ∀ fuel, f ≤ fuel → ∃ s1, mergeSortLive fuel0 fuel left right s = .ok s1 ∧
        Tracks AnyLog v0 s1 d1 := by
  intro f
  induction f with
  | zero =>
    intro left right s d d1 hlo hhi h hp fuel _
    unfold mergeSort at hp
    unfold mergeSortLive
    by_cases hlh : left < right
    · rw [if_pos hlh] at hp
      cases hp
    · rw [if_neg hlh] at hp
      rw [if_neg (fun hh => hlh hh.1)]
      cases hp
      exact ⟨s, rfl, h⟩
  | succ f ih =>
    intro left right s d d1 hlo hhi h hp fuel hfuel
    obtain ⟨fu, rfl⟩ : ∃ fu, fuel = fu + 1 := ⟨fuel - 1, by omega⟩
    obtain ⟨hg, hd⟩ := tracks_going AnyLog v0 s d h
    unfold mergeSort at hp
    unfold mergeSortLive
    by_cases hlh : left < right
    · rw [if_pos hlh] at hp
      rw [if_pos ⟨hlh, hg⟩]
      simp only at hp ⊢
      have hmid : left + (right - left).tdiv 2 = left + (right - left) / 2 := by
        rw [Int.tdiv_eq_ediv (by omega) (by omega)]
      rw [hmid] at hp ⊢
      obtain ⟨d2, hm1, hp2⟩ := Run.bind_ok hp
      obtain ⟨d3, hm2, hp3⟩ := Run.bind_ok hp2
      obtain ⟨s2, hs2, ht2⟩ := ih left _ s d d2 hlo (by omega) h hm1 fu (by omega)
      rw [hs2]
      simp only [Run.ok_bind]
      obtain ⟨s3, hs3, ht3⟩ := ih _ right s2 d2 d3 (by omega) hhi ht2 hm2 fu (by omega)
      rw [hs3]
      simp only [Run.ok_bind]
      exact mergeLive_sim v0 fuel0 left _ right (by omega) (by omega) (by omega) s3 d3 d1 ht3 hp3
    · rw [if_neg hlh] at hp
      rw [if_neg (fun hh => hlh hh.1)]
      cases hp
      exact ⟨s, rfl, h⟩

theorem mergeSortRunLive_sim (v0 : Visualizer) (s : Sim) (d d1 : List Int)
    (h : Tracks AnyLog v0 s d) (hpure : mergeSortRun d = .ok d1)
    (fuel : Nat) (hf1 : 2147483649 ≤ fuel) (hf2 : d.length ≤ fuel) :
    ∃ s1, mergeSortRunLive fuel s = .ok s1 ∧ Tracks AnyLog v0 s1 d1 := by
  obtain ⟨_, hd⟩ := tracks_going AnyLog v0 s d h
  unfold mergeSortRun at hpure
  unfold mergeSortRunLive
  rw [hd]
  exact mergeSortLive_sim v0 fuel hf1 d.length 0 _ s d d1 (le_refl _)
    (by unfold toInt32; omega) h hpure fuel hf2

theorem tracks_start (Q : List (List Int) → List Int → Prop) (v : Visualizer)
    (polls : List (List Event)) (draws : Nat → Nat) (hw : v.windowOpen = true)
    (hr : v.isRunning = true) (hnp : v.isPaused = false) (hp : PauseOnly polls)
    (he : toggles polls % 2 = 0) (hq : Q [] v.data) :
    Tracks Q v (startRun v polls draws) v.data :=
  ⟨by cases v; rfl, ⟨hw, hr, hnp, hp, he⟩, hq⟩

theorem rd_ok_inv {d : List Int} {i : Nat} {a : Int} (h : rd d i = .ok a) :
    i < d.length ∧ d.getD i 0 = a := by
  unfold rd at h
  by_cases hi : i < d.length
  · rw [List.getElem?_eq_getElem hi] at h
    simp only [Run.ok.injEq] at h
    exact ⟨hi, by rw [List.getD_eq_getElem _ _ hi]; exact h⟩
  · rw [List.getElem?_eq_none (by omega)] at h
    cases h

theorem getD_le_of_sorted {d : List Int} (hs : d.Sorted (· ≤ ·)) {a b : Nat} (hab : a ≤ b)
    (hb : b < d.length) : d.getD a 0 ≤ d.getD b 0 := by
  rcases Nat.eq_or_lt_of_le hab with h | h
  · rw [h]
  · unfold List.Sorted at hs
    rw [List.pairwise_iff_getElem] at hs
    have := hs a b (by omega) hb h
    rwa [List.getD_eq_getElem _ _ (by omega : a < d.length), List.getD_eq_getElem _ _ hb]

theorem selectLoop_sorted (d : List Int) (hs : d.Sorted (· ≤ ·)) (i : Nat) :
    ∀ (k j m : Nat), i < j →
      forLoop (fun j m => rd d j >>= fun a => rd d m >>= fun b =>
        (pure (if a < b then j else m) : Run Nat)) k j i = .ok m → m = i := by
  intro k
  induction k with
  | zero =>
    intro j m _ h
    simp only [forLoop] at h
    cases h
    rfl
  | succ k ih =>
    intro j m hij h
    simp only [forLoop] at h
    obtain ⟨m2, hb, h2⟩ := Run.bind_ok h
    obtain ⟨a, ha, hb2⟩ := Run.bind_ok hb
    obtain ⟨b, hbb, hb3⟩ := Run.bind_ok hb2
    obtain ⟨hj1, hj2⟩ := rd_ok_inv ha
    obtain ⟨_, hi2⟩ := rd_ok_inv hbb
    have hle := getD_le_of_sorted hs (Nat.le_of_lt hij) hj1
    simp only [Run.pure_eq, Run.ok.injEq] at hb3
    rw [if_neg (by omega)] at hb3
    subst hb3
    exact ih (j + 1) m (by omega) h2

theorem selectMin_sorted (d : List Int) (hs : d.Sorted (· ≤ ·)) (i m : Nat)
    (hi : i + 1 < 18446744073709551616) (h : selectMin d i = .ok m) : m = i := by
  unfold selectMin at h
  have e : uadd i 1 = i + 1 := by unfold uadd; omega
  rw [e] at h
  exact selectLoop_sorted d hs i _ _ m (by omega) h

theorem bubbleSortLive_sorted (v : Visualizer) (draws : Nat → Nat)
    (hw : v.windowOpen = true) (hr : v.isRunning = true) (hnp : v.isPaused = false)
    (hs : v.data.Sorted (· ≤ ·)) (h0 : 0 < v.data.length)
    (hn : v.data.length < 18446744073709551616) :
    ∃ F, ∀ fuel, F ≤ fuel → ∃ s1, bubbleSortLive fuel (startRun v [] draws) = .ok s1 ∧
      s1.v = v ∧ s1.swaps = [] := by
  refine ⟨18446744073709551616, fun fuel hfuel => ?_⟩
  obtain ⟨out, ho, _, _⟩ := bubbleSort_sorts v.data h0 hn
  obtain ⟨s1, h1, g1, _, g3⟩ := bubbleSortLive_sim (NoSwap v.data) v
    (fun sw d j a b d1 hj hq ha hb hgt _ => by
      exfalso
      obtain ⟨_, hd⟩ := hq
      subst hd
      have e : uadd j 1 = j + 1 := by unfold uadd; omega
      rw [e] at hb
      obtain ⟨_, ha2⟩ := rd_ok_inv ha
      obtain ⟨hb1, hb2⟩ := rd_ok_inv hb
      have := getD_le_of_sorted hs (Nat.le_add_right j 1) hb1
      omega)
    fuel hfuel _ _ _
    (tracks_start (NoSwap v.data) v [] draws hw hr hnp (fun p hp1 => by simp at hp1) rfl
      ⟨rfl, rfl⟩) ho
  obtain ⟨g4, g5⟩ := g3
  refine ⟨s1, h1, ?_, g4⟩
  rw [g1, g5]

theorem selectionSortLive_sorted (v : Visualizer) (draws : Nat → Nat)
    (hw : v.windowOpen = true) (hr : v.isRunning = true) (hnp : v.isPaused = false)
    (hs : v.data.Sorted (· ≤ ·)) (hn : v.data.length < 18446744073709551616) :
    ∃ F, ∀ fuel, F ≤ fuel → ∃ s1, selectionSortLive fuel (startRun v [] draws) = .ok s1 ∧
      s1.v = v ∧ s1.swaps = [] := by
  refine ⟨18446744073709551616, fun fuel hfuel => ?_⟩
  obtain ⟨out, ho, _, _⟩ := selectionSort_sorts v.data hn
  obtain ⟨s1, h1, g1, _, g3⟩ := selectionSortLive_sim (NoSwap v.data) v
    (fun sw d i m d1 hi hq hmin hne _ => by
      exfalso
      obtain ⟨_, hd⟩ := hq
      subst hd
      exact hne (selectMin_sorted _ hs i m hi hmin))
    fuel hfuel _ _ _
    (tracks_start (NoSwap v.data) v [] draws hw hr hnp (fun p hp1 => by simp at hp1) rfl
      ⟨rfl, rfl⟩) ho
  obtain ⟨g4, g5⟩ := g3
  refine ⟨s1, h1, ?_, g4⟩
  rw [g1, g5]

theorem swapAt_same {d : List Int} {i j : Nat} (hi : i < d.length) (hj : j < d.length)
    (h : d.getD i 0 = d.getD j 0) : swapAt d i j = .ok d := by
  rw [swapAt_ok hi hj, ← h, set_getD_self, h, set_getD_self]

theorem forLoopZ_unit : ∀ (k : Nat) (i : Int),
    forLoopZ (fun (_ : Int) (_ : Unit) => (Run.ok () : Run Unit)) k i () = .ok () := by
  intro k
  induction k with
  | zero => intro i; rfl
  | succ k ih =>
    intro i
    unfold forLoopZ
    simp only [Run.ok_bind]
    exact ih (i + 1)

theorem toInt32_last (n : Nat) (h : n ≤ 2147483647) :
    toInt32 (usub (n % 18446744073709551616) 1) = (n : Int) - 1 := by
  unfold toInt32 usub
  omega

theorem swapsKeep_cons {S : List Int} {sw : List (List Int)} {d : List Int}
    (h : SwapsKeep S sw d) : SwapsKeep S (S :: sw) S :=
  ⟨fun t ht => by
    rcases List.mem_cons.mp ht with h1 | h1
    · exact h1
    · exact h.1 t h1, rfl⟩

theorem partitionStepLive_sorted (v0 : Visualizer) (S : List Int) (hs : S.Sorted (· ≤ ·))
    (hn : S.length ≤ 2147483647) (lo H J : Nat) (hJ : J < H) (hH : H < S.length)
    (t : Int × Sim) (hT : Tracks (SwapsKeep S) v0 t.2 S) (I : Nat) (hI1 : t.1 = (I : Int) - 1)
    (hI2 : lo ≤ I) (hI3 : I ≤ J) (hI4 : I < J → S.getD H 0 ≤ S.getD I 0) :
    ∃ t1, partitionStepLive (S.getD H 0) (J : Int) t = .ok t1 ∧
      Tracks (SwapsKeep S) v0 t1.2 S ∧
      ∃ I1 : Nat, t1.1 = (I1 : Int) - 1 ∧ lo ≤ I1 ∧ I1 ≤ J + 1 ∧
        (I1 < J + 1 → S.getD H 0 ≤ S.getD I1 0) := by
  obtain ⟨_, hd⟩ := tracks_going (SwapsKeep S) v0 t.2 S hT
  unfold partitionStepLive
  rw [hd, idx_natCast J (by omega), rd_ok (by omega : J < S.length)]
  simp only [Run.ok_bind]
  by_cases hlt : S.getD J 0 < S.getD H 0
  · have hIJ : I = J := by
      by_contra hne
      have h1 := hI4 (by omega)
      have h2 := getD_le_of_sorted hs (by omega : I ≤ J) (by omega : J < S.length)
      omega
    subst hIJ
    rw [if_pos hlt]
    have e1 : idx (t.1 + 1) = I := by
      rw [hI1]
      have : (I : Int) - 1 + 1 = I := by omega
      rw [this]
      exact idx_natCast I (by omega)
    rw [e1]
    obtain ⟨s2, hs2, ht2⟩ := swapLive_tracks (SwapsKeep S) v0 t.2 S S I I hT
      (swapAt_same (by omega) (by omega) rfl) (swapsKeep_cons hT.2.2)
    rw [hs2]
    simp only [Run.ok_bind, Run.pure_eq]
    obtain ⟨s3, hs3, ht3⟩ := poll_tracks (SwapsKeep S) v0 s2 S ht2
    rw [hs3]
    exact ⟨_, rfl, ht3, I + 1, by simp only [hI1]; push_cast; omega, by omega, le_refl _,
      fun h => absurd h (lt_irrefl _)⟩
  · rw [if_neg hlt]
    simp only [Run.pure_eq, Run.ok_bind]
    obtain ⟨s3, hs3, ht3⟩ := poll_tracks (SwapsKeep S) v0 t.2 S hT
    rw [hs3]
    refine ⟨_, rfl, ht3, I, hI1, hI2, by omega, fun _ => ?_⟩
    rcases Nat.lt_or_ge I J with h | h
    · exact hI4 h
    · have : I = J := by omega
      subst this
      omega

theorem quickSortLive_sorted (v0 : Visualizer) (S : List Int) (hs : S.Sorted (· ≤ ·))
    (hn : S.length ≤ 2147483647) (fuel0 : Nat) (hfuel0 : 2147483648 ≤ fuel0) :
    ∀ (f lo hiE : Nat) (s : Sim), lo ≤ hiE → hiE ≤ S.length → hiE - lo ≤ f + 1 →
      Tracks (SwapsKeep S) v0 s S →
      ∃ s1, quickSortLive fuel0 f (lo : Int) ((hiE : Int) - 1) s = .ok s1 ∧
        Tracks (SwapsKeep S) v0 s1 S := by
  intro f
  induction f with
  | zero =>
    intro lo hiE s h1 h2 h3 h
    unfold quickSortLive
    rw [if_neg (fun hh => by omega)]
    exact ⟨s, rfl, h⟩
  | succ f ih =>
    intro lo hiE s h1 h2 h3 h
    obtain ⟨hg, hd⟩ := tracks_going (SwapsKeep S) v0 s S h
    by_cases hlh : (lo : Int) < (hiE : Int) - 1
    · obtain ⟨H, rfl⟩ : ∃ H, hiE = H + 1 := ⟨hiE - 1, by omega⟩
      have eH : ((H + 1 : Nat) : Int) - 1 = (H : Int) := by push_cast; omega
      rw [eH] at hlh ⊢
      unfold quickSortLive
      rw [if_pos ⟨hlh, hg⟩]
      simp only
      rw [hd, idx_natCast H (by omega), rd_ok (by omega : H < S.length)]
      simp only [Run.ok_bind]
      obtain ⟨t1, ht1, hR1, I, hI1, hI2, hI3, hI4⟩ := forLoopLiveZ_sim
        (fun j (t : Int × Sim) (_ : Unit) =>
          Tracks (SwapsKeep S) v0 t.2 S ∧ ∃ I : Nat, t.1 = (I : Int) - 1 ∧ lo ≤ I ∧
            (I : Int) ≤ j ∧ ((I : Int) < j → S.getD H 0 ≤ S.getD I 0))
        (fun j (t : Int × Sim) => decide (j ≤ (H : Int) - 1) && going t.2)
        (partitionStepLive (S.getD H 0)) (fun (_ : Int) (_ : Unit) => (Run.ok () : Run Unit))
        (H : Int)
        (fun j t u hR => by
          obtain ⟨hg1, _⟩ := tracks_going (SwapsKeep S) v0 t.2 S hR.1
          simp only [hg1, Bool.and_true]
          by_cases hjh : j < (H : Int)
          · simp [hjh]; omega
          · simp [hjh]; omega)
        (fun j t u u1 hj hR _ => by
          obtain ⟨hT, I, hI1, hI2, hI3, hI4⟩ := hR
          obtain ⟨J, rfl⟩ : ∃ J : Nat, j = J := ⟨j.toNat, by omega⟩
          obtain ⟨t1, g1, g2, I1, g3, g4, g5, g6⟩ := partitionStepLive_sorted v0 S hs hn lo H J
            (by omega) (by omega) t hT I hI1 hI2 (by omega) (fun hh => hI4 (by omega))
          exact ⟨t1, g1, g2, I1, g3, g4, by omega, fun hh => g6 (by omega)⟩)
        ((H : Int) - lo).toNat lo (lo - 1, s) () () rfl
        ⟨h, lo, rfl, le_refl _, le_refl _, fun hh => absurd hh (lt_irrefl _)⟩
        (forLoopZ_unit _ _) fuel0 (by omega)
      rw [ht1]
      simp only [Run.ok_bind]
      obtain ⟨i2, s2⟩ := t1
      simp only at hR1 hI1 ⊢
      subst hI1
      have hIH : I ≤ H := by omega
      have e1 : idx ((I : Int) - 1 + 1) = I := by
        have : (I : Int) - 1 + 1 = I := by omega
        rw [this]
        exact idx_natCast I (by omega)
      rw [e1]
      have hval : S.getD I 0 = S.getD H 0 := by
        rcases Nat.eq_or_lt_of_le hIH with hh | hh
        · rw [hh]
        · have a1 := hI4 (by omega)
          have a2 := getD_le_of_sorted hs hIH (by omega : H < S.length)
          omega
      obtain ⟨s3, hs3, ht3⟩ := swapLive_tracks (SwapsKeep S) v0 s2 S S I H hR1
        (swapAt_same (by omega) (by omega) hval) (swapsKeep_cons hR1.2.2)
      rw [hs3]
      simp only [Run.ok_bind]
      have e2 : (I : Int) - 1 + 1 - 1 = (I : Int) - 1 := by omega
      rw [e2]
      obtain ⟨s4, hs4, ht4⟩ := ih lo I s3 hI2 (by omega) (by omega) ht3
      rw [hs4]
      simp only [Run.ok_bind]
      obtain ⟨s5, hs5, ht5⟩ := ih (I + 1) (H + 1) s4 (by omega) h2 (by omega) ht4
      have e3 : ((I + 1 : Nat) : Int) = (I : Int) - 1 + 1 + 1 := by push_cast; omega
      rw [e3, eH] at hs5
      exact ⟨s5, hs5, ht5⟩
    · unfold quickSortLive
      rw [if_neg (fun hh => hlh hh.1)]
      exact ⟨s, rfl, h⟩

theorem quickSortRunLive_sorted (v : Visualizer) (draws : Nat → Nat)
    (hw : v.windowOpen = true) (hr : v.isRunning = true) (hnp : v.isPaused = false)
    (hs : v.data.Sorted (· ≤ ·)) (hn : v.data.length ≤ 2147483647)
    (fuel : Nat) (hfuel : 2147483648 ≤ fuel) :
    ∃ s1, quickSortRunLive fuel (startRun v [] draws) = .ok s1 ∧ s1.v = v ∧
      (∀ t ∈ s1.swaps, t = v.data) ∧ (v.data.length ≤ 1 → s1.swaps = []) := by
  have h0 := tracks_start (SwapsKeep v.data) v [] draws hw hr hnp
    (fun p hp1 => by simp at hp1) rfl ⟨fun t ht => by simp at ht, rfl⟩
  unfold quickSortRunLive
  have e : (startRun v [] draws).v.data = v.data := rfl
  rw [e]
  unfold usize
  rw [toInt32_last _ hn]
  by_cases h1 : v.data.length ≤ 1
  · unfold quickSortLive
    rw [if_neg (fun hh => by have := hh.1; omega)]
    exact ⟨_, rfl, rfl, fun t ht => by simp [startRun] at ht, fun _ => rfl⟩
  · obtain ⟨s1, g1, g2, _, g3, g4⟩ := quickSortLive_sorted v v.data hs hn fuel hfuel fuel 0
      v.data.length (startRun v [] draws) (Nat.zero_le _) (le_refl _) (by omega) h0
    refine ⟨s1, g1, ?_, g3, fun hh => absurd hh h1⟩
    rw [g2]

theorem rdT_ok {d : List Tagged} {i : Nat} (h : i < d.length) : rdT d i = .ok (d.getD i (0, 0)) := by
  simp [rdT, List.getD, List.getElem?_eq_getElem h]

theorem wrT_ok {d : List Tagged} {i : Nat} (v : Tagged) (h : i < d.length) :
    wrT d i v = .ok (d.set i v) := by
  simp [wrT, h]

theorem getD_setT (d : List Tagged) (i k : Nat) (v : Tagged) (h : i < d.length) :
    (d.set i v).getD k (0, 0) = if i = k then v else d.getD k (0, 0) := by
  simp only [List.getD_eq_getElem?_getD, List.getElem?_set]
  by_cases hik : i = k
  · subst hik; simp [h]
  · simp [hik]

theorem segT_getElem? (d : List Tagged) (lo len x : Nat) :
    (segT d lo len)[x]? = if x < len then d[lo + x]? else none := by
  simp [segT, List.getElem?_take, List.getElem?_drop]

theorem getD_eq_iffT (d e : List Tagged) (x : Nat) (h : d.length = e.length) :
    d.getD x (0, 0) = e.getD x (0, 0) ↔ d[x]? = e[x]? := by
  by_cases hx : x < d.length
  · have hx2 : x < e.length := by omega
    simp [List.getD_eq_getElem?_getD, List.getElem?_eq_getElem hx, List.getElem?_eq_getElem hx2]
  · have h1 : d[x]? = none := List.getElem?_eq_none (by omega)
    have h2 : e[x]? = none := List.getElem?_eq_none (by omega)
    simp [List.getD_eq_getElem?_getD, h1, h2]

theorem take_snocT (l : List Tagged) (i : Nat) (h : i < l.length) :
    l.take (i + 1) = l.take i ++ [l.getD i (0, 0)] := by
  rw [List.take_succ, List.getElem?_eq_getElem h, List.getD_eq_getElem _ _ h]
  rfl

theorem segT_length (d : List Tagged) (lo len : Nat) (h : lo + len ≤ d.length) :
    (segT d lo len).length = len := by
  simp [segT]; omega

theorem segT_set_snoc (d : List Tagged) (lo c : Nat) (v : Tagged) (h : lo + c < d.length) :
    segT (d.set (lo + c) v) lo (c + 1) = segT d lo c ++ [v] := by
  have hl : (segT d lo c).length = c := segT_length d lo c (by omega)
  apply List.ext_getElem?
  intro x
  rw [segT_getElem?, List.getElem?_set]
  by_cases hx : x < c
  · rw [if_pos (by omega), if_neg (by omega), List.getElem?_append_left (by omega),
      segT_getElem?, if_pos hx]
  · by_cases hx2 : x = c
    · subst hx2
      rw [if_pos (by omega), if_pos rfl, if_pos h, List.getElem?_append_right (by omega), hl]
      simp
    · rw [if_neg (by omega), List.getElem?_append_right (by omega), hl]
      have : x - c = (x - c - 1) + 1 := by omega
      rw [this]; simp

theorem segT_add (d : List Tagged) (lo a b : Nat) :
    segT d lo (a + b) = segT d lo a ++ segT d (lo + a) b := by
  simp [segT, List.take_add, List.drop_drop]

theorem perm_of_segmentT (d out : List Tagged) (lo len : Nat) (hlen : out.length = d.length)
    (hout : ∀ x, x < lo ∨ lo + len ≤ x → out.getD x (0, 0) = d.getD x (0, 0))
    (hseg : (segT out lo len).Perm (segT d lo len)) : out.Perm d := by
  have h1 : out.take lo = d.take lo := by
    apply List.ext_getElem?
    intro x
    simp only [List.getElem?_take]
    by_cases hx : x < lo
    · rw [if_pos hx, if_pos hx]; exact (getD_eq_iffT out d x hlen).mp (hout x (Or.inl hx))
    · rw [if_neg hx, if_neg hx]
  have h2 : (out.drop lo).drop len = (d.drop lo).drop len := by
    apply List.ext_getElem?
    intro x
    simp only [List.getElem?_drop]
    exact (getD_eq_iffT out d _ hlen).mp (hout _ (Or.inr (by omega)))
  have e1 : out = out.take lo ++ (segT out lo len ++ (out.drop lo).drop len) := by
    unfold segT; rw [List.take_append_drop, List.take_append_drop]
  have e2 : d = d.take lo ++ (segT d lo len ++ (d.drop lo).drop len) := by
    unfold segT; rw [List.take_append_drop, List.take_append_drop]
  rw [e1, e2, h1, h2]
  exact List.Perm.append_left _ (List.Perm.append_right _ hseg)

theorem mergeInvT_left {data L R : List Tagged} {lo i j : Nat} {d : List Tagged}
    (hctx : lo + L.length + R.length ≤ data.length)
    (hL : ∀ a b, a < b → b < L.length → lexLt (L.getD a (0, 0)) (L.getD b (0, 0)))
    (h : MergeInvT data L R lo i j d) (hi : i < L.length)
    (hle : ∀ y, j ≤ y → y < R.length → lexLt (L.getD i (0, 0)) (R.getD y (0, 0))) :
    MergeInvT data L R lo (i + 1) j (d.set (lo + i + j) (L.getD i (0, 0))) := by
  obtain ⟨h1, h2, hlen, hout, hperm, hsort, hbnd⟩ := h
  have hk : lo + i + j < d.length := by omega
  refine ⟨by omega, h2, by simpa using hlen, ?_, ?_, ?_, ?_⟩
  · intro x hx
    rw [getD_setT _ _ _ _ hk, if_neg (by omega)]; exact hout x hx
  · have e1 : segT (d.set (lo + i + j) (L.getD i (0, 0))) lo (i + 1 + j) =
        segT d lo (i + j) ++ [L.getD i (0, 0)] := by
      have := segT_set_snoc d lo (i + j) (L.getD i (0, 0)) (by omega)
      rw [show lo + (i + j) = lo + i + j by omega, show i + j + 1 = i + 1 + j by omega] at this
      exact this
    rw [e1, take_snocT L i hi]
    have p1 : (segT d lo (i + j) ++ [L.getD i (0, 0)]).Perm
        ((L.take i ++ R.take j) ++ [L.getD i (0, 0)]) := List.Perm.append_right _ hperm
    refine p1.trans ?_
    rw [List.append_assoc, List.append_assoc]
    exact List.Perm.append_left _ List.perm_append_comm
  · intro a b ha hab hb
    rw [getD_setT _ _ _ _ hk, getD_setT _ _ _ _ hk, if_neg (by omega)]
    by_cases hbk : lo + i + j = b
    · rw [if_pos hbk]; exact (hbnd a ha (by omega)).1 i (le_refl _) hi
    · rw [if_neg hbk]; exact hsort a b ha hab (by omega)
  · intro a ha1 ha2
    rw [getD_setT _ _ _ _ hk]
    by_cases hak : lo + i + j = a
    · rw [if_pos hak]
      exact ⟨fun x hx1 hx2 => hL i x (by omega) hx2, hle⟩
    · rw [if_neg hak]
      have := hbnd a ha1 (by omega)
      exact ⟨fun x hx1 hx2 => this.1 x (by omega) hx2, this.2⟩

theorem mergeInvT_right {data L R : List Tagged} {lo i j : Nat} {d : List Tagged}
    (hctx : lo + L.length + R.length ≤ data.length)
    (hR : ∀ a b, a < b → b < R.length → lexLt (R.getD a (0, 0)) (R.getD b (0, 0)))
    (h : MergeInvT data L R lo i j d) (hj : j < R.length)
    (hle : ∀ x, i ≤ x → x < L.length → lexLt (R.getD j (0, 0)) (L.getD x (0, 0))) :
    MergeInvT data L R lo i (j + 1) (d.set (lo + i + j) (R.getD j (0, 0))) := by
  obtain ⟨h1, h2, hlen, hout, hperm, hsort, hbnd⟩ := h
  have hk : lo + i + j < d.length := by omega
  refine ⟨h1, by omega, by simpa using hlen, ?_, ?_, ?_, ?_⟩
  · intro x hx
    rw [getD_setT _ _ _ _ hk, if_neg (by omega)]; exact hout x hx
  · have e1 : segT (d.set (lo + i + j) (R.getD j (0, 0))) lo (i + (j + 1)) =
        segT d lo (i + j) ++ [R.getD j (0, 0)] := by
      have := segT_set_snoc d lo (i + j) (R.getD j (0, 0)) (by omega)
      rw [show lo + (i + j) = lo + i + j by omega] at this
      exact this
    rw [e1, take_snocT R j hj, ← List.append_assoc]
    exact List.Perm.append_right _ hperm
  · intro a b ha hab hb
    rw [getD_setT _ _ _ _ hk, getD_setT _ _ _ _ hk, if_neg (by omega)]
    by_cases hbk : lo + i + j = b
    · rw [if_pos hbk]; exact (hbnd a ha (by omega)).2 j (le_refl _) hj
    · rw [if_neg hbk]; exact hsort a b ha hab (by omega)
  · intro a ha1 ha2
    rw [getD_setT _ _ _ _ hk]
    by_cases hak : lo + i + j = a
    · rw [if_pos hak]
      exact ⟨hle, fun y hy1 hy2 => hR j y (by omega) hy2⟩
    · rw [if_neg hak]
      have := hbnd a ha1 (by omega)
      exact ⟨this.1, fun y hy1 hy2 => this.2 y (by omega) hy2⟩

theorem mergeBothT_spec (data L R : List Tagged) (lo : Nat)
    (hn : data.length < 18446744073709551616) (hctx : lo + L.length + R.length ≤ data.length)
    (hL : ∀ a b, a < b → b < L.length → lexLt (L.getD a (0, 0)) (L.getD b (0, 0)))
    (hR : ∀ a b, a < b → b < R.length → lexLt (R.getD a (0, 0)) (R.getD b (0, 0)))
    (hLR : ∀ x y, x < L.length → y < R.length → (L.getD x (0, 0)).2 < (R.getD y (0, 0)).2) :
    ∀ (fuel i j : Nat) (d : List Tagged), MergeInvT data L R lo i j d →
      (L.length - i) + (R.length - j) ≤ fuel →
      ∃ (i1 j1 : Nat) (d1 : List Tagged),
        mergeBothT L R (L.length : Int) (R.length : Int) fuel
          ((i : Int), (j : Int), ((lo + i + j : Nat) : Int), d) =
          .ok ((i1 : Int), (j1 : Int), ((lo + i1 + j1 : Nat) : Int), d1) ∧
        MergeInvT data L R lo i1 j1 d1 ∧ (i1 = L.length ∨ j1 = R.length) := by
  intro fuel
  induction fuel with
  | zero =>
    intro i j d h hf
    have h1 := h.1
    have h2 := h.2.1
    refine ⟨i, j, d, ?_, h, by omega⟩
    unfold mergeBothT
    rw [if_neg (by omega)]
  | succ f ih =>
    intro i j d h hf
    have h1 := h.1
    have h2 := h.2.1
    have hlen := h.2.2.1
    by_cases hc : (i : Int) < (L.length : Int) ∧ (j : Int) < (R.length : Int)
    · have hi : i < L.length := by omega
      have hj : j < R.length := by omega
      have hk : lo + i + j < d.length := by omega
      unfold mergeBothT
      rw [if_pos hc]
      simp only [idx_natCast i (by omega), idx_natCast j (by omega),
        idx_natCast (lo + i + j) (by omega), rdT_ok hi, rdT_ok hj, Run.ok_bind]
      by_cases hle : (L.getD i (0, 0)).1 ≤ (R.getD j (0, 0)).1
      · rw [if_pos hle]
        simp only [wrT_ok _ hk, Run.ok_bind]
        have hij := hLR i j hi hj
        have hinv := mergeInvT_left hctx hL h hi
          (fun y hy1 hy2 => by
            by_cases hyj : y = j
            · subst hyj; unfold lexLt; omega
            · have := hR j y (by omega) hy2
              unfold lexLt at this ⊢
              omega)
        obtain ⟨i1, j1, d1, hm, hinv1, hdone⟩ := ih (i + 1) j _ hinv (by omega)
        refine ⟨i1, j1, d1, ?_, hinv1, hdone⟩
        rw [show (i : Int) + 1 = ((i + 1 : Nat) : Int) by omega,
          show ((lo + i + j : Nat) : Int) + 1 = ((lo + (i + 1) + j : Nat) : Int) by omega]
        exact hm
      · rw [if_neg hle]
        simp only [wrT_ok _ hk, Run.ok_bind]
        have hinv := mergeInvT_right hctx hR h hj
          (fun x hx1 hx2 => by
            by_cases hxi : x = i
            · subst hxi; unfold lexLt; omega
            · have := hL i x (by omega) hx2
              unfold lexLt at this ⊢
              omega)
        obtain ⟨i1, j1, d1, hm, hinv1, hdone⟩ := ih i (j + 1) _ hinv (by omega)
        refine ⟨i1, j1, d1, ?_, hinv1, hdone⟩
        rw [show (j : Int) + 1 = ((j + 1 : Nat) : Int) by omega,
          show ((lo + i + j : Nat) : Int) + 1 = ((lo + i + (j + 1) : Nat) : Int) by omega]
        exact hm
    · refine ⟨i, j, d, ?_, h, by omega⟩
      unfold mergeBothT
      rw [if_neg hc]

theorem mergeRestT_done (src : List Tagged) (n : Int) (fuel : Nat) (i k : Int) (d : List Tagged)
    (h : ¬ i < n) : mergeRestT src n fuel (i, k, d) = .ok (i, k, d) := by
  unfold mergeRestT
  rw [if_neg h]

theorem mergeRestT_left_spec (data L R : List Tagged) (lo : Nat)
    (hn : data.length < 18446744073709551616) (hctx : lo + L.length + R.length ≤ data.length)
    (hL : ∀ a b, a < b → b < L.length → lexLt (L.getD a (0, 0)) (L.getD b (0, 0))) :
    ∀ (fuel i : Nat) (d : List Tagged), MergeInvT data L R lo i R.length d →
      L.length - i ≤ fuel →
      ∃ d1 : List Tagged,
        mergeRestT L (L.length : Int) fuel ((i : Int), ((lo + i + R.length : Nat) : Int), d) =
          .ok ((L.length : Int), ((lo + L.length + R.length : Nat) : Int), d1) ∧
        MergeInvT data L R lo L.length R.length d1 := by
  intro fuel
  induction fuel with
  | zero =>
    intro i d h hf
    have h1 := h.1
    have hi : i = L.length := by omega
    subst hi
    exact ⟨d, mergeRestT_done _ _ _ _ _ _ (by omega), h⟩
  | succ f ih =>
    intro i d h hf
    have h1 := h.1
    have hlen := h.2.2.1
    by_cases hc : (i : Int) < (L.length : Int)
    · have hi : i < L.length := by omega
      have hk : lo + i + R.length < d.length := by omega
      unfold mergeRestT
      rw [if_pos hc]
      simp only [idx_natCast i (by omega), idx_natCast (lo + i + R.length) (by omega),
        rdT_ok hi, wrT_ok _ hk, Run.ok_bind]
      have hinv := mergeInvT_left hctx hL h hi (fun y hy1 hy2 => by omega)
      obtain ⟨d1, hm, hinv1⟩ := ih (i + 1) _ hinv (by omega)
      refine ⟨d1, ?_, hinv1⟩
      rw [show (i : Int) + 1 = ((i + 1 : Nat) : Int) by omega,
        show ((lo + i + R.length : Nat) : Int) + 1 = ((lo + (i + 1) + R.length : Nat) : Int)
          by omega]
      exact hm
    · have hi : i = L.length := by omega
      subst hi
      exact ⟨d, mergeRestT_done _ _ _ _ _ _ hc, h⟩

theorem mergeRestT_right_spec (data L R : List Tagged) (lo : Nat)
    (hn : data.length < 18446744073709551616) (hctx : lo + L.length + R.length ≤ data.length)
    (hR : ∀ a b, a < b → b < R.length → lexLt (R.getD a (0, 0)) (R.getD b (0, 0))) :
    ∀ (fuel j : Nat) (d : List Tagged), MergeInvT data L R lo L.length j d →
      R.length - j ≤ fuel →
      ∃ d1 : List Tagged,
        mergeRestT R (R.length : Int) fuel ((j : Int), ((lo + L.length + j : Nat) : Int), d) =
          .ok ((R.length : Int), ((lo + L.length + R.length : Nat) : Int), d1) ∧
        MergeInvT data L R lo L.length R.length d1 := by
  intro fuel
  induction fuel with
  | zero =>
    intro j d h hf
    have h2 := h.2.1
    have hj : j = R.length := by omega
    subst hj
    exact ⟨d, mergeRestT_done _ _ _ _ _ _ (by omega), h⟩
  | succ f ih =>
    intro j d h hf
    have h2 := h.2.1
    have hlen := h.2.2.1
    by_cases hc : (j : Int) < (R.length : Int)
    · have hj : j < R.length := by omega
      have hk : lo + L.length + j < d.length := by omega
      unfold mergeRestT
      rw [if_pos hc]
      simp only [idx_natCast j (by omega), idx_natCast (lo + L.length + j) (by omega),
        rdT_ok hj, wrT_ok _ hk, Run.ok_bind]
      have hinv := mergeInvT_right hctx hR h hj (fun x hx1 hx2 => by omega)
      obtain ⟨d1, hm, hinv1⟩ := ih (j + 1) _ hinv (by omega)
      refine ⟨d1, ?_, hinv1⟩
      rw [show (j : Int) + 1 = ((j + 1 : Nat) : Int) by omega,
        show ((lo + L.length + j : Nat) : Int) + 1 = ((lo + L.length + (j + 1) : Nat) : Int)
          by omega]
      exact hm
    · have hj : j = R.length := by omega
      subst hj
      exact ⟨d, mergeRestT_done _ _ _ _ _ _ hc, h⟩

theorem segT_getD (d : List Tagged) (lo len x : Nat) (hx : x < len) :
    (segT d lo len).getD x (0, 0) = d.getD (lo + x) (0, 0) := by
  rw [List.getD_eq_getElem?_getD, List.getD_eq_getElem?_getD, segT_getElem?, if_pos hx]

theorem copyT_spec (data : List Tagged) (base len : Nat) (hn : data.length < 18446744073709551616)
    (h : base + len ≤ data.length) :
    forLoopZ (copyStepT data (base : Int)) len 0 (List.replicate len (0, 0)) =
      .ok (segT data base len) := by
  obtain ⟨arr, harr, hlen, hval⟩ := forLoopZ_inv (copyStepT data (base : Int))
    (fun i arr => arr.length = len ∧ ∀ x : Nat, (x : Int) < i → arr[x]? = data[base + x]?)
    len 0 (List.replicate len (0, 0)) ⟨by simp, fun x hx => by omega⟩
    (fun j arr hj1 hj2 ⟨hl, hv⟩ => by
      obtain ⟨J, rfl⟩ := Int.eq_ofNat_of_zero_le hj1
      have hJ : J < len := by omega
      have hb : base + J < data.length := by omega
      refine ⟨arr.set J (data.getD (base + J) (0, 0)), ?_, by simpa using hl, fun x hx => ?_⟩
      · unfold copyStepT
        rw [show (base : Int) + (J : Int) = ((base + J : Nat) : Int) by omega,
          idx_natCast _ (by omega), idx_natCast _ (by omega), rdT_ok hb]
        simp only [Run.ok_bind]
        exact wrT_ok _ (by omega)
      · rw [List.getElem?_set]
        by_cases hxJ : J = x
        · subst hxJ
          rw [if_pos rfl, if_pos (by omega), List.getD_eq_getElem?_getD,
            List.getElem?_eq_getElem hb]
          rfl
        · rw [if_neg hxJ]; exact hv x (by omega))
  rw [harr]
  congr 1
  apply List.ext_getElem?
  intro x
  rw [segT_getElem?]
  by_cases hx : x < len
  · rw [if_pos hx]; exact hval x (by omega)
  · rw [if_neg hx]; exact List.getElem?_eq_none (by omega)

theorem mergeLoopsT_spec (data L R : List Tagged) (lo : Nat)
    (hn : data.length < 18446744073709551616) (hctx : lo + L.length + R.length ≤ data.length)
    (hL : ∀ a b, a < b → b < L.length → lexLt (L.getD a (0, 0)) (L.getD b (0, 0)))
    (hR : ∀ a b, a < b → b < R.length → lexLt (R.getD a (0, 0)) (R.getD b (0, 0)))
    (hLR : ∀ x y, x < L.length → y < R.length → (L.getD x (0, 0)).2 < (R.getD y (0, 0)).2) :
    ∃ d3, mergeLoopsT L R (L.length : Int) (R.length : Int) (lo : Int) data = .ok d3 ∧
      MergeInvT data L R lo L.length R.length d3 := by
  have hinit : MergeInvT data L R lo 0 0 data :=
    ⟨by omega, by omega, rfl, fun _ _ => rfl, by simp [segT],
      fun a b ha hab hb => by omega, fun a ha1 ha2 => by omega⟩
  obtain ⟨i1, j1, d1, hb, hinv1, hdone⟩ :=
    mergeBothT_spec data L R lo hn hctx hL hR hLR (L.length + R.length) 0 0 data hinit
      (by omega)
  simp only [Nat.cast_zero, Nat.add_zero] at hb
  unfold mergeLoopsT
  rw [show ((L.length : Int) + (R.length : Int)).toNat = L.length + R.length by omega, hb]
  simp only [Run.ok_bind, Int.toNat_ofNat]
  rcases hdone with hd | hd
  · subst hd
    rw [mergeRestT_done _ _ _ _ _ _ (by omega)]
    simp only [Run.ok_bind]
    obtain ⟨d3, hm, hinv3⟩ :=
      mergeRestT_right_spec data L R lo hn hctx hR R.length j1 d1 hinv1 (by omega)
    rw [hm]
    exact ⟨d3, rfl, hinv3⟩
  · subst hd
    obtain ⟨d2, hm, hinv2⟩ :=
      mergeRestT_left_spec data L R lo hn hctx hL L.length i1 d1 hinv1 (by omega)
    rw [hm]
    simp only [Run.ok_bind]
    rw [mergeRestT_done _ _ _ _ _ _ (by omega)]
    exact ⟨d2, rfl, hinv2⟩

theorem mergeT_spec (data : List Tagged) (lo m hiE : Nat) (hn : data.length < 18446744073709551616)
    (h1 : lo ≤ m) (h2 : m + 1 < hiE) (h3 : hiE ≤ data.length)
    (hs1 : ∀ a b, lo ≤ a → a < b → b < m + 1 →
      lexLt (data.getD a (0, 0)) (data.getD b (0, 0)))
    (hs2 : ∀ a b, m + 1 ≤ a → a < b → b < hiE →
      lexLt (data.getD a (0, 0)) (data.getD b (0, 0)))
    (htag : ∀ a b, lo ≤ a → a < m + 1 → m + 1 ≤ b → b < hiE →
      (data.getD a (0, 0)).2 < (data.getD b (0, 0)).2) :
    ∃ out, mergeT (lo : Int) (m : Int) ((hiE : Int) - 1) data = .ok out ∧
      out.length = data.length ∧ (segT out lo (hiE - lo)).Perm (segT data lo (hiE - lo)) ∧
      (∀ k, k < lo ∨ hiE ≤ k → out.getD k (0, 0) = data.getD k (0, 0)) ∧
      (∀ a b, lo ≤ a → a < b → b < hiE → lexLt (out.getD a (0, 0)) (out.getD b (0, 0))) := by
  have hn1 : (m : Int) - (lo : Int) + 1 = ((m + 1 - lo : Nat) : Int) := by omega
  have hn2 : (hiE : Int) - 1 - (m : Int) = ((hiE - (m + 1) : Nat) : Int) := by omega
  have hLlen : (segT data lo (m + 1 - lo)).length = m + 1 - lo := segT_length _ _ _ (by omega)
  have hRlen : (segT data (m + 1) (hiE - (m + 1))).length = hiE - (m + 1) :=
    segT_length _ _ _ (by omega)
  have hL : ∀ a b, a < b → b < (segT data lo (m + 1 - lo)).length →
      lexLt ((segT data lo (m + 1 - lo)).getD a (0, 0)) ((segT data lo (m + 1 - lo)).getD b (0, 0)) := by
    intro a b hab hb
    rw [segT_getD _ _ _ _ (by omega), segT_getD _ _ _ _ (by omega)]
    exact hs1 _ _ (by omega) (by omega) (by omega)
  have hR : ∀ a b, a < b → b < (segT data (m + 1) (hiE - (m + 1))).length →
      lexLt ((segT data (m + 1) (hiE - (m + 1))).getD a (0, 0)) ((segT data (m + 1) (hiE - (m + 1))).getD b (0, 0)) := by
    intro a b hab hb
    rw [segT_getD _ _ _ _ (by omega), segT_getD _ _ _ _ (by omega)]
    exact hs2 _ _ (by omega) (by omega) (by omega)
  have hLR : ∀ x y, x < (segT data lo (m + 1 - lo)).length →
      y < (segT data (m + 1) (hiE - (m + 1))).length →
      ((segT data lo (m + 1 - lo)).getD x (0, 0)).2 <
        ((segT data (m + 1) (hiE - (m + 1))).getD y (0, 0)).2 := by
    intro x y hx hy
    rw [segT_getD _ _ _ _ (by omega), segT_getD _ _ _ _ (by omega)]
    exact htag _ _ (by omega) (by omega) (by omega) (by omega)
  have hsplit : segT data lo ((m + 1 - lo) + (hiE - (m + 1))) =
      segT data lo (m + 1 - lo) ++ segT data (m + 1) (hiE - (m + 1)) := by
    rw [segT_add, show lo + (m + 1 - lo) = m + 1 by omega]
  have hrun : mergeT (lo : Int) (m : Int) ((hiE : Int) - 1) data =
      mergeLoopsT (segT data lo (m + 1 - lo)) (segT data (m + 1) (hiE - (m + 1)))
        ((m + 1 - lo : Nat) : Int) ((hiE - (m + 1) : Nat) : Int) (lo : Int) data := by
    unfold mergeT
    simp only [hn1, hn2, Int.toNat_ofNat, idx_natCast _
      (show m + 1 - lo < 18446744073709551616 by omega), idx_natCast _
      (show hiE - (m + 1) < 18446744073709551616 by omega)]
    rw [copyT_spec data lo _ hn (by omega)]
    rw [show (m : Int) + 1 = ((m + 1 : Nat) : Int) by omega,
      copyT_spec data (m + 1) _ hn (by omega)]
    rfl
  rw [hrun]
  generalize segT data lo (m + 1 - lo) = L at *
  generalize segT data (m + 1) (hiE - (m + 1)) = R at *
  obtain ⟨d3, hm, _, _, hlen3, hout3, hperm3, hsort3, _⟩ :=
    mergeLoopsT_spec data L R lo hn (by omega) hL hR hLR
  rw [hLlen, hRlen] at hm hout3 hperm3 hsort3
  refine ⟨d3, hm, hlen3, ?_, ?_, ?_⟩
  · rw [show hiE - lo = (m + 1 - lo) + (hiE - (m + 1)) by omega]
    refine hperm3.trans ?_
    rw [List.take_of_length_le (by omega), List.take_of_length_le (by omega), hsplit]
  · intro k hk; exact hout3 k (by omega)
  · intro a b ha hab hb; exact hsort3 a b ha hab (by omega)

theorem segT_congr (d e : List Tagged) (lo len : Nat) (hlen : d.length = e.length)
    (h : ∀ x, lo ≤ x → x < lo + len → d.getD x (0, 0) = e.getD x (0, 0)) :
    segT d lo len = segT e lo len := by
  apply List.ext_getElem?
  intro x
  rw [segT_getElem?, segT_getElem?]
  by_cases hx : x < len
  · rw [if_pos hx, if_pos hx]
    exact (getD_eq_iffT d e _ hlen).mp (h _ (by omega) (by omega))
  · rw [if_neg hx, if_neg hx]

theorem segT_mem (d : List Tagged) (lo len : Nat) (x : Tagged) (h : lo + len ≤ d.length)
    (hx : x ∈ segT d lo len) : ∃ p, lo ≤ p ∧ p < lo + len ∧ d.getD p (0, 0) = x := by
  obtain ⟨k, hk⟩ := List.mem_iff_getElem?.mp hx
  rw [segT_getElem?] at hk
  by_cases hkl : k < len
  · rw [if_pos hkl, List.getElem?_eq_getElem (by omega)] at hk
    refine ⟨lo + k, by omega, by omega, ?_⟩
    rw [List.getD_eq_getElem _ _ (by omega)]
    exact Option.some.inj hk
  · rw [if_neg hkl] at hk
    cases hk

theorem getD_mem_segT (d : List Tagged) (lo len p : Nat) (h : lo + len ≤ d.length)
    (h1 : lo ≤ p) (h2 : p < lo + len) : d.getD p (0, 0) ∈ segT d lo len := by
  apply List.mem_iff_getElem?.mpr
  refine ⟨p - lo, ?_⟩
  rw [segT_getElem?, if_pos (by omega), show lo + (p - lo) = p by omega,
    List.getElem?_eq_getElem (by omega), List.getD_eq_getElem _ _ (by omega)]

theorem mergeSortT_spec (n : Nat) (hn : n < 18446744073709551616) :
    ∀ (f lo hiE : Nat) (d : List Tagged), lo ≤ hiE → hiE ≤ n → d.length = n → hiE - lo ≤ f + 1 →
      (∀ a b, lo ≤ a → a < b → b < hiE → (d.getD a (0, 0)).2 < (d.getD b (0, 0)).2) →
      ∃ out, mergeSortT f (lo : Int) ((hiE : Int) - 1) d = .ok out ∧ out.length = n ∧
        (segT out lo (hiE - lo)).Perm (segT d lo (hiE - lo)) ∧
        (∀ k, k < lo ∨ hiE ≤ k → out.getD k (0, 0) = d.getD k (0, 0)) ∧
        (∀ a b, lo ≤ a → a < b → b < hiE →
          lexLt (out.getD a (0, 0)) (out.getD b (0, 0))) := by
  intro f
  induction f with
  | zero =>
    intro lo hiE d h1 h2 hlen hf _
    refine ⟨d, ?_, hlen, List.Perm.refl _, fun _ _ => rfl, fun a b ha hab hb => by omega⟩
    unfold mergeSortT
    rw [if_neg (by omega)]
  | succ f ih =>
    intro lo hiE d h1 h2 hlen hf htags
    by_cases hlt : (lo : Int) < (hiE : Int) - 1
    · have hmid : (lo : Int) + ((hiE : Int) - 1 - (lo : Int)).tdiv 2 =
          ((lo + (hiE - 1 - lo) / 2 : Nat) : Int) := by
        rw [Int.tdiv_eq_ediv (by omega) (by omega)]; omega
      obtain ⟨m, hm⟩ : ∃ m, m = lo + (hiE - 1 - lo) / 2 := ⟨_, rfl⟩
      rw [← hm] at hmid
      have hm1 : lo ≤ m := by omega
      have hm2 : m + 1 < hiE := by omega
      obtain ⟨o1, ho1, hlen1, hperm1, hout1, hsort1⟩ :=
        ih lo (m + 1) d (by omega) (by omega) hlen (by omega)
          (fun a b ha hab hb => htags a b ha hab (by omega))
      obtain ⟨o2, ho2, hlen2, hperm2, hout2, hsort2⟩ :=
        ih (m + 1) hiE o1 (by omega) h2 hlen1 (by omega)
          (fun a b ha hab hb => by
            rw [hout1 a (Or.inr ha), hout1 b (Or.inr (by omega))]
            exact htags a b (by omega) hab hb)
      have hsegL : segT o2 lo (m + 1 - lo) = segT o1 lo (m + 1 - lo) :=
        segT_congr o2 o1 lo _ (by omega) (fun x hx1 hx2 => hout2 x (Or.inl (by omega)))
      have hsegR : segT o1 (m + 1) (hiE - (m + 1)) = segT d (m + 1) (hiE - (m + 1)) :=
        segT_congr o1 d (m + 1) _ (by omega) (fun x hx1 hx2 => hout1 x (Or.inr hx1))
      obtain ⟨o3, ho3, hlen3, hperm3, hout3, hsort3⟩ :=
        mergeT_spec o2 lo m hiE (by omega) hm1 hm2 (by omega)
          (fun a b ha hab hb => by
            rw [hout2 a (Or.inl (by omega)), hout2 b (Or.inl (by omega))]
            exact hsort1 a b ha hab hb)
          hsort2
          (fun a b ha1 ha2 hb1 hb2 => by
            have ma : o2.getD a (0, 0) ∈ segT o2 lo (m + 1 - lo) :=
              getD_mem_segT o2 lo _ a (by omega) ha1 (by omega)
            rw [hsegL] at ma
            obtain ⟨a1, ha3, ha4, ha5⟩ :=
              segT_mem d lo _ _ (by omega) (hperm1.subset ma)
            have mb : o2.getD b (0, 0) ∈ segT o2 (m + 1) (hiE - (m + 1)) :=
              getD_mem_segT o2 (m + 1) _ b (by omega) hb1 (by omega)
            obtain ⟨b1, hb3, hb4, hb5⟩ :=
              segT_mem o1 (m + 1) _ _ (by omega) (hperm2.subset mb)
            rw [hout1 b1 (Or.inr hb3)] at hb5
            rw [← ha5, ← hb5]
            exact htags a1 b1 ha3 (by omega) (by omega))
      refine ⟨o3, ?_, by omega, ?_, ?_, hsort3⟩
      · unfold mergeSortT
        rw [if_pos hlt]
        simp only [hmid]
        rw [show (m : Int) = ((m + 1 : Nat) : Int) - 1 by omega, ho1]
        simp only [Run.ok_bind]
        rw [show ((m + 1 : Nat) : Int) - 1 + 1 = ((m + 1 : Nat) : Int) by omega, ho2]
        simp only [Run.ok_bind]
        rw [show ((m + 1 : Nat) : Int) - 1 = (m : Int) by omega]
        exact ho3
      · refine hperm3.trans ?_
        rw [show hiE - lo = (m + 1 - lo) + (hiE - (m + 1)) by omega, segT_add, segT_add,
          show lo + (m + 1 - lo) = m + 1 by omega, hsegL]
        exact List.Perm.append hperm1 (by rw [← hsegR]; exact hperm2)
      · intro k hk
        rw [hout3 k hk, hout2 k (by omega), hout1 k (by omega)]
    · refine ⟨d, ?_, hlen, List.Perm.refl _, fun _ _ => rfl, fun a b ha hab hb => by omega⟩
      unfold mergeSortT
      rw [if_neg hlt]

theorem tagged_length (S : List Int) : (tagged S).length = S.length := by
  simp [tagged]

theorem tagged_getD (S : List Int) (p : Nat) (h : p < S.length) :
    (tagged S).getD p (0, 0) = (S.getD p 0, p) := by
  have h2 : p < (tagged S).length := by rw [tagged_length]; exact h
  rw [List.getD_eq_getElem _ _ h2, List.getD_eq_getElem _ _ h]
  simp [tagged]

theorem tagged_map_fst (S : List Int) : (tagged S).map Prod.fst = S := by
  unfold tagged
  rw [List.map_fst_zip]
  simp

theorem pairwise_of_getDT (r : Tagged → Tagged → Prop) (d : List Tagged)
    (h : ∀ a b, a < b → b < d.length → r (d.getD a (0, 0)) (d.getD b (0, 0))) :
    d.Pairwise r := by
  rw [List.pairwise_iff_getElem]
  intro i j hi hj hij
  have := h i j hij hj
  rwa [List.getD_eq_getElem _ _ hi, List.getD_eq_getElem _ _ hj] at this

theorem rdT_erase {d : List Tagged} {i : Nat} {a : Tagged} (h : rdT d i = .ok a) :
    rd (d.map Prod.fst) i = .ok a.1 := by
  unfold rdT at h
  unfold rd
  rw [List.getElem?_map]
  cases hd : d[i]? with
  | none => rw [hd] at h; cases h
  | some v =>
    rw [hd] at h
    cases h
    rfl

theorem wrT_erase {d d1 : List Tagged} {i : Nat} {v : Tagged} (h : wrT d i v = .ok d1) :
    wr (d.map Prod.fst) i v.1 = .ok (d1.map Prod.fst) := by
  unfold wrT at h
  unfold wr
  rw [List.length_map]
  by_cases hi : i < d.length
  · rw [if_pos hi] at h
    rw [if_pos hi]
    cases h
    rw [List.map_set]
  · rw [if_neg hi] at h
    cases h

theorem copyT_erase (data : List Tagged) (base : Int) :
    ∀ (k : Nat) (i : Int) (arr out : List Tagged),
      forLoopZ (copyStepT data base) k i arr = .ok out →
      forLoopZ (copyStep (data.map Prod.fst) base) k i (arr.map Prod.fst) =
        .ok (out.map Prod.fst) := by
  intro k
  induction k with
  | zero =>
    intro i arr out h
    unfold forLoopZ at h
    cases h
    rfl
  | succ k ih =>
    intro i arr out h
    unfold forLoopZ at h ⊢
    obtain ⟨arr1, h1, h2⟩ := Run.bind_ok h
    unfold copyStepT at h1
    obtain ⟨v, hv, hw⟩ := Run.bind_ok h1
    unfold copyStep
    rw [rdT_erase hv]
    simp only [Run.ok_bind]
    rw [wrT_erase hw]
    simp only [Run.ok_bind]
    exact ih _ _ _ h2

theorem mergeBothT_erase (L R : List Tagged) (n1 n2 : Int) :
    ∀ (fuel : Nat) (i j k : Int) (d : List Tagged) (r : Int × Int × Int × List Tagged),
      mergeBothT L R n1 n2 fuel (i, j, k, d) = .ok r →
      mergeBoth (L.map Prod.fst) (R.map Prod.fst) n1 n2 fuel (i, j, k, d.map Prod.fst) =
        .ok (r.1, r.2.1, r.2.2.1, r.2.2.2.map Prod.fst) := by
  intro fuel
  induction fuel with
  | zero =>
    intro i j k d r h
    unfold mergeBothT at h
    unfold mergeBoth
    by_cases hc : i < n1 ∧ j < n2
    · rw [if_pos hc] at h
      cases h
    · rw [if_neg hc] at h
      rw [if_neg hc]
      cases h
      rfl
  | succ f ih =>
    intro i j k d r h
    unfold mergeBothT at h
    unfold mergeBoth
    by_cases hc : i < n1 ∧ j < n2
    · rw [if_pos hc] at h
      rw [if_pos hc]
      simp only at h ⊢
      obtain ⟨a, ha, h2⟩ := Run.bind_ok h
      obtain ⟨b, hb, h3⟩ := Run.bind_ok h2
      rw [rdT_erase ha, rdT_erase hb]
      simp only [Run.ok_bind]
      by_cases hle : a.1 ≤ b.1
      · rw [if_pos hle] at h3
        rw [if_pos hle]
        obtain ⟨d1, hw, h4⟩ := Run.bind_ok h3
        rw [wrT_erase hw]
        simp only [Run.ok_bind]
        exact ih _ _ _ _ _ h4
      · rw [if_neg hle] at h3
        rw [if_neg hle]
        obtain ⟨d1, hw, h4⟩ := Run.bind_ok h3
        rw [wrT_erase hw]
        simp only [Run.ok_bind]
        exact ih _ _ _ _ _ h4
    · rw [if_neg hc] at h
      rw [if_neg hc]
      cases h
      rfl

theorem mergeRestT_erase (src : List Tagged) (n : Int) :
    ∀ (fuel : Nat) (i k : Int) (d : List Tagged) (r : Int × Int × List Tagged),
      mergeRestT src n fuel (i, k, d) = .ok r →
      mergeRest (src.map Prod.fst) n fuel (i, k, d.map Prod.fst) =
        .ok (r.1, r.2.1, r.2.2.map Prod.fst) := by
  intro fuel
  induction fuel with
  | zero =>
    intro i k d r h
    unfold mergeRestT at h
    unfold mergeRest
    by_cases hc : i < n
    · rw [if_pos hc] at h
      cases h
    · rw [if_neg hc] at h
      rw [if_neg hc]
      cases h
      rfl
  | succ f ih =>
    intro i k d r h
    unfold mergeRestT at h
    unfold mergeRest
    by_cases hc : i < n
    · rw [if_pos hc] at h
      rw [if_pos hc]
      simp only at h ⊢
      obtain ⟨a, ha, h2⟩ := Run.bind_ok h
      obtain ⟨d1, hw, h3⟩ := Run.bind_ok h2
      rw [rdT_erase ha]
      simp only [Run.ok_bind]
      rw [wrT_erase hw]
      simp only [Run.ok_bind]
      exact ih _ _ _ _ h3
    · rw [if_neg hc] at h
      rw [if_neg hc]
      cases h
      rfl

theorem mergeT_erase (left mid right : Int) (data out : List Tagged)
    (h : mergeT left mid right data = .ok out) :
    merge left mid right (data.map Prod.fst) = .ok (out.map Prod.fst) := by
  unfold mergeT at h
  unfold merge
  simp only at h ⊢
  obtain ⟨L, hL, h2⟩ := Run.bind_ok h
  obtain ⟨R, hR, h3⟩ := Run.bind_ok h2
  have eL := copyT_erase data left _ _ _ _ hL
  have eR := copyT_erase data (mid + 1) _ _ _ _ hR
  rw [List.map_replicate] at eL eR
  rw [eL]
  simp only [Run.ok_bind]
  rw [eR]
  simp only [Run.ok_bind]
  unfold mergeLoopsT at h3
  unfold mergeLoops
  obtain ⟨⟨i, j, k, d1⟩, hb, h4⟩ := Run.bind_ok h3
  simp only at h4
  obtain ⟨⟨i2, k2, d2⟩, hr1, h5⟩ := Run.bind_ok h4
  simp only at h5
  obtain ⟨⟨j3, k3, d3⟩, hr2, h6⟩ := Run.bind_ok h5
  simp only [Run.pure_eq, Run.ok.injEq] at h6
  subst h6
  rw [mergeBothT_erase _ _ _ _ _ _ _ _ _ _ hb]
  simp only [Run.ok_bind]
  rw [mergeRestT_erase _ _ _ _ _ _ _ hr1]
  simp only [Run.ok_bind]
  rw [mergeRestT_erase _ _ _ _ _ _ _ hr2]
  rfl

theorem mergeSortT_erase : ∀ (fuel : Nat) (left right : Int) (d out : List Tagged),
    mergeSortT fuel left right d = .ok out →
    mergeSort fuel left right (d.map Prod.fst) = .ok (out.map Prod.fst) := by
  intro fuel
  induction fuel with
  | zero =>
    intro left right d out h
    unfold mergeSortT at h
    unfold mergeSort
    by_cases hc : left < right
    · rw [if_pos hc] at h
      cases h
    · rw [if_neg hc] at h
      rw [if_neg hc]
      cases h
      rfl
  | succ f ih =>
    intro left right d out h
    unfold mergeSortT at h
    unfold mergeSort
    by_cases hc : left < right
    · rw [if_pos hc] at h
      rw [if_pos hc]
      simp only at h ⊢
      obtain ⟨d1, h1, h2⟩ := Run.bind_ok h
      obtain ⟨d2, h3, h4⟩ := Run.bind_ok h2
      rw [ih _ _ _ _ h1]
      simp only [Run.ok_bind]
      rw [ih _ _ _ _ h3]
      simp only [Run.ok_bind]
      exact mergeT_erase _ _ _ _ _ h4
    · rw [if_neg hc] at h
      rw [if_neg hc]
      cases h
      rfl

theorem mergeSortRunT_erase (d out : List Tagged) (h : mergeSortRunT d = .ok out) :
    mergeSortRun (d.map Prod.fst) = .ok (out.map Prod.fst) := by
  unfold mergeSortRunT at h
  unfold mergeSortRun usize
  rw [List.length_map]
  exact mergeSortT_erase _ _ _ _ _ h

theorem mergeSortRunT_stable (S : List Int) (h : S.length < 18446744073709551616) :
    ∃ out, mergeSortRunT (tagged S) = .ok out ∧ out.Perm (tagged S) ∧
      out.Pairwise (fun a b => a.1 = b.1 → a.2 < b.2) ∧
      mergeSortRun S = .ok (out.map Prod.fst) ∧
      (S.length ≤ 2147483647 → out.Pairwise (fun a b => a.1 ≤ b.1)) := by
  have hl := tagged_length S
  have key : ∃ out, mergeSortRunT (tagged S) = .ok out ∧ out.Perm (tagged S) ∧
      out.Pairwise (fun a b => a.1 = b.1 → a.2 < b.2) ∧
      (S.length ≤ 2147483647 → out.Pairwise (fun a b => a.1 ≤ b.1)) := by
    by_cases hz : 0 < toInt32 ((usub ((tagged S).length % 18446744073709551616) 1 : Nat) : Int)
    · obtain ⟨hiE, hh1, hh2⟩ : ∃ hiE : Nat,
          toInt32 ((usub ((tagged S).length % 18446744073709551616) 1 : Nat) : Int) =
            (hiE : Int) - 1 ∧ hiE ≤ (tagged S).length := by
        refine ⟨(toInt32 ((usub ((tagged S).length % 18446744073709551616) 1 : Nat) : Int)
          + 1).toNat, by omega, ?_⟩
        unfold toInt32 usub at hz ⊢
        omega
      obtain ⟨out, ho, hlen, hperm, hout, hsort⟩ :=
        mergeSortT_spec (tagged S).length (by omega) (tagged S).length 0 hiE
          (tagged S) (by omega) hh2 rfl (by omega)
          (fun a b _ hab hb => by
            rw [tagged_getD S a (by omega), tagged_getD S b (by omega)]
            exact hab)
      have htag : ∀ a, a < hiE → (out.getD a (0, 0)).2 < hiE := by
        intro a ha
        have ma : out.getD a (0, 0) ∈ segT out 0 (hiE - 0) :=
          getD_mem_segT out 0 _ a (by omega) (by omega) (by omega)
        obtain ⟨a1, _, ha2, ha3⟩ := segT_mem (tagged S) 0 _ _ (by omega) (hperm.subset ma)
        rw [← ha3, tagged_getD S a1 (by omega)]
        omega
      refine ⟨out, ?_, ?_, ?_, ?_⟩
      · unfold mergeSortRunT
        rw [hh1]
        exact ho
      · exact perm_of_segmentT (tagged S) out 0 (hiE - 0) hlen
          (fun x hx => hout x (by omega)) hperm
      · refine pairwise_of_getDT _ out (fun a b hab hb he => ?_)
        by_cases hb2 : b < hiE
        · have := hsort a b (by omega) hab hb2
          unfold lexLt at this
          omega
        · rw [hout b (Or.inr (by omega)), tagged_getD S b (by omega)]
          by_cases ha2 : a < hiE
          · have := htag a ha2
            simp only
            omega
          · rw [hout a (Or.inr (by omega)), tagged_getD S a (by omega)]
            exact hab
      · intro hS
        have e : hiE = (tagged S).length := by
          unfold toInt32 usub at hh1
          omega
        refine pairwise_of_getDT _ out (fun a b hab hb => ?_)
        have := hsort a b (by omega) hab (by omega)
        unfold lexLt at this
        omega
    · refine ⟨tagged S, ?_, List.Perm.refl _, ?_, ?_⟩
      · unfold mergeSortRunT mergeSortT
        rw [if_neg hz]
      · refine pairwise_of_getDT _ _ (fun a b hab hb _ => ?_)
        rw [tagged_getD S a (by omega), tagged_getD S b (by omega)]
        exact hab
      · intro hS
        refine pairwise_of_getDT _ _ (fun a b hab hb => ?_)
        unfold toInt32 usub at hz
        omega
  obtain ⟨out, hrun, h1, h2, h3⟩ := key
  refine ⟨out, hrun, h1, h2, ?_, h3⟩
  have := mergeSortRunT_erase _ _ hrun
  rwa [tagged_map_fst] at this

theorem bubbleSortLive_empty (fuel : Nat) (polls : List (List Event)) (draws : Nat → Nat) :
    bubbleSortLive (fuel + 1) (startSort [] polls draws) = Run.oob := by
  have hg : going (startSort [] polls draws) = true := rfl
  have hd : (startSort [] polls draws).v.data = [] := rfl
  unfold bubbleSortLive forLoopLive
  rw [hd, hg]
  have h1 : (decide (0 < usub (usize ([] : List Int)) 1) && true) = true := by decide
  rw [if_pos h1]
  simp only
  unfold bubblePassLive forLoopLive
  rw [hd, hg]
  have h2 : (decide (0 < usub (usub (usize ([] : List Int)) 0) 1) && true) = true := by decide
  rw [if_pos h2]
  simp only
  unfold bubbleStepLive
  rw [hd]
  rfl

theorem initializeGrid_fresh (v : Visualizer) (draws : Nat → Nat) (h : 1 ≤ v.gridSize) :
    ∃ v1 d1, initializeGrid v draws = .ok (v1, d1) ∧ v1.gridSize = v.gridSize ∧
      v1.data = v.data ∧
      v1.startPoint = (0, 0) ∧ v1.endPoint = (v.gridSize - 1, v.gridSize - 1) ∧
      v1.grid v1.startPoint = 0 ∧ v1.grid v1.endPoint = 0 ∧
      (∀ p, v1.grid p = 0 ∨ v1.grid p = 1) ∧
      (∀ p, inBounds v.gridSize p = true → p ≠ (0, 0) →
        p ≠ (v.gridSize - 1, v.gridSize - 1) →
        (v1.grid p = 1 ↔
          obstacleTest (uniformInt 0 100
            (draws (p.1.toNat * v.gridSize.toNat + p.2.toNat))) = true)) ∧
      WellFormed (gridWorld v1) := by
  have hb0 : inBounds v.gridSize (0, 0) = true := by
    simp [inBounds]; omega
  have hb1 : inBounds v.gridSize (v.gridSize - 1, v.gridSize - 1) = true := by
    simp [inBounds]; omega
  obtain ⟨g, hg, h0, h1, h01⟩ := initializeGrid_ok v draws (by omega)
  have hcell : ∀ p, inBounds v.gridSize p = true → p ≠ (0, 0) →
      p ≠ (v.gridSize - 1, v.gridSize - 1) →
      (g p = 1 ↔ obstacleTest (uniformInt 0 100
        (draws (p.1.toNat * v.gridSize.toNat + p.2.toNat))) = true) := by
    intro p hp hp0 hp1
    have hg2 := hg
    unfold initializeGrid at hg2
    simp only [tset_ok _ _ hb0, tset_ok _ _ hb1, Run.ok_bind, Run.pure_eq, Run.ok.injEq,
      Prod.mk.injEq, Visualizer.mk.injEq, true_and, and_true] at hg2
    rw [← hg2, upd_other _ _ _ _ hp1, upd_other _ _ _ _ hp0]
    simp [hp, obstacleTest]
  refine ⟨_, _, hg, rfl, rfl, rfl, rfl, h0, h1, h01, hcell, ?_⟩
  refine ⟨hb0, fun p _ => h01 p, ?_, ?_⟩
  · show g (0, 0) ≠ 1
    rw [h0]; decide
  · show g (v.gridSize - 1, v.gridSize - 1) ≠ 1
    rw [h1]; decide

theorem reset_fresh (v : Visualizer) (draws : Nat → Nat) (h : 1 ≤ v.gridSize) :
    ∃ v1 d1, handleEvent (.KeyPressed .R) v draws = .ok (v1, d1) ∧
      v1.gridSize = v.gridSize ∧
      v1.startPoint = (0, 0) ∧ v1.endPoint = (v.gridSize - 1, v.gridSize - 1) ∧
      v1.grid v1.startPoint = 0 ∧ v1.grid v1.endPoint = 0 ∧
      (∀ p, v1.grid p = 0 ∨ v1.grid p = 1) ∧ WellFormed (gridWorld v1) := by
  obtain ⟨v1, d1, hi, g1, _, g2, g3, g4, g5, g6, _, g7⟩ :=
    initializeGrid_fresh (generateRandomData v draws).1 (generateRandomData v draws).2 h
  refine ⟨{ v1 with isPaused := true }, d1, ?_, g1, g2, g3, g4, g5, g6, g7⟩
  simp only [handleEvent, hi, Run.ok_bind, Run.pure_eq]

theorem dijkstra_distance (posLt : Pos → Pos → Bool) (w : World)
    (hs : passable w w.startPoint)
    (hsize : 14 * ((cells w.gridSize).card : Int) ≤ 2147483647) :
    ∃ F, ∀ fuel, F ≤ fuel → ∃ (r : PathResult) (s1 : DState),
      dijkstraLoop posLt w.gridSize w.startPoint w.endPoint fuel
        { grid := w.grid, distance := upd (fun _ => (2147483647 : Int)) w.startPoint 0,
          parent := fun _ => (-1, -1), pq := [(0, w.startPoint)] } = .ok (r.found, s1) ∧
      dijkstra posLt fuel w = .ok r ∧ GoodResult adj8 w r ∧
      (r.found = true ↔ ∃ l, Path8 w l) ∧
      (r.found = true → Path8 w r.route ∧
        s1.distance w.endPoint = routeCost edgeWeight r.route ∧
        ∀ l, Path8 w l → routeCost edgeWeight r.route ≤ routeCost edgeWeight l) := by
  refine ⟨(cells w.gridSize).card * 2147483647 + 2147483647, fun fuel hfuel => ?_⟩
  have hcard : 0 < (cells w.gridSize).card :=
    Finset.card_pos.mpr ⟨_, (mem_cells _ _).mpr hs.1⟩
  obtain ⟨found, s1, done1, hloop, hcore, hfound, hnot⟩ :=
    dijkstraLoop_spec posLt w hsize fuel _ _ (dj_init_outer w hs)
      (by have := dj_init_measure w; omega)
  have hcore2 := hcore
  obtain ⟨hFR, hD0, hD1, hD1p, hD2, hI1, hI3, hDB⟩ := hcore
  have hpost : SearchPost
      (fun u v => adj8 u v ∧ s1.distance u + stepWeight u v ≤ s1.distance v) w
      2147483647 found s1.grid s1.parent := by
    refine ⟨hFR, fun hf => ⟨fun p => s1.distance p ≠ 2147483647,
      fun p => (s1.distance p).toNat, ⟨fun p hp => (hD1p p hp).1, fun p hp hne => ?_⟩,
      (hfound hf).1, hD1p, ?_⟩⟩
    · obtain ⟨h1, h2, h3, h4⟩ := hD2 p hp hne
      refine ⟨h1, ⟨h2, h3⟩, ?_, h4⟩
      have hw : 1 ≤ stepWeight (s1.parent p) p := edgeWeight_pos _
      have := (hD1 (s1.parent p)).1
      dsimp only
      omega
    · have h1 := (hfound hf).1
      have h2 := hD1 w.endPoint
      dsimp only
      omega
  obtain ⟨r, hr, hrf, _, hgood⟩ :=
    reconstruct_spec _ w _ fuel found s1.grid s1.parent (by omega) hpost
  have hgood8 : GoodResult adj8 w r := hgood.mono (fun u v h => h.1)
  have hrun : dijkstra posLt fuel w = .ok r := by
    unfold dijkstra
    rw [tset_ok _ _ hs.1]
    simp only [Run.ok_bind, hloop]
    exact hr
  have hopt : r.found = true → ∀ l, Path8 w l →
      s1.distance w.endPoint ≤ routeCost edgeWeight l := by
    intro hf l hl
    obtain ⟨hh, hll, hc, hpp⟩ := hl
    cases l with
    | nil => simp at hh
    | cons a t =>
      simp only [List.head?_cons, Option.some.injEq] at hh
      subst hh
      have h2 := dj_le_path w done1 s1 hcore2 (by rw [hrf] at hf; exact (hfound hf).2) t
        w.startPoint 0 (by omega) hc (fun p hp => hpp p (List.mem_cons_of_mem _ hp)) hll
      omega
  have hpath : r.found = true → Path8 w r.route := by
    intro hf
    obtain ⟨h1, h2, h3, _, h5, _⟩ := hgood8.2.1 hf
    exact ⟨h1, h2, h3, h5⟩
  have hle : r.found = true → routeCost edgeWeight r.route ≤ s1.distance w.endPoint := by
    intro hf
    obtain ⟨rh, rl, rc, _⟩ := hgood.2.1 hf
    have h1 := routeCost_telescope s1.distance r.route _ _ rc rh rl
    omega
  refine ⟨r, s1, by rw [hrf]; exact hloop, hrun, hgood8, ⟨fun hf => ⟨_, hpath hf⟩, ?_⟩,
    fun hf => ⟨hpath hf, ?_, fun l hl => ?_⟩⟩
  · rintro ⟨l, hl⟩
    cases hfd : r.found with
    | true => rfl
    | false =>
      exfalso
      obtain ⟨hh, hll, hc, hpp⟩ := hl
      cases l with
      | nil => simp at hh
      | cons a t =>
        simp only [List.head?_cons, Option.some.injEq] at hh
        subst hh
        rw [hrf] at hfd
        have hsr : s1.distance w.startPoint ≠ 2147483647 := by omega
        have hall := dj_closed_reach w done1 s1 hcore2 hsize (hnot hfd) t w.startPoint hsr hc
          (fun p hp => hpp p (List.mem_cons_of_mem _ hp))
        have hend : w.endPoint ∈ w.startPoint :: t := List.mem_of_getLast?_eq_some hll
        have hre : s1.distance w.endPoint ≠ 2147483647 := by
          rw [List.mem_cons] at hend
          rcases hend with he | he
          · rw [he]; exact hsr
          · exact hall _ he
        exact (hcore2.2.2.2.2.2.2.1 _ (hnot hfd _ hre)).2.1 rfl
  · have a1 := hle hf
    have a2 := hopt hf r.route (hpath hf)
    omega
  · have a1 := hle hf
    have a2 := hopt hf l hl
    omega

theorem dfsVisit_visited (n : Int) (c d : Pos) (s : Search) :
    (dfsVisit n c s d).visited = s.visited := by
  rw [dfsVisit_eq]
  split <;> rfl

theorem dfsFold_visited (n : Int) (c : Pos) :
    ∀ (dirs : List Pos) (s : Search), (dirs.foldl (dfsVisit n c) s).visited = s.visited := by
  intro dirs
  induction dirs with
  | nil => intro s; rfl
  | cons d ds ih =>
    intro s
    rw [List.foldl_cons, ih, dfsVisit_visited]

theorem dfsLoop_end_unvisited (n : Int) (a b : Pos) :
    ∀ (fuel : Nat) (s : Search) (found : Bool) (s1 : Search),
      dfsLoop n a b fuel s = .ok (found, s1) → s.visited b = false →
      s1.visited b = false := by
  intro fuel
  induction fuel with
  | zero =>
    intro s found s1 h hv
    cases hfr : s.frontier with
    | nil =>
      rw [dfsLoop_nil _ _ _ _ _ hfr] at h
      cases h
      exact hv
    | cons c rest =>
      unfold dfsLoop at h
      simp [hfr] at h
  | succ f ih =>
    intro s found s1 h hv
    cases hfr : s.frontier with
    | nil =>
      rw [dfsLoop_nil _ _ _ _ _ hfr] at h
      cases h
      exact hv
    | cons c rest =>
      rw [dfsLoop_cons _ _ _ _ _ _ _ hfr] at h
      by_cases hc : c = b
      · rw [if_pos hc] at h
        cases h
        exact hv
      · rw [if_neg hc] at h
        obtain ⟨seen, _, h2⟩ := Run.bind_ok h
        cases seen with
        | true =>
          simp only [if_true] at h2
          exact ih _ _ _ h2 hv
        | false =>
          simp only [Bool.false_eq_true, if_false] at h2
          obtain ⟨vis, hts, h3⟩ := Run.bind_ok h2
          obtain ⟨g1, _, h4⟩ := Run.bind_ok h3
          have hvis : vis = upd s.visited c true := by
            unfold tset at hts
            split at hts
            · cases hts; rfl
            · cases hts
          refine ih _ _ _ h4 ?_
          rw [dfsFold_visited]
          dsimp only
          rw [hvis, upd_other _ _ _ _ (fun hbc => hc hbc.symm)]
          exact hv

theorem chain_closed4 (w : World) (C : Pos → Prop)
    (hstep : ∀ p q, C p → adj4 p q → passable w q → C q) :
    ∀ (l : List Pos) (a : Pos), C a → List.Chain adj4 a l → (∀ p ∈ l, passable w p) →
      ∀ p ∈ l, C p := by
  intro l
  induction l with
  | nil => intro a _ _ _ p hp; simp at hp
  | cons b t ih =>
    intro a ha hc hpass p hp
    rw [List.chain_cons] at hc
    have hb : C b := hstep a b ha hc.1 (hpass b (List.mem_cons_self _ _))
    rw [List.mem_cons] at hp
    rcases hp with hp | hp
    · rw [hp]; exact hb
    · exact ih b hb hc.2 (fun q hq => hpass q (List.mem_cons_of_mem _ hq)) p hp

theorem no_orthPath_of_closed (w : World) (C : Pos → Prop) (hS : C w.startPoint)
    (hE : ¬ C w.endPoint) (hstep : ∀ p q, C p → adj4 p q → passable w q → C q) :
    ¬ ∃ l, OrthPath w l := by
  rintro ⟨l, hh, hl, hc, hp⟩
  cases l with
  | nil => simp at hh
  | cons a t =>
    simp only [List.head?_cons, Option.some.injEq] at hh
    subst hh
    have hend : w.endPoint ∈ w.startPoint :: t := List.mem_of_getLast?_eq_some hl
    rw [List.mem_cons] at hend
    rcases hend with he | he
    · exact hE (he ▸ hS)
    · exact hE (chain_closed4 w C hstep t _ hS hc
        (fun q hq => hp q (List.mem_cons_of_mem _ hq)) _ he)

theorem dfs_complete (w : World) (hs : passable w w.startPoint) :
    ∃ F, ∀ fuel, F ≤ fuel → ∃ r, dfs fuel w = .ok r ∧ GoodResult adj4 w r ∧
      (r.found = true ↔ ∃ l, OrthPath w l) := by
  refine ⟨4 * (cells w.gridSize).card + 2, fun fuel hfuel => ?_⟩
  have hinit : DfsInv w (fun _ => 0)
      { grid := w.grid, visited := fun _ => false, parent := fun _ => (-1, -1),
        frontier := [w.startPoint] } := by
    refine ⟨fun p hp => absurd rfl hp, fun p hp => Bool.noConfusion hp, ?_,
      fun p hp => Bool.noConfusion hp, fun p hp => Bool.noConfusion hp⟩
    intro p hp
    rw [List.mem_singleton] at hp
    rw [hp]; exact ⟨hs, Or.inl rfl⟩
  have hU : unvisitedCount w.gridSize (fun _ => false) = (cells w.gridSize).card := by
    unfold unvisitedCount
    rw [Finset.filter_true_of_mem (fun _ _ => rfl)]
  obtain ⟨found, s1, hloop, hpost⟩ := dfsLoop_spec w fuel _ _ hinit
    (by simp only [dfsMeasure, List.length_singleton, hU]; omega)
  obtain ⟨r, hr, hrf, _, hgood⟩ := reconstruct_spec adj4 w _ fuel found s1.grid s1.parent
    (by omega) hpost
  have hrun : dfs fuel w = .ok r := by
    unfold dfs
    simp only [Run.ok_bind, hloop]
    exact hr
  refine ⟨r, hrun, hgood, fun hf => ?_, fun hpath => ?_⟩
  · obtain ⟨h1, h2, h3, _, h5, _⟩ := hgood.2.1 hf
    exact ⟨r.route, h1, h2, h3, h5⟩
  · cases hfd : r.found with
    | true => rfl
    | false =>
      exfalso
      rw [hrf] at hfd
      subst hfd
      obtain ⟨⟨hS, _, _, hC⟩, hemp⟩ := dfsLoop_closed w _ _ _ _ hloop
        ⟨Or.inl (List.mem_singleton.mpr rfl), fun q hq => hq,
          fun p hp => Bool.noConfusion hp, fun p hp => Bool.noConfusion hp⟩ rfl
      have hE := dfsLoop_end_unvisited _ _ _ _ _ _ _ hloop rfl
      rw [hemp] at hS hC
      have hvS : s1.visited w.startPoint = true := by
        rcases hS with h1 | h1
        · simp at h1
        · exact h1
      refine no_orthPath_of_closed w (fun p => s1.visited p = true) hvS
        (fun hh => by
          have hh2 : s1.visited w.endPoint = true := hh
          rw [hE] at hh2
          exact Bool.noConfusion hh2) (fun p q hp hq hpq => ?_) hpath
      rcases hC p hp q hq hpq with h1 | h1
      · exact h1
      · simp at h1

theorem handleEvent_quiet (ev : Event) (h : keepsModels ev = true) :
    ∃ f : Visualizer → Visualizer,
      (∀ v draws, handleEvent ev v draws = .ok (f v, draws)) ∧
      (∀ v, (f v).data = v.data) ∧
      (∀ v d, f { v with data := d } = { f v with data := d }) := by
  cases ev with
  | Closed => exact ⟨_, fun _ _ => rfl, fun _ => rfl, fun _ _ => rfl⟩
  | Other => exact ⟨_, fun _ _ => rfl, fun _ => rfl, fun _ _ => rfl⟩
  | KeyPressed k =>
    cases k <;> first
      | exact absurd h (by decide)
      | exact ⟨_, fun _ _ => rfl, fun _ => rfl, fun _ _ => rfl⟩

theorem handleEvents_quiet :
    ∀ (p : List Event), (∀ e ∈ p, keepsModels e = true) →
      ∃ f : Visualizer → Visualizer,
        (∀ v draws, handleEvents p v draws = .ok (f v, draws)) ∧
        (∀ v, (f v).data = v.data) ∧
        (∀ v d, f { v with data := d } = { f v with data := d }) := by
  intro p
  induction p with
  | nil => intro _; exact ⟨fun v => v, fun _ _ => rfl, fun _ => rfl, fun _ _ => rfl⟩
  | cons e rest ih =>
    intro h
    obtain ⟨fe, he1, he2, he3⟩ := handleEvent_quiet e (h e (List.mem_cons_self _ _))
    obtain ⟨fr, hr1, hr2, hr3⟩ := ih (fun x hx => h x (List.mem_cons_of_mem _ hx))
    refine ⟨fun v => if v.windowOpen = true then fr (fe v) else v, fun v draws => ?_,
      fun v => ?_, fun v d => ?_⟩
    · unfold handleEvents
      beta_reduce
      by_cases hw : v.windowOpen = true
      · rw [if_pos hw, if_pos hw, he1]
        simp only [Run.ok_bind]
        exact hr1 _ _
      · rw [if_neg hw, if_neg hw]
    · dsimp only
      split
      · rw [hr2, he2]
      · rfl
    · dsimp only
      by_cases hw : v.windowOpen = true
      · rw [if_pos hw, if_pos hw, he3, hr3]
      · rw [if_neg hw, if_neg hw]

theorem handleAll_quiet :
    ∀ (polls : List (List Event)), NoRegen polls →
      ∃ f : Visualizer → Visualizer,
        (∀ v draws, handleAll polls v draws = .ok (f v, draws)) ∧
        (∀ v d, f { v with data := d } = { f v with data := d }) := by
  intro polls
  induction polls with
  | nil => intro _; exact ⟨fun v => v, fun _ _ => rfl, fun _ _ => rfl⟩
  | cons p rest ih =>
    intro h
    obtain ⟨fp, hp1, _, hp3⟩ := handleEvents_quiet p (h p (List.mem_cons_self _ _))
    obtain ⟨fr, hr1, hr3⟩ := ih (fun x hx => h x (List.mem_cons_of_mem _ hx))
    refine ⟨fun v => fr (fp v), fun v draws => ?_, fun v d => ?_⟩
    · unfold handleAll
      rw [hp1]
      simp only [Run.ok_bind]
      exact hr1 _ _
    · dsimp only
      rw [hp3, hr3]

theorem settles_setData (v : Visualizer) (polls : List (List Event)) (draws : Nat → Nat)
    (d : List Int) (hq : NoRegen polls) (h : Settles v polls draws) :
    Settles { v with data := d } polls draws := by
  obtain ⟨f, hf1, hf3⟩ := handleAll_quiet polls hq
  obtain ⟨v1, d1, h1, h2⟩ := h
  rw [hf1] at h1
  simp only [Run.ok.injEq, Prod.mk.injEq] at h1
  refine ⟨_, _, hf1 _ _, ?_⟩
  rw [hf3]
  show ((f v).isPaused && (f v).isRunning) = false
  rw [h1.1]
  exact h2

theorem settles_cons (v : Visualizer) (p : List Event) (rest : List (List Event))
    (draws : Nat → Nat) (v1 : Visualizer) (d1 : Nat → Nat)
    (hp : handleEvents p v draws = .ok (v1, d1)) (h : Settles v (p :: rest) draws) :
    Settles v1 rest d1 := by
  obtain ⟨v2, d2, h1, h2⟩ := h
  unfold handleAll at h1
  rw [hp] at h1
  exact ⟨v2, d2, h1, h2⟩

theorem noRegen_tail {p : List Event} {rest : List (List Event)} (h : NoRegen (p :: rest)) :
    NoRegen rest := fun x hx => h x (List.mem_cons_of_mem _ hx)

theorem pollEvents_keeps (d0 : List Int) (s : Sim) (h : Keeps d0 s) :
    ∃ s1, pollEvents s = .ok s1 ∧ KeepsData d0 s1 ∧ NoRegen s1.polls ∧
      s1.v.data = s.v.data ∧ (Ready s → Ready s1) := by
  obtain ⟨⟨hd, hseen, hsw⟩, hq⟩ := h
  have hseen2 : ∀ t ∈ s.v.data :: s.seen, t.Perm d0 := by
    intro t ht
    rcases List.mem_cons.mp ht with h1 | h1
    · rw [h1]; exact hd
    · exact hseen t h1
  unfold pollEvents
  cases hp : s.polls with
  | nil =>
    refine ⟨_, rfl, ⟨hd, hseen2, hsw⟩, ?_, rfl, fun hr => ?_⟩
    · exact fun x hx => absurd hx (List.not_mem_nil _)
    · unfold Ready at hr ⊢
      rw [hp] at hr
      exact hr
  | cons p rest =>
    rw [hp] at hq
    obtain ⟨f, hf1, hf2, _⟩ := handleEvents_quiet p (hq p (List.mem_cons_self _ _))
    simp only [hf1, Run.ok_bind, Run.pure_eq]
    refine ⟨_, rfl, ⟨?_, hseen2, hsw⟩, noRegen_tail hq, hf2 _, fun hr => ?_⟩
    · dsimp only
      rw [hf2]; exact hd
    · unfold Ready at hr ⊢
      rw [hp] at hr
      exact settles_cons _ _ _ _ _ _ (hf1 _ _) hr

theorem waitWhilePaused_keeps (d0 : List Int) :
    ∀ (polls : List (List Event)) (s s1 : Sim), NoRegen polls → KeepsData d0 s →
      waitWhilePaused polls s = .ok s1 → Keeps d0 s1 ∧ s1.v.data = s.v.data := by
  intro polls
  induction polls with
  | nil =>
    intro s s1 _ hk h
    unfold waitWhilePaused at h
    split at h
    · cases h
    · cases h
      exact ⟨⟨hk, fun x hx => absurd hx (List.not_mem_nil _)⟩, rfl⟩
  | cons p rest ih =>
    intro s s1 hq hk h
    unfold waitWhilePaused at h
    split at h
    · obtain ⟨f, hf1, hf2, _⟩ := handleEvents_quiet p (hq p (List.mem_cons_self _ _))
      rw [hf1] at h
      simp only [Run.ok_bind] at h
      obtain ⟨hd, hseen, hsw⟩ := hk
      have hk2 := ih _ _ (noRegen_tail hq) (by
        refine ⟨?_, fun t ht => ?_, hsw⟩
        · show (f s.v).data.Perm d0
          rw [hf2]; exact hd
        · rcases List.mem_cons.mp ht with h1 | h1
          · rw [h1]; exact hd
          · exact hseen t h1) h
      obtain ⟨g1, g2⟩ := hk2
      exact ⟨g1, by rw [g2]; exact hf2 _⟩
    · cases h
      exact ⟨⟨hk, hq⟩, rfl⟩

theorem waitWhilePaused_returns :
    ∀ (polls : List (List Event)) (s : Sim), NoRegen polls → Settles s.v polls s.draws →
      ∃ s1, waitWhilePaused polls s = .ok s1 ∧ Ready s1 := by
  intro polls
  induction polls with
  | nil =>
    intro s _ hr
    obtain ⟨v1, d1, h1, h2⟩ := hr
    unfold handleAll at h1
    simp only [Run.ok.injEq, Prod.mk.injEq] at h1
    unfold waitWhilePaused
    rw [h1.1, h2]
    exact ⟨_, rfl, v1, d1, by unfold handleAll; rw [← h1.1, ← h1.2], h2⟩
  | cons p rest ih =>
    intro s hq hr
    unfold waitWhilePaused
    split
    · obtain ⟨f, hf1, _, _⟩ := handleEvents_quiet p (hq p (List.mem_cons_self _ _))
      rw [hf1]
      simp only [Run.ok_bind]
      exact ih _ (noRegen_tail hq) (settles_cons _ _ _ _ _ _ (hf1 _ _) hr)
    · exact ⟨_, rfl, hr⟩

theorem poll_keeps (d0 : List Int) (s s1 : Sim) (h : Keeps d0 s) (hp : poll s = .ok s1) :
    Keeps d0 s1 ∧ s1.v.data = s.v.data := by
  obtain ⟨s2, h2, k1, k2, k3, _⟩ := pollEvents_keeps d0 s h
  unfold poll at hp
  rw [h2] at hp
  simp only [Run.ok_bind] at hp
  obtain ⟨g1, g2⟩ := waitWhilePaused_keeps d0 _ _ _ k2 k1 hp
  exact ⟨g1, by rw [g2, k3]⟩

theorem poll_returns (d0 : List Int) (s : Sim) (h : Keeps d0 s) (hr : Ready s) :
    ∃ s1, poll s = .ok s1 ∧ Ready s1 := by
  obtain ⟨s2, h2, _, k2, _, k4⟩ := pollEvents_keeps d0 s h
  unfold poll
  rw [h2]
  simp only [Run.ok_bind]
  exact waitWhilePaused_returns _ _ k2 (k4 hr)

theorem swapAt_perm {d d1 : List Int} {i j : Nat} (h : swapAt d i j = .ok d1) :
    d1.Perm d := by
  have h0 := h
  unfold swapAt at h0
  obtain ⟨a, ha, h2⟩ := Run.bind_ok h0
  obtain ⟨b, hb, h3⟩ := Run.bind_ok h2
  obtain ⟨hi, _⟩ := rd_ok_inv ha
  obtain ⟨hj, _⟩ := rd_ok_inv hb
  rw [swapAt_ok hi hj] at h
  cases h
  exact swap_perm d i j hi hj

theorem swapLive_keeps (d0 : List Int) (s s1 : Sim) (i j : Nat) (h : Keeps d0 s)
    (hp : swapLive s i j = .ok s1) : Keeps d0 s1 := by
  obtain ⟨⟨hd, hseen, hsw⟩, hq⟩ := h
  unfold swapLive at hp
  obtain ⟨d, hd1, h2⟩ := Run.bind_ok hp
  cases h2
  have hperm := (swapAt_perm hd1).trans hd
  refine ⟨⟨hperm, hseen, fun t ht => ?_⟩, hq⟩
  rcases List.mem_cons.mp ht with h1 | h1
  · rw [h1]; exact hperm
  · exact hsw t h1

theorem swapLive_returns (s : Sim) (i j : Nat) (hq : NoRegen s.polls)
    (hi : i < s.v.data.length) (hj : j < s.v.data.length) (hr : Ready s) :
    ∃ s1, swapLive s i j = .ok s1 ∧ Ready s1 := by
  unfold swapLive
  rw [swapAt_ok hi hj]
  exact ⟨_, rfl, settles_setData _ _ _ _ hq hr⟩

theorem forLoopLive_keeps {σ : Type} (P : σ → Prop) (cond : Nat → σ → Bool)
    (body : Nat → σ → Run σ) (hbody : ∀ i s s1, P s → body i s = .ok s1 → P s1) :
    ∀ (fuel i : Nat) (s s1 : σ), forLoopLive cond body fuel i s = .ok s1 → P s → P s1 := by
  intro fuel
  induction fuel with
  | zero =>
    intro i s s1 h hP
    unfold forLoopLive at h
    split at h
    · cases h
    · cases h; exact hP
  | succ f ih =>
    intro i s s1 h hP
    unfold forLoopLive at h
    split at h
    · obtain ⟨s2, h2, h3⟩ := Run.bind_ok h
      exact ih _ _ _ h3 (hbody _ _ _ hP h2)
    · cases h; exact hP

theorem forLoopLiveZ_keeps {σ : Type} (P : σ → Prop) (cond : Int → σ → Bool)
    (body : Int → σ → Run σ) (hbody : ∀ i s s1, P s → body i s = .ok s1 → P s1) :
    ∀ (fuel : Nat) (i : Int) (s s1 : σ),
      forLoopLiveZ cond body fuel i s = .ok s1 → P s → P s1 := by
  intro fuel
  induction fuel with
  | zero =>
    intro i s s1 h hP
    unfold forLoopLiveZ at h
    split at h
    · cases h
    · cases h; exact hP
  | succ f ih =>
    intro i s s1 h hP
    unfold forLoopLiveZ at h
    split at h
    · obtain ⟨s2, h2, h3⟩ := Run.bind_ok h
      exact ih _ _ _ h3 (hbody _ _ _ hP h2)
    · cases h; exact hP

theorem forLoopLive_returns {σ : Type} (Inv : Nat → σ → Prop) (cond : Nat → σ → Bool)
    (body : Nat → σ → Run σ) (hi : Nat)
    (hcond : ∀ i s, Inv i s → cond i s = true → i < hi)
    (hbody : ∀ i s, Inv i s → cond i s = true → ∃ s1, body i s = .ok s1 ∧ Inv (i + 1) s1) :
    ∀ (k i : Nat) (s : σ), hi - i ≤ k → Inv i s → ∀ fuel, k ≤ fuel →
      ∃ s1 j, forLoopLive cond body fuel i s = .ok s1 ∧ Inv j s1 := by
  intro k
  induction k with
  | zero =>
    intro i s hk hI fuel _
    unfold forLoopLive
    by_cases hc : cond i s = true
    · have := hcond i s hI hc
      omega
    · rw [if_neg hc]
      exact ⟨s, i, rfl, hI⟩
  | succ k ih =>
    intro i s hk hI fuel hfuel
    obtain ⟨f, rfl⟩ : ∃ f, fuel = f + 1 := ⟨fuel - 1, by omega⟩
    unfold forLoopLive
    by_cases hc : cond i s = true
    · rw [if_pos hc]
      obtain ⟨s2, h2, hI2⟩ := hbody i s hI hc
      simp only [h2, Run.ok_bind]
      have := hcond i s hI hc
      exact ih (i + 1) s2 (by omega) hI2 f (by omega)
    · rw [if_neg hc]
      exact ⟨s, i, rfl, hI⟩

theorem forLoopLiveZ_returns {σ : Type} (Inv : Int → σ → Prop) (cond : Int → σ → Bool)
    (body : Int → σ → Run σ) (hi : Int)
    (hcond : ∀ i s, Inv i s → cond i s = true → i < hi)
    (hbody : ∀ i s, Inv i s → cond i s = true → ∃ s1, body i s = .ok s1 ∧ Inv (i + 1) s1) :
    ∀ (k : Nat) (i : Int) (s : σ), (hi - i).toNat ≤ k → Inv i s → ∀ fuel, k ≤ fuel →
      ∃ s1 j, forLoopLiveZ cond body fuel i s = .ok s1 ∧ Inv j s1 := by
  intro k
  induction k with
  | zero =>
    intro i s hk hI fuel _
    unfold forLoopLiveZ
    by_cases hc : cond i s = true
    · have := hcond i s hI hc
      omega
    · rw [if_neg hc]
      exact ⟨s, i, rfl, hI⟩
  | succ k ih =>
    intro i s hk hI fuel hfuel
    obtain ⟨f, rfl⟩ : ∃ f, fuel = f + 1 := ⟨fuel - 1, by omega⟩
    unfold forLoopLiveZ
    by_cases hc : cond i s = true
    · rw [if_pos hc]
      obtain ⟨s2, h2, hI2⟩ := hbody i s hI hc
      simp only [h2, Run.ok_bind]
      have := hcond i s hI hc
      exact ih (i + 1) s2 (by omega) hI2 f (by omega)
    · rw [if_neg hc]
      exact ⟨s, i, rfl, hI⟩

theorem keeps_length {d0 : List Int} {s : Sim} (h : Keeps d0 s) :
    s.v.data.length = d0.length := h.1.1.length_eq

theorem bubbleStepLive_keeps (d0 : List Int) (j : Nat) (s s1 : Sim) (h : Keeps d0 s)
    (hp : bubbleStepLive j s = .ok s1) : Keeps d0 s1 := by
  unfold bubbleStepLive at hp
  obtain ⟨a, _, h2⟩ := Run.bind_ok hp
  obtain ⟨b, _, h3⟩ := Run.bind_ok h2
  by_cases hab : a > b
  · simp only [if_pos hab] at h3
    obtain ⟨s2, h4, h5⟩ := Run.bind_ok h3
    exact (poll_keeps d0 _ _ (swapLive_keeps d0 _ _ _ _ h h4) h5).1
  · simp only [if_neg hab, Run.pure_eq, Run.ok_bind] at h3
    exact (poll_keeps d0 _ _ h h3).1

theorem bubbleStepLive_returns (d0 : List Int) (j : Nat) (s : Sim) (h : Keeps d0 s)
    (hr : Ready s) (hj : j + 1 < d0.length) (hn : d0.length < 18446744073709551616) :
    ∃ s1, bubbleStepLive j s = .ok s1 ∧ Keeps d0 s1 ∧ Ready s1 := by
  have hlen := keeps_length h
  have e : uadd j 1 = j + 1 := by unfold uadd; omega
  unfold bubbleStepLive
  rw [e, rd_ok (by omega : j < s.v.data.length), rd_ok (by omega : j + 1 < s.v.data.length)]
  simp only [Run.ok_bind]
  by_cases hab : s.v.data.getD j 0 > s.v.data.getD (j + 1) 0
  · simp only [if_pos hab]
    obtain ⟨s2, g1, g2⟩ := swapLive_returns s j (j + 1) h.2 (by omega) (by omega) hr
    have g3 := swapLive_keeps d0 _ _ _ _ h g1
    obtain ⟨s3, g4, g5⟩ := poll_returns d0 s2 g3 g2
    rw [g1]
    simp only [Run.ok_bind]
    exact ⟨s3, g4, (poll_keeps d0 _ _ g3 g4).1, g5⟩
  · simp only [if_neg hab, Run.pure_eq, Run.ok_bind]
    obtain ⟨s3, g4, g5⟩ := poll_returns d0 s h hr
    exact ⟨s3, g4, (poll_keeps d0 _ _ h g4).1, g5⟩

theorem bubblePassLive_keeps (d0 : List Int) (fuel i : Nat) (s s1 : Sim) (h : Keeps d0 s)
    (hp : bubblePassLive fuel i s = .ok s1) : Keeps d0 s1 :=
  forLoopLive_keeps (Keeps d0) _ _ (fun j t t1 ht hb => bubbleStepLive_keeps d0 j t t1 ht hb)
    _ _ _ _ hp h

theorem bubbleSortLive_keeps (d0 : List Int) (fuel : Nat) (s s1 : Sim) (h : Keeps d0 s)
    (hp : bubbleSortLive fuel s = .ok s1) : Keeps d0 s1 :=
  forLoopLive_keeps (Keeps d0) _ _
    (fun i t t1 ht hb => bubblePassLive_keeps d0 fuel i t t1 ht hb) _ _ _ _ hp h

theorem bubblePassLive_returns (d0 : List Int) (fuel i : Nat) (s : Sim) (h : Keeps d0 s)
    (hr : Ready s) (hi : i + 1 < d0.length) (hn : d0.length < 18446744073709551616)
    (hf : d0.length ≤ fuel) :
    ∃ s1, bubblePassLive fuel i s = .ok s1 ∧ Keeps d0 s1 ∧ Ready s1 := by
  obtain ⟨s1, j, g1, g2⟩ := forLoopLive_returns (fun _ t => Keeps d0 t ∧ Ready t)
    (fun j t => decide (j < usub (usub (usize t.v.data) i) 1) && going t)
    bubbleStepLive (d0.length - i - 1)
    (fun j t hI hc => by
      have hlen := keeps_length hI.1
      simp only [Bool.and_eq_true, decide_eq_true_eq] at hc
      have := hc.1
      unfold usub usize at this
      omega)
    (fun j t hI hc => by
      have hlen := keeps_length hI.1
      simp only [Bool.and_eq_true, decide_eq_true_eq] at hc
      have := hc.1
      unfold usub usize at this
      exact bubbleStepLive_returns d0 j t hI.1 hI.2 (by omega) hn)
    (d0.length - i - 1) 0 s (by omega) ⟨h, hr⟩ fuel (by omega)
  exact ⟨s1, g1, g2⟩

theorem bubbleSortLive_returns (d0 : List Int) (fuel : Nat) (s : Sim) (h : Keeps d0 s)
    (hr : Ready s) (h0 : 0 < d0.length) (hn : d0.length < 18446744073709551616)
    (hf : d0.length ≤ fuel) :
    ∃ s1, bubbleSortLive fuel s = .ok s1 ∧ Keeps d0 s1 ∧ Ready s1 := by
  obtain ⟨s1, j, g1, g2⟩ := forLoopLive_returns (fun _ t => Keeps d0 t ∧ Ready t)
    (fun i t => decide (i < usub (usize t.v.data) 1) && going t)
    (bubblePassLive fuel) (d0.length - 1)
    (fun i t hI hc => by
      have hlen := keeps_length hI.1
      simp only [Bool.and_eq_true, decide_eq_true_eq] at hc
      have := hc.1
      unfold usub usize at this
      omega)
    (fun i t hI hc => by
      have hlen := keeps_length hI.1
      simp only [Bool.and_eq_true, decide_eq_true_eq] at hc
      have := hc.1
      unfold usub usize at this
      exact bubblePassLive_returns d0 fuel i t hI.1 hI.2 (by omega) hn hf)
    (d0.length - 1) 0 s (by omega) ⟨h, hr⟩ fuel (by omega)
  exact ⟨s1, g1, g2⟩

theorem selectStepLive_keeps (d0 : List Int) (j : Nat) (t t1 : Nat × Sim)
    (h : Keeps d0 t.2) (hp : selectStepLive j t = .ok t1) : Keeps d0 t1.2 := by
  unfold selectStepLive at hp
  obtain ⟨a, _, h2⟩ := Run.bind_ok hp
  obtain ⟨b, _, h3⟩ := Run.bind_ok h2
  obtain ⟨s2, h4, h5⟩ := Run.bind_ok h3
  cases h5
  exact (poll_keeps d0 _ _ h h4).1

theorem selectionBodyLive_keeps (d0 : List Int) (fuel i : Nat) (s s1 : Sim)
    (h : Keeps d0 s) (hp : selectionBodyLive fuel i s = .ok s1) : Keeps d0 s1 := by
  unfold selectionBodyLive at hp
  obtain ⟨⟨m, s2⟩, h2, h3⟩ := Run.bind_ok hp
  have hk2 : Keeps d0 s2 :=
    forLoopLive_keeps (fun t : Nat × Sim => Keeps d0 t.2) _ _
      (fun j t t1 ht hb => selectStepLive_keeps d0 j t t1 ht hb) _ _ _ _ h2 h
  simp only at h3
  by_cases hm : m ≠ i
  · rw [if_pos hm] at h3
    exact swapLive_keeps d0 _ _ _ _ hk2 h3
  · rw [if_neg hm] at h3
    cases h3
    exact hk2

theorem selectionSortLive_keeps (d0 : List Int) (fuel : Nat) (s s1 : Sim) (h : Keeps d0 s)
    (hp : selectionSortLive fuel s = .ok s1) : Keeps d0 s1 :=
  forLoopLive_keeps (Keeps d0) _ _
    (fun i t t1 ht hb => selectionBodyLive_keeps d0 fuel i t t1 ht hb) _ _ _ _ hp h

theorem selectStepLive_returns (d0 : List Int) (j : Nat) (t : Nat × Sim)
    (h : Keeps d0 t.2) (hr : Ready t.2) (hj : j < d0.length) (hm : t.1 < d0.length) :
    ∃ t1, selectStepLive j t = .ok t1 ∧ Keeps d0 t1.2 ∧ Ready t1.2 ∧ t1.1 < d0.length := by
  have hlen := keeps_length h
  obtain ⟨s3, g4, g5⟩ := poll_returns d0 t.2 h hr
  refine ⟨(if t.2.v.data.getD j 0 < t.2.v.data.getD t.1 0 then j else t.1, s3), ?_,
    (poll_keeps d0 _ _ h g4).1, g5, ?_⟩
  · unfold selectStepLive
    rw [rd_ok (by omega : j < t.2.v.data.length), rd_ok (by omega : t.1 < t.2.v.data.length)]
    simp only [Run.ok_bind]
    rw [g4]
    rfl
  · dsimp only
    split <;> assumption

theorem selectionBodyLive_returns (d0 : List Int) (fuel i : Nat) (s : Sim) (h : Keeps d0 s)
    (hr : Ready s) (hi : i < usub (usize s.v.data) 1)
    (hn : d0.length < 18446744073709551616) (hf : d0.length ≤ fuel) :
    ∃ s1, selectionBodyLive fuel i s = .ok s1 ∧ Keeps d0 s1 ∧ Ready s1 := by
  have hlen := keeps_length h
  have hi2 : d0.length = 0 ∨ i + 1 < d0.length := by
    unfold usub usize at hi
    omega
  have hu : uadd i 1 = i + 1 := by
    have := usub_lt (usize s.v.data) 1
    unfold uadd
    omega
  obtain ⟨⟨m, s2⟩, j, g1, g2, g3, g4⟩ := forLoopLive_returns
    (fun _ (t : Nat × Sim) => Keeps d0 t.2 ∧ Ready t.2 ∧ (t.1 = i ∨ t.1 < d0.length))
    (fun j (t : Nat × Sim) => decide (j < usize t.2.v.data) && going t.2)
    selectStepLive d0.length
    (fun j t hI hc => by
      have hlen := keeps_length hI.1
      simp only [Bool.and_eq_true, decide_eq_true_eq] at hc
      have := hc.1
      unfold usize at this
      omega)
    (fun j t hI hc => by
      have hlen2 := keeps_length hI.1
      simp only [Bool.and_eq_true, decide_eq_true_eq] at hc
      have hj := hc.1
      unfold usize at hj
      have hjn : j < d0.length := by omega
      obtain ⟨t1, k1, k2, k3, k4⟩ := selectStepLive_returns d0 j t hI.1 hI.2.1 hjn
        (by rcases hI.2.2 with h1 | h1 <;> omega)
      exact ⟨t1, k1, k2, k3, Or.inr k4⟩)
    d0.length (uadd i 1) (i, s) (by omega) ⟨h, hr, Or.inl rfl⟩ fuel hf
  simp only at g2 g3 g4
  unfold selectionBodyLive
  rw [g1]
  simp only [Run.ok_bind]
  by_cases hm : m ≠ i
  · rw [if_pos hm]
    have hlen2 := keeps_length g2
    obtain ⟨s3, k1, k2⟩ := swapLive_returns s2 i m g2.2
      (by rcases g4 with h1 | h1 <;> omega) (by rcases g4 with h1 | h1 <;> omega) g3
    exact ⟨s3, k1, swapLive_keeps d0 _ _ _ _ g2 k1, k2⟩
  · rw [if_neg hm]
    exact ⟨s2, rfl, g2, g3⟩

theorem selectionSortLive_returns (d0 : List Int) (fuel : Nat) (s : Sim) (h : Keeps d0 s)
    (hr : Ready s) (hn : d0.length < 18446744073709551616)
    (hf : 18446744073709551616 ≤ fuel) :
    ∃ s1, selectionSortLive fuel s = .ok s1 ∧ Keeps d0 s1 ∧ Ready s1 := by
  obtain ⟨s1, j, g1, g2⟩ := forLoopLive_returns (fun _ t => Keeps d0 t ∧ Ready t)
    (fun i t => decide (i < usub (usize t.v.data) 1) && going t)
    (selectionBodyLive fuel) 18446744073709551616
    (fun i t hI hc => by
      simp only [Bool.and_eq_true, decide_eq_true_eq] at hc
      have := hc.1
      have := usub_lt (usize t.v.data) 1
      omega)
    (fun i t hI hc => by
      simp only [Bool.and_eq_true, decide_eq_true_eq] at hc
      exact selectionBodyLive_returns d0 fuel i t hI.1 hI.2 hc.1 hn (by omega))
    18446744073709551616 0 s (by omega) ⟨h, hr⟩ fuel hf
  exact ⟨s1, g1, g2⟩

theorem partitionStepLive_keeps (d0 : List Int) (pivot : Int) (j : Int) (t t1 : Int × Sim)
    (h : Keeps d0 t.2) (hp : partitionStepLive pivot j t = .ok t1) : Keeps d0 t1.2 := by
  unfold partitionStepLive at hp
  obtain ⟨a, _, h2⟩ := Run.bind_ok hp
  by_cases hlt : a < pivot
  · simp only [if_pos hlt] at h2
    obtain ⟨s2, h3, h4⟩ := Run.bind_ok h2
    simp only [Run.pure_eq, Run.ok_bind] at h4
    obtain ⟨s3, h5, h6⟩ := Run.bind_ok h4
    cases h6
    exact (poll_keeps d0 _ _ (swapLive_keeps d0 _ _ _ _ h h3) h5).1
  · simp only [if_neg hlt, Run.pure_eq, Run.ok_bind] at h2
    obtain ⟨s3, h5, h6⟩ := Run.bind_ok h2
    cases h6
    exact (poll_keeps d0 _ _ h h5).1

theorem quickSortLive_keeps (d0 : List Int) (fuel0 : Nat) :
    ∀ (f : Nat) (low high : Int) (s s1 : Sim), Keeps d0 s →
      quickSortLive fuel0 f low high s = .ok s1 → Keeps d0 s1 := by
  intro f
  induction f with
  | zero =>
    intro low high s s1 h hp
    unfold quickSortLive at hp
    split at hp
    · cases hp
    · cases hp; exact h
  | succ f ih =>
    intro low high s s1 h hp
    unfold quickSortLive at hp
    split at hp
    · simp only at hp
      obtain ⟨pivot, _, h2⟩ := Run.bind_ok hp
      obtain ⟨⟨i, s2⟩, h3, h4⟩ := Run.bind_ok h2
      simp only at h4
      obtain ⟨s3, h5, h6⟩ := Run.bind_ok h4
      obtain ⟨s4, h7, h8⟩ := Run.bind_ok h6
      have k2 : Keeps d0 s2 :=
        forLoopLiveZ_keeps (fun t : Int × Sim => Keeps d0 t.2) _ _
          (fun j t t1 ht hb => partitionStepLive_keeps d0 pivot j t t1 ht hb) _ _ _ _ h3 h
      have k3 := swapLive_keeps d0 _ _ _ _ k2 h5
      exact ih _ _ _ _ (ih _ _ _ _ k3 h7) h8
    · cases hp; exact h

theorem partitionStepLive_returns (d0 : List Int) (pivot : Int) (j : Int) (t : Int × Sim)
    (h : Keeps d0 t.2) (hr : Ready t.2) (hi0 : -1 ≤ t.1) (hij : t.1 < j)
    (hj : j < d0.length) (hn : d0.length ≤ 2147483647) :
    ∃ t1, partitionStepLive pivot j t = .ok t1 ∧ Keeps d0 t1.2 ∧ Ready t1.2 ∧
      t.1 ≤ t1.1 ∧ t1.1 < j + 1 := by
  have hlen := keeps_length h
  obtain ⟨J, rfl⟩ : ∃ J : Nat, j = J := ⟨j.toNat, by omega⟩
  obtain ⟨I, hI⟩ : ∃ I : Nat, t.1 + 1 = I := ⟨(t.1 + 1).toNat, by omega⟩
  unfold partitionStepLive
  rw [idx_natCast J (by omega), rd_ok (by omega : J < t.2.v.data.length)]
  simp only [Run.ok_bind]
  by_cases hlt : t.2.v.data.getD J 0 < pivot
  · simp only [if_pos hlt]
    rw [hI, idx_natCast I (by omega)]
    obtain ⟨s2, g1, g2⟩ := swapLive_returns t.2 I J h.2 (by omega) (by omega) hr
    have g3 := swapLive_keeps d0 _ _ _ _ h g1
    obtain ⟨s3, g4, g5⟩ := poll_returns d0 s2 g3 g2
    rw [g1]
    simp only [Run.ok_bind, Run.pure_eq]
    rw [g4]
    exact ⟨_, rfl, (poll_keeps d0 _ _ g3 g4).1, g5, by dsimp only; omega,
      by dsimp only; omega⟩
  · simp only [if_neg hlt, Run.pure_eq, Run.ok_bind]
    obtain ⟨s3, g4, g5⟩ := poll_returns d0 t.2 h hr
    rw [g4]
    exact ⟨_, rfl, (poll_keeps d0 _ _ h g4).1, g5, le_refl _, by dsimp only; omega⟩

theorem quickSortLive_returns (d0 : List Int) (hn : d0.length ≤ 2147483647) (fuel0 : Nat)
    (hfuel0 : d0.length ≤ fuel0) :
    ∀ (f lo hiE : Nat) (s : Sim), lo ≤ hiE → hiE ≤ d0.length → hiE - lo ≤ f + 1 →
      Keeps d0 s → Ready s →
      ∃ s1, quickSortLive fuel0 f (lo : Int) ((hiE : Int) - 1) s = .ok s1 ∧ Keeps d0 s1 ∧
        Ready s1 := by
  intro f
  induction f with
  | zero =>
    intro lo hiE s h1 h2 h3 h hr
    unfold quickSortLive
    rw [if_neg (fun hh => by omega)]
    exact ⟨s, rfl, h, hr⟩
  | succ f ih =>
    intro lo hiE s h1 h2 h3 h hr
    have hlen := keeps_length h
    by_cases hc : (lo : Int) < (hiE : Int) - 1 ∧ going s = true
    · obtain ⟨H, rfl⟩ : ∃ H, hiE = H + 1 := ⟨hiE - 1, by omega⟩
      have eH : ((H + 1 : Nat) : Int) - 1 = (H : Int) := by push_cast; omega
      rw [eH] at hc ⊢
      have hlh := hc.1
      unfold quickSortLive
      rw [if_pos hc]
      simp only
      rw [idx_natCast H (by omega), rd_ok (by omega : H < s.v.data.length)]
      simp only [Run.ok_bind]
      obtain ⟨⟨i, s2⟩, j, g1, g2, g3, g4, g5, g6⟩ := forLoopLiveZ_returns
        (fun j (t : Int × Sim) => Keeps d0 t.2 ∧ Ready t.2 ∧ (lo : Int) - 1 ≤ t.1 ∧ t.1 < j ∧
          j ≤ (H : Int))
        (fun j (t : Int × Sim) => decide (j ≤ (H : Int) - 1) && going t.2)
        (partitionStepLive (s.v.data.getD H 0)) (H : Int)
        (fun j t hI hcond => by
          simp only [Bool.and_eq_true, decide_eq_true_eq] at hcond
          omega)
        (fun j t hI hcond => by
          simp only [Bool.and_eq_true, decide_eq_true_eq] at hcond
          obtain ⟨k1, k2, k3, k4, k5⟩ := hI
          obtain ⟨t1, m1, m2, m3, m4, m5⟩ := partitionStepLive_returns d0 _ j t k1 k2
            (by omega) k4 (by omega) hn
          exact ⟨t1, m1, m2, m3, by omega, m5, by omega⟩)
        ((H : Int) - lo).toNat lo (lo - 1, s) (le_refl _)
        ⟨h, hr, le_refl _, by simp, by omega⟩ fuel0 (by omega)
      simp only at g2 g3 g4 g5 g6
      rw [g1]
      simp only [Run.ok_bind]
      obtain ⟨I, hI⟩ : ∃ I : Nat, i + 1 = I := ⟨(i + 1).toNat, by omega⟩
      have hlen2 := keeps_length g2
      rw [hI, idx_natCast I (by omega)]
      obtain ⟨s3, k1, k2⟩ := swapLive_returns s2 I H g2.2 (by omega) (by omega) g3
      have k3 := swapLive_keeps d0 _ _ _ _ g2 k1
      rw [k1]
      simp only [Run.ok_bind]
      obtain ⟨s4, m1, m2, m3⟩ := ih lo I s3 (by omega) (by omega) (by omega) k3 k2
      rw [m1]
      simp only [Run.ok_bind]
      obtain ⟨s5, n1, n2, n3⟩ := ih (I + 1) (H + 1) s4 (by omega) h2 (by omega) m2 m3
      have e3 : ((I + 1 : Nat) : Int) = (I : Int) + 1 := by push_cast; rfl
      rw [e3, eH] at n1
      exact ⟨s5, n1, n2, n3⟩
    · unfold quickSortLive
      rw [if_neg hc]
      exact ⟨s, rfl, h, hr⟩

theorem quickSortRunLive_keeps (d0 : List Int) (fuel : Nat) (s s1 : Sim) (h : Keeps d0 s)
    (hp : quickSortRunLive fuel s = .ok s1) : Keeps d0 s1 :=
  quickSortLive_keeps d0 fuel fuel _ _ s s1 h hp

theorem quickSortRunLive_returns (d0 : List Int) (hn : d0.length ≤ 2147483647) (fuel : Nat)
    (hf : d0.length ≤ fuel) (s : Sim) (h : Keeps d0 s) (hr : Ready s) :
    ∃ s1, quickSortRunLive fuel s = .ok s1 ∧ Keeps d0 s1 ∧ Ready s1 := by
  have hlen := keeps_length h
  unfold quickSortRunLive usize
  rw [toInt32_last _ (by omega), hlen]
  exact quickSortLive_returns d0 hn fuel hf fuel 0 d0.length s (Nat.zero_le _) (le_refl _)
    (by omega) h hr

theorem keeps_start (v : Visualizer) (polls : List (List Event)) (draws : Nat → Nat)
    (hq : NoRegen polls) : Keeps v.data (startRun v polls draws) :=
  ⟨⟨List.Perm.refl _, fun _ ht => absurd ht (List.not_mem_nil _),
    fun _ ht => absurd ht (List.not_mem_nil _)⟩, hq⟩

/-- On a grid whose cells are Empty or Obstacle and whose Start and End are not
Obstacles, each of `bfs`, `dfs` and `dijkstra` (the last on a grid small enough for its
`int` distances), run without events, returns a grid in which every Obstacle is
still an Obstacle, no cell has become an Obstacle, Start and End hold their old values,
and every changed cell was Empty and is now Visited or Path. -/
theorem search_frame_without_events (posLt : Pos → Pos → Bool) (w : World)
    (hw : WellFormed w) :
    (∃ F, ∀ fuel, F ≤ fuel → ∃ r, bfs fuel w = .ok r ∧ FrameKept w r) ∧
    (∃ F, ∀ fuel, F ≤ fuel → ∃ r, dfs fuel w = .ok r ∧ FrameKept w r) ∧
    (14 * (w.gridSize * w.gridSize) ≤ 2147483647 →
      ∃ F, ∀ fuel, F ≤ fuel → ∃ r, dijkstra posLt fuel w = .ok r ∧ FrameKept w r) := by
  refine ⟨?_, ?_, fun hsize => ?_⟩
  · obtain ⟨F, h⟩ := bfs_good w hw.start
    refine ⟨F, fun fuel hfuel => ?_⟩
    obtain ⟨r, hr, hg⟩ := h fuel hfuel
    exact ⟨r, hr, frameKept_of_good hw hg⟩
  · obtain ⟨F, h⟩ := dfs_good w hw.start
    refine ⟨F, fun fuel hfuel => ?_⟩
    obtain ⟨r, hr, hg⟩ := h fuel hfuel
    exact ⟨r, hr, frameKept_of_good hw hg⟩
  · obtain ⟨F, h⟩ := dijkstra_good posLt w hw.start (fits_of_gridSize w hsize)
    refine ⟨F, fun fuel hfuel => ?_⟩
    obtain ⟨r, hr, hg⟩ := h fuel hfuel
    exact ⟨r, hr, frameKept_of_good hw hg⟩

theorem handleEvent_size (ev : Event) (v : Visualizer) (draws : Nat → Nat)
    (ha : v.arraySize = 100) (hd : v.data.length = 100) (hg : 0 < v.gridSize) :
    ∃ v1 d1, handleEvent ev v draws = .ok (v1, d1) ∧ v1.arraySize = 100 ∧
      v1.data.length = 100 ∧ v1.gridSize = v.gridSize := by
  cases ev with
  | Closed => exact ⟨_, _, rfl, ha, hd, rfl⟩
  | Other => exact ⟨_, _, rfl, ha, hd, rfl⟩
  | KeyPressed code =>
    cases code with
    | Escape => exact ⟨_, _, rfl, ha, hd, rfl⟩
    | R =>
      obtain ⟨g, hgi, _⟩ := initializeGrid_ok (generateRandomData v draws).1
        (generateRandomData v draws).2 hg
      simp only [handleEvent, hgi, Run.ok_bind, Run.pure_eq]
      exact ⟨_, _, rfl, ha, by simp [generateRandomData, ha], rfl⟩
    | Space => exact ⟨_, _, rfl, ha, hd, rfl⟩
    | Add => exact ⟨_, _, rfl, ha, hd, rfl⟩
    | Equal => exact ⟨_, _, rfl, ha, hd, rfl⟩
    | Subtract => exact ⟨_, _, rfl, ha, hd, rfl⟩
    | Dash => exact ⟨_, _, rfl, ha, hd, rfl⟩
    | Num1 => exact ⟨_, _, rfl, ha, by simp [generateRandomData, ha], rfl⟩
    | Num2 => exact ⟨_, _, rfl, ha, by simp [generateRandomData, ha], rfl⟩
    | Num3 => exact ⟨_, _, rfl, ha, by simp [generateRandomData, ha], rfl⟩
    | Num4 => exact ⟨_, _, rfl, ha, by simp [generateRandomData, ha], rfl⟩
    | Num5 => exact ⟨_, _, rfl, ha, by simp [generateRandomData, ha], rfl⟩
    | Num6 =>
      obtain ⟨g, hgi, _⟩ := initializeGrid_ok { v with currentAlgorithm := .BFS } draws hg
      simp only [handleEvent, hgi, Run.ok_bind, Run.pure_eq]
      exact ⟨_, _, rfl, ha, hd, rfl⟩
    | Num7 =>
      obtain ⟨g, hgi, _⟩ := initializeGrid_ok { v with currentAlgorithm := .DFS } draws hg
      simp only [handleEvent, hgi, Run.ok_bind, Run.pure_eq]
      exact ⟨_, _, rfl, ha, hd, rfl⟩
    | Num8 =>
      obtain ⟨g, hgi, _⟩ := initializeGrid_ok { v with currentAlgorithm := .DIJKSTRA } draws hg
      simp only [handleEvent, hgi, Run.ok_bind, Run.pure_eq]
      exact ⟨_, _, rfl, ha, hd, rfl⟩
    | Other => exact ⟨_, _, rfl, ha, hd, rfl⟩

theorem handleEvents_size :
    ∀ (pending : List Event) (v : Visualizer) (draws : Nat → Nat),
      v.arraySize = 100 → v.data.length = 100 → 0 < v.gridSize →
      ∃ v1 d1, handleEvents pending v draws = .ok (v1, d1) ∧ v1.arraySize = 100 ∧
        v1.data.length = 100 ∧ v1.gridSize = v.gridSize := by
  intro pending
  induction pending with
  | nil => intro v draws h1 h2 _; exact ⟨v, draws, rfl, h1, h2, rfl⟩
  | cons ev rest ih =>
    intro v draws h1 h2 hg
    unfold handleEvents
    by_cases hw : v.windowOpen = true
    · rw [if_pos hw]
      obtain ⟨v1, d1, he, g1, g2, g3⟩ := handleEvent_size ev v draws h1 h2 hg
      obtain ⟨v2, d2, k1, k2, k3, k4⟩ := ih v1 d1 g1 g2 (by omega)
      simp only [he, Run.ok_bind]
      exact ⟨v2, d2, k1, k2, k3, by omega⟩
    · rw [if_neg hw]
      exact ⟨v, draws, rfl, h1, h2, rfl⟩

theorem handleAll_size :
    ∀ (polls : List (List Event)) (v : Visualizer) (draws : Nat → Nat),
      v.arraySize = 100 → v.data.length = 100 → 0 < v.gridSize →
      ∃ v1 d1, handleAll polls v draws = .ok (v1, d1) ∧ v1.arraySize = 100 ∧
        v1.data.length = 100 := by
  intro polls
  induction polls with
  | nil => intro v draws h1 h2 _; exact ⟨v, draws, rfl, h1, h2⟩
  | cons p rest ih =>
    intro v draws h1 h2 hg
    obtain ⟨v1, d1, he, g1, g2, g3⟩ := handleEvents_size p v draws h1 h2 hg
    obtain ⟨v2, d2, k1, k2, k3⟩ := ih v1 d1 g1 g2 (by omega)
    refine ⟨v2, d2, ?_, k2, k3⟩
    unfold handleAll
    simp only [he, Run.ok_bind]
    exact k1

theorem constructed_data_length (draws : Nat → Nat) (polls : List (List Event)) :
    ∃ v0 d0, construct draws = .ok (v0, d0) ∧ v0.data.length = 100 ∧
      ∃ v1 d1, handleAll polls v0 d0 = .ok (v1, d1) ∧ v1.arraySize = 100 ∧
        v1.data.length = 100 := by
  have hc : ∃ v0 d0, construct draws = .ok (v0, d0) ∧ v0.arraySize = 100 ∧
      v0.data.length = 100 ∧ v0.gridSize = 20 := by
    unfold construct
    dsimp only
    obtain ⟨g, hgi, _⟩ := initializeGrid_ok
      (generateRandomData
        { windowOpen := true, data := [], currentAlgorithm := .BUBBLE_SORT,
          isRunning := false, isPaused := false, speed := 50, arraySize := 100,
          maxValue := 500, grid := fun _ => 0, startPoint := (0, 0), endPoint := (0, 0),
          gridSize := 20 }
        draws).1
      (generateRandomData
        { windowOpen := true, data := [], currentAlgorithm := .BUBBLE_SORT,
          isRunning := false, isPaused := false, speed := 50, arraySize := 100,
          maxValue := 500, grid := fun _ => 0, startPoint := (0, 0), endPoint := (0, 0),
          gridSize := 20 }
        draws).2 (by simp [generateRandomData])
    exact ⟨_, _, hgi, rfl, by simp [generateRandomData], rfl⟩
  obtain ⟨v0, d0, h0, h1, h2, h3⟩ := hc
  obtain ⟨v1, d1, k1, k2, k3⟩ := handleAll_size polls v0 d0 h1 h2 (by omega)
  exact ⟨v0, d0, h0, h2, v1, d1, k1, k2, k3⟩

theorem poll_swapsOnly (d0 : List Int) (s s1 : Sim) (h : SwapsOnly d0 s)
    (hp : poll s = .ok s1) : SwapsOnly d0 s1 := by
  obtain ⟨h1, h2, h3⟩ := h
  unfold poll pollEvents at hp
  rw [h1] at hp
  simp only [Run.ok_bind] at hp
  unfold waitWhilePaused at hp
  split at hp
  · cases hp
  · cases hp
    refine ⟨rfl, h2, fun t ht => ?_⟩
    rcases List.mem_cons.mp ht with e | e
    · rw [e]; exact h2
    · exact h3 t e

theorem swapLive_swapsOnly (d0 : List Int) (s s1 : Sim) (i j : Nat) (h : SwapsOnly d0 s)
    (hp : swapLive s i j = .ok s1) : SwapsOnly d0 s1 := by
  obtain ⟨h1, h2, h3⟩ := h
  unfold swapLive at hp
  obtain ⟨d, _, h5⟩ := Run.bind_ok hp
  cases h5
  refine ⟨h1, Or.inr (List.mem_cons_self _ _), fun t ht => ?_⟩
  rcases h3 t ht with e | e
  · exact Or.inl e
  · exact Or.inr (List.mem_cons_of_mem _ e)

theorem bubbleStepLive_swapsOnly (d0 : List Int) (j : Nat) (s s1 : Sim)
    (h : SwapsOnly d0 s) (hp : bubbleStepLive j s = .ok s1) : SwapsOnly d0 s1 := by
  unfold bubbleStepLive at hp
  obtain ⟨a, _, h2⟩ := Run.bind_ok hp
  obtain ⟨b, _, h3⟩ := Run.bind_ok h2
  by_cases hab : a > b
  · simp only [if_pos hab] at h3
    obtain ⟨s2, h4, h5⟩ := Run.bind_ok h3
    exact poll_swapsOnly d0 _ _ (swapLive_swapsOnly d0 _ _ _ _ h h4) h5
  · simp only [if_neg hab, Run.pure_eq, Run.ok_bind] at h3
    exact poll_swapsOnly d0 _ _ h h3

theorem bubbleSortLive_swapsOnly (d0 : List Int) (fuel : Nat) (s s1 : Sim)
    (h : SwapsOnly d0 s) (hp : bubbleSortLive fuel s = .ok s1) : SwapsOnly d0 s1 :=
  forLoopLive_keeps (SwapsOnly d0) _ _
    (fun i t t1 ht hb => forLoopLive_keeps (SwapsOnly d0) _ _
      (fun j u u1 hu hc => bubbleStepLive_swapsOnly d0 j u u1 hu hc) _ _ _ _ hb ht)
    _ _ _ _ hp h

theorem selectStepLive_swapsOnly (d0 : List Int) (j : Nat) (t t1 : Nat × Sim)
    (h : SwapsOnly d0 t.2) (hp : selectStepLive j t = .ok t1) : SwapsOnly d0 t1.2 := by
  unfold selectStepLive at hp
  obtain ⟨a, _, h2⟩ := Run.bind_ok hp
  obtain ⟨b, _, h3⟩ := Run.bind_ok h2
  obtain ⟨s2, h4, h5⟩ := Run.bind_ok h3
  cases h5
  exact poll_swapsOnly d0 _ _ h h4

theorem selectionBodyLive_swapsOnly (d0 : List Int) (fuel i : Nat) (s s1 : Sim)
    (h : SwapsOnly d0 s) (hp : selectionBodyLive fuel i s = .ok s1) : SwapsOnly d0 s1 := by
  unfold selectionBodyLive at hp
  obtain ⟨⟨m, s2⟩, h2, h3⟩ := Run.bind_ok hp
  have hk2 : SwapsOnly d0 s2 :=
    forLoopLive_keeps (fun t : Nat × Sim => SwapsOnly d0 t.2) _ _
      (fun j t t1 ht hb => selectStepLive_swapsOnly d0 j t t1 ht hb) _ _ _ _ h2 h
  simp only at h3
  by_cases hm : m ≠ i
  · rw [if_pos hm] at h3
    exact swapLive_swapsOnly d0 _ _ _ _ hk2 h3
  · rw [if_neg hm] at h3
    cases h3
    exact hk2

theorem selectionSortLive_swapsOnly (d0 : List Int) (fuel : Nat) (s s1 : Sim)
    (h : SwapsOnly d0 s) (hp : selectionSortLive fuel s = .ok s1) : SwapsOnly d0 s1 :=
  forLoopLive_keeps (SwapsOnly d0) _ _
    (fun i t t1 ht hb => selectionBodyLive_swapsOnly d0 fuel i t t1 ht hb) _ _ _ _ hp h

theorem swapsOnly_start (v : Visualizer) (draws : Nat → Nat) :
    SwapsOnly v.data (startRun v [] draws) :=
  ⟨rfl, Or.inl rfl, fun _ ht => absurd ht (List.not_mem_nil _)⟩

theorem reconstruct_inv {w : World} {fuel : Nat} {found : Bool} {grid : Pos → Int}
    {parent : Pos → Pos} {r : PathResult}
    (h : reconstruct w fuel found grid parent = .ok r) :
    r.found = found ∧ r.parent = parent ∧ (found = false → r.grid = grid ∧ r.route = []) := by
  cases found with
  | false =>
    simp only [reconstruct, Run.pure_eq] at h
    cases h
    exact ⟨rfl, rfl, fun _ => ⟨rfl, rfl⟩⟩
  | true =>
    simp only [reconstruct, if_true] at h
    obtain ⟨⟨g, route⟩, _, h2⟩ := Run.bind_ok h
    cases h2
    exact ⟨rfl, rfl, fun hh => Bool.noConfusion hh⟩

theorem bfs_loop_of_ok {fuel : Nat} {w : World} {r : PathResult} (h : bfs fuel w = .ok r) :
    ∃ s1, bfsLoop w.gridSize w.startPoint w.endPoint fuel
        { grid := w.grid, visited := upd (fun _ => false) w.startPoint true,
          parent := fun _ => (-1, -1), frontier := [w.startPoint] } = .ok (r.found, s1) ∧
      r.parent = s1.parent ∧ (r.found = false → r.grid = s1.grid ∧ r.route = []) := by
  unfold bfs at h
  obtain ⟨vis, h1, h2⟩ := Run.bind_ok h
  obtain ⟨⟨found, s1⟩, h3, h4⟩ := Run.bind_ok h2
  obtain ⟨e1, e2, e3⟩ := reconstruct_inv h4
  unfold tset at h1
  split at h1
  · cases h1
    subst e1
    exact ⟨s1, h3, e2, e3⟩
  · cases h1

theorem dfs_loop_of_ok {fuel : Nat} {w : World} {r : PathResult} (h : dfs fuel w = .ok r) :
    ∃ s1, dfsLoop w.gridSize w.startPoint w.endPoint fuel
        { grid := w.grid, visited := fun _ => false,
          parent := fun _ => (-1, -1), frontier := [w.startPoint] } = .ok (r.found, s1) ∧
      r.parent = s1.parent ∧ (r.found = false → r.grid = s1.grid ∧ r.route = []) := by
  unfold dfs at h
  obtain ⟨⟨found, s1⟩, h3, h4⟩ := Run.bind_ok h
  obtain ⟨e1, e2, e3⟩ := reconstruct_inv h4
  subst e1
  exact ⟨s1, h3, e2, e3⟩

theorem dijkstra_loop_of_ok {posLt : Pos → Pos → Bool} {fuel : Nat} {w : World}
    {r : PathResult} (h : dijkstra posLt fuel w = .ok r) :
    ∃ s1, dijkstraLoop posLt w.gridSize w.startPoint w.endPoint fuel
        { grid := w.grid, distance := upd (fun _ => (2147483647 : Int)) w.startPoint 0,
          parent := fun _ => (-1, -1), pq := [(0, w.startPoint)] } = .ok (r.found, s1) ∧
      r.parent = s1.parent ∧ (r.found = false → r.grid = s1.grid ∧ r.route = []) := by
  unfold dijkstra at h
  obtain ⟨dist, h1, h2⟩ := Run.bind_ok h
  obtain ⟨⟨found, s1⟩, h3, h4⟩ := Run.bind_ok h2
  obtain ⟨e1, e2, e3⟩ := reconstruct_inv h4
  unfold tset at h1
  split at h1
  · cases h1
    subst e1
    exact ⟨s1, h3, e2, e3⟩
  · cases h1

theorem orthPath_of_good {w : World} {r : PathResult} (hg : GoodResult adj4 w r)
    (hf : r.found = true) : OrthPath w r.route := by
  obtain ⟨hh, hl, hc, _, hp, _⟩ := hg.2.1 hf
  exact ⟨hh, hl, hc, hp⟩

theorem bfs_complete (w : World) (hs : passable w w.startPoint) :
    ∃ F, ∀ fuel, F ≤ fuel → ∃ r, bfs fuel w = .ok r ∧ GoodResult adj4 w r ∧
      (r.found = true ↔ ∃ l, OrthPath w l) := by
  obtain ⟨F1, h1⟩ := bfs_good w hs
  refine ⟨F1 + ((cells w.gridSize).card + 1), fun fuel hfuel => ?_⟩
  obtain ⟨r, hr, hg⟩ := h1 fuel (by omega)
  refine ⟨r, hr, hg, fun hf => ⟨_, orthPath_of_good hg hf⟩, fun hex => ?_⟩
  obtain ⟨F2, h2⟩ := bfs_shortest w hex
  -- the outcome does not depend on the fuel once there is enough of it
  obtain ⟨s1, hloop, _⟩ := bfs_loop_of_ok hr
  have hcnt := unvisitedCount_init w.gridSize w.startPoint hs.1
  obtain ⟨found, s2, L1, hloop2, hcore, hfound, hnot⟩ :=
    bfsLoop_spec w fuel _ _ (bfs_init_outer w hs)
      (by simp only [bfsMeasure, List.length_singleton]; omega)
  rw [hloop] at hloop2
  have hfe : r.found = found := by
    have := Run.ok.inj hloop2
    exact congrArg Prod.fst this
  rw [hfe]
  by_contra hne
  have hff : found = false := by simpa using hne
  obtain ⟨hne2, hcl⟩ := hnot hff
  obtain ⟨hFR, hV0, hL0, hV1, hP, hM, hB⟩ := hcore
  obtain ⟨l0, hh0, hl0, hc0, hp0⟩ := hex
  cases l0 with
  | nil => simp at hh0
  | cons a t =>
    simp only [List.head?_cons, Option.some.injEq] at hh0
    subst hh0
    have hall := closed_visits_path w s2.visited hcl t w.startPoint hV0 hc0
      (fun p hp => hp0 p (List.mem_cons_of_mem _ hp))
    have hend : w.endPoint ∈ w.startPoint :: t := List.mem_of_getLast?_eq_some hl0
    rw [List.mem_cons] at hend
    rcases hend with he | he
    · rw [he, hV0] at hne2; exact Bool.noConfusion hne2
    · rw [hall _ he] at hne2; exact Bool.noConfusion hne2

theorem routeCost_const_length (c : Int) :
    ∀ l : List Pos, routeCost (fun _ => c) l = c * ((l.length - 1 : Nat) : Int) := by
  intro l
  induction l with
  | nil => simp [routeCost]
  | cons a t ih =>
    cases t with
    | nil => simp [routeCost]
    | cons b t2 =>
      have e1 : routeCost (fun _ => c) (a :: b :: t2) =
          c + routeCost (fun _ => c) (b :: t2) := rfl
      have e2 : (((a :: b :: t2).length - 1 : Nat) : Int) =
          (((b :: t2).length - 1 : Nat) : Int) + 1 := by
        simp only [List.length_cons, Nat.add_sub_cancel]
        push_cast
        ring
      rw [e1, e2, ih]
      ring

theorem foldl_fixed {σ δ : Type} (f : σ → δ → σ) (s : σ) :
    ∀ l : List δ, (∀ d ∈ l, f s d = s) → l.foldl f s = s := by
  intro l
  induction l with
  | nil => intro _; rfl
  | cons d ds ih =>
    intro h
    rw [List.foldl_cons, h d (List.mem_cons_self _ _)]
    exact ih (fun e he => h e (List.mem_cons_of_mem _ he))

theorem bfsVisit_blocked (w : World) (hiso : ∀ q, adj4 w.startPoint q → ¬ passable w q)
    (s : Search) (hg : s.grid = w.grid) (d : Pos) (hd : d ∈ directions4) :
    bfsVisit w.gridSize w.startPoint s d = s := by
  rw [bfsVisit_eq, if_neg]
  intro hcond
  simp only [Bool.and_eq_true, bne_iff_ne, ne_eq] at hcond
  exact hiso _ ⟨d, hd, rfl⟩ ⟨hcond.1.1, by rw [← hg]; exact hcond.2⟩

theorem dfsVisit_blocked (w : World) (hiso : ∀ q, adj4 w.startPoint q → ¬ passable w q)
    (s : Search) (hg : s.grid = w.grid) (d : Pos) (hd : d ∈ directions4) :
    dfsVisit w.gridSize w.startPoint s d = s := by
  rw [dfsVisit_eq, if_neg]
  intro hcond
  simp only [Bool.and_eq_true, bne_iff_ne, ne_eq] at hcond
  exact hiso _ ⟨d, hd, rfl⟩ ⟨hcond.1.1, by rw [← hg]; exact hcond.2⟩

theorem dijkstraRelax_blocked (w : World)
    (hiso : ∀ q, adj8 w.startPoint q → ¬ passable w q)
    (s : DState) (hg : s.grid = w.grid) (d : Pos) (hd : d ∈ directions8) :
    dijkstraRelax w.gridSize w.startPoint s d = s := by
  unfold dijkstraRelax
  dsimp only
  rw [if_neg]
  intro hcond
  simp only [Bool.and_eq_true, bne_iff_ne, ne_eq] at hcond
  exact hiso _ ⟨d, hd, rfl⟩ ⟨hcond.1, by rw [← hg]; exact hcond.2⟩

theorem bfsLoop_isolated (w : World) (hiso : ∀ q, adj4 w.startPoint q → ¬ passable w q) :
    ∀ (fuel : Nat) (s : Search) (found : Bool) (s1 : Search),
      bfsLoop w.gridSize w.startPoint w.endPoint fuel s = .ok (found, s1) →
      s.grid = w.grid → (∀ p ∈ s.frontier, p = w.startPoint) → s1.grid = w.grid := by
  intro fuel
  induction fuel with
  | zero =>
    intro s found s1 h hg hf
    cases hfr : s.frontier with
    | nil => rw [bfsLoop_nil _ _ _ _ _ hfr] at h; cases h; exact hg
    | cons c rest => unfold bfsLoop at h; simp [hfr] at h
  | succ f ih =>
    intro s found s1 h hg hf
    cases hfr : s.frontier with
    | nil => rw [bfsLoop_nil _ _ _ _ _ hfr] at h; cases h; exact hg
    | cons c rest =>
      rw [bfsLoop_cons _ _ _ _ _ _ _ hfr] at h
      by_cases hc : c = w.endPoint
      · rw [if_pos hc] at h; cases h; exact hg
      · rw [if_neg hc] at h
        obtain ⟨g1, hm, h2⟩ := Run.bind_ok h
        have hcs : c = w.startPoint := hf c (by rw [hfr]; exact List.mem_cons_self _ _)
        have hg1 : g1 = s.grid := by
          rw [markVisited_eq _ _ _ _ _ _ hm, if_neg (fun hh => hh.1 hcs)]
        have hfix := foldl_fixed (bfsVisit w.gridSize w.startPoint)
          { s with frontier := rest } directions4
          (fun d hd => bfsVisit_blocked w hiso { s with frontier := rest } hg d hd)
        rw [hg1, hcs, hfix] at h2
        exact ih _ _ _ h2 hg
          (fun p hp => hf p (by rw [hfr]; exact List.mem_cons_of_mem _ hp))

theorem dfsLoop_isolated (w : World) (hiso : ∀ q, adj4 w.startPoint q → ¬ passable w q) :
    ∀ (fuel : Nat) (s : Search) (found : Bool) (s1 : Search),
      dfsLoop w.gridSize w.startPoint w.endPoint fuel s = .ok (found, s1) →
      s.grid = w.grid → (∀ p ∈ s.frontier, p = w.startPoint) → s1.grid = w.grid := by
  intro fuel
  induction fuel with
  | zero =>
    intro s found s1 h hg hf
    cases hfr : s.frontier with
    | nil => rw [dfsLoop_nil _ _ _ _ _ hfr] at h; cases h; exact hg
    | cons c rest => unfold dfsLoop at h; simp [hfr] at h
  | succ f ih =>
    intro s found s1 h hg hf
    cases hfr : s.frontier with
    | nil => rw [dfsLoop_nil _ _ _ _ _ hfr] at h; cases h; exact hg
    | cons c rest =>
      rw [dfsLoop_cons _ _ _ _ _ _ _ hfr] at h
      have hrest : ∀ p ∈ rest, p = w.startPoint :=
        fun p hp => hf p (by rw [hfr]; exact List.mem_cons_of_mem _ hp)
      by_cases hc : c = w.endPoint
      · rw [if_pos hc] at h; cases h; exact hg
      · rw [if_neg hc] at h
        obtain ⟨seen, _, h2⟩ := Run.bind_ok h
        by_cases hseen : seen = true
        · rw [if_pos hseen] at h2
          exact ih _ _ _ h2 hg hrest
        · rw [if_neg hseen] at h2
          obtain ⟨vis, _, h3⟩ := Run.bind_ok h2
          obtain ⟨g1, hm, h4⟩ := Run.bind_ok h3
          have hcs : c = w.startPoint := hf c (by rw [hfr]; exact List.mem_cons_self _ _)
          have hg1 : g1 = s.grid := by
            rw [markVisited_eq _ _ _ _ _ _ hm, if_neg (fun hh => hh.1 hcs)]
          have hfix := foldl_fixed (dfsVisit w.gridSize w.startPoint)
            { s with frontier := rest, visited := vis } directions4
            (fun d hd =>
              dfsVisit_blocked w hiso { s with frontier := rest, visited := vis } hg d hd)
          rw [hg1, hcs, hfix] at h4
          exact ih _ _ _ h4 hg hrest

theorem dijkstraLoop_isolated (posLt : Pos → Pos → Bool) (w : World)
    (hiso : ∀ q, adj8 w.startPoint q → ¬ passable w q) :
    ∀ (fuel : Nat) (s : DState) (found : Bool) (s1 : DState),
      dijkstraLoop posLt w.gridSize w.startPoint w.endPoint fuel s = .ok (found, s1) →
      s.grid = w.grid → (∀ e ∈ s.pq, e.2 = w.startPoint) → s1.grid = w.grid := by
  intro fuel
  induction fuel with
  | zero =>
    intro s found s1 h hg hf
    cases htop : pqTop posLt s.pq with
    | none => rw [dijkstraLoop_none _ _ _ _ _ _ htop] at h; cases h; exact hg
    | some e => unfold dijkstraLoop at h; simp [htop] at h
  | succ f ih =>
    intro s found s1 h hg hf
    cases htop : pqTop posLt s.pq with
    | none => rw [dijkstraLoop_none _ _ _ _ _ _ htop] at h; cases h; exact hg
    | some e =>
      obtain ⟨k, c⟩ := e
      rw [dijkstraLoop_some _ _ _ _ _ _ _ _ htop] at h
      have hrest : ∀ e ∈ s.pq.erase (k, c), e.2 = w.startPoint :=
        fun e he => hf e (List.mem_of_mem_erase he)
      by_cases hc : c = w.endPoint
      · rw [if_pos hc] at h; cases h; exact hg
      · rw [if_neg hc] at h
        obtain ⟨best, _, h2⟩ := Run.bind_ok h
        by_cases hst : k > best
        · rw [if_pos hst] at h2
          exact ih _ _ _ h2 hg hrest
        · rw [if_neg hst] at h2
          obtain ⟨g1, hm, h4⟩ := Run.bind_ok h2
          have hcs : c = w.startPoint := hf _ (pqTop_some _ _ _ htop).1
          have hg1 : g1 = s.grid := by
            rw [markVisited_eq _ _ _ _ _ _ hm, if_neg (fun hh => hh.1 hcs)]
          have hfix := foldl_fixed (dijkstraRelax w.gridSize w.startPoint)
            { s with pq := s.pq.erase (k, w.startPoint) } directions8
            (fun d hd => dijkstraRelax_blocked w hiso
              { s with pq := s.pq.erase (k, w.startPoint) } hg d hd)
          rw [hcs] at h4 hrest
          rw [hg1, hfix] at h4
          exact ih _ _ _ h4 hg hrest

theorem enclosed3_isolated : ∀ q, adj8 enclosed3.startPoint q → ¬ passable enclosed3 q := by
  rintro q ⟨d, hd, rfl⟩ hp
  simp only [directions8, List.mem_cons, List.mem_singleton, List.mem_nil_iff, or_false]
    at hd
  rcases hd with h | h | h | h | h | h | h | h <;> subst h <;>
    simp [passable, enclosed3, inBounds] at hp

theorem good_keeps_start {adj : Pos → Pos → Prop} {w : World} {r : PathResult}
    (hg : GoodResult adj w r) : r.grid w.startPoint = w.grid w.startPoint := by
  by_contra hne
  exact (hg.1 _ hne).2.1 rfl

theorem calm_setGrid (s : Sim) (g : Pos → Int) (h : Calm s) :
    Calm { s with v := { s.v with grid := g } } := h

theorem bfsLoopLive_sim :
    ∀ (fuel : Nat) (t : Search) (s : Sim) (found : Bool) (t1 : Search) (n : Int) (a b : Pos),
      Calm s → s.v.gridSize = n → s.v.startPoint = a → s.v.endPoint = b →
      t.grid = s.v.grid → bfsLoop n a b fuel t = .ok (found, t1) →
      ∃ s1, bfsLoopLive fuel t s = .ok (found, t1, s1) ∧
        s1.v = { s.v with grid := t1.grid } ∧ Calm s1 := by
  intro fuel
  induction fuel with
  | zero =>
    intro t s found t1 n a b hc hn ha hb hg h
    cases hfr : t.frontier with
    | nil =>
      rw [bfsLoop_nil _ _ _ _ _ hfr] at h
      cases h
      refine ⟨s, ?_, by rw [hg], hc⟩
      unfold bfsLoopLive
      rw [hfr]
    | cons c rest => unfold bfsLoop at h; simp [hfr] at h
  | succ f ih =>
    intro t s found t1 n a b hc hn ha hb hg h
    subst hn ha hb
    have hgo : going s = true := by
      unfold going
      rw [hc.2.1, hc.2.2.1]
      rfl
    cases hfr : t.frontier with
    | nil =>
      rw [bfsLoop_nil _ _ _ _ _ hfr] at h
      cases h
      refine ⟨s, ?_, by rw [hg], hc⟩
      unfold bfsLoopLive
      rw [hfr]
    | cons c rest =>
      rw [bfsLoop_cons _ _ _ _ _ _ _ hfr] at h
      rw [bfsLoopLive]
      simp only [hfr, hgo, if_true]
      by_cases hce : c = s.v.endPoint
      · rw [if_pos hce] at h ⊢
        cases h
        refine ⟨s, rfl, ?_, hc⟩
        show s.v = { s.v with grid := t.grid }
        rw [hg]
      · rw [if_neg hce] at h ⊢
        obtain ⟨g1, hm, h2⟩ := Run.bind_ok h
        rw [hm]
        simp only [Run.ok_bind]
        obtain ⟨s1, hp, hv, _, _, hc1⟩ := poll_calm _ (calm_setGrid s
          (directions4.foldl (bfsVisit s.v.gridSize c)
            { t with frontier := rest, grid := g1 }).grid hc)
        rw [hp]
        simp only [Run.ok_bind]
        have hv2 : s1.v.grid = (directions4.foldl (bfsVisit s.v.gridSize c)
            { t with frontier := rest, grid := g1 }).grid := by rw [hv]
        obtain ⟨s2, k1, k2, k3⟩ := ih _ s1 found t1 s.v.gridSize s.v.startPoint s.v.endPoint
          hc1 (by rw [hv]) (by rw [hv]) (by rw [hv]) hv2.symm h2
        refine ⟨s2, ?_, ?_, k3⟩
        · rw [hv2]; exact k1
        · rw [k2, hv]

theorem reconstruct_congr (w w1 : World) (fuel : Nat) (found : Bool) (grid : Pos → Int)
    (parent : Pos → Pos) (hn : w1.gridSize = w.gridSize) (ha : w1.startPoint = w.startPoint)
    (hb : w1.endPoint = w.endPoint) :
    reconstruct w1 fuel found grid parent = reconstruct w fuel found grid parent := by
  unfold reconstruct
  rw [hn, ha, hb]

theorem bfsLive_sim (fuel : Nat) (s : Sim) (r : PathResult) (hc : Calm s)
    (h : bfs fuel (gridWorld s.v) = .ok r) :
    ∃ s1, bfsLive fuel s = .ok (r.found, s1) ∧ s1.v = { s.v with grid := r.grid } := by
  unfold bfs at h
  obtain ⟨vis, h1, h2⟩ := Run.bind_ok h
  obtain ⟨⟨found, t1⟩, h3, h4⟩ := Run.bind_ok h2
  obtain ⟨s1, k1, k2, _⟩ := bfsLoopLive_sim fuel
    { grid := s.v.grid, visited := vis, frontier := [s.v.startPoint],
      parent := fun _ => (-1, -1) }
    s found t1 s.v.gridSize s.v.startPoint s.v.endPoint hc rfl rfl rfl rfl h3
  have hw : reconstruct (gridWorld s1.v) fuel found t1.grid t1.parent = .ok r := by
    rw [reconstruct_congr (gridWorld s.v) (gridWorld s1.v) fuel found t1.grid t1.parent
      (by rw [k2]; rfl) (by rw [k2]; rfl) (by rw [k2]; rfl)]
    exact h4
  refine ⟨{ s1 with v := { s1.v with grid := r.grid } }, ?_, by rw [k2]⟩
  have h1b : tset s.v.gridSize (fun _ => false) s.v.startPoint true = .ok vis := h1
  unfold bfsLive
  rw [h1b]
  simp only [Run.ok_bind]
  rw [k1]
  simp only [Run.ok_bind, hw, Run.pure_eq, (reconstruct_inv h4).1]

theorem bfsLive_frame_under_pauses (v : Visualizer) (polls : List (List Event))
    (draws : Nat → Nat) (hw : WellFormed (gridWorld v)) (hc : Calm (startRun v polls draws)) :
    ∃ F, ∀ fuel, F ≤ fuel → ∃ r s1,
      bfs fuel (gridWorld v) = .ok r ∧
      bfsLive fuel (startRun v polls draws) = .ok (r.found, s1) ∧
      s1.v = { v with grid := r.grid } ∧ FrameKept (gridWorld v) r := by
  obtain ⟨F, h⟩ := bfs_good (gridWorld v) hw.start
  refine ⟨F, fun fuel hfuel => ?_⟩
  obtain ⟨r, hr, hg⟩ := h fuel hfuel
  obtain ⟨s1, k1, k2⟩ := bfsLive_sim fuel (startRun v polls draws) r hc hr
  exact ⟨r, s1, hr, k1, k2, frameKept_of_good hw hg⟩

theorem pausedLog_nil (polls : List (List Event)) : pausedLog polls [] = [] := by
  cases polls <;> rfl

theorem pausedLog_cons (polls : List (List Event)) (d : List Int) (ds : List (List Int)) :
    pausedLog polls (d :: ds) =
      List.replicate (pollCalls polls).1 d ++ pausedLog (pollCalls polls).2 ds := by
  cases polls <;> rfl

theorem pauseOnly_tail {p : List Event} {rest : List (List Event)}
    (h : PauseOnly (p :: rest)) : PauseOnly rest :=
  fun q hq => h q (List.mem_cons_of_mem _ hq)

theorem waitWhilePaused_unpaused (polls : List (List Event)) (s : Sim)
    (hp : s.v.isPaused = false) : waitWhilePaused polls s = .ok { s with polls := polls } := by
  cases polls with
  | nil => simp [waitWhilePaused, hp]
  | cons p rest => simp [waitWhilePaused, hp]

theorem waitCalls_pauseOnly : ∀ polls : List (List Event), PauseOnly polls →
    PauseOnly (waitCalls polls).2 := by
  intro polls
  induction polls with
  | nil => intro h; exact h
  | cons p rest ih =>
    intro h
    unfold waitCalls
    split
    · exact pauseOnly_tail h
    · exact ih (pauseOnly_tail h)

theorem replicate_append_cons {α : Type} (k : Nat) (d : α) (l : List α) :
    List.replicate k d ++ d :: l = List.replicate (k + 1) d ++ l := by
  rw [List.replicate_succ', List.append_assoc]
  rfl

theorem waitWhilePaused_cons_paused (p : List Event) (rest : List (List Event)) (s : Sim)
    (hp : s.v.isPaused = true) (hr : s.v.isRunning = true) :
    waitWhilePaused (p :: rest) s =
      handleEvents p s.v s.draws >>= fun r =>
        waitWhilePaused rest { s with v := r.1, draws := r.2, seen := s.v.data :: s.seen } := by
  rw [waitWhilePaused, if_pos (by rw [hp, hr]; rfl)]

theorem waitWhilePaused_paused :
    ∀ (polls : List (List Event)) (s s1 : Sim), PauseOnly polls → s.v.windowOpen = true →
      s.v.isRunning = true → s.v.isPaused = true → waitWhilePaused polls s = .ok s1 →
      s1.v = { s.v with isPaused := false } ∧ s1.draws = s.draws ∧ s1.swaps = s.swaps ∧
        s1.polls = (waitCalls polls).2 ∧
        s1.seen = List.replicate (waitCalls polls).1 s.v.data ++ s.seen := by
  intro polls
  induction polls with
  | nil =>
    intro s s1 _ _ hr hp h
    simp [waitWhilePaused, hp, hr] at h
  | cons p rest ih =>
    intro s s1 hpo hw hr hp h
    have hev := handleEvents_spaces p s.v s.draws hw (hpo p (List.mem_cons_self _ _))
    rw [waitWhilePaused_cons_paused p rest s hp hr, hev] at h
    simp only [Run.ok_bind] at h
    by_cases hodd : p.length % 2 = 1
    · have hx : xor s.v.isPaused (decide (p.length % 2 = 1)) = false := by
        rw [hp]; simp [hodd]
      have hwc : waitCalls (p :: rest) = (1, rest) := by simp [waitCalls, hodd]
      rw [hx, waitWhilePaused_unpaused] at h
      · cases h
        rw [hwc]
        exact ⟨rfl, rfl, rfl, rfl, rfl⟩
      · rfl
    · have hx : xor s.v.isPaused (decide (p.length % 2 = 1)) = true := by
        rw [hp]; simp [hodd]
      have hwc : waitCalls (p :: rest) = ((waitCalls rest).1 + 1, (waitCalls rest).2) := by
        simp [waitCalls, hodd]
      rw [hx] at h
      obtain ⟨k1, k2, k3, k4, k5⟩ := ih _ s1 (pauseOnly_tail hpo) (by exact hw)
        (by exact hr) (by exact rfl) h
      rw [hwc]
      refine ⟨?_, k2, k3, k4, ?_⟩
      · rw [k1]
      · rw [k5]
        exact replicate_append_cons _ _ _

theorem poll_nil (s : Sim) (h : s.polls = []) :
    poll s = waitWhilePaused [] { s with seen := s.v.data :: s.seen } := by
  unfold poll pollEvents
  rw [h]
  rfl

theorem poll_cons (s : Sim) (p : List Event) (rest : List (List Event))
    (h : s.polls = p :: rest) :
    poll s = handleEvents p s.v s.draws >>= fun r =>
      waitWhilePaused rest
        { s with v := r.1, draws := r.2, polls := rest, seen := s.v.data :: s.seen } := by
  unfold poll pollEvents
  rw [h]
  dsimp only
  cases hh : handleEvents p s.v s.draws with
  | ok a => rfl
  | oob => rfl
  | fuel => rfl

theorem poll_pauseOnly (s s1 : Sim) (hw : s.v.windowOpen = true) (hr : s.v.isRunning = true)
    (hp : s.v.isPaused = false) (hpo : PauseOnly s.polls) (h : poll s = .ok s1) :
    s1.v = s.v ∧ s1.draws = s.draws ∧ s1.swaps = s.swaps ∧ s1.polls = (pollCalls s.polls).2 ∧
      s1.seen = List.replicate (pollCalls s.polls).1 s.v.data ++ s.seen ∧
      PauseOnly s1.polls := by
  cases hpl : s.polls with
  | nil =>
    rw [poll_nil s hpl, waitWhilePaused_unpaused] at h
    · cases h
      exact ⟨rfl, rfl, rfl, rfl, rfl, fun q hq => absurd hq (List.not_mem_nil _)⟩
    · exact hp
  | cons p rest =>
    rw [hpl] at hpo
    have hev := handleEvents_spaces p s.v s.draws hw (hpo p (List.mem_cons_self _ _))
    rw [poll_cons s p rest hpl, hev] at h
    simp only [Run.ok_bind] at h
    by_cases hodd : p.length % 2 = 1
    · have hx : xor s.v.isPaused (decide (p.length % 2 = 1)) = true := by
        rw [hp]; simp [hodd]
      have hpc : pollCalls (p :: rest) = ((waitCalls rest).1 + 1, (waitCalls rest).2) := by
        simp [pollCalls, hodd]
      rw [hx] at h
      obtain ⟨k1, k2, k3, k4, k5⟩ := waitWhilePaused_paused rest _ s1 (pauseOnly_tail hpo)
        (by exact hw) (by exact hr) (by exact rfl) h
      rw [hpc]
      refine ⟨?_, k2, k3, k4, ?_, ?_⟩
      · rw [k1]
        exact unpause_eq _ hp
      · rw [k5]
        exact replicate_append_cons _ _ _
      · rw [k4]; exact waitCalls_pauseOnly _ (pauseOnly_tail hpo)
    · have hx : xor s.v.isPaused (decide (p.length % 2 = 1)) = false := by
        rw [hp]; simp [hodd]
      have hpc : pollCalls (p :: rest) = (1, rest) := by simp [pollCalls, hodd]
      rw [hx, waitWhilePaused_unpaused] at h
      · cases h
        rw [hpc]
        exact ⟨unpause_eq _ hp, rfl, rfl, rfl, rfl, pauseOnly_tail hpo⟩
      · rfl

theorem poll_quiet (q : Sim) (hq : q.polls = []) (hp : q.v.isPaused = false) :
    poll q = .ok { q with polls := [], seen := q.v.data :: q.seen } := by
  rw [poll_nil q hq, waitWhilePaused_unpaused]
  all_goals first | exact hp | rfl

theorem poll_twin (P0 : List (List Event)) (s q s1 : Sim) (h : Twin P0 s q)
    (hp : poll s = .ok s1) : ∃ q1, poll q = .ok q1 ∧ Twin P0 s1 q1 ∧ q1.v = q.v := by
  obtain ⟨hv, hd, hsw, hq, hw, hr, hnp, hpo, hlog⟩ := h
  obtain ⟨k1, k2, k3, k4, k5, k6⟩ := poll_pauseOnly s s1 hw hr hnp hpo hp
  refine ⟨_, poll_quiet q hq (by rw [← hv]; exact hnp), ⟨?_, ?_, ?_, rfl, ?_, ?_, ?_, k6, ?_⟩,
    rfl⟩
  · rw [k1]; exact hv
  · rw [k2]; exact hd
  · rw [k3]; exact hsw
  · rw [k1]; exact hw
  · rw [k1]; exact hr
  · rw [k1]; exact hnp
  · intro fut
    show pausedLog P0 ((q.v.data :: q.seen).reverse ++ fut) =
      s1.seen.reverse ++ pausedLog s1.polls fut
    rw [List.reverse_cons, List.append_assoc, List.singleton_append, hlog, pausedLog_cons,
      k5, k4, List.reverse_append, List.reverse_replicate, List.append_assoc, hv]

theorem twin_setData (P0 : List (List Event)) (s q : Sim) (d : List Int) (h : Twin P0 s q) :
    Twin P0 (s.setData d) (q.setData d) := by
  obtain ⟨hv, hd, hsw, hq, hw, hr, hnp, hpo, hlog⟩ := h
  refine ⟨?_, hd, hsw, hq, hw, hr, hnp, hpo, hlog⟩
  show ({ s.v with data := d } : Visualizer) = { q.v with data := d }
  rw [hv]

theorem swapLive_twin (P0 : List (List Event)) (s q s1 : Sim) (i j : Nat) (h : Twin P0 s q)
    (hs : swapLive s i j = .ok s1) : ∃ q1, swapLive q i j = .ok q1 ∧ Twin P0 s1 q1 := by
  obtain ⟨hv, hd, hsw, hq, hw, hr, hnp, hpo, hlog⟩ := h
  unfold swapLive at hs ⊢
  obtain ⟨d, h1, h2⟩ := Run.bind_ok hs
  cases h2
  have hq1 : swapAt q.v.data i j = .ok d := by rw [← hv]; exact h1
  rw [hq1]
  refine ⟨_, rfl, ?_, hd, ?_, hq, hw, hr, hnp, hpo, hlog⟩
  · show ({ s.v with data := d } : Visualizer) = { q.v with data := d }
    rw [hv]
  · show d :: s.swaps = d :: q.swaps
    rw [hsw]

theorem twin_going {P0 : List (List Event)} {s q : Sim} (h : Twin P0 s q) :
    going s = going q ∧ s.v.data = q.v.data := by
  unfold going
  rw [h.1]
  exact ⟨rfl, rfl⟩

theorem forLoopLive_twin {σ : Type} (R : σ → σ → Prop) (cond : Nat → σ → Bool)
    (body : Nat → σ → Run σ) (hcond : ∀ i s q, R s q → cond i s = cond i q)
    (hbody : ∀ i s q s1, R s q → body i s = .ok s1 → ∃ q1, body i q = .ok q1 ∧ R s1 q1) :
    ∀ (fuel i : Nat) (s q s1 : σ), R s q → forLoopLive cond body fuel i s = .ok s1 →
      ∃ q1, forLoopLive cond body fuel i q = .ok q1 ∧ R s1 q1 := by
  intro fuel
  induction fuel with
  | zero =>
    intro i s q s1 hR h
    unfold forLoopLive at h ⊢
    rw [← hcond i s q hR]
    split at h
    · cases h
    · rename_i hc
      cases h
      rw [if_neg hc]
      exact ⟨q, rfl, hR⟩
  | succ f ih =>
    intro i s q s1 hR h
    unfold forLoopLive at h ⊢
    rw [← hcond i s q hR]
    split at h
    · rename_i hc
      rw [if_pos hc]
      obtain ⟨s2, h2, h3⟩ := Run.bind_ok h
      obtain ⟨q2, g2, hR2⟩ := hbody i s q s2 hR h2
      obtain ⟨q3, g3, hR3⟩ := ih _ _ _ _ hR2 h3
      refine ⟨q3, ?_, hR3⟩
      simp only [g2, Run.ok_bind]
      exact g3
    · rename_i hc
      cases h
      rw [if_neg hc]
      exact ⟨q, rfl, hR⟩

theorem forLoopLiveZ_twin {σ : Type} (R : σ → σ → Prop) (cond : Int → σ → Bool)
    (body : Int → σ → Run σ) (hcond : ∀ i s q, R s q → cond i s = cond i q)
    (hbody : ∀ i s q s1, R s q → body i s = .ok s1 → ∃ q1, body i q = .ok q1 ∧ R s1 q1) :
    ∀ (fuel : Nat) (i : Int) (s q s1 : σ), R s q →
      forLoopLiveZ cond body fuel i s = .ok s1 →
      ∃ q1, forLoopLiveZ cond body fuel i q = .ok q1 ∧ R s1 q1 := by
  intro fuel
  induction fuel with
  | zero =>
    intro i s q s1 hR h
    unfold forLoopLiveZ at h ⊢
    rw [← hcond i s q hR]
    split at h
    · cases h
    · rename_i hc
      cases h
      rw [if_neg hc]
      exact ⟨q, rfl, hR⟩
  | succ f ih =>
    intro i s q s1 hR h
    unfold forLoopLiveZ at h ⊢
    rw [← hcond i s q hR]
    split at h
    · rename_i hc
      rw [if_pos hc]
      obtain ⟨s2, h2, h3⟩ := Run.bind_ok h
      obtain ⟨q2, g2, hR2⟩ := hbody i s q s2 hR h2
      obtain ⟨q3, g3, hR3⟩ := ih _ _ _ _ hR2 h3
      refine ⟨q3, ?_, hR3⟩
      simp only [g2, Run.ok_bind]
      exact g3
    · rename_i hc
      cases h
      rw [if_neg hc]
      exact ⟨q, rfl, hR⟩

theorem bubbleStepLive_twin (P0 : List (List Event)) (j : Nat) (s q s1 : Sim)
    (h : Twin P0 s q) (hs : bubbleStepLive j s = .ok s1) :
    ∃ q1, bubbleStepLive j q = .ok q1 ∧ Twin P0 s1 q1 := by
  have hd := (twin_going h).2
  unfold bubbleStepLive at hs ⊢
  obtain ⟨a, h1, h2⟩ := Run.bind_ok hs
  obtain ⟨b, h3, h4⟩ := Run.bind_ok h2
  rw [← hd, h1]
  simp only [Run.ok_bind]
  rw [h3]
  simp only [Run.ok_bind]
  by_cases hab : a > b
  · simp only [if_pos hab] at h4 ⊢
    obtain ⟨s2, h5, h6⟩ := Run.bind_ok h4
    obtain ⟨q2, g5, t2⟩ := swapLive_twin P0 _ _ _ _ _ h h5
    rw [g5]
    simp only [Run.ok_bind]
    obtain ⟨q3, g6, t3, _⟩ := poll_twin P0 _ _ _ t2 h6
    exact ⟨q3, g6, t3⟩
  · simp only [if_neg hab, Run.pure_eq, Run.ok_bind] at h4 ⊢
    obtain ⟨q3, g6, t3, _⟩ := poll_twin P0 _ _ _ h h4
    exact ⟨q3, g6, t3⟩

theorem bubblePassLive_twin (P0 : List (List Event)) (fuel i : Nat) (s q s1 : Sim)
    (h : Twin P0 s q) (hs : bubblePassLive fuel i s = .ok s1) :
    ∃ q1, bubblePassLive fuel i q = .ok q1 ∧ Twin P0 s1 q1 :=
  forLoopLive_twin (Twin P0) _ _
    (fun j s q hR => by
      obtain ⟨hg, hd⟩ := twin_going hR
      simp only [hg, hd])
    (fun j s q s1 hR hb => bubbleStepLive_twin P0 j s q s1 hR hb) fuel 0 s q s1 h hs

theorem bubbleSortLive_twin (P0 : List (List Event)) (fuel : Nat) (s q s1 : Sim)
    (h : Twin P0 s q) (hs : bubbleSortLive fuel s = .ok s1) :
    ∃ q1, bubbleSortLive fuel q = .ok q1 ∧ Twin P0 s1 q1 :=
  forLoopLive_twin (Twin P0) _ _
    (fun j s q hR => by
      obtain ⟨hg, hd⟩ := twin_going hR
      simp only [hg, hd])
    (fun i s q s1 hR hb => bubblePassLive_twin P0 fuel i s q s1 hR hb) fuel 0 s q s1 h hs

theorem insertShiftLive_twin (P0 : List (List Event)) (key : Int) :
    ∀ (fuel : Nat) (j : Int) (s q : Sim) (r : Int × Sim), Twin P0 s q →
      insertShiftLive key fuel j s = .ok r →
      ∃ q1, insertShiftLive key fuel j q = .ok (r.1, q1) ∧ Twin P0 r.2 q1 := by
  intro fuel
  induction fuel with
  | zero =>
    intro j s q r _ hs
    unfold insertShiftLive at hs
    cases hs
  | succ f ih =>
    intro j s q r h hs
    obtain ⟨hg, hd⟩ := twin_going h
    unfold insertShiftLive at hs ⊢
    by_cases hj : j ≥ 0
    · rw [if_pos hj] at hs ⊢
      obtain ⟨a, h1, h2⟩ := Run.bind_ok hs
      rw [← hd, h1]
      simp only [Run.ok_bind]
      rw [← hg]
      by_cases hc : a > key ∧ going s = true
      · rw [if_pos hc] at h2 ⊢
        obtain ⟨d1, h3, h4⟩ := Run.bind_ok h2
        obtain ⟨s2, h5, h6⟩ := Run.bind_ok h4
        rw [h3]
        simp only [Run.ok_bind]
        obtain ⟨q2, g5, t2, _⟩ := poll_twin P0 _ _ _ (twin_setData P0 s q d1 h) h5
        rw [g5]
        simp only [Run.ok_bind]
        exact ih _ _ _ _ t2 h6
      · rw [if_neg hc] at h2 ⊢
        cases h2
        exact ⟨q, rfl, h⟩
    · rw [if_neg hj] at hs ⊢
      cases hs
      exact ⟨q, rfl, h⟩

theorem insertionBodyLive_twin (P0 : List (List Event)) (fuel i : Nat) (s q s1 : Sim)
    (h : Twin P0 s q) (hs : insertionBodyLive fuel i s = .ok s1) :
    ∃ q1, insertionBodyLive fuel i q = .ok q1 ∧ Twin P0 s1 q1 := by
  have hd := (twin_going h).2
  unfold insertionBodyLive at hs ⊢
  obtain ⟨key, h1, h2⟩ := Run.bind_ok hs
  obtain ⟨⟨j1, s2⟩, h3, h4⟩ := Run.bind_ok h2
  obtain ⟨d2, h5, h6⟩ := Run.bind_ok h4
  cases h6
  obtain ⟨q2, g3, t2⟩ := insertShiftLive_twin P0 key fuel _ s q _ h h3
  rw [← hd, h1]
  simp only [Run.ok_bind]
  rw [g3]
  simp only [Run.ok_bind]
  rw [← (twin_going t2).2, h5]
  exact ⟨_, rfl, twin_setData P0 _ _ d2 t2⟩

theorem insertionSortLive_twin (P0 : List (List Event)) (fuel : Nat) (s q s1 : Sim)
    (h : Twin P0 s q) (hs : insertionSortLive fuel s = .ok s1) :
    ∃ q1, insertionSortLive fuel q = .ok q1 ∧ Twin P0 s1 q1 :=
  forLoopLive_twin (Twin P0) _ _
    (fun j s q hR => by
      obtain ⟨hg, hd⟩ := twin_going hR
      simp only [hg, hd])
    (fun i s q s1 hR hb => insertionBodyLive_twin P0 fuel i s q s1 hR hb) fuel 1 s q s1 h hs

theorem selectStepLive_twin (P0 : List (List Event)) (j : Nat) (t u t1 : Nat × Sim)
    (h : t.1 = u.1 ∧ Twin P0 t.2 u.2) (hs : selectStepLive j t = .ok t1) :
    ∃ u1, selectStepLive j u = .ok u1 ∧ t1.1 = u1.1 ∧ Twin P0 t1.2 u1.2 := by
  obtain ⟨hm, ht⟩ := h
  have hd := (twin_going ht).2
  unfold selectStepLive at hs ⊢
  obtain ⟨a, h1, h2⟩ := Run.bind_ok hs
  obtain ⟨b, h3, h4⟩ := Run.bind_ok h2
  obtain ⟨s2, h5, h6⟩ := Run.bind_ok h4
  cases h6
  obtain ⟨q2, g5, t2, _⟩ := poll_twin P0 _ _ _ ht h5
  rw [← hd, ← hm, h1]
  simp only [Run.ok_bind]
  rw [h3]
  simp only [Run.ok_bind]
  rw [g5]
  exact ⟨_, rfl, rfl, t2⟩

theorem selectionBodyLive_twin (P0 : List (List Event)) (fuel i : Nat) (s q s1 : Sim)
    (h : Twin P0 s q) (hs : selectionBodyLive fuel i s = .ok s1) :
    ∃ q1, selectionBodyLive fuel i q = .ok q1 ∧ Twin P0 s1 q1 := by
  unfold selectionBodyLive at hs ⊢
  obtain ⟨⟨m, s2⟩, h2, h3⟩ := Run.bind_ok hs
  obtain ⟨⟨m2, q2⟩, g2, hm, t2⟩ := forLoopLive_twin
    (fun (t u : Nat × Sim) => t.1 = u.1 ∧ Twin P0 t.2 u.2) _ _
    (fun j t u hR => by
      obtain ⟨hg, hd⟩ := twin_going hR.2
      simp only [hg, hd])
    (fun j t u t1 hR hb => selectStepLive_twin P0 j t u t1 hR hb) fuel _ (i, s) (i, q) _
    ⟨rfl, h⟩ h2
  simp only at hm t2
  subst hm
  rw [g2]
  simp only [Run.ok_bind] at h3 ⊢
  by_cases hmi : m ≠ i
  · rw [if_pos hmi] at h3 ⊢
    exact swapLive_twin P0 _ _ _ _ _ t2 h3
  · rw [if_neg hmi] at h3 ⊢
    cases h3
    exact ⟨q2, rfl, t2⟩

theorem selectionSortLive_twin (P0 : List (List Event)) (fuel : Nat) (s q s1 : Sim)
    (h : Twin P0 s q) (hs : selectionSortLive fuel s = .ok s1) :
    ∃ q1, selectionSortLive fuel q = .ok q1 ∧ Twin P0 s1 q1 :=
  forLoopLive_twin (Twin P0) _ _
    (fun j s q hR => by
      obtain ⟨hg, hd⟩ := twin_going hR
      simp only [hg, hd])
    (fun i s q s1 hR hb => selectionBodyLive_twin P0 fuel i s q s1 hR hb) fuel 0 s q s1 h hs

theorem partitionStepLive_twin (P0 : List (List Event)) (pivot : Int) (j : Int)
    (t u t1 : Int × Sim) (h : t.1 = u.1 ∧ Twin P0 t.2 u.2)
    (hs : partitionStepLive pivot j t = .ok t1) :
    ∃ u1, partitionStepLive pivot j u = .ok u1 ∧ t1.1 = u1.1 ∧ Twin P0 t1.2 u1.2 := by
  obtain ⟨hm, ht⟩ := h
  have hd := (twin_going ht).2
  unfold partitionStepLive at hs ⊢
  obtain ⟨a, h1, h2⟩ := Run.bind_ok hs
  rw [← hd, h1]
  simp only [Run.ok_bind]
  by_cases hlt : a < pivot
  · simp only [if_pos hlt] at h2 ⊢
    obtain ⟨s2, h3, h4⟩ := Run.bind_ok h2
    simp only [Run.pure_eq, Run.ok_bind] at h4
    obtain ⟨s3, h5, h6⟩ := Run.bind_ok h4
    cases h6
    obtain ⟨q2, g3, t2⟩ := swapLive_twin P0 _ _ _ _ _ ht h3
    obtain ⟨q3, g5, t3, _⟩ := poll_twin P0 _ _ _ t2 h5
    rw [← hm, g3]
    simp only [Run.pure_eq, Run.ok_bind]
    rw [g5]
    exact ⟨_, rfl, rfl, t3⟩
  · simp only [if_neg hlt, Run.pure_eq, Run.ok_bind] at h2 ⊢
    obtain ⟨s3, h5, h6⟩ := Run.bind_ok h2
    cases h6
    obtain ⟨q3, g5, t3, _⟩ := poll_twin P0 _ _ _ ht h5
    rw [g5]
    exact ⟨_, rfl, hm, t3⟩

theorem quickSortLive_twin (P0 : List (List Event)) (fuel0 : Nat) :
    ∀ (f : Nat) (low high : Int) (s q s1 : Sim), Twin P0 s q →
      quickSortLive fuel0 f low high s = .ok s1 →
      ∃ q1, quickSortLive fuel0 f low high q = .ok q1 ∧ Twin P0 s1 q1 := by
  intro f
  induction f with
  | zero =>
    intro low high s q s1 h hs
    obtain ⟨hg, hd⟩ := twin_going h
    unfold quickSortLive at hs ⊢
    rw [← hg]
    split at hs
    · cases hs
    · rename_i hc
      cases hs
      rw [if_neg hc]
      exact ⟨q, rfl, h⟩
  | succ f ih =>
    intro low high s q s1 h hs
    obtain ⟨hg, hd⟩ := twin_going h
    unfold quickSortLive at hs ⊢
    rw [← hg]
    split at hs
    · rename_i hc
      rw [if_pos hc]
      simp only at hs ⊢
      obtain ⟨pivot, h1, h2⟩ := Run.bind_ok hs
      obtain ⟨⟨i, s2⟩, h3, h4⟩ := Run.bind_ok h2
      simp only at h4
      obtain ⟨s3, h5, h6⟩ := Run.bind_ok h4
      obtain ⟨s4, h7, h8⟩ := Run.bind_ok h6
      obtain ⟨⟨i2, q2⟩, g3, hi, t2⟩ := forLoopLiveZ_twin
        (fun (t u : Int × Sim) => t.1 = u.1 ∧ Twin P0 t.2 u.2) _ _
        (fun j t u hR => by
          obtain ⟨hg, hd⟩ := twin_going hR.2
          simp only [hg])
        (fun j t u t1 hR hb => partitionStepLive_twin P0 pivot j t u t1 hR hb) fuel0 low
        (low - 1, s) (low - 1, q) _ ⟨rfl, h⟩ h3
      simp only at hi t2
      subst hi
      obtain ⟨q3, g5, t3⟩ := swapLive_twin P0 _ _ _ _ _ t2 h5
      obtain ⟨q4, g7, t4⟩ := ih _ _ _ _ _ t3 h7
      obtain ⟨q5, g8, t5⟩ := ih _ _ _ _ _ t4 h8
      rw [← hd, h1]
      simp only [Run.ok_bind]
      rw [g3]
      simp only [Run.ok_bind]
      rw [g5]
      simp only [Run.ok_bind]
      rw [g7]
      simp only [Run.ok_bind]
      exact ⟨q5, g8, t5⟩
    · rename_i hc
      cases hs
      rw [if_neg hc]
      exact ⟨q, rfl, h⟩

theorem quickSortRunLive_twin (P0 : List (List Event)) (fuel : Nat) (s q s1 : Sim)
    (h : Twin P0 s q) (hs : quickSortRunLive fuel s = .ok s1) :
    ∃ q1, quickSortRunLive fuel q = .ok q1 ∧ Twin P0 s1 q1 := by
  unfold quickSortRunLive at hs ⊢
  rw [← (twin_going h).2]
  exact quickSortLive_twin P0 fuel fuel _ _ s q s1 h hs

theorem mergeBothLive_twin (P0 : List (List Event)) (L R : List Int) (n1 n2 : Int) :
    ∀ (f : Nat) (i j k : Int) (s q : Sim) (r : Int × Int × Int × Sim), Twin P0 s q →
      mergeBothLive L R n1 n2 f (i, j, k, s) = .ok r →
      ∃ q1, mergeBothLive L R n1 n2 f (i, j, k, q) = .ok (r.1, r.2.1, r.2.2.1, q1) ∧
        Twin P0 r.2.2.2 q1 := by
  intro f
  induction f with
  | zero =>
    intro i j k s q r h hs
    obtain ⟨hg, hd⟩ := twin_going h
    unfold mergeBothLive at hs ⊢
    rw [← hg]
    split at hs
    · cases hs
    · rename_i hc
      cases hs
      rw [if_neg hc]
      exact ⟨q, rfl, h⟩
  | succ f ih =>
    intro i j k s q r h hs
    obtain ⟨hg, hd⟩ := twin_going h
    unfold mergeBothLive at hs ⊢
    rw [← hg]
    split at hs
    · rename_i hc
      rw [if_pos hc]
      simp only at hs ⊢
      obtain ⟨a, h1, h2⟩ := Run.bind_ok hs
      obtain ⟨b, h3, h4⟩ := Run.bind_ok h2
      rw [h1]
      simp only [Run.ok_bind]
      rw [h3]
      simp only [Run.ok_bind]
      by_cases hab : a ≤ b
      · rw [if_pos hab] at h4 ⊢
        obtain ⟨d1, h5, h6⟩ := Run.bind_ok h4
        obtain ⟨s2, h7, h8⟩ := Run.bind_ok h6
        obtain ⟨q2, g7, t2, _⟩ := poll_twin P0 _ _ _ (twin_setData P0 s q d1 h) h7
        rw [← hd, h5]
        simp only [Run.ok_bind]
        rw [g7]
        simp only [Run.ok_bind]
        exact ih _ _ _ _ _ _ t2 h8
      · rw [if_neg hab] at h4 ⊢
        obtain ⟨d1, h5, h6⟩ := Run.bind_ok h4
        obtain ⟨s2, h7, h8⟩ := Run.bind_ok h6
        obtain ⟨q2, g7, t2, _⟩ := poll_twin P0 _ _ _ (twin_setData P0 s q d1 h) h7
        rw [← hd, h5]
        simp only [Run.ok_bind]
        rw [g7]
        simp only [Run.ok_bind]
        exact ih _ _ _ _ _ _ t2 h8
    · rename_i hc
      cases hs
      rw [if_neg hc]
      exact ⟨q, rfl, h⟩

theorem mergeRestLive_twin (P0 : List (List Event)) (src : List Int) (n : Int) :
    ∀ (f : Nat) (i k : Int) (s q : Sim) (r : Int × Int × Sim), Twin P0 s q →
      mergeRestLive src n f (i, k, s) = .ok r →
      ∃ q1, mergeRestLive src n f (i, k, q) = .ok (r.1, r.2.1, q1) ∧ Twin P0 r.2.2 q1 := by
  intro f
  induction f with
  | zero =>
    intro i k s q r h hs
    obtain ⟨hg, hd⟩ := twin_going h
    unfold mergeRestLive at hs ⊢
    rw [← hg]
    split at hs
    · cases hs
    · rename_i hc
      cases hs
      rw [if_neg hc]
      exact ⟨q, rfl, h⟩
  | succ f ih =>
    intro i k s q r h hs
    obtain ⟨hg, hd⟩ := twin_going h
    unfold mergeRestLive at hs ⊢
    rw [← hg]
    split at hs
    · rename_i hc
      rw [if_pos hc]
      simp only at hs ⊢
      obtain ⟨a, h1, h2⟩ := Run.bind_ok hs
      obtain ⟨d1, h5, h6⟩ := Run.bind_ok h2
      obtain ⟨s2, h7, h8⟩ := Run.bind_ok h6
      obtain ⟨q2, g7, t2, _⟩ := poll_twin P0 _ _ _ (twin_setData P0 s q d1 h) h7
      rw [h1]
      simp only [Run.ok_bind]
      rw [← hd, h5]
      simp only [Run.ok_bind]
      rw [g7]
      simp only [Run.ok_bind]
      exact ih _ _ _ _ _ t2 h8
    · rename_i hc
      cases hs
      rw [if_neg hc]
      exact ⟨q, rfl, h⟩

theorem mergeLive_twin (P0 : List (List Event)) (fuel : Nat) (left mid right : Int)
    (s q s1 : Sim) (h : Twin P0 s q) (hs : mergeLive fuel left mid right s = .ok s1) :
    ∃ q1, mergeLive fuel left mid right q = .ok q1 ∧ Twin P0 s1 q1 := by
  have hd := (twin_going h).2
  unfold mergeLive at hs ⊢
  simp only at hs ⊢
  obtain ⟨L, h1, h2⟩ := Run.bind_ok hs
  obtain ⟨R, h3, h4⟩ := Run.bind_ok h2
  obtain ⟨⟨i, j, k, s2⟩, h5, h6⟩ := Run.bind_ok h4
  simp only at h6
  obtain ⟨⟨i1, k1, s3⟩, h7, h8⟩ := Run.bind_ok h6
  simp only at h8
  obtain ⟨⟨j1, k2, s4⟩, h9, h10⟩ := Run.bind_ok h8
  cases h10
  obtain ⟨q2, g5, t2⟩ := mergeBothLive_twin P0 L R _ _ fuel _ _ _ s q _ h h5
  obtain ⟨q3, g7, t3⟩ := mergeRestLive_twin P0 L _ fuel _ _ s2 q2 _ t2 h7
  obtain ⟨q4, g9, t4⟩ := mergeRestLive_twin P0 R _ fuel _ _ s3 q3 _ t3 h9
  rw [← hd, h1]
  simp only [Run.ok_bind]
  rw [h3]
  simp only [Run.ok_bind]
  rw [g5]
  simp only [Run.ok_bind]
  rw [g7]
  simp only [Run.ok_bind]
  rw [g9]
  exact ⟨q4, rfl, t4⟩

theorem mergeSortLive_twin (P0 : List (List Event)) (fuel0 : Nat) :
    ∀ (f : Nat) (left right : Int) (s q s1 : Sim), Twin P0 s q →
      mergeSortLive fuel0 f left right s = .ok s1 →
      ∃ q1, mergeSortLive fuel0 f left right q = .ok q1 ∧ Twin P0 s1 q1 := by
  intro f
  induction f with
  | zero =>
    intro left right s q s1 h hs
    obtain ⟨hg, hd⟩ := twin_going h
    unfold mergeSortLive at hs ⊢
    rw [← hg]
    split at hs
    · cases hs
    · rename_i hc
      cases hs
      rw [if_neg hc]
      exact ⟨q, rfl, h⟩
  | succ f ih =>
    intro left right s q s1 h hs
    obtain ⟨hg, hd⟩ := twin_going h
    unfold mergeSortLive at hs ⊢
    rw [← hg]
    split at hs
    · rename_i hc
      rw [if_pos hc]
      simp only at hs ⊢
      obtain ⟨s2, h1, h2⟩ := Run.bind_ok hs
      obtain ⟨s3, h3, h4⟩ := Run.bind_ok h2
      obtain ⟨q2, g1, t2⟩ := ih _ _ _ _ _ h h1
      obtain ⟨q3, g3, t3⟩ := ih _ _ _ _ _ t2 h3
      rw [g1]
      simp only [Run.ok_bind]
      rw [g3]
      simp only [Run.ok_bind]
      exact mergeLive_twin P0 fuel0 _ _ _ s3 q3 s1 t3 h4
    · rename_i hc
      cases hs
      rw [if_neg hc]
      exact ⟨q, rfl, h⟩

theorem mergeSortRunLive_twin (P0 : List (List Event)) (fuel : Nat) (s q s1 : Sim)
    (h : Twin P0 s q) (hs : mergeSortRunLive fuel s = .ok s1) :
    ∃ q1, mergeSortRunLive fuel q = .ok q1 ∧ Twin P0 s1 q1 := by
  unfold mergeSortRunLive at hs ⊢
  rw [← (twin_going h).2]
  exact mergeSortLive_twin P0 fuel fuel _ _ s q s1 h hs

theorem twin_start (v : Visualizer) (polls : List (List Event)) (draws : Nat → Nat)
    (hw : v.windowOpen = true) (hr : v.isRunning = true) (hnp : v.isPaused = false)
    (hp : PauseOnly polls) : Twin polls (startRun v polls draws) (startRun v [] draws) :=
  ⟨rfl, rfl, rfl, rfl, hw, hr, hnp, hp, fun _ => rfl⟩

theorem twin_sameSteps {P0 : List (List Event)} {s1 s0 : Sim} (h : Twin P0 s1 s0) :
    SameSteps P0 s0 s1 := by
  obtain ⟨hv, _, hsw, _, _, _, _, _, hlog⟩ := h
  refine ⟨hv, hsw, ?_⟩
  have := hlog []
  rw [List.append_nil, pausedLog_nil, List.append_nil] at this
  exact this.symm

theorem sameResult_of_sim (sort : List Int → Run (List Int)) (run : Nat → Sim → Run Sim)
    (v : Visualizer) (polls : List (List Event)) (draws : Nat → Nat) (F : Nat)
    (out : List Int) (ho : sort v.data = .ok out)
    (hsim : ∀ fuel, F ≤ fuel → ∃ s1, run fuel (startRun v polls draws) = .ok s1 ∧
      Tracks AnyLog v s1 out)
    (hstep : ResumesInStep run v polls draws) : SameResult sort run v polls draws := by
  refine ⟨F, fun fuel hfuel => ?_⟩
  obtain ⟨s1, h1, g1⟩ := hsim fuel hfuel
  obtain ⟨s0, h0, g0⟩ := hstep fuel s1 h1
  refine ⟨out, s0, s1, ho, h0, h1, ?_, g0⟩
  rw [← g0.1]
  exact g1.1

/-! ## The claims -/

/-- C2: for every array of at most `2^31 - 1` elements (`data` always holds
`arraySize = 100` elements, `arraySize` being an `int`), the empty one included, an
uninterrupted `insertionSort` returns and leaves `data` a non-decreasing permutation of
the input. -/
theorem insertionSort_sorted_perm (S : List Int) (h : S.length ≤ 2147483647) :
    ∃ out, insertionSort S = .ok out ∧ out.Sorted (· ≤ ·) ∧ out.Perm S :=
  insertionSort_sorts S h

/-- Witness for C2 on the array `[5,3,8,1,9,2]`. -/
theorem insertionSort_sorted_perm_witness :
    ([5, 3, 8, 1, 9, 2] : List Int).length ≤ 2147483647 ∧
      ∃ out, insertionSort [5, 3, 8, 1, 9, 2] = .ok out ∧ out.Sorted (· ≤ ·) ∧
        out.Perm [5, 3, 8, 1, 9, 2] :=
  ⟨by decide, insertionSort_sorted_perm [5, 3, 8, 1, 9, 2] (by decide)⟩

/-- C3: for every array (a `std::vector`, so of fewer than `2^64` elements), the empty one
included, an uninterrupted `selectionSort` returns and leaves `data` a non-decreasing
permutation of the input. -/
theorem selectionSort_sorted_perm (S : List Int) (h : S.length < 18446744073709551616) :
    ∃ out, selectionSort S = .ok out ∧ out.Sorted (· ≤ ·) ∧ out.Perm S :=
  selectionSort_sorts S h

/-- Witness for C3 on the empty array, where the outer bound wraps to `2^64 - 1`. -/
theorem selectionSort_sorted_perm_witness :
    ([] : List Int).length < 18446744073709551616 ∧
      ∃ out, selectionSort [] = .ok out ∧ out.Sorted (· ≤ ·) ∧ out.Perm [] :=
  ⟨by decide, selectionSort_sorted_perm [] (by decide)⟩

/-- C4: for every array of `n ≤ 2^31 - 1` elements (`data` always holds `arraySize = 100`
elements, `arraySize` being an `int`), duplicates allowed, the call `quickSort(0, n - 1)`
of `runVisualization` returns and leaves `data` a non-decreasing permutation of the
input. -/
theorem quickSortRun_sorted_perm (S : List Int) (h : S.length ≤ 2147483647) :
    ∃ out, quickSortRun S = .ok out ∧ out.Sorted (· ≤ ·) ∧ out.Perm S :=
  quickSortRun_sorts S h

/-- Witness for C4 on an array with duplicates. -/
theorem quickSortRun_sorted_perm_witness :
    ([3, 3, 1, 3, 1] : List Int).length ≤ 2147483647 ∧
      ∃ out, quickSortRun [3, 3, 1, 3, 1] = .ok out ∧ out.Sorted (· ≤ ·) ∧
        out.Perm [3, 3, 1, 3, 1] :=
  ⟨by decide, quickSortRun_sorted_perm [3, 3, 1, 3, 1] (by decide)⟩

/-- C5: for every array of `n ≤ 2^31 - 1` elements (`data` always holds `arraySize = 100`
elements, `arraySize` being an `int`) the call `mergeSort(0, n - 1)` of `runVisualization`
returns and leaves `data` a non-decreasing permutation of the input. -/
theorem mergeSortRun_sorted_perm (S : List Int) (h : S.length ≤ 2147483647) :
    ∃ out, mergeSortRun S = .ok out ∧ out.Sorted (· ≤ ·) ∧ out.Perm S :=
  mergeSortRun_sorts S h

/-- Witness for C5 on the array `[5,3,8,1,9,2]`. -/
theorem mergeSortRun_sorted_perm_witness :
    ([5, 3, 8, 1, 9, 2] : List Int).length ≤ 2147483647 ∧
      ∃ out, mergeSortRun [5, 3, 8, 1, 9, 2] = .ok out ∧ out.Sorted (· ≤ ·) ∧
        out.Perm [5, 3, 8, 1, 9, 2] :=
  ⟨by decide, mergeSortRun_sorted_perm [5, 3, 8, 1, 9, 2] (by decide)⟩

/-- C6: on every grid on which End is reachable from Start by orthogonal moves over cells
that are not Obstacles, `bfs` (given enough fuel for its loops) returns with a path
found; its route is such an orthogonal path, its interior cells are the cells newly
marked Path, and no orthogonal obstacle-free path from Start to End has fewer cells
(hence fewer edges).  On the obstacle-free 3x3 grid the route has five cells, four
edges. -/
theorem bfs_route_has_minimum_edges :
    (∀ w : World, (∃ l, OrthPath w l) →
      ∃ F, ∀ fuel, F ≤ fuel → ∃ r, bfs fuel w = .ok r ∧ r.found = true ∧
        OrthPath w r.route ∧
        (∀ p ∈ r.route, p ≠ w.startPoint → p ≠ w.endPoint → r.grid p = 3) ∧
        (∀ p, r.grid p = 3 → w.grid p ≠ 3 → p ∈ r.route) ∧
        ∀ l, OrthPath w l → r.route.length ≤ l.length) ∧
    routeOf (bfs 100 open3) = some [(0, 0), (1, 0), (2, 0), (2, 1), (2, 2)] := by
  refine ⟨fun w h => ?_, by decide!⟩
  obtain ⟨F1, h1⟩ := bfs_shortest w h
  have hs : passable w w.startPoint := by
    obtain ⟨l, hh, _, _, hp⟩ := h
    exact hp _ (List.mem_of_mem_head? hh)
  obtain ⟨F2, h2⟩ := bfs_good w hs
  refine ⟨max F1 F2, fun fuel hfuel => ?_⟩
  obtain ⟨r, hr, hf, hpath, hmin⟩ := h1 fuel (le_trans (le_max_left _ _) hfuel)
  obtain ⟨r2, hr2, hg⟩ := h2 fuel (le_trans (le_max_right _ _) hfuel)
  have he : r2 = r := by
    rw [hr] at hr2
    exact (Run.ok.inj hr2).symm
  subst he
  obtain ⟨_, _, _, _, _, hm1, hm2⟩ := hg.2.1 hf
  refine ⟨r2, hr, hf, hpath, hm1, fun p hp hn => ?_, hmin⟩
  rcases hm2 p hp with h3 | h3
  · exact h3.1
  · exact absurd h3 hn

/-- Witness for C6: the obstacle-free 3x3 grid has an orthogonal path, so `bfs` finds a
shortest one on it. -/
theorem bfs_route_has_minimum_edges_witness :
    ∃ F, ∀ fuel, F ≤ fuel → ∃ r, bfs fuel open3 = .ok r ∧ r.found = true ∧
      OrthPath open3 r.route ∧
      (∀ p ∈ r.route, p ≠ open3.startPoint → p ≠ open3.endPoint → r.grid p = 3) ∧
      (∀ p, r.grid p = 3 → open3.grid p ≠ 3 → p ∈ r.route) ∧
      ∀ l, OrthPath open3 l → r.route.length ≤ l.length :=
  bfs_route_has_minimum_edges.1 open3 ⟨_, open3_orthPath⟩

/-- C7: on the obstacle-free 3x3 grid with Start (0,0) and End (2,2) `dijkstra` does not
select the two-diagonal route through (1,1).  With the lexicographic tie-break it
returns a route of four orthogonal moves, of weight 40 in the 10/14 table where the
diagonal route weighs 28; and whatever the tie-break, the route it returns is never the
diagonal one, because the code weighs an orthogonal move 1, not 10. -/
theorem dijkstra_open3_avoids_diagonal :
    routeOf (dijkstra posLex 100 open3) = some [(0, 0), (0, 1), (0, 2), (1, 2), (2, 2)] ∧
    routeCost specWeight [(0, 0), (0, 1), (0, 2), (1, 2), (2, 2)] = 40 ∧
    routeCost specWeight [(0, 0), (1, 1), (2, 2)] = 28 ∧
    ∀ posLt : Pos → Pos → Bool, ∃ F, ∀ fuel, F ≤ fuel →
      ∃ r, dijkstra posLt fuel open3 = .ok r ∧ r.found = true ∧
        r.route ≠ [(0, 0), (1, 1), (2, 2)] := by
  refine ⟨by decide!, by decide, by decide, fun posLt => ?_⟩
  obtain ⟨F, hF⟩ := dijkstra_optimal posLt open3 open3_wellFormed.start
    (fits_of_gridSize open3 (by decide))
  refine ⟨F, fun fuel hfuel => ?_⟩
  obtain ⟨r, hr, _, hopt, hnone⟩ := hF fuel hfuel
  have hf : r.found = true := by
    cases hfd : r.found with
    | true => rfl
    | false => exact absurd open3_path8 (hnone hfd _)
  refine ⟨r, hr, hf, fun heq => ?_⟩
  have h1 := hopt hf _ open3_path8
  rw [heq] at h1
  revert h1
  decide

/-- C8: on a grid whose Start cell lies on the grid and is not an Obstacle, and whose
size keeps the `int` distances of `dijkstra` from overflowing, all three searches
return, and the flag each reports is the flag of its loop: true exactly when End is
reachable (by orthogonal moves for `bfs` and `dfs`, by eight-neighbour moves for
`dijkstra`).  When `bfs` (respectively `dfs`) finds a path, its route leads from Start to
End by orthogonal moves over cells that are not Obstacles, with the Path marks on its
interior; `dijkstra` finds a path too, its route leads from Start to End by
eight-neighbour moves in the same way, and the weight of that route at 10 per orthogonal
and 14 per diagonal move is at most the weight of the route of `bfs` (respectively
`dfs`) at 10 per edge, which is 10 times its number of edges. -/
theorem dijkstra_weight_le_bfs_dfs (posLt : Pos → Pos → Bool) (w : World)
    (hs : passable w w.startPoint)
    (hsize : 14 * (w.gridSize * w.gridSize) ≤ 2147483647) :
    ∃ F, ∀ fuel, F ≤ fuel → ∃ (rb rf rd : PathResult) (sb sf : Search) (sd : DState),
      bfsLoop w.gridSize w.startPoint w.endPoint fuel
        { grid := w.grid, visited := upd (fun _ => false) w.startPoint true,
          parent := fun _ => (-1, -1), frontier := [w.startPoint] } = .ok (rb.found, sb) ∧
      dfsLoop w.gridSize w.startPoint w.endPoint fuel
        { grid := w.grid, visited := fun _ => false,
          parent := fun _ => (-1, -1), frontier := [w.startPoint] } = .ok (rf.found, sf) ∧
      dijkstraLoop posLt w.gridSize w.startPoint w.endPoint fuel
        { grid := w.grid, distance := upd (fun _ => (2147483647 : Int)) w.startPoint 0,
          parent := fun _ => (-1, -1), pq := [(0, w.startPoint)] } = .ok (rd.found, sd) ∧
      bfs fuel w = .ok rb ∧ dfs fuel w = .ok rf ∧ dijkstra posLt fuel w = .ok rd ∧
      (rb.found = true ↔ ∃ l, OrthPath w l) ∧ (rf.found = true ↔ ∃ l, OrthPath w l) ∧
      (rd.found = true ↔ ∃ l, Path8 w l) ∧
      (rb.found = true → RouteMarked adj4 w rb ∧ rd.found = true ∧ RouteMarked adj8 w rd ∧
        routeCost specWeight rd.route ≤ routeCost (fun _ => 10) rb.route ∧
        routeCost (fun _ => 10) rb.route = 10 * ((rb.route.length - 1 : Nat) : Int)) ∧
      (rf.found = true → RouteMarked adj4 w rf ∧ rd.found = true ∧ RouteMarked adj8 w rd ∧
        routeCost specWeight rd.route ≤ routeCost (fun _ => 10) rf.route ∧
        routeCost (fun _ => 10) rf.route = 10 * ((rf.route.length - 1 : Nat) : Int)) := by
  obtain ⟨F1, h1⟩ := bfs_complete w hs
  obtain ⟨F2, h2⟩ := dfs_complete w hs
  obtain ⟨F3, h3⟩ := dijkstra_distance posLt w hs (fits_of_gridSize w hsize)
  refine ⟨max F1 (max F2 F3), fun fuel hfuel => ?_⟩
  have hf1 : F1 ≤ fuel := le_trans (le_max_left _ _) hfuel
  have hf2 : F2 ≤ fuel := le_trans (le_trans (le_max_left _ _) (le_max_right _ _)) hfuel
  have hf3 : F3 ≤ fuel := le_trans (le_trans (le_max_right _ _) (le_max_right _ _)) hfuel
  obtain ⟨rb, hrb, hgb, hib⟩ := h1 fuel hf1
  obtain ⟨rf, hrf, hgf, hif⟩ := h2 fuel hf2
  obtain ⟨rd, sd, hld, hrd, hgd, hid, hopt⟩ := h3 fuel hf3
  obtain ⟨sb, hlb, _⟩ := bfs_loop_of_ok hrb
  obtain ⟨sf, hlf, _⟩ := dfs_loop_of_ok hrf
  have key : ∀ r : PathResult, GoodResult adj4 w r → r.found = true →
      RouteMarked adj4 w r ∧ rd.found = true ∧ RouteMarked adj8 w rd ∧
        routeCost specWeight rd.route ≤ routeCost (fun _ => 10) r.route ∧
        routeCost (fun _ => 10) r.route = 10 * ((r.route.length - 1 : Nat) : Int) := by
    intro r hg hf
    obtain ⟨hp8, hc4⟩ := path8_of_good4 hg hf
    have hfd : rd.found = true := hid.mpr ⟨_, hp8⟩
    refine ⟨routeMarked_of_good hg hf, hfd, routeMarked_of_good hgd hfd, ?_,
      routeCost_const_length 10 _⟩
    have e1 := (hopt hfd).2.2 _ hp8
    have e2 := routeCost_spec_le rd.route
    have e3 := routeCost_ten_orth r.route hc4
    omega
  exact ⟨rb, rf, rd, sb, sf, sd, hlb, hlf, hld, hrb, hrf, hrd, hib, hif, hid,
    key rb hgb, key rf hgf⟩

/-- Witness for C8: on the obstacle-free 3x3 grid, with the lexicographic tie-break, all
three searches find a path; the routes of `bfs` and of `dijkstra` have four orthogonal
moves each, weight 40. -/
theorem dijkstra_weight_le_bfs_dfs_witness :
    (∃ F, ∀ fuel, F ≤ fuel → ∃ rb rf rd : PathResult,
      bfs fuel open3 = .ok rb ∧ dfs fuel open3 = .ok rf ∧
      dijkstra posLex fuel open3 = .ok rd ∧
      rb.found = true ∧ rf.found = true ∧ rd.found = true ∧
      RouteMarked adj4 open3 rb ∧ RouteMarked adj4 open3 rf ∧ RouteMarked adj8 open3 rd ∧
      routeCost specWeight rd.route ≤ routeCost (fun _ => 10) rb.route ∧
      routeCost specWeight rd.route ≤ routeCost (fun _ => 10) rf.route) ∧
    routeOf (bfs 100 open3) = some [(0, 0), (1, 0), (2, 0), (2, 1), (2, 2)] ∧
    routeOf (dfs 100 open3) = some [(0, 0), (0, 1), (0, 2), (1, 2), (2, 2)] ∧
    routeOf (dijkstra posLex 100 open3) = some [(0, 0), (0, 1), (0, 2), (1, 2), (2, 2)] ∧
    routeCost specWeight [(0, 0), (0, 1), (0, 2), (1, 2), (2, 2)] = 40 ∧
    routeCost (fun _ => 10) [(0, 0), (1, 0), (2, 0), (2, 1), (2, 2)] = 40 := by
  refine ⟨?_, by decide!, by decide!, by decide!, by decide, by decide⟩
  obtain ⟨F, h⟩ :=
    dijkstra_weight_le_bfs_dfs posLex open3 open3_wellFormed.start (by decide)
  refine ⟨F, fun fuel hfuel => ?_⟩
  obtain ⟨rb, rf, rd, _, _, _, _, _, _, hrb, hrf, hrd, hib, hif, _, kb, kf⟩ := h fuel hfuel
  have fb : rb.found = true := hib.mpr ⟨_, open3_orthPath⟩
  have ff : rf.found = true := hif.mpr ⟨_, open3_orthPath⟩
  obtain ⟨b1, b2, b3, b4, _⟩ := kb fb
  obtain ⟨f1, _, _, f4, _⟩ := kf ff
  exact ⟨rb, rf, rd, hrb, hrf, hrd, fb, ff, b2, b1, f1, b3, b4, f4⟩

/-- C9: on a grid whose Start cell lies on the grid and is not an Obstacle, each of
`bfs`, `dfs` and `dijkstra` (the last on a grid small enough for its `int` distances)
returns, so the walk along the parent pointers ends at Start and indexes no vector out
of range.  The flag `found` is the one the search loop returns, true only when End was
taken from the frontier, and it is true exactly when End is reachable under the move set
of the search.  When it is true, the cells the walk went through form a route from Start
to End without repeated cell, whose consecutive cells are adjacent (orthogonally for
`bfs` and `dfs`, as eight-neighbours for `dijkstra`) and lie on the grid, none of them an
Obstacle and none the unset parent `(-1,-1)`; the cells newly marked Path are exactly
the cells of the route other than Start and End, and Start and End keep their values.
When it is false, the grid is the one the loop left, with no walk. -/
theorem path_marks_are_route_interior (posLt : Pos → Pos → Bool) (w : World)
    (hs : passable w w.startPoint) :
    (∃ F, ∀ fuel, F ≤ fuel → ∃ (found : Bool) (s1 : Search) (r : PathResult),
      bfsLoop w.gridSize w.startPoint w.endPoint fuel
        { grid := w.grid, visited := upd (fun _ => false) w.startPoint true,
          parent := fun _ => (-1, -1), frontier := [w.startPoint] } = .ok (found, s1) ∧
      bfs fuel w = .ok r ∧ r.found = found ∧
      (found = true ↔ ∃ l, OrthPath w l) ∧
      (found = true → RouteMarked adj4 w r ∧ (-1, -1) ∉ r.route) ∧
      (found = false → r.grid = s1.grid ∧ r.route = []) ∧
      r.grid w.startPoint = w.grid w.startPoint ∧ r.grid w.endPoint = w.grid w.endPoint) ∧
    (∃ F, ∀ fuel, F ≤ fuel → ∃ (found : Bool) (s1 : Search) (r : PathResult),
      dfsLoop w.gridSize w.startPoint w.endPoint fuel
        { grid := w.grid, visited := fun _ => false,
          parent := fun _ => (-1, -1), frontier := [w.startPoint] } = .ok (found, s1) ∧
      dfs fuel w = .ok r ∧ r.found = found ∧
      (found = true ↔ ∃ l, OrthPath w l) ∧
      (found = true → RouteMarked adj4 w r ∧ (-1, -1) ∉ r.route) ∧
      (found = false → r.grid = s1.grid ∧ r.route = []) ∧
      r.grid w.startPoint = w.grid w.startPoint ∧ r.grid w.endPoint = w.grid w.endPoint) ∧
    (14 * (w.gridSize * w.gridSize) ≤ 2147483647 →
      ∃ F, ∀ fuel, F ≤ fuel → ∃ (found : Bool) (s1 : DState) (r : PathResult),
        dijkstraLoop posLt w.gridSize w.startPoint w.endPoint fuel
          { grid := w.grid, distance := upd (fun _ => (2147483647 : Int)) w.startPoint 0,
            parent := fun _ => (-1, -1), pq := [(0, w.startPoint)] } = .ok (found, s1) ∧
        dijkstra posLt fuel w = .ok r ∧ r.found = found ∧
        (found = true ↔ ∃ l, Path8 w l) ∧
        (found = true → RouteMarked adj8 w r ∧ (-1, -1) ∉ r.route) ∧
        (found = false → r.grid = s1.grid ∧ r.route = []) ∧
        r.grid w.startPoint = w.grid w.startPoint ∧
        r.grid w.endPoint = w.grid w.endPoint) := by
  have hmark : ∀ (adj : Pos → Pos → Prop) (r : PathResult), GoodResult adj w r →
      r.found = true → RouteMarked adj w r ∧ (-1, -1) ∉ r.route := by
    intro adj r hg hf
    have hm := routeMarked_of_good hg hf
    refine ⟨hm, fun hin => ?_⟩
    have := (hm.2.2.2.2.1 _ hin).1
    simp [inBounds] at this
  have hframe : ∀ (adj : Pos → Pos → Prop) (r : PathResult), GoodResult adj w r →
      r.grid w.startPoint = w.grid w.startPoint ∧ r.grid w.endPoint = w.grid w.endPoint := by
    intro adj r hg
    constructor
    · by_contra hne
      exact (hg.1 _ hne).2.1 rfl
    · by_contra hne
      exact (hg.1 _ hne).2.2.1 rfl
  refine ⟨?_, ?_, fun hsize => ?_⟩
  · obtain ⟨F, h⟩ := bfs_complete w hs
    refine ⟨F, fun fuel hfuel => ?_⟩
    obtain ⟨r, hr, hg, hi⟩ := h fuel hfuel
    obtain ⟨s1, hl, _, hno⟩ := bfs_loop_of_ok hr
    exact ⟨r.found, s1, r, hl, hr, rfl, hi, hmark _ r hg, hno, hframe _ r hg⟩
  · obtain ⟨F, h⟩ := dfs_complete w hs
    refine ⟨F, fun fuel hfuel => ?_⟩
    obtain ⟨r, hr, hg, hi⟩ := h fuel hfuel
    obtain ⟨s1, hl, _, hno⟩ := dfs_loop_of_ok hr
    exact ⟨r.found, s1, r, hl, hr, rfl, hi, hmark _ r hg, hno, hframe _ r hg⟩
  · obtain ⟨F, h⟩ := dijkstra_distance posLt w hs (fits_of_gridSize w hsize)
    refine ⟨F, fun fuel hfuel => ?_⟩
    obtain ⟨r, s0, _, hr, hg, hi, _⟩ := h fuel hfuel
    obtain ⟨s1, hl, _, hno⟩ := dijkstra_loop_of_ok hr
    exact ⟨r.found, s1, r, hl, hr, rfl, hi, hmark _ r hg, hno, hframe _ r hg⟩

/-- Witness for C9: on the obstacle-free 3x3 grid, whose Start (0,0) is a free cell, each
search finds End, and the Path marks (3) lie on the three interior cells of its route. -/
theorem path_marks_are_route_interior_witness :
    (∃ F, ∀ fuel, F ≤ fuel → ∃ r, bfs fuel open3 = .ok r ∧ r.found = true ∧
      RouteMarked adj4 open3 r) ∧
    (∃ F, ∀ fuel, F ≤ fuel → ∃ r, dfs fuel open3 = .ok r ∧ r.found = true ∧
      RouteMarked adj4 open3 r) ∧
    (∃ F, ∀ fuel, F ≤ fuel → ∃ r, dijkstra posLex fuel open3 = .ok r ∧ r.found = true ∧
      RouteMarked adj8 open3 r) ∧
    marksOf 3 (bfs 100 open3) = some (true, [[0, 2, 2], [3, 2, 2], [3, 3, 0]]) ∧
    routeOf (bfs 100 open3) = some [(0, 0), (1, 0), (2, 0), (2, 1), (2, 2)] ∧
    marksOf 3 (dfs 100 open3) = some (true, [[0, 3, 3], [0, 0, 3], [0, 0, 0]]) ∧
    routeOf (dfs 100 open3) = some [(0, 0), (0, 1), (0, 2), (1, 2), (2, 2)] ∧
    marksOf 3 (dijkstra posLex 100 open3) = some (true, [[0, 3, 3], [2, 2, 3], [2, 2, 0]]) ∧
    routeOf (dijkstra posLex 100 open3) = some [(0, 0), (0, 1), (0, 2), (1, 2), (2, 2)] := by
  obtain ⟨⟨F1, h1⟩, ⟨F2, h2⟩, h3⟩ :=
    path_marks_are_route_interior posLex open3 open3_wellFormed.start
  obtain ⟨F3, h3⟩ := h3 (by decide)
  refine ⟨⟨F1, fun fuel hfuel => ?_⟩, ⟨F2, fun fuel hfuel => ?_⟩,
    ⟨F3, fun fuel hfuel => ?_⟩, by decide!, by decide!, by decide!, by decide!, by decide!,
    by decide!⟩
  · obtain ⟨found, s1, r, _, hr, hf, hi, hm, _⟩ := h1 fuel hfuel
    have hft : found = true := hi.mpr ⟨_, open3_orthPath⟩
    exact ⟨r, hr, hf.trans hft, (hm hft).1⟩
  · obtain ⟨found, s1, r, _, hr, hf, hi, hm, _⟩ := h2 fuel hfuel
    have hft : found = true := hi.mpr ⟨_, open3_orthPath⟩
    exact ⟨r, hr, hf.trans hft, (hm hft).1⟩
  · obtain ⟨found, s1, r, _, hr, hf, hi, hm, _⟩ := h3 fuel hfuel
    have hft : found = true := hi.mpr ⟨_, open3_path8⟩
    exact ⟨r, hr, hf.trans hft, (hm hft).1⟩

/-- C11: on a grid whose Start lies on the grid and is not an Obstacle, and on which End
cannot be reached from Start over cells that are not Obstacles (by orthogonal moves for
`bfs` and `dfs`, by eight-neighbour moves for `dijkstra`), the search returns with
`foundPath` false and marks no cell Path: a cell that is Path afterwards was Path before.
The loops leave with `foundPath` false only when the queue, stack or priority queue is
empty.  For `dijkstra` the grid is small enough for its `int` distances. -/
theorem unreachable_end_exhausts_frontier (posLt : Pos → Pos → Bool) (w : World)
    (hs : passable w w.startPoint) :
    ((¬ ∃ l, OrthPath w l) →
      (∃ F, ∀ fuel, F ≤ fuel → ∃ r, bfs fuel w = .ok r ∧ r.found = false ∧
        ∀ p, r.grid p = 3 → w.grid p = 3) ∧
      (∃ F, ∀ fuel, F ≤ fuel → ∃ r, dfs fuel w = .ok r ∧ r.found = false ∧
        ∀ p, r.grid p = 3 → w.grid p = 3)) ∧
    ((¬ ∃ l, Path8 w l) → 14 * (w.gridSize * w.gridSize) ≤ 2147483647 →
      ∃ F, ∀ fuel, F ≤ fuel → ∃ r, dijkstra posLt fuel w = .ok r ∧ r.found = false ∧
        ∀ p, r.grid p = 3 → w.grid p = 3) ∧
    (∀ fuel s s1, bfsLoop w.gridSize w.startPoint w.endPoint fuel s = .ok (false, s1) →
      s1.frontier = []) ∧
    (∀ fuel s s1, dfsLoop w.gridSize w.startPoint w.endPoint fuel s = .ok (false, s1) →
      s1.frontier = []) ∧
    (∀ fuel s s1,
      dijkstraLoop posLt w.gridSize w.startPoint w.endPoint fuel s = .ok (false, s1) →
      s1.pq = []) := by
  refine ⟨fun hno => ⟨?_, ?_⟩, fun hno hsize => ?_, bfsLoop_false_empty _ _ _,
    dfsLoop_false_empty _ _ _, dijkstraLoop_false_empty _ _ _ _⟩
  · obtain ⟨F, h⟩ := bfs_walled w hs hno
    refine ⟨F, fun fuel hfuel => ?_⟩
    obtain ⟨r, hr, hf, _, h3, _⟩ := h fuel hfuel
    exact ⟨r, hr, hf, h3⟩
  · obtain ⟨F, h⟩ := dfs_walled w hs hno
    refine ⟨F, fun fuel hfuel => ?_⟩
    obtain ⟨r, hr, hf, _, h3, _⟩ := h fuel hfuel
    exact ⟨r, hr, hf, h3⟩
  · obtain ⟨F, h⟩ := dijkstra_walled posLt w hs (fits_of_gridSize w hsize) hno
    refine ⟨F, fun fuel hfuel => ?_⟩
    obtain ⟨r, hr, hf, _, h3, _⟩ := h fuel hfuel
    exact ⟨r, hr, hf, h3⟩

/-- Witness for C11: the 3x3 grid whose Start is enclosed by Obstacles. -/
theorem unreachable_end_exhausts_frontier_witness :
    (∃ F, ∀ fuel, F ≤ fuel → ∃ r, bfs fuel enclosed3 = .ok r ∧ r.found = false ∧
      ∀ p, r.grid p = 3 → enclosed3.grid p = 3) ∧
    (∃ F, ∀ fuel, F ≤ fuel → ∃ r, dfs fuel enclosed3 = .ok r ∧ r.found = false ∧
      ∀ p, r.grid p = 3 → enclosed3.grid p = 3) ∧
    (∃ F, ∀ fuel, F ≤ fuel → ∃ r, dijkstra posLex fuel enclosed3 = .ok r ∧
      r.found = false ∧ ∀ p, r.grid p = 3 → enclosed3.grid p = 3) :=
  have hs : passable enclosed3 enclosed3.startPoint := ⟨by decide, by decide⟩
  have hno4 : ¬ ∃ l, OrthPath enclosed3 l :=
    fun ⟨l, hl⟩ => enclosed3_no_path ⟨l, path8_of_orthPath hl⟩
  ⟨((unreachable_end_exhausts_frontier posLex enclosed3 hs).1 hno4).1,
    ((unreachable_end_exhausts_frontier posLex enclosed3 hs).1 hno4).2,
    (unreachable_end_exhausts_frontier posLex enclosed3 hs).2.1 enclosed3_no_path
      (by decide)⟩

/-- C12 fails as stated: on the 3x3 grid whose Start `(0,0)` is enclosed by the Obstacles
`(1,0)`, `(0,1)`, `(1,1)`, End `(2,2)` is unreachable and each search returns without a
path, but no cell is marked Visited: the cell values after the run are those before it.
Start itself is never marked. -/
theorem enclosed_start_no_visited_cell :
    (¬ ∃ l, Path8 enclosed3 l) ∧
    marksOf 3 (bfs 100 enclosed3) = some (false, [[0, 1, 0], [1, 1, 0], [0, 0, 0]]) ∧
    marksOf 3 (dfs 100 enclosed3) = some (false, [[0, 1, 0], [1, 1, 0], [0, 0, 0]]) ∧
    marksOf 3 (dijkstra posLex 100 enclosed3) =
      some (false, [[0, 1, 0], [1, 1, 0], [0, 0, 0]]) :=
  ⟨enclosed3_no_path, by decide!, by decide!, by decide!⟩

/-- C12 (amended): on a grid whose Start lies on the grid and is not an Obstacle, and on
which End cannot be reached from Start, each of `bfs`, `dfs` and `dijkstra` returns with
`foundPath` false and marks no cell Path; it marks Visited every neighbour of Start
(under its move set) that lies on the grid and is not an Obstacle, and it leaves the
Start cell as it was.  When Start has no such neighbour, the wall lying directly around
it, the search leaves every cell as it was: no cell is marked Visited. -/
theorem walled_off_end_marks_neighbours (posLt : Pos → Pos → Bool) (w : World)
    (hs : passable w w.startPoint) :
    ((¬ ∃ l, OrthPath w l) →
      (∃ F, ∀ fuel, F ≤ fuel → ∃ r, bfs fuel w = .ok r ∧ r.found = false ∧
        (∀ p, r.grid p = 3 → w.grid p = 3) ∧
        (∀ q, adj4 w.startPoint q → passable w q → r.grid q = 2) ∧
        r.grid w.startPoint = w.grid w.startPoint ∧
        ((∀ q, adj4 w.startPoint q → ¬ passable w q) → r.grid = w.grid)) ∧
      (∃ F, ∀ fuel, F ≤ fuel → ∃ r, dfs fuel w = .ok r ∧ r.found = false ∧
        (∀ p, r.grid p = 3 → w.grid p = 3) ∧
        (∀ q, adj4 w.startPoint q → passable w q → r.grid q = 2) ∧
        r.grid w.startPoint = w.grid w.startPoint ∧
        ((∀ q, adj4 w.startPoint q → ¬ passable w q) → r.grid = w.grid))) ∧
    ((¬ ∃ l, Path8 w l) → 14 * (w.gridSize * w.gridSize) ≤ 2147483647 →
      ∃ F, ∀ fuel, F ≤ fuel → ∃ r, dijkstra posLt fuel w = .ok r ∧ r.found = false ∧
        (∀ p, r.grid p = 3 → w.grid p = 3) ∧
        (∀ q, adj8 w.startPoint q → passable w q → r.grid q = 2) ∧
        r.grid w.startPoint = w.grid w.startPoint ∧
        ((∀ q, adj8 w.startPoint q → ¬ passable w q) → r.grid = w.grid)) := by
  refine ⟨fun hno => ⟨?_, ?_⟩, fun hno hsize => ?_⟩
  · obtain ⟨F, h⟩ := bfs_walled w hs hno
    obtain ⟨G, g⟩ := bfs_good w hs
    refine ⟨max F G, fun fuel hfuel => ?_⟩
    obtain ⟨r, hr, hf, _, h3, h4⟩ := h fuel (le_trans (le_max_left _ _) hfuel)
    obtain ⟨r2, hr2, hg⟩ := g fuel (le_trans (le_max_right _ _) hfuel)
    have he : r2 = r := by
      rw [hr] at hr2
      exact (Run.ok.inj hr2).symm
    subst he
    refine ⟨r2, hr, hf, h3, h4, good_keeps_start hg, fun hiso => ?_⟩
    obtain ⟨s1, hl, _, hno2⟩ := bfs_loop_of_ok hr
    rw [(hno2 hf).1]
    exact bfsLoop_isolated w hiso _ _ _ _ hl rfl
      (fun p hp => List.mem_singleton.mp hp)
  · obtain ⟨F, h⟩ := dfs_walled w hs hno
    obtain ⟨G, g⟩ := dfs_good w hs
    refine ⟨max F G, fun fuel hfuel => ?_⟩
    obtain ⟨r, hr, hf, _, h3, h4⟩ := h fuel (le_trans (le_max_left _ _) hfuel)
    obtain ⟨r2, hr2, hg⟩ := g fuel (le_trans (le_max_right _ _) hfuel)
    have he : r2 = r := by
      rw [hr] at hr2
      exact (Run.ok.inj hr2).symm
    subst he
    refine ⟨r2, hr, hf, h3, h4, good_keeps_start hg, fun hiso => ?_⟩
    obtain ⟨s1, hl, _, hno2⟩ := dfs_loop_of_ok hr
    rw [(hno2 hf).1]
    exact dfsLoop_isolated w hiso _ _ _ _ hl rfl
      (fun p hp => List.mem_singleton.mp hp)
  · obtain ⟨F, h⟩ := dijkstra_walled posLt w hs (fits_of_gridSize w hsize) hno
    obtain ⟨G, g⟩ := dijkstra_good posLt w hs (fits_of_gridSize w hsize)
    refine ⟨max F G, fun fuel hfuel => ?_⟩
    obtain ⟨r, hr, hf, _, h3, h4⟩ := h fuel (le_trans (le_max_left _ _) hfuel)
    obtain ⟨r2, hr2, hg⟩ := g fuel (le_trans (le_max_right _ _) hfuel)
    have he : r2 = r := by
      rw [hr] at hr2
      exact (Run.ok.inj hr2).symm
    subst he
    refine ⟨r2, hr, hf, h3, h4, good_keeps_start hg, fun hiso => ?_⟩
    obtain ⟨s1, hl, _, hno2⟩ := dijkstra_loop_of_ok hr
    rw [(hno2 hf).1]
    refine dijkstraLoop_isolated posLt w hiso _ _ _ _ hl rfl (fun e he => ?_)
    rw [List.mem_singleton.mp he]

/-- Witness for C12 (amended): on the 3x3 grid with the wall `x = 1` the neighbour `(0,1)`
of Start is free and is marked Visited by each search, and Start keeps its value; on
the 3x3 grid whose Start is enclosed each search leaves every cell as it was. -/
theorem walled_off_end_marks_neighbours_witness :
    (∃ F, ∀ fuel, F ≤ fuel → ∃ r, bfs fuel walled3 = .ok r ∧ r.found = false ∧
      (∀ p, r.grid p = 3 → walled3.grid p = 3) ∧ r.grid (0, 1) = 2 ∧ r.grid (0, 0) = 0) ∧
    (∃ F, ∀ fuel, F ≤ fuel → ∃ r, dfs fuel walled3 = .ok r ∧ r.found = false ∧
      (∀ p, r.grid p = 3 → walled3.grid p = 3) ∧ r.grid (0, 1) = 2 ∧ r.grid (0, 0) = 0) ∧
    (∃ F, ∀ fuel, F ≤ fuel → ∃ r, dijkstra posLex fuel walled3 = .ok r ∧
      r.found = false ∧
      (∀ p, r.grid p = 3 → walled3.grid p = 3) ∧ r.grid (0, 1) = 2 ∧ r.grid (0, 0) = 0) ∧
    (∃ F, ∀ fuel, F ≤ fuel → ∃ r, bfs fuel enclosed3 = .ok r ∧ r.found = false ∧
      r.grid = enclosed3.grid) ∧
    (∃ F, ∀ fuel, F ≤ fuel → ∃ r, dfs fuel enclosed3 = .ok r ∧ r.found = false ∧
      r.grid = enclosed3.grid) ∧
    (∃ F, ∀ fuel, F ≤ fuel → ∃ r, dijkstra posLex fuel enclosed3 = .ok r ∧
      r.found = false ∧ r.grid = enclosed3.grid) ∧
    marksOf 3 (bfs 100 walled3) = some (false, [[0, 2, 2], [1, 1, 1], [0, 0, 0]]) ∧
    marksOf 3 (dijkstra posLex 100 walled3) =
      some (false, [[0, 2, 2], [1, 1, 1], [0, 0, 0]]) := by
  have hs : passable walled3 walled3.startPoint := ⟨by decide, by decide⟩
  have hno4 : ¬ ∃ l, OrthPath walled3 l :=
    fun ⟨l, hl⟩ => walled3_no_path ⟨l, path8_of_orthPath hl⟩
  have hn : adj4 walled3.startPoint (0, 1) := ⟨(0, 1), by simp [directions4], rfl⟩
  have hp : passable walled3 (0, 1) := ⟨by decide, by decide⟩
  have hse : passable enclosed3 enclosed3.startPoint := ⟨by decide, by decide⟩
  have hnoe : ¬ ∃ l, OrthPath enclosed3 l :=
    fun ⟨l, hl⟩ => enclosed3_no_path ⟨l, path8_of_orthPath hl⟩
  have hiso4 : ∀ q, adj4 enclosed3.startPoint q → ¬ passable enclosed3 q :=
    fun q hq => enclosed3_isolated q (adj4_adj8 hq)
  obtain ⟨h4, h8⟩ := walled_off_end_marks_neighbours posLex walled3 hs
  obtain ⟨⟨F1, k1⟩, ⟨F2, k2⟩⟩ := h4 hno4
  obtain ⟨F3, k3⟩ := h8 walled3_no_path (by decide)
  obtain ⟨e4, e8⟩ := walled_off_end_marks_neighbours posLex enclosed3 hse
  obtain ⟨⟨G1, j1⟩, ⟨G2, j2⟩⟩ := e4 hnoe
  obtain ⟨G3, j3⟩ := e8 enclosed3_no_path (by decide)
  refine ⟨⟨F1, fun fuel hfuel => ?_⟩, ⟨F2, fun fuel hfuel => ?_⟩,
    ⟨F3, fun fuel hfuel => ?_⟩, ⟨G1, fun fuel hfuel => ?_⟩, ⟨G2, fun fuel hfuel => ?_⟩,
    ⟨G3, fun fuel hfuel => ?_⟩, by decide!, by decide!⟩
  · obtain ⟨r, hr, hf, a, b, c, _⟩ := k1 fuel hfuel
    exact ⟨r, hr, hf, a, b _ hn hp, c⟩
  · obtain ⟨r, hr, hf, a, b, c, _⟩ := k2 fuel hfuel
    exact ⟨r, hr, hf, a, b _ hn hp, c⟩
  · obtain ⟨r, hr, hf, a, b, c, _⟩ := k3 fuel hfuel
    exact ⟨r, hr, hf, a, b _ (adj4_adj8 hn) hp, c⟩
  · obtain ⟨r, hr, hf, _, _, _, d⟩ := j1 fuel hfuel
    exact ⟨r, hr, hf, d hiso4⟩
  · obtain ⟨r, hr, hf, _, _, _, d⟩ := j2 fuel hfuel
    exact ⟨r, hr, hf, d hiso4⟩
  · obtain ⟨r, hr, hf, _, _, _, d⟩ := j3 fuel hfuel
    exact ⟨r, hr, hf, d enclosed3_isolated⟩

/-- C13: a sorting routine that is started in a running, unpaused state and finds only
TogglePause commands at its calls of `handleEvents` goes on, after each pause, with the
next step of the uninterrupted run.  For each of the five routines and every such
schedule `polls`: whenever the run under `polls` returns, the uninterrupted run returns
too, both end in the same state, both have executed the same swaps in the same order,
and the log of `data` at the calls of `handleEvents` of the run under `polls` is the log
of the uninterrupted run with each entry repeated once for every call made while the run
was paused at that step (`SameSteps`): no step is made twice and none is left out.  When
the schedule holds an even number of TogglePause commands, so that every pause is
followed by a resume, the run under `polls` does return, on every array of at most
`2^31 - 1` elements (for `bubbleSort`, with at least one element), and its final array is
the array `out` of the uninterrupted routine. -/
theorem pause_resume_same_steps (v : Visualizer) (polls : List (List Event))
    (draws : Nat → Nat) (hw : v.windowOpen = true) (hr : v.isRunning = true)
    (hnp : v.isPaused = false) (hp : PauseOnly polls) :
    (ResumesInStep bubbleSortLive v polls draws ∧
      ResumesInStep insertionSortLive v polls draws ∧
      ResumesInStep selectionSortLive v polls draws ∧
      ResumesInStep quickSortRunLive v polls draws ∧
      ResumesInStep mergeSortRunLive v polls draws) ∧
    (toggles polls % 2 = 0 → v.data.length ≤ 2147483647 →
      (0 < v.data.length → SameResult bubbleSort bubbleSortLive v polls draws) ∧
      SameResult insertionSort insertionSortLive v polls draws ∧
      SameResult selectionSort selectionSortLive v polls draws ∧
      SameResult quickSortRun quickSortRunLive v polls draws ∧
      SameResult mergeSortRun mergeSortRunLive v polls draws) := by
  have tw := twin_start v polls draws hw hr hnp hp
  have a1 : ResumesInStep bubbleSortLive v polls draws := fun fuel s1 h => by
    obtain ⟨q1, g1, t1⟩ := bubbleSortLive_twin polls fuel _ _ s1 tw h
    exact ⟨q1, g1, twin_sameSteps t1⟩
  have a2 : ResumesInStep insertionSortLive v polls draws := fun fuel s1 h => by
    obtain ⟨q1, g1, t1⟩ := insertionSortLive_twin polls fuel _ _ s1 tw h
    exact ⟨q1, g1, twin_sameSteps t1⟩
  have a3 : ResumesInStep selectionSortLive v polls draws := fun fuel s1 h => by
    obtain ⟨q1, g1, t1⟩ := selectionSortLive_twin polls fuel _ _ s1 tw h
    exact ⟨q1, g1, twin_sameSteps t1⟩
  have a4 : ResumesInStep quickSortRunLive v polls draws := fun fuel s1 h => by
    obtain ⟨q1, g1, t1⟩ := quickSortRunLive_twin polls fuel _ _ s1 tw h
    exact ⟨q1, g1, twin_sameSteps t1⟩
  have a5 : ResumesInStep mergeSortRunLive v polls draws := fun fuel s1 h => by
    obtain ⟨q1, g1, t1⟩ := mergeSortRunLive_twin polls fuel _ _ s1 tw h
    exact ⟨q1, g1, twin_sameSteps t1⟩
  refine ⟨⟨a1, a2, a3, a4, a5⟩, fun he hn => ?_⟩
  have tr : Tracks AnyLog v (startRun v polls draws) v.data :=
    tracks_start AnyLog v polls draws hw hr hnp hp he trivial
  refine ⟨fun h0 => ?_, ?_, ?_, ?_, ?_⟩
  · obtain ⟨out, ho, _⟩ := bubbleSort_sorts v.data h0 (by omega)
    exact sameResult_of_sim _ _ v polls draws 18446744073709551616 out ho
      (fun fuel hfuel => bubbleSortLive_sim AnyLog v
        (fun _ _ _ _ _ _ _ _ _ _ _ _ => trivial) fuel hfuel _ _ _ tr ho) a1
  · obtain ⟨out, ho, _⟩ := insertionSort_sorts v.data hn
    exact sameResult_of_sim _ _ v polls draws 18446744073709551616 out ho
      (fun fuel hfuel => insertionSortLive_sim v fuel hfuel _ _ _ tr ho) a2
  · obtain ⟨out, ho, _⟩ := selectionSort_sorts v.data (by omega)
    exact sameResult_of_sim _ _ v polls draws 18446744073709551616 out ho
      (fun fuel hfuel => selectionSortLive_sim AnyLog v
        (fun _ _ _ _ _ _ _ _ _ _ => trivial) fuel hfuel _ _ _ tr ho) a3
  · obtain ⟨out, ho, _⟩ := quickSortRun_sorts v.data hn
    exact sameResult_of_sim _ _ v polls draws (max 2147483648 v.data.length) out ho
      (fun fuel hfuel => quickSortRunLive_sim v _ _ _ tr ho fuel
        (le_trans (le_max_left _ _) hfuel) (le_trans (le_max_right _ _) hfuel)) a4
  · obtain ⟨out, ho, _⟩ := mergeSortRun_sorts v.data hn
    exact sameResult_of_sim _ _ v polls draws (max 2147483649 v.data.length) out ho
      (fun fuel hfuel => mergeSortRunLive_sim v _ _ _ tr ho fuel
        (le_trans (le_max_left _ _) hfuel) (le_trans (le_max_right _ _) hfuel)) a5

/-- Witness for C13: `bubbleSort` on `[5,3,8,1,9,2]` with a pause at the first call of
`handleEvents` that is resumed two calls later yields `[1,2,3,5,8,9]` by the steps of the
uninterrupted run.  On `[3,1,2]`, paused at the first call and resumed at the next, the
log has the entry of the first step twice; with a TogglePause that waits in a fourth
list, which the run never polls, the log is that of the uninterrupted run. -/
theorem pause_resume_same_steps_witness :
    (∃ F, ∀ fuel, F ≤ fuel → ∃ s0 s1,
      bubbleSortLive fuel (startRun (sortingState [5, 3, 8, 1, 9, 2]) [] (fun _ => 0)) =
        .ok s0 ∧
      bubbleSortLive fuel (startRun (sortingState [5, 3, 8, 1, 9, 2])
        [[.KeyPressed .Space], [], [.KeyPressed .Space]] (fun _ => 0)) = .ok s1 ∧
      s0.v = { sortingState [5, 3, 8, 1, 9, 2] with data := [1, 2, 3, 5, 8, 9] } ∧
      SameSteps [[.KeyPressed .Space], [], [.KeyPressed .Space]] s0 s1) ∧
    pollLog (bubbleSortLive 10 (startSort [3, 1, 2] [] (fun _ => 0))) =
      some ([1, 2, 3], [[1, 2, 3], [1, 2, 3], [1, 3, 2]]) ∧
    pollLog (bubbleSortLive 10 (startSort [3, 1, 2]
      [[.KeyPressed .Space], [.KeyPressed .Space]] (fun _ => 0))) =
      some ([1, 2, 3], [[1, 2, 3], [1, 2, 3], [1, 3, 2], [1, 3, 2]]) ∧
    pausedLog [[.KeyPressed .Space], [.KeyPressed .Space]]
      [[1, 3, 2], [1, 2, 3], [1, 2, 3]] = [[1, 3, 2], [1, 3, 2], [1, 2, 3], [1, 2, 3]] ∧
    pollLog (bubbleSortLive 10 (startSort [3, 1, 2]
      [[], [], [], [.KeyPressed .Space]] (fun _ => 0))) =
      some ([1, 2, 3], [[1, 2, 3], [1, 2, 3], [1, 3, 2]]) := by
  refine ⟨?_, by decide!, by decide!, by decide, by decide!⟩
  obtain ⟨F, h⟩ := ((pause_resume_same_steps (sortingState [5, 3, 8, 1, 9, 2])
    [[.KeyPressed .Space], [], [.KeyPressed .Space]] (fun _ => 0) rfl rfl rfl
    (by
      intro p hp e he
      simp only [List.mem_cons, List.mem_singleton, List.mem_nil_iff, or_false] at hp
      rcases hp with h | h | h <;> subst h <;> simp at he <;> exact he)).2
    (by decide) (by decide)).1 (by decide)
  refine ⟨F, fun fuel hfuel => ?_⟩
  obtain ⟨out, s0, s1, ho, h0, h1, hv, hst⟩ := h fuel hfuel
  have e : bubbleSort [5, 3, 8, 1, 9, 2] = .ok [1, 2, 3, 5, 8, 9] := by decide
  have ho2 : bubbleSort [5, 3, 8, 1, 9, 2] = .ok out := ho
  rw [e] at ho2
  have hout : out = [1, 2, 3, 5, 8, 9] := (Run.ok.inj ho2).symm
  rw [hout] at hv
  exact ⟨s0, s1, h0, h1, hv, hst⟩

/-- C14: a Reset does not end the interrupted routine.  `bubbleSort` runs on `[1,2,3]`;
its first call of `handleEvents` finds the key R, which replaces the array by the fresh
values `[30,20,10]` and pauses; the loop that waits inside `bubbleSort` then finds the
Space key and the routine goes on with its old loop indices: it swaps twice in the fresh
array and leaves `[10,30,20]`. -/
theorem reset_leaves_routine_running :
    (generateRandomData (sortingState [1, 2, 3]) (fun i => [20, 10, 0].getD i 0)).1.data =
      [30, 20, 10] ∧
    outcome (bubbleSortLive 10 (startSort [1, 2, 3]
      [[.KeyPressed .R], [.KeyPressed .Space]] (fun i => [20, 10, 0].getD i 0))) =
      some ([10, 30, 20], [[10, 30, 20], [30, 10, 20]]) := by
  refine ⟨by decide, by decide!⟩

/-- C15: `mergeSort` is stable.  The array `S` is run with every element tagged by its
original position (`tagged S`), the test `leftArray[i] <= rightArray[j]` of `merge` reading
the values only.  The call `mergeSort(0, n - 1)` returns; its result is a permutation of
the tagged input in which any two elements of equal value stand in the order of their
tags, that is in the same relative order as in the input; the values of the result are
the result of the untagged `mergeSortRun S`; and for `n ≤ 2^31 - 1` they are
non-decreasing. -/
theorem mergeSort_stable (S : List Int) (h : S.length < 18446744073709551616) :
    ∃ out, mergeSortRunT (tagged S) = .ok out ∧ out.Perm (tagged S) ∧
      out.Pairwise (fun a b => a.1 = b.1 → a.2 < b.2) ∧
      mergeSortRun S = .ok (out.map Prod.fst) ∧
      (S.length ≤ 2147483647 → out.Pairwise (fun a b => a.1 ≤ b.1)) :=
  mergeSortRunT_stable S h

/-- Witness for C15 on an array with two pairs of equal values. -/
theorem mergeSort_stable_witness :
    ([2, 1, 2, 1] : List Int).length < 18446744073709551616 ∧
      ∃ out, mergeSortRunT (tagged [2, 1, 2, 1]) = .ok out ∧ out.Perm (tagged [2, 1, 2, 1]) ∧
        out.Pairwise (fun a b => a.1 = b.1 → a.2 < b.2) ∧
        mergeSortRun [2, 1, 2, 1] = .ok (out.map Prod.fst) ∧
        (([2, 1, 2, 1] : List Int).length ≤ 2147483647 →
          out.Pairwise (fun a b => a.1 ≤ b.1)) :=
  ⟨by decide, mergeSort_stable [2, 1, 2, 1] (by decide)⟩

/-- C16: for every already-sorted array with at least one element (`data` always holds
`arraySize = 100` elements), an uninterrupted `bubbleSort` and an uninterrupted
`selectionSort` return without a single `std::swap`: the log of swaps is empty, the state
is as it was, and `data` was the input at every call of `handleEvents`. -/
theorem sorted_input_no_swap (v : Visualizer) (draws : Nat → Nat)
    (hw : v.windowOpen = true) (hr : v.isRunning = true) (hnp : v.isPaused = false)
    (hs : v.data.Sorted (· ≤ ·)) (h0 : 0 < v.data.length)
    (hn : v.data.length < 18446744073709551616) :
    (∃ F, ∀ fuel, F ≤ fuel → ∃ s1, bubbleSortLive fuel (startRun v [] draws) = .ok s1 ∧
      s1.v = v ∧ s1.swaps = [] ∧ ∀ t ∈ s1.seen, t = v.data) ∧
    (∃ F, ∀ fuel, F ≤ fuel → ∃ s1, selectionSortLive fuel (startRun v [] draws) = .ok s1 ∧
      s1.v = v ∧ s1.swaps = [] ∧ ∀ t ∈ s1.seen, t = v.data) := by
  constructor
  · obtain ⟨F, hF⟩ := bubbleSortLive_sorted v draws hw hr hnp hs h0 hn
    refine ⟨F, fun fuel hfuel => ?_⟩
    obtain ⟨s1, g1, g2, g3⟩ := hF fuel hfuel
    obtain ⟨_, _, k⟩ := bubbleSortLive_swapsOnly v.data fuel _ s1 (swapsOnly_start v draws) g1
    refine ⟨s1, g1, g2, g3, fun t ht => ?_⟩
    rcases k t ht with e | e
    · exact e
    · rw [g3] at e; exact absurd e (List.not_mem_nil _)
  · obtain ⟨F, hF⟩ := selectionSortLive_sorted v draws hw hr hnp hs hn
    refine ⟨F, fun fuel hfuel => ?_⟩
    obtain ⟨s1, g1, g2, g3⟩ := hF fuel hfuel
    obtain ⟨_, _, k⟩ :=
      selectionSortLive_swapsOnly v.data fuel _ s1 (swapsOnly_start v draws) g1
    refine ⟨s1, g1, g2, g3, fun t ht => ?_⟩
    rcases k t ht with e | e
    · exact e
    · rw [g3] at e; exact absurd e (List.not_mem_nil _)

/-- Witness for C16: the sorted array `[1,2,2]`; each routine makes three calls of
`handleEvents` and no swap. -/
theorem sorted_input_no_swap_witness :
    ((∃ F, ∀ fuel, F ≤ fuel →
        ∃ s1, bubbleSortLive fuel (startRun (sortingState [1, 2, 2]) [] (fun _ => 0)) =
          .ok s1 ∧ s1.v = sortingState [1, 2, 2] ∧ s1.swaps = [] ∧
          ∀ t ∈ s1.seen, t = (sortingState [1, 2, 2]).data) ∧
      (∃ F, ∀ fuel, F ≤ fuel →
        ∃ s1, selectionSortLive fuel (startRun (sortingState [1, 2, 2]) [] (fun _ => 0)) =
          .ok s1 ∧ s1.v = sortingState [1, 2, 2] ∧ s1.swaps = [] ∧
          ∀ t ∈ s1.seen, t = (sortingState [1, 2, 2]).data)) ∧
    pollLog (bubbleSortLive 10 (startRun (sortingState [1, 2, 2]) [] (fun _ => 0))) =
      some ([1, 2, 2], [[1, 2, 2], [1, 2, 2], [1, 2, 2]]) ∧
    outcome (bubbleSortLive 10 (startRun (sortingState [1, 2, 2]) [] (fun _ => 0))) =
      some ([1, 2, 2], []) :=
  ⟨sorted_input_no_swap (sortingState [1, 2, 2]) (fun _ => 0) rfl rfl rfl
    (by simp [sortingState]) (by simp [sortingState]) (by simp [sortingState]),
    by decide!, by decide!⟩

/-- C17 fails as stated: on the sorted array `[1,2,3]` the uninterrupted call
`quickSort(0, 2)` executes five `std::swap` calls (in each partition loop one for every
element below the pivot, and the pivot placement after each loop); each exchanges an
element with itself, so `data` is `[1,2,3]` after every one of them. -/
theorem quickSort_sorted_input_swaps :
    outcome (quickSortRunLive 10 (startSort [1, 2, 3] [] (fun _ => 0))) =
      some ([1, 2, 3], [[1, 2, 3], [1, 2, 3], [1, 2, 3], [1, 2, 3], [1, 2, 3]]) := by
  decide!

/-- C17 (amended): for every already-sorted array `S` of `n ≤ 2^31 - 1` elements the
uninterrupted call `quickSort(0, n - 1)` returns with `data` equal to `S`; `data` equals
`S` after every `std::swap` call it executes (each call exchanges equal values), and for
`n ≤ 1` it executes none. -/
theorem quickSort_sorted_swaps_keep_data (v : Visualizer) (draws : Nat → Nat)
    (hw : v.windowOpen = true) (hr : v.isRunning = true) (hnp : v.isPaused = false)
    (hs : v.data.Sorted (· ≤ ·)) (hn : v.data.length ≤ 2147483647) :
    ∃ F, ∀ fuel, F ≤ fuel →
      ∃ s1, quickSortRunLive fuel (startRun v [] draws) = .ok s1 ∧ s1.v = v ∧
        (∀ t ∈ s1.swaps, t = v.data) ∧ (v.data.length ≤ 1 → s1.swaps = []) :=
  ⟨2147483648, fun fuel hfuel => quickSortRunLive_sorted v draws hw hr hnp hs hn fuel hfuel⟩

/-- Witness for C17 on the sorted array `[1,1,2,3]`. -/
theorem quickSort_sorted_swaps_keep_data_witness :
    (sortingState [1, 1, 2, 3]).data.Sorted (· ≤ ·) ∧
      (sortingState [1, 1, 2, 3]).data.length ≤ 2147483647 ∧
      ∃ F, ∀ fuel, F ≤ fuel →
        ∃ s1, quickSortRunLive fuel (startRun (sortingState [1, 1, 2, 3]) [] (fun _ => 0)) =
            .ok s1 ∧ s1.v = sortingState [1, 1, 2, 3] ∧
          (∀ t ∈ s1.swaps, t = (sortingState [1, 1, 2, 3]).data) ∧
          ((sortingState [1, 1, 2, 3]).data.length ≤ 1 → s1.swaps = []) :=
  ⟨by simp [sortingState], by simp [sortingState],
    quickSort_sorted_swaps_keep_data (sortingState [1, 1, 2, 3]) (fun _ => 0) rfl rfl rfl
      (by simp [sortingState]) (by simp [sortingState])⟩

/-- C19: the constructor sets `speed` to 50, and after any sequence of calls of
`handleEvents`, whatever events they find, `speed` lies in `[10, 200]`.  In a state with
`speed` in that range the keys `Add` and `Equal` set it to `max(10, speed - 10)`, the
keys `Subtract` and `Dash` to `min(200, speed + 10)`, and every other event leaves it as
it is. -/
theorem speed_stays_in_range (draws : Nat → Nat) (polls : List (List Event)) :
    (∃ v0 d0, construct draws = .ok (v0, d0) ∧ v0.speed = 50 ∧
      ∃ v1 d1, handleAll polls v0 d0 = .ok (v1, d1) ∧ 10 ≤ v1.speed ∧ v1.speed ≤ 200) ∧
    (∀ (ev : Event) (v : Visualizer) (dr : Nat → Nat),
      10 ≤ v.speed → v.speed ≤ 200 → 0 < v.gridSize →
      ∃ v1 d1, handleEvent ev v dr = .ok (v1, d1) ∧
        v1.speed =
          (if ev = .KeyPressed .Add ∨ ev = .KeyPressed .Equal then max 10 (v.speed - 10)
           else if ev = .KeyPressed .Subtract ∨ ev = .KeyPressed .Dash then
             min 200 (v.speed + 10)
           else v.speed)) := by
  refine ⟨?_, fun ev v dr h1 h2 hg => ?_⟩
  · obtain ⟨v0, d0, hc, hsp, hgs, _⟩ := construct_ok draws
    obtain ⟨v1, d1, hr, h1, h2⟩ := handleAll_speed polls v0 d0 (by omega) (by omega) (by omega)
    exact ⟨v0, d0, hc, hsp, v1, d1, hr, h1, h2⟩
  · obtain ⟨v1, d1, he, _, hsp⟩ := handleEvent_speed ev v dr h1 h2 hg
    exact ⟨v1, d1, he, hsp⟩

/-- C20: in every state the key of SelectAlgorithm(`k`), `k` from 1 to 8, sets
`currentAlgorithm` to the `k`-th algorithm and `isPaused` to true.  For `k` from 1 to 5
it replaces `data` by `arraySize` fresh values and changes nothing else; for `k` from 6
to 8 (with a positive `gridSize`) it replaces the grid by a fresh grid with its Start and
End and changes nothing else.  In particular `speed` and `isRunning` keep their values. -/
theorem select_algorithm_effect (k : Nat) (v : Visualizer) (draws : Nat → Nat)
    (h1 : 1 ≤ k) (h8 : k ≤ 8) :
    (k ≤ 5 →
      handleEvent (.KeyPressed (selectKey k)) v draws =
        .ok ({ v with currentAlgorithm := kthAlgorithm k,
                      data := (List.range v.arraySize.toNat).map fun i =>
                        uniformInt 10 v.maxValue (draws i),
                      isPaused := true },
          fun i => draws (i + v.arraySize.toNat))) ∧
    (6 ≤ k → 0 < v.gridSize →
      ∃ g, handleEvent (.KeyPressed (selectKey k)) v draws =
        .ok ({ v with currentAlgorithm := kthAlgorithm k, grid := g, startPoint := (0, 0),
                      endPoint := (v.gridSize - 1, v.gridSize - 1), isPaused := true },
          fun i => draws (i + v.gridSize.toNat * v.gridSize.toNat)) ∧
        g (0, 0) = 0 ∧ g (v.gridSize - 1, v.gridSize - 1) = 0 ∧
        ∀ p, g p = 0 ∨ g p = 1) := by
  refine ⟨fun h5 => ?_, fun h6 hg => ?_⟩
  · exact handleEvent_select_sort k v draws h1 h5
  · exact handleEvent_select_search k v draws h6 h8 hg

/-- Witness for C20: SelectAlgorithm(4) in a sorting state with the array `[5,3,8]`. -/
theorem select_algorithm_effect_witness :
    handleEvent (.KeyPressed (selectKey 4)) (sortingState [5, 3, 8]) (fun i => i) =
      .ok ({ sortingState [5, 3, 8] with
              currentAlgorithm := kthAlgorithm 4,
              data := (List.range (sortingState [5, 3, 8]).arraySize.toNat).map fun i =>
                uniformInt 10 (sortingState [5, 3, 8]).maxValue ((fun i => i) i),
              isPaused := true },
        fun i => (fun i => i) (i + (sortingState [5, 3, 8]).arraySize.toNat)) :=
  (select_algorithm_effect 4 (sortingState [5, 3, 8]) (fun i => i) (by decide)
    (by decide)).1 (by decide)

/-- C21: for every `gridSize ≥ 1` and all draws, `initializeGrid` returns with
`gridSize` unchanged, Start `(0,0)`, End `(gridSize-1, gridSize-1)`, the cells of Start and
End Empty (0), and every cell Empty (0) or Obstacle (1), so none Visited or Path; the
same holds of the state after the Reset key. -/
theorem initializeGrid_empty_or_obstacle (v : Visualizer) (draws : Nat → Nat)
    (h : 1 ≤ v.gridSize) :
    (∃ v1 d1, initializeGrid v draws = .ok (v1, d1) ∧ v1.gridSize = v.gridSize ∧
      v1.startPoint = (0, 0) ∧ v1.endPoint = (v.gridSize - 1, v.gridSize - 1) ∧
      v1.grid v1.startPoint = 0 ∧ v1.grid v1.endPoint = 0 ∧
      (∀ p, v1.grid p = 0 ∨ v1.grid p = 1) ∧ WellFormed (gridWorld v1)) ∧
    (∃ v1 d1, handleEvent (.KeyPressed .R) v draws = .ok (v1, d1) ∧
      v1.gridSize = v.gridSize ∧
      v1.startPoint = (0, 0) ∧ v1.endPoint = (v.gridSize - 1, v.gridSize - 1) ∧
      v1.grid v1.startPoint = 0 ∧ v1.grid v1.endPoint = 0 ∧
      (∀ p, v1.grid p = 0 ∨ v1.grid p = 1) ∧ WellFormed (gridWorld v1)) := by
  refine ⟨?_, reset_fresh v draws h⟩
  obtain ⟨v1, d1, hi, g1, _, g2, g3, g4, g5, g6, _, g7⟩ := initializeGrid_fresh v draws h
  exact ⟨v1, d1, hi, g1, g2, g3, g4, g5, g6, g7⟩

/-- Witness for C21: a state with `gridSize = 3` in which every draw is 0, so that every
cell but Start and End becomes an Obstacle. -/
theorem initializeGrid_empty_or_obstacle_witness :
    (∃ v1 d1, initializeGrid (sortingState []) (fun _ => 0) = .ok (v1, d1) ∧
      v1.gridSize = (sortingState []).gridSize ∧
      v1.startPoint = (0, 0) ∧
      v1.endPoint = ((sortingState []).gridSize - 1, (sortingState []).gridSize - 1) ∧
      v1.grid v1.startPoint = 0 ∧ v1.grid v1.endPoint = 0 ∧
      (∀ p, v1.grid p = 0 ∨ v1.grid p = 1) ∧ WellFormed (gridWorld v1)) ∧
    (∃ v1 d1, handleEvent (.KeyPressed .R) (sortingState []) (fun _ => 0) = .ok (v1, d1) ∧
      v1.gridSize = (sortingState []).gridSize ∧
      v1.startPoint = (0, 0) ∧
      v1.endPoint = ((sortingState []).gridSize - 1, (sortingState []).gridSize - 1) ∧
      v1.grid v1.startPoint = 0 ∧ v1.grid v1.endPoint = 0 ∧
      (∀ p, v1.grid p = 0 ∨ v1.grid p = 1) ∧ WellFormed (gridWorld v1)) :=
  initializeGrid_empty_or_obstacle (sortingState []) (fun _ => 0) (by decide)

/-- C22: the draw of `initializeGrid` has the 101 values 0 to 100, and the obstacle test
`< 20` holds of 20 of them: the share is 20 of 101, not one fifth.  A cell of the grid
other than Start and End becomes an Obstacle exactly when the test holds of its draw. -/
theorem obstacle_share_not_one_fifth :
    drawValues = (List.range 101).map (fun k => (k : Int)) ∧
    (drawValues.filter obstacleTest).length = 20 ∧ drawValues.length = 101 ∧
    5 * (drawValues.filter obstacleTest).length ≠ drawValues.length ∧
    (∀ raw, 0 ≤ uniformInt 0 100 raw ∧ uniformInt 0 100 raw ≤ 100) ∧
    (∀ (v : Visualizer) (draws : Nat → Nat), 1 ≤ v.gridSize →
      ∃ v1 d1, initializeGrid v draws = .ok (v1, d1) ∧
        ∀ p, inBounds v.gridSize p = true → p ≠ (0, 0) →
          p ≠ (v.gridSize - 1, v.gridSize - 1) →
          (v1.grid p = 1 ↔
            obstacleTest (uniformInt 0 100
              (draws (p.1.toNat * v.gridSize.toNat + p.2.toNat))) = true)) := by
  refine ⟨by decide, by decide, by decide, by decide, fun raw => ?_, fun v draws h => ?_⟩
  · unfold uniformInt
    omega
  · obtain ⟨v1, d1, hi, _, _, _, _, _, _, _, g, _⟩ := initializeGrid_fresh v draws h
    exact ⟨v1, d1, hi, g⟩

/-- C23: under the weights that `dijkstra` computes (1 for an orthogonal move, 14 for a
diagonal move), on every grid on which End can be reached from Start by eight-neighbour
moves over cells that are not Obstacles (the grid small enough for the `int` distances),
`dijkstra` returns with `foundPath` true; its loop returns at the pop of End; the
reconstructed route is such a route from Start to End, no such route has a smaller total
weight, and `distance[End]` at the pop of End is the total weight of the route. -/
theorem dijkstra_route_minimum_weight (posLt : Pos → Pos → Bool) (w : World)
    (hsize : 14 * (w.gridSize * w.gridSize) ≤ 2147483647) (hreach : ∃ l, Path8 w l) :
    ∃ F, ∀ fuel, F ≤ fuel → ∃ (r : PathResult) (s1 : DState),
      dijkstraLoop posLt w.gridSize w.startPoint w.endPoint fuel
        { grid := w.grid, distance := upd (fun _ => (2147483647 : Int)) w.startPoint 0,
          parent := fun _ => (-1, -1), pq := [(0, w.startPoint)] } = .ok (true, s1) ∧
      dijkstra posLt fuel w = .ok r ∧ r.found = true ∧ Path8 w r.route ∧
      (∀ l, Path8 w l → routeCost edgeWeight r.route ≤ routeCost edgeWeight l) ∧
      s1.distance w.endPoint = routeCost edgeWeight r.route := by
  have hs : passable w w.startPoint := by
    obtain ⟨l, hh, _, _, hp⟩ := hreach
    cases l with
    | nil => simp at hh
    | cons a t =>
      simp only [List.head?_cons, Option.some.injEq] at hh
      subst hh
      exact hp _ (List.mem_cons_self _ _)
  obtain ⟨F, hF⟩ := dijkstra_distance posLt w hs (fits_of_gridSize w hsize)
  refine ⟨F, fun fuel hfuel => ?_⟩
  obtain ⟨r, s1, hloop, hrun, _, hiff, hopt⟩ := hF fuel hfuel
  have hf : r.found = true := hiff.mpr hreach
  obtain ⟨h1, h2, h3⟩ := hopt hf
  rw [hf] at hloop
  exact ⟨r, s1, hloop, hrun, hf, h1, h3, h2⟩

/-- Witness for C23: the obstacle-free 3x3 grid. -/
theorem dijkstra_route_minimum_weight_witness :
    ∃ F, ∀ fuel, F ≤ fuel → ∃ (r : PathResult) (s1 : DState),
      dijkstraLoop posLex open3.gridSize open3.startPoint open3.endPoint fuel
        { grid := open3.grid,
          distance := upd (fun _ => (2147483647 : Int)) open3.startPoint 0,
          parent := fun _ => (-1, -1), pq := [(0, open3.startPoint)] } = .ok (true, s1) ∧
      dijkstra posLex fuel open3 = .ok r ∧ r.found = true ∧ Path8 open3 r.route ∧
      (∀ l, Path8 open3 l → routeCost edgeWeight r.route ≤ routeCost edgeWeight l) ∧
      s1.distance open3.endPoint = routeCost edgeWeight r.route :=
  dijkstra_route_minimum_weight posLex open3 (by decide) ⟨_, open3_path8⟩

/-- C24: `dfs` is complete.  On every grid whose Start lies on the grid and is not an
Obstacle, an uninterrupted `dfs` returns, and `foundPath` is true exactly when End can be
reached from Start by orthogonal moves over cells that are not Obstacles; when it is
true, the reconstruction through the `parent` table, whatever pushes have overwritten
its entries, ends at Start with a route from Start to End that repeats no cell. -/
theorem dfs_found_iff_reachable (w : World) (hs : passable w w.startPoint) :
    ∃ F, ∀ fuel, F ≤ fuel → ∃ r, dfs fuel w = .ok r ∧
      (r.found = true ↔ ∃ l, OrthPath w l) ∧
      (r.found = true → OrthPath w r.route ∧ r.route.Nodup) := by
  obtain ⟨F, hF⟩ := dfs_complete w hs
  refine ⟨F, fun fuel hfuel => ?_⟩
  obtain ⟨r, hr, hgood, hiff⟩ := hF fuel hfuel
  refine ⟨r, hr, hiff, fun hf => ?_⟩
  obtain ⟨h1, h2, h3, h4, h5, _⟩ := hgood.2.1 hf
  exact ⟨⟨h1, h2, h3, h5⟩, h4⟩

/-- Witness for C24: the obstacle-free 3x3 grid, on which `dfs` finds a path. -/
theorem dfs_found_iff_reachable_witness :
    passable open3 open3.startPoint ∧
    (∃ F, ∀ fuel, F ≤ fuel → ∃ r, dfs fuel open3 = .ok r ∧
      (r.found = true ↔ ∃ l, OrthPath open3 l) ∧
      (r.found = true → OrthPath open3 r.route ∧ r.route.Nodup)) ∧
    (∃ l, OrthPath open3 l) ∧ (¬ ∃ l, OrthPath walled3 l) ∧
    marksOf 3 (dfs 100 walled3) = some (false, [[0, 2, 2], [1, 1, 1], [0, 0, 0]]) :=
  ⟨open3_wellFormed.start, dfs_found_iff_reachable open3 open3_wellFormed.start,
    ⟨_, open3_orthPath⟩, fun ⟨l, hl⟩ => walled3_no_path ⟨l, path8_of_orthPath hl⟩,
    by decide!⟩

/-- C25: `bubbleSort`, `selectionSort` and `quickSort(0, n - 1)` keep `data` a permutation
of the input under events.  The routine starts in any state `v` and finds the events
`polls` at its calls of `handleEvents`, none of them a Reset or a SelectAlgorithm.
Whenever it returns, early or not, `data` is a permutation of the input, and so was
`data` at every call of `handleEvents` (the log `seen`).  And it does return, with enough
fuel, when the events do not leave it paused for ever: `bubbleSort` on every array with at
least one element, `selectionSort` on every array, `quickSort` on every array of at most
`2^31 - 1` elements. -/
theorem swap_sorts_keep_permutation (v : Visualizer) (polls : List (List Event))
    (draws : Nat → Nat) (hq : NoRegen polls) :
    (∀ fuel s1, bubbleSortLive fuel (startRun v polls draws) = .ok s1 →
      s1.v.data.Perm v.data ∧ ∀ t ∈ s1.seen, t.Perm v.data) ∧
    (∀ fuel s1, selectionSortLive fuel (startRun v polls draws) = .ok s1 →
      s1.v.data.Perm v.data ∧ ∀ t ∈ s1.seen, t.Perm v.data) ∧
    (∀ fuel s1, quickSortRunLive fuel (startRun v polls draws) = .ok s1 →
      s1.v.data.Perm v.data ∧ ∀ t ∈ s1.seen, t.Perm v.data) ∧
    (Settles v polls draws →
      (0 < v.data.length → v.data.length < 18446744073709551616 →
        ∃ F, ∀ fuel, F ≤ fuel →
          ∃ s1, bubbleSortLive fuel (startRun v polls draws) = .ok s1) ∧
      (v.data.length < 18446744073709551616 →
        ∃ F, ∀ fuel, F ≤ fuel →
          ∃ s1, selectionSortLive fuel (startRun v polls draws) = .ok s1) ∧
      (v.data.length ≤ 2147483647 →
        ∃ F, ∀ fuel, F ≤ fuel →
          ∃ s1, quickSortRunLive fuel (startRun v polls draws) = .ok s1)) := by
  have h0 := keeps_start v polls draws hq
  refine ⟨fun fuel s1 h => ?_, fun fuel s1 h => ?_, fun fuel s1 h => ?_, fun hs =>
    ⟨fun hpos hn => ⟨v.data.length, fun fuel hf => ?_⟩,
      fun hn => ⟨18446744073709551616, fun fuel hf => ?_⟩,
      fun hn => ⟨v.data.length, fun fuel hf => ?_⟩⟩⟩
  · have k := bubbleSortLive_keeps v.data fuel _ s1 h0 h
    exact ⟨k.1.1, k.1.2.1⟩
  · have k := selectionSortLive_keeps v.data fuel _ s1 h0 h
    exact ⟨k.1.1, k.1.2.1⟩
  · have k := quickSortRunLive_keeps v.data fuel _ s1 h0 h
    exact ⟨k.1.1, k.1.2.1⟩
  · obtain ⟨s1, g, _⟩ := bubbleSortLive_returns v.data fuel _ h0 hs hpos hn hf
    exact ⟨s1, g⟩
  · obtain ⟨s1, g, _⟩ := selectionSortLive_returns v.data fuel _ h0 hs hn hf
    exact ⟨s1, g⟩
  · obtain ⟨s1, g, _⟩ := quickSortRunLive_returns v.data hn fuel hf _ h0 hs
    exact ⟨s1, g⟩

/-- Witness for C25: `quickSort` on `[3,1,2]` is paused at its first call of
`handleEvents` and the window is closed two calls later; the partition loop is left, the
pivot is still put in its place, and the routine returns with `[2,1,3]`. -/
theorem swap_sorts_keep_permutation_witness :
    NoRegen [[.KeyPressed .Space], [], [.Closed]] ∧
    Settles (sortingState [3, 1, 2]) [[.KeyPressed .Space], [], [.Closed]] (fun _ => 0) ∧
    (∃ F, ∀ fuel, F ≤ fuel → ∃ s1, quickSortRunLive fuel (startRun (sortingState [3, 1, 2])
      [[.KeyPressed .Space], [], [.Closed]] (fun _ => 0)) = .ok s1) ∧
    (∀ fuel s1, quickSortRunLive fuel (startRun (sortingState [3, 1, 2])
      [[.KeyPressed .Space], [], [.Closed]] (fun _ => 0)) = .ok s1 →
      s1.v.data.Perm (sortingState [3, 1, 2]).data ∧
        ∀ t ∈ s1.seen, t.Perm (sortingState [3, 1, 2]).data) ∧
    pollLog (quickSortRunLive 10 (startRun (sortingState [3, 1, 2])
      [[.KeyPressed .Space], [], [.Closed]] (fun _ => 0))) =
      some ([2, 1, 3], [[3, 1, 2], [3, 1, 2], [3, 1, 2]]) :=
  have hq : NoRegen [[.KeyPressed .Space], [], [.Closed]] := by
    intro p hp e he
    simp only [List.mem_cons, List.mem_singleton, List.mem_nil_iff, or_false] at hp
    rcases hp with h | h | h <;> subst h <;> simp at he <;> subst he <;> rfl
  have hs : Settles (sortingState [3, 1, 2]) [[.KeyPressed .Space], [], [.Closed]]
      (fun _ => 0) := ⟨_, _, rfl, rfl⟩
  ⟨hq, hs,
    ((swap_sorts_keep_permutation (sortingState [3, 1, 2]) _ (fun _ => 0) hq).2.2.2 hs).2.2
      (by decide),
    (swap_sorts_keep_permutation (sortingState [3, 1, 2]) _ (fun _ => 0) hq).2.2.1,
    by decide!⟩

end AlgorithmVisualizer
